import Mathlib

/-!
# CVRP local search (VROOM): gain caches, load cache, nearest ranks, job additions

Shallow embedding of `src/problems/cvrp/local_search/local_search.cpp`.

Modelling conventions.
* Ranks and indices (`index_t`) are `Nat`; costs and gains (`cost_t`, `gain_t`)
  are `Int`. `cost_t` is the unsigned 32-bit integer and `gain_t` the signed
  64-bit integer (their header is not part of the sources): a sum formed in
  `cost_t` or in `int` is reduced explicitly (`to_cost_t`, `to_int`); a sum or
  difference of at most three costs formed in `gain_t` cannot leave its range
  and is left as it is.
* Vectors indexed by a vehicle rank (`_sol`, `ls_operator::amounts`,
  `ls_operator::node_gains`, ...) are total maps from the rank; a vector
  indexed by a route rank is a `List`, written with `List.set` and read with
  `List.getD`.
* A failing `assert` makes a function return `none`.
* A `for (i = a; i < b; ++i)` loop is a left fold over `List.range' a (b - a)`.
-/

namespace Vroom


/-- Demand and capacity vectors, one integer per capacity dimension. -/
abbrev amount_t := List Int

/-- Vehicle: optional start and end (matrix indices) and a capacity. -/
structure vehicle_t where
  start : Option Nat
  end_ : Option Nat
  capacity : amount_t

def vehicle_t.has_start (v : vehicle_t) : Bool := v.start.isSome

def vehicle_t.has_end (v : vehicle_t) : Bool := v.end_.isSome

/-- Job: its matrix index and its demand. -/
structure job_t where
  index : Nat
  amount : amount_t

/-- The read-only problem data the engine consumes. `amount_lower_bound` is
`_input.get_amount_lower_bound()`; `cost_max` and `gain_max` stand for
`std::numeric_limits<cost_t>::max()` and
`std::numeric_limits<gain_t>::max()`. -/
structure input where
  jobs : Nat → job_t
  nb_jobs : Nat
  vehicles : Nat → vehicle_t
  nb_vehicles : Nat
  matrix : Nat → Nat → Int
  amount_size : Nat
  amount_lower_bound : amount_t
  vehicle_ok_with_job : Nat → Nat → Bool
  cost_max : Int
  gain_max : Int

/-- The mutable state: the solution `_sol`, the static caches of
`ls_operator`, the unassigned jobs and the nearest-rank tables. -/
structure ls_state where
  sol : Nat → List Nat
  amounts : Nat → List amount_t
  node_gains : Nat → List Int
  edge_costs_around_node : Nat → List Int
  node_candidates : Nat → Nat
  edge_gains : Nat → List Int
  edge_costs_around_edge : Nat → List Int
  edge_candidates : Nat → Nat
  unassigned : List Nat
  nearest_job_rank_in_routes_from : Nat → Nat → List Nat
  nearest_job_rank_in_routes_to : Nat → Nat → List Nat

/-- Writing `x` at position `v` of a vector indexed by vehicle rank. -/
def upd {α : Type} (f : Nat → α) (v : Nat) (x : α) : Nat → α :=
  fun w => if w = v then x else f w

/-- The matrix index of the job at rank `r` of a route:
`_input._jobs[route[r]].index()`. -/
def job_index (inp : input) (route : List Nat) (r : Nat) : Nat :=
  (inp.jobs (route.getD r 0)).index

/-- Conversion to `cost_t`: the value modulo `2^32`. The header that declares
`cost_t` is not part of the sources; it is the unsigned 32-bit integer, whose
largest value is the `cost_max` of the instances. The sum of two `cost_t`
operands is formed in `cost_t`. -/
def to_cost_t (x : Int) : Int := x % 4294967296

/-- Conversion to `int`, a signed integer of 32 bits: the value modulo `2^32`
taken between `-2^31` and `2^31 - 1`. Adding a `cost_t` to an `int` and storing
the sum in the `int` gives this value of the sum. -/
def to_int (x : Int) : Int := (x + 2147483648) % 4294967296 - 2147483648

/-- The three local costs of the gain computations: three `gain_t` variables,
each holding 0 or one matrix entry. -/
structure edge_costs where
  previous_cost : Int
  next_cost : Int
  new_edge_cost : Int

/-- The running values of the gain loops: the two vectors being filled, the
best gain so far and the candidate rank. -/
structure gains_acc where
  gains : List Int
  costs_around : List Int
  best_gain : Int
  candidate : Nat

/-! ## set_node_gains -/

/-- Costs around the first job of a route of `n ≥ 1` jobs (lines 26-61). -/
def node_first_costs (inp : input) (v : Nat) (route : List Nat) :
    Option edge_costs :=
  let m := inp.matrix
  let n := route.length
  let c_index := job_index inp route 0
  match (inp.vehicles v).start with
  | some p_index =>
    if n > 1 then
      let n_index := job_index inp route 1
      some ⟨m p_index c_index, m c_index n_index, m p_index n_index⟩
    else
      match (inp.vehicles v).end_ with
      | some e_index => some ⟨m p_index c_index, m c_index e_index, 0⟩
      | none => some ⟨m p_index c_index, 0, 0⟩
  | none =>
    if n > 1 then
      some ⟨0, m c_index (job_index inp route 1), 0⟩
    else
      match (inp.vehicles v).end_ with
      | some n_index => some ⟨0, m c_index n_index, 0⟩
      | none => none

/-- Body of the loop over the jobs that have a previous and a next job
(lines 77-93). Line 83 adds two matrix entries before the result is stored in
the `gain_t` variable: the sum is formed in `cost_t`. The subtraction of line
86 has a `gain_t` operand and is formed in `gain_t`. -/
def node_gains_step (inp : input) (route : List Nat) (acc : gains_acc)
    (i : Nat) : gains_acc :=
  let m := inp.matrix
  let p_index := job_index inp route (i - 1)
  let c_index := job_index inp route i
  let n_index := job_index inp route (i + 1)
  let edges_costs_around := to_cost_t (m p_index c_index + m c_index n_index)
  let current_gain := edges_costs_around - m p_index n_index
  { gains := acc.gains.set i current_gain
    costs_around := acc.costs_around.set i edges_costs_around
    best_gain := if current_gain > acc.best_gain then current_gain else acc.best_gain
    candidate := if current_gain > acc.best_gain then i else acc.candidate }

/-- Costs around the last job of a route (lines 95-123). -/
def node_last_costs (inp : input) (v : Nat) (route : List Nat) :
    Option edge_costs :=
  let m := inp.matrix
  let n := route.length
  let last_rank := n - 1
  let c_index := job_index inp route last_rank
  match (inp.vehicles v).end_ with
  | some n_index =>
    if n > 1 then
      let p_index := job_index inp route (last_rank - 1)
      some ⟨m p_index c_index, m c_index n_index, m p_index n_index⟩
    else
      some ⟨0, m c_index n_index, 0⟩
  | none =>
    if n > 1 then
      some ⟨m (job_index inp route (last_rank - 1)) c_index, 0, 0⟩
    else
      match (inp.vehicles v).start with
      | some p_index => some ⟨m p_index c_index, 0, 0⟩
      | none => none

/-- The values `set_node_gains` computes for one route: `none` when an
assertion fails, otherwise the two vectors, and the candidate rank when one is
written. -/
def node_gains_of_route (inp : input) (v : Nat) (route : List Nat) :
    Option (gains_acc × Bool) :=
  let n := route.length
  let init : gains_acc := ⟨List.replicate n 0, List.replicate n 0, 0, 0⟩
  if n = 0 then
    some (init, false)
  else
    match node_first_costs inp v route with
    | none => none
    | some fc =>
      let edges_costs_around := fc.previous_cost + fc.next_cost
      let current_gain := edges_costs_around - fc.new_edge_cost
      let acc0 : gains_acc :=
        { gains := init.gains.set 0 current_gain
          costs_around := init.costs_around.set 0 edges_costs_around
          best_gain := current_gain
          candidate := 0 }
      if n = 1 then
        some (acc0, true)
      else
        let acc1 := (List.range' 1 (n - 1 - 1)).foldl (node_gains_step inp route) acc0
        let last_rank := n - 1
        match node_last_costs inp v route with
        | none => none
        | some lc =>
          let edges_costs_around := lc.previous_cost + lc.next_cost
          let current_gain := edges_costs_around - lc.new_edge_cost
          some ({ gains := acc1.gains.set last_rank current_gain
                  costs_around := acc1.costs_around.set last_rank edges_costs_around
                  best_gain := acc1.best_gain
                  candidate :=
                    if current_gain > acc1.best_gain then last_rank else acc1.candidate },
                true)

/-- `cvrp_local_search::set_node_gains(v)`. -/
def set_node_gains (inp : input) (v : Nat) (st : ls_state) : Option ls_state :=
  match node_gains_of_route inp v (st.sol v) with
  | none => none
  | some (acc, wrote_candidate) =>
    some { st with
      node_gains := upd st.node_gains v acc.gains
      edge_costs_around_node := upd st.edge_costs_around_node v acc.costs_around
      node_candidates :=
        if wrote_candidate then upd st.node_candidates v acc.candidate
        else st.node_candidates }

/-! ## set_edge_gains -/

/-- Costs around the first edge of a route of `n ≥ 2` jobs (lines 146-182). -/
def edge_first_costs (inp : input) (v : Nat) (route : List Nat) :
    Option edge_costs :=
  let m := inp.matrix
  let n := route.length
  let c_index := job_index inp route 0
  let after_c_index := job_index inp route 1
  match (inp.vehicles v).start with
  | some p_index =>
    if n > 2 then
      let n_index := job_index inp route 2
      some ⟨m p_index c_index, m after_c_index n_index, m p_index n_index⟩
    else
      match (inp.vehicles v).end_ with
      | some e_index => some ⟨m p_index c_index, m after_c_index e_index, 0⟩
      | none => some ⟨m p_index c_index, 0, 0⟩
  | none =>
    if n > 2 then
      some ⟨0, m after_c_index (job_index inp route 2), 0⟩
    else
      match (inp.vehicles v).end_ with
      | some n_index => some ⟨0, m after_c_index n_index, 0⟩
      | none => none

/-- Body of the loop over the edges that have a previous and a next job
(lines 198-216). Line 206 adds two matrix entries before the result is stored
in the `gain_t` variable: the sum is formed in `cost_t`. The subtraction of
line 209 has a `gain_t` operand and is formed in `gain_t`. -/
def edge_gains_step (inp : input) (route : List Nat) (acc : gains_acc)
    (i : Nat) : gains_acc :=
  let m := inp.matrix
  let p_index := job_index inp route (i - 1)
  let c_index := job_index inp route i
  let after_c_index := job_index inp route (i + 1)
  let n_index := job_index inp route (i + 2)
  let edges_costs_around := to_cost_t (m p_index c_index + m after_c_index n_index)
  let current_gain := edges_costs_around - m p_index n_index
  { gains := acc.gains.set i current_gain
    costs_around := acc.costs_around.set i edges_costs_around
    best_gain := if current_gain > acc.best_gain then current_gain else acc.best_gain
    candidate := if current_gain > acc.best_gain then i else acc.candidate }

/-- Costs around the last edge of a route (lines 218-247). -/
def edge_last_costs (inp : input) (v : Nat) (route : List Nat)
    (nb_edges : Nat) : Option edge_costs :=
  let m := inp.matrix
  let n := route.length
  let last_edge_rank := nb_edges - 1
  let c_index := job_index inp route last_edge_rank
  let after_c_index := job_index inp route (last_edge_rank + 1)
  match (inp.vehicles v).end_ with
  | some n_index =>
    if n > 2 then
      let p_index := job_index inp route (last_edge_rank - 1)
      some ⟨m p_index c_index, m after_c_index n_index, m p_index n_index⟩
    else
      some ⟨0, m after_c_index n_index, 0⟩
  | none =>
    if n > 2 then
      some ⟨m (job_index inp route (last_edge_rank - 1)) c_index, 0, 0⟩
    else
      match (inp.vehicles v).start with
      | some p_index => some ⟨m p_index c_index, 0, 0⟩
      | none => none

/-- The values `set_edge_gains` computes for one route: `none` when an
assertion fails, otherwise the two vectors, and the candidate rank when one is
written. -/
def edge_gains_of_route (inp : input) (v : Nat) (route : List Nat) :
    Option (gains_acc × Bool) :=
  let n := route.length
  let nb_edges := if n < 2 then 0 else n - 1
  let init : gains_acc := ⟨List.replicate nb_edges 0, List.replicate nb_edges 0, 0, 0⟩
  if n < 2 then
    some (init, false)
  else
    match edge_first_costs inp v route with
    | none => none
    | some fc =>
      let edges_costs_around := fc.previous_cost + fc.next_cost
      let current_gain := edges_costs_around - fc.new_edge_cost
      let acc0 : gains_acc :=
        { gains := init.gains.set 0 current_gain
          costs_around := init.costs_around.set 0 edges_costs_around
          best_gain := current_gain
          candidate := 0 }
      if n = 2 then
        some (acc0, true)
      else
        let acc1 :=
          (List.range' 1 (nb_edges - 1 - 1)).foldl (edge_gains_step inp route) acc0
        let last_edge_rank := nb_edges - 1
        match edge_last_costs inp v route nb_edges with
        | none => none
        | some lc =>
          let edges_costs_around := lc.previous_cost + lc.next_cost
          let current_gain := edges_costs_around - lc.new_edge_cost
          some ({ gains := acc1.gains.set last_edge_rank current_gain
                  costs_around :=
                    acc1.costs_around.set last_edge_rank edges_costs_around
                  best_gain := acc1.best_gain
                  candidate :=
                    if current_gain > acc1.best_gain then last_edge_rank
                    else acc1.candidate },
                true)

/-- `cvrp_local_search::set_edge_gains(v)`. -/
def set_edge_gains (inp : input) (v : Nat) (st : ls_state) : Option ls_state :=
  match edge_gains_of_route inp v (st.sol v) with
  | none => none
  | some (acc, wrote_candidate) =>
    some { st with
      edge_gains := upd st.edge_gains v acc.gains
      edge_costs_around_edge := upd st.edge_costs_around_edge v acc.costs_around
      edge_candidates :=
        if wrote_candidate then upd st.edge_candidates v acc.candidate
        else st.edge_candidates }

/-! ## route_cost_for_vehicle -/

/-- The loop of `route_cost_for_vehicle` over the jobs after the first one:
the state is the running cost and the previous job. The running cost is the
`int` declared by `auto cost = 0` (line 1133): `cost += ...` stores the sum
back into this `int`. -/
def route_cost_step (inp : input) (acc : Int × Nat) (job : Nat) :
    Int × Nat :=
  (to_int (acc.1 + inp.matrix (inp.jobs acc.2).index (inp.jobs job).index), job)

/-- `cvrp_local_search::route_cost_for_vehicle(vehicle_rank, route)`. The cost
is accumulated in an `int` and converted to the return type `cost_t` by
`return cost`. -/
def route_cost_for_vehicle (inp : input) (vehicle_rank : Nat)
    (route : List Nat) : Int :=
  let v := inp.vehicles vehicle_rank
  match route with
  | [] => to_cost_t 0
  | front :: rest =>
    let cost0 : Int :=
      match v.start with
      | some s => to_int (0 + inp.matrix s (inp.jobs front).index)
      | none => 0
    let after_loop := rest.foldl (route_cost_step inp) (cost0, front)
    let back := rest.getLastD front
    match v.end_ with
    | some e => to_cost_t (to_int (after_loop.1 + inp.matrix (inp.jobs back).index e))
    | none => to_cost_t after_loop.1

/-! ## Amounts -/

/-- Modelled from the spec: the amount type's header is not part of the
sources; `amount_t(size)` is the zero vector with `size` components. -/
def amount_zero (size : Nat) : amount_t := List.replicate size 0

/-- Modelled from the spec: the amount type's header is not part of the
sources; `+` and `+=` add demand vectors component by component. -/
def amount_add (a b : amount_t) : amount_t := List.zipWith (fun x y => x + y) a b

/-- Modelled from the spec: the amount type's header is not part of the
sources; `<=` compares two vectors of the same arity component by
component. -/
def amount_le (a b : amount_t) : Bool :=
  decide (a.length = b.length) && (List.zipWith (fun x y => decide (x ≤ y)) a b).all id

/-- Body of the loop of `update_amounts`: the state is `current_amount` and
the vector being filled. -/
def update_amounts_step (inp : input) (route : List Nat)
    (acc : amount_t × List amount_t) (i : Nat) : amount_t × List amount_t :=
  let current_amount := amount_add acc.1 (inp.jobs (route.getD i 0)).amount
  (current_amount, acc.2.set i current_amount)

/-- `cvrp_local_search::update_amounts(v)`. -/
def update_amounts (inp : input) (v : Nat) (st : ls_state) : ls_state :=
  let route := st.sol v
  let init : List amount_t := List.replicate route.length []
  let res := (List.range' 0 route.length).foldl (update_amounts_step inp route)
    (amount_zero inp.amount_size, init)
  { st with amounts := upd st.amounts v res.2 }

/-- `cvrp_local_search::total_amount(v)`. -/
def total_amount (inp : input) (v : Nat) (st : ls_state) : amount_t :=
  match (st.amounts v).getLast? with
  | some back => back
  | none => amount_zero inp.amount_size

/-- Total demand of a route: the sum of the demands of its jobs. -/
def route_demand (inp : input) (route : List Nat) : amount_t :=
  (route.map (fun j => (inp.jobs j).amount)).foldl amount_add
    (amount_zero inp.amount_size)

/-! ## update_nearest_job_rank_in_routes -/

/-- The running values of the inner loop of
`update_nearest_job_rank_in_routes`. -/
structure nearest_acc where
  min_from : Int
  min_to : Int
  best_from_rank : Nat
  best_to_rank : Nat

/-- Body of the loop over the ranks `r2` of the second route (lines 301-311). -/
def nearest_inner_step (inp : input) (route2 : List Nat) (index_r1 : Nat)
    (acc : nearest_acc) (r2 : Nat) : nearest_acc :=
  let m := inp.matrix
  let index_r2 := job_index inp route2 r2
  let acc1 : nearest_acc :=
    if m index_r1 index_r2 < acc.min_from then
      { acc with min_from := m index_r1 index_r2, best_from_rank := r2 }
    else acc
  if m index_r2 index_r1 < acc1.min_to then
    { acc1 with min_to := m index_r2 index_r1, best_to_rank := r2 }
  else acc1

/-- Body of the loop over the ranks `r1` of the first route (lines 293-315):
the state is the pair of tables being filled. -/
def nearest_outer_step (inp : input) (route1 route2 : List Nat)
    (tabs : List Nat × List Nat) (r1 : Nat) : List Nat × List Nat :=
  let index_r1 := job_index inp route1 r1
  let acc := (List.range' 0 route2.length).foldl
    (nearest_inner_step inp route2 index_r1) ⟨inp.cost_max, inp.cost_max, 0, 0⟩
  (tabs.1.set r1 acc.best_from_rank, tabs.2.set r1 acc.best_to_rank)

/-- `cvrp_local_search::update_nearest_job_rank_in_routes(v1, v2)`. -/
def update_nearest_job_rank_in_routes (inp : input) (v1 v2 : Nat)
    (st : ls_state) : ls_state :=
  let route1 := st.sol v1
  let route2 := st.sol v2
  let tabs := (List.range' 0 route1.length).foldl
    (nearest_outer_step inp route1 route2)
    (List.replicate route1.length 0, List.replicate route1.length 0)
  { st with
    nearest_job_rank_in_routes_from :=
      upd st.nearest_job_rank_in_routes_from v1
        (upd (st.nearest_job_rank_in_routes_from v1) v2 tabs.1)
    nearest_job_rank_in_routes_to :=
      upd st.nearest_job_rank_in_routes_to v1
        (upd (st.nearest_job_rank_in_routes_to v1) v2 tabs.2) }

/-! ## try_job_additions -/

/-- The three local costs of an insertion. -/
structure insertion_costs where
  previous_cost : Int
  next_cost : Int
  old_edge_cost : Int

/-- The running best insertion of a round. The three ranks are uninitialised
in the source until the first assignment; they are read only when
`best_cost` has been lowered, and are 0 here until then. -/
structure best_insertion where
  best_cost : Int
  best_job : Nat
  best_route : Nat
  best_rank : Nat

/-- The value `current_cost` computed for adding job `j` at rank `r` of the
route of vehicle `v` (lines 429-470). -/
def insertion_cost (inp : input) (v : Nat) (route : List Nat) (j r : Nat) : Int :=
  let m := inp.matrix
  let v_target := inp.vehicles v
  let index_j := (inp.jobs j).index
  let costs : insertion_costs :=
    if r = route.length then
      if route.length = 0 then
        { previous_cost :=
            match v_target.start with
            | some s => m s index_j
            | none => 0
          next_cost :=
            match v_target.end_ with
            | some e => m index_j e
            | none => 0
          old_edge_cost := 0 }
      else
        let p_index := job_index inp route (r - 1)
        match v_target.end_ with
        | some n_index => ⟨m p_index index_j, m index_j n_index, m p_index n_index⟩
        | none => ⟨m p_index index_j, 0, 0⟩
    else
      let n_index := job_index inp route r
      if r = 0 then
        match v_target.start with
        | some p_index => ⟨m p_index index_j, m index_j n_index, m p_index n_index⟩
        | none => ⟨0, m index_j n_index, 0⟩
      else
        let p_index := job_index inp route (r - 1)
        ⟨m p_index index_j, m index_j n_index, m p_index n_index⟩
  costs.old_edge_cost - costs.previous_cost - costs.next_cost

/-- Body of the loop over the ranks `r` (lines 426-477). -/
def rank_step (inp : input) (st : ls_state) (v j : Nat) (best : best_insertion)
    (r : Nat) : best_insertion :=
  let current_cost := insertion_cost inp v (st.sol v) j r
  if current_cost < best.best_cost then ⟨current_cost, j, v, r⟩ else best

/-- Body of the loop over the unassigned jobs `j` (lines 419-479). -/
def job_step (inp : input) (st : ls_state) (v : Nat) (v_amount : amount_t)
    (best : best_insertion) (j : Nat) : best_insertion :=
  let current_amount := (inp.jobs j).amount
  if inp.vehicle_ok_with_job v j &&
      amount_le (amount_add v_amount current_amount) (inp.vehicles v).capacity then
    (List.range' 0 (st.sol v).length).foldl (rank_step inp st v j) best
  else best

/-- Body of the loop over the candidate routes `v` (lines 415-480). -/
def route_step (inp : input) (st : ls_state) (best : best_insertion) (v : Nat) :
    best_insertion :=
  let v_amount := total_amount inp v st
  st.unassigned.foldl (job_step inp st v v_amount) best

/-- The search of one round of `try_job_additions` (lines 410-480). -/
def find_best_insertion (inp : input) (routes : List Nat) (st : ls_state) :
    best_insertion :=
  routes.foldl (route_step inp st) ⟨inp.gain_max, 0, 0, 0⟩

/-- The insertion made when a job was found (lines 484-498). -/
def add_job (inp : input) (st : ls_state) (best : best_insertion) : ls_state :=
  let job_amount := (inp.jobs best.best_job).amount
  let inserted := (st.amounts best.best_route).insertIdx best.best_rank job_amount
  let best_amounts := inserted.take (best.best_rank + 1) ++
    (inserted.drop (best.best_rank + 1)).map (fun a => amount_add a job_amount)
  { st with
    sol := upd st.sol best.best_route
      ((st.sol best.best_route).insertIdx best.best_rank best.best_job)
    amounts := upd st.amounts best.best_route best_amounts
    unassigned := st.unassigned.erase best.best_job }

/-- `cvrp_local_search::try_job_additions(routes)`: the do-while loop, run for
at most `fuel` rounds; `none` when the rounds are used up before the loop
ends. The unassigned jobs are iterated in list order. -/
def try_job_additions (inp : input) (routes : List Nat) :
    Nat → ls_state → Option ls_state
  | 0, _ => none
  | fuel + 1, st =>
    let best := find_best_insertion inp routes st
    let job_added := decide (best.best_cost < inp.gain_max)
    if job_added then try_job_additions inp routes fuel (add_job inp st best)
    else some st

/-- The jobs of the routes of the vehicles `0 .. V - 1`, in order. -/
def all_route_jobs (sol : Nat → List Nat) : Nat → List Nat
  | 0 => []
  | V + 1 => all_route_jobs sol V ++ sol V

/-- A feasible insertion: job `j` is unassigned, vehicle `v` may serve it and
its load plus the job's demand fits its capacity. -/
def feasible_insertion (inp : input) (st : ls_state) (v j : Nat) : Prop :=
  j ∈ st.unassigned ∧ inp.vehicle_ok_with_job v j = true ∧
    amount_le (amount_add (total_amount inp v st) (inp.jobs j).amount)
      (inp.vehicles v).capacity = true

/-- What a lowered `best_cost` guarantees about the recorded insertion. -/
def recorded_ok (inp : input) (routes : List Nat) (st : ls_state)
    (best : best_insertion) : Prop :=
  best.best_cost < inp.gain_max →
    best.best_route ∈ routes ∧ feasible_insertion inp st best.best_route best.best_job ∧
      best.best_rank < (st.sol best.best_route).length

/-- Invariant of a scan for the first minimum of `c` over the ranks below `k`,
started from `cmax`. -/
def scan_inv (c : Nat → Int) (cmax : Int) (k : Nat) (mn : Int) (best : Nat) : Prop :=
  (∀ r : Nat, r < k → mn ≤ c r) ∧
    ((mn = cmax ∧ best = 0 ∧ ∀ r : Nat, r < k → c r = cmax) ∨
      (best < k ∧ mn = c best ∧ ∀ r : Nat, r < best → mn < c r))

/-- Rank `b` is the smallest rank minimising `c` among the first `n` ranks. -/
def is_first_argmin (c : Nat → Int) (n : Nat) (b : Nat) : Prop :=
  b < n ∧ (∀ r : Nat, r < n → c b ≤ c r) ∧ (∀ r : Nat, r < b → c b < c r)

/-! ## Operators, the TSP solver and the search driver -/

/-- The four operator classes. -/
inductive op_kind where
  | relocate
  | exchange
  | or_opt
  | cross_exchange
deriving DecidableEq

/-- An operator object: its class and the arguments of its constructor
(source vehicle, source rank, target vehicle, target rank). -/
structure ls_op where
  kind : op_kind
  s_vehicle : Nat
  s_rank : Nat
  t_vehicle : Nat
  t_rank : Nat
deriving DecidableEq

/-- The collaborators whose sources are not available, taken as parameters:
the order `<` of the amount type, the TSP solver (`tsp(...).solve(...)[0]`,
from the route and the number of threads), and the surface of the operator
classes (`is_valid`, `gain`, `apply`, `addition_candidates`). -/
structure externals where
  amount_lt : amount_t → amount_t → Bool
  tsp_solve : List Nat → Nat → List Nat
  op_is_valid : ls_op → ls_state → Bool
  op_gain : ls_op → ls_state → Int
  op_apply : ls_op → ls_state → ls_state
  op_addition_candidates : ls_op → List Nat

/-- `cvrp_local_search::run_tsp(route_rank, nb_threads)`. -/
def run_tsp (inp : input) (ext : externals) (route_rank nb_threads : Nat)
    (st : ls_state) : ls_state :=
  if (st.sol route_rank).length > 0 then
    let before_cost := route_cost_for_vehicle inp route_rank (st.sol route_rank)
    let new_route := ext.tsp_solve (st.sol route_rank) nb_threads
    let after_cost := route_cost_for_vehicle inp route_rank new_route
    if after_cost < before_cost then
      { st with sol := upd st.sol route_rank new_route }
    else st
  else st

/-- The initialisation of `_unassigned` in the constructor (lines 336-348).
The counter `x` of the lambda is a `static` local: it is taken as an argument
and its new value is returned with the unassigned jobs. The routes are those
of the `nb_vehicles` vehicles. -/
def init_unassigned (x : Nat) (inp : input) (sol : Nat → List Nat) :
    List Nat × Nat :=
  let generated := List.range' x inp.nb_jobs
  let unassigned := (List.range' 0 inp.nb_vehicles).foldl
    (fun u v => (sol v).foldl (fun u i => u.erase i) u) generated
  (unassigned, x + inp.nb_jobs)

/-- The sum of the route costs of the `nb_vehicles` vehicles. -/
def total_cost (inp : input) (sol : Nat → List Nat) : Int :=
  ((List.range inp.nb_vehicles).map
    (fun v => route_cost_for_vehicle inp v (sol v))).sum

/-- The three search policies: `run_with_fixed_source_and_target`,
`run_with_fixed_source` and `run_exhaustive_search`. The three functions have
the same text but for the ranks they try for a pair, the skip of half of the
pairs for the symmetric operators in the exhaustive search, and the update of
the nearest ranks in the first one. -/
inductive regime where
  | fixed_source_and_target
  | fixed_source
  | exhaustive
deriving DecidableEq

/-- The local tables `best_ops` and `best_gains` of a search function; a null
pointer of `best_ops` is `none`. -/
structure best_tables where
  best_ops : Nat → Nat → Option ls_op
  best_gains : Nat → Nat → Int

/-- The state of a search function: the engine state, the two tables and the
list `s_t_pairs`. -/
structure driver_state where
  st : ls_state
  tables : best_tables
  s_t_pairs : List (Nat × Nat)

/-- The test and the assignment made for every tentative operator `r`:
`if (r.is_valid() and r.gain() > best_gains[s][t]) { ... }`. -/
def record_candidate (ext : externals) (st : ls_state) (s t : Nat)
    (bt : best_tables) (r : ls_op) : best_tables :=
  if ext.op_is_valid r st && decide (ext.op_gain r st > bt.best_gains s t) then
    { best_gains := upd bt.best_gains s (upd (bt.best_gains s) t (ext.op_gain r st))
      best_ops := upd bt.best_ops s (upd (bt.best_ops s) t (some r)) }
  else bt

/-- Insertion into the set `t_ranks`, a `std::unordered_set<index_t>`. The
order in which the loop over the set visits its members is that of the hash
table of the standard library, which the source does not fix; the list keeps
the order of the first insertions. The order matters only when two target
ranks of a pair give the same gain, the operator recorded being the first one
visited: what is proved of the first search function rests on the members of
the set. -/
def insert_rank (t_ranks : List Nat) (r : Nat) : List Nat :=
  if r ∈ t_ranks then t_ranks else t_ranks ++ [r]

def nearest_from (st : ls_state) (s t r : Nat) : Nat :=
  (st.nearest_job_rank_in_routes_from s t).getD r 0

def nearest_to (st : ls_state) (s t r : Nat) : Nat :=
  (st.nearest_job_rank_in_routes_to s t).getD r 0

/-- Target ranks tried for Relocate with fixed source and target
(lines 541-553). -/
def relocate_t_ranks (st : ls_state) (s t : Nat) : List Nat :=
  let s_rank := st.node_candidates s
  let t_ranks := insert_rank [] (nearest_from st s t s_rank)
  let nearest_to_rank := nearest_to st s t s_rank
  insert_rank t_ranks (if (st.sol t).length = 0 then 0 else nearest_to_rank + 1)

/-- Target ranks tried for Exchange with fixed source and target
(lines 571-605). -/
def exchange_t_ranks (st : ls_state) (s t : Nat) : List Nat :=
  let s_rank := st.node_candidates s
  let t_ranks : List Nat := []
  let t_ranks :=
    if s_rank > 0 then insert_rank t_ranks (nearest_from st s t (s_rank - 1))
    else t_ranks
  let t_ranks :=
    if s_rank < (st.sol s).length - 1 then
      insert_rank t_ranks (nearest_to st s t (s_rank + 1))
    else t_ranks
  let nearest_from_rank := nearest_from st s t s_rank
  let t_ranks :=
    insert_rank t_ranks (if nearest_from_rank = 0 then 0 else nearest_from_rank - 1)
  let nearest_to_rank := nearest_to st s t s_rank
  insert_rank t_ranks
    (if nearest_to_rank = (st.sol t).length - 1 then nearest_to_rank
      else nearest_to_rank + 1)

/-- Target ranks tried for Or-opt with fixed source and target
(lines 628-640). -/
def or_opt_t_ranks (st : ls_state) (s t : Nat) : List Nat :=
  let s_rank := st.edge_candidates s
  let t_ranks := insert_rank [] (nearest_from st s t (s_rank + 1))
  let nearest_to_rank := nearest_to st s t s_rank
  insert_rank t_ranks (if (st.sol t).length = 0 then 0 else nearest_to_rank + 1)

/-- Target ranks tried for CROSS-exchange with fixed source and target
(lines 658-702). -/
def cross_exchange_t_ranks (st : ls_state) (s t : Nat) : List Nat :=
  let s_rank := st.edge_candidates s
  let t_ranks : List Nat := []
  let t_ranks :=
    if s_rank > 0 then
      let nearest_from_rank := nearest_from st s t (s_rank - 1)
      insert_rank t_ranks
        (if nearest_from_rank < (st.sol t).length - 1 then nearest_from_rank
          else (st.sol t).length - 2)
    else t_ranks
  let t_ranks :=
    if s_rank < (st.sol s).length - 2 then
      let nearest_to_rank := nearest_to st s t (s_rank + 2)
      insert_rank t_ranks (if nearest_to_rank = 0 then 0 else nearest_to_rank - 1)
    else t_ranks
  let nearest_from_rank := nearest_from st s t (s_rank + 1)
  let t_ranks :=
    insert_rank t_ranks (if nearest_from_rank ≥ 2 then nearest_from_rank - 2 else 0)
  let nearest_to_rank := nearest_to st s t s_rank
  insert_rank t_ranks
    (if nearest_to_rank < (st.sol t).length - 2 then nearest_to_rank + 1
      else (st.sol t).length - 2)

/-- The tentative Relocate operators built for the pair `(s, t)`, in the order
of their evaluation ("Relocate stuff"). -/
def relocate_candidates (r : regime) (ext : externals) (inp : input)
    (st : ls_state) (s t : Nat) : List ls_op :=
  if ext.amount_lt (inp.vehicles t).capacity
      (amount_add (total_amount inp t st) inp.amount_lower_bound) then []
  else if (st.sol s).length = 0 then []
  else
    match r with
    | regime.fixed_source_and_target =>
      (relocate_t_ranks st s t).map
        (fun t_rank => ⟨op_kind.relocate, s, st.node_candidates s, t, t_rank⟩)
    | regime.fixed_source =>
      (List.range' 0 ((st.sol t).length + 1)).map
        (fun t_rank => ⟨op_kind.relocate, s, st.node_candidates s, t, t_rank⟩)
    | regime.exhaustive =>
      (List.range' 0 (st.sol s).length).flatMap (fun s_rank =>
        (List.range' 0 ((st.sol t).length + 1)).map
          (fun t_rank => ⟨op_kind.relocate, s, s_rank, t, t_rank⟩))

/-- The tentative Exchange operators built for the pair `(s, t)`, in the order
of their evaluation ("Exchange stuff"). -/
def exchange_candidates (r : regime) (st : ls_state) (s t : Nat) : List ls_op :=
  match r with
  | regime.fixed_source_and_target =>
    if (st.sol s).length = 0 ∨ (st.sol t).length = 0 then []
    else
      (exchange_t_ranks st s t).map
        (fun t_rank => ⟨op_kind.exchange, s, st.node_candidates s, t, t_rank⟩)
  | regime.fixed_source =>
    if (st.sol s).length = 0 ∨ (st.sol t).length = 0 then []
    else
      (List.range' 0 (st.sol t).length).map
        (fun t_rank => ⟨op_kind.exchange, s, st.node_candidates s, t, t_rank⟩)
  | regime.exhaustive =>
    if t ≤ s then []
    else if (st.sol s).length = 0 ∨ (st.sol t).length = 0 then []
    else
      (List.range' 0 (st.sol s).length).flatMap (fun s_rank =>
        (List.range' 0 (st.sol t).length).map
          (fun t_rank => ⟨op_kind.exchange, s, s_rank, t, t_rank⟩))

/-- The tentative Or-opt operators built for the pair `(s, t)`, in the order
of their evaluation ("Or-opt stuff"). -/
def or_opt_candidates (r : regime) (ext : externals) (inp : input)
    (st : ls_state) (s t : Nat) : List ls_op :=
  if ext.amount_lt (inp.vehicles t).capacity
      (amount_add (total_amount inp t st)
        (amount_add inp.amount_lower_bound inp.amount_lower_bound)) then []
  else if (st.sol s).length < 2 then []
  else
    match r with
    | regime.fixed_source_and_target =>
      (or_opt_t_ranks st s t).map
        (fun t_rank => ⟨op_kind.or_opt, s, st.edge_candidates s, t, t_rank⟩)
    | regime.fixed_source =>
      (List.range' 0 ((st.sol t).length + 1)).map
        (fun t_rank => ⟨op_kind.or_opt, s, st.edge_candidates s, t, t_rank⟩)
    | regime.exhaustive =>
      (List.range' 0 ((st.sol s).length - 1)).flatMap (fun s_rank =>
        (List.range' 0 ((st.sol t).length + 1)).map
          (fun t_rank => ⟨op_kind.or_opt, s, s_rank, t, t_rank⟩))

/-- The tentative CROSS-exchange operators built for the pair `(s, t)`, in the
order of their evaluation ("CROSS-exchange stuff"). -/
def cross_exchange_candidates (r : regime) (st : ls_state) (s t : Nat) :
    List ls_op :=
  match r with
  | regime.fixed_source_and_target =>
    if (st.sol s).length < 2 ∨ (st.sol t).length < 2 then []
    else
      (cross_exchange_t_ranks st s t).map
        (fun t_rank => ⟨op_kind.cross_exchange, s, st.edge_candidates s, t, t_rank⟩)
  | regime.fixed_source =>
    if (st.sol s).length < 2 ∨ (st.sol t).length < 2 then []
    else
      (List.range' 0 ((st.sol t).length - 1)).map
        (fun t_rank => ⟨op_kind.cross_exchange, s, st.edge_candidates s, t, t_rank⟩)
  | regime.exhaustive =>
    if t ≤ s then []
    else if (st.sol s).length < 2 ∨ (st.sol t).length < 2 then []
    else
      (List.range' 0 ((st.sol s).length - 1)).flatMap (fun s_rank =>
        (List.range' 0 ((st.sol t).length - 1)).map
          (fun t_rank => ⟨op_kind.cross_exchange, s, s_rank, t, t_rank⟩))

/-- One of the four loops over `s_t_pairs`: every tentative operator of every
pair is tested and possibly recorded. -/
def evaluate_family (ext : externals) (st : ls_state)
    (cands : Nat → Nat → List ls_op) (pairs : List (Nat × Nat))
    (bt : best_tables) : best_tables :=
  pairs.foldl
    (fun bt s_t => (cands s_t.1 s_t.2).foldl (record_candidate ext st s_t.1 s_t.2) bt)
    bt

/-- The evaluation of a sweep: the four loops "Relocate stuff", "Exchange
stuff", "Or-opt stuff", "CROSS-exchange stuff", in this order. -/
def evaluation_phase (r : regime) (ext : externals) (inp : input)
    (st : ls_state) (pairs : List (Nat × Nat)) (bt : best_tables) : best_tables :=
  let bt := evaluate_family ext st (relocate_candidates r ext inp st) pairs bt
  let bt := evaluate_family ext st (exchange_candidates r st) pairs bt
  let bt := evaluate_family ext st (or_opt_candidates r ext inp st) pairs bt
  evaluate_family ext st (cross_exchange_candidates r st) pairs bt

/-- The running values of "Find best overall gain". -/
structure selection where
  best_gain : Int
  best_source : Nat
  best_target : Nat

/-- Body of the inner loop of "Find best overall gain". -/
def select_step (best_gains : Nat → Nat → Int) (s_v : Nat) (acc : selection)
    (t_v : Nat) : selection :=
  if s_v = t_v then acc
  else if best_gains s_v t_v > acc.best_gain then ⟨best_gains s_v t_v, s_v, t_v⟩
  else acc

/-- "Find best overall gain" (lines 713-729). -/
def find_best_gain (V : Nat) (best_gains : Nat → Nat → Int) : selection :=
  (List.range' 0 V).foldl
    (fun acc s_v => (List.range' 0 V).foldl (select_step best_gains s_v) acc)
    ⟨0, 0, 0⟩

/-- The move of a sweep (lines 737-742): `apply`, then `run_tsp` and
`update_amounts` on both routes. -/
def move_before_additions (ext : externals) (inp : input) (st : ls_state)
    (op : ls_op) (best_source best_target : Nat) : ls_state :=
  let st := ext.op_apply op st
  let st := run_tsp inp ext best_source 1 st
  let st := run_tsp inp ext best_target 1 st
  let st := update_amounts inp best_source st
  update_amounts inp best_target st

/-- The move and the additions of a sweep (lines 737-745): the move, then
`try_job_additions`, which is given one round more than there are unassigned
jobs. -/
def move_and_additions (ext : externals) (inp : input) (st : ls_state)
    (op : ls_op) (best_source best_target : Nat) : Option ls_state :=
  let st := move_before_additions ext inp st op best_source best_target
  try_job_additions inp (ext.op_addition_candidates op) (st.unassigned.length + 1) st

/-- "Update candidates" (lines 749-753). -/
def update_candidates (inp : input) (best_source best_target : Nat)
    (st : ls_state) : Option ls_state :=
  match set_node_gains inp best_source st with
  | none => none
  | some st =>
    match set_node_gains inp best_target st with
    | none => none
    | some st =>
      match set_edge_gains inp best_source st with
      | none => none
      | some st => set_edge_gains inp best_target st

/-- Body of the loop over the vehicles of the refresh (lines 766-783). -/
def refresh_step (r : regime) (inp : input) (best_source best_target : Nat)
    (ds : driver_state) (v : Nat) : driver_state :=
  if v = best_source ∨ v = best_target then ds
  else
    let pairs := ds.s_t_pairs ++ [(best_source, v), (v, best_source)]
    let g := upd ds.tables.best_gains v (upd (ds.tables.best_gains v) best_source 0)
    let g := upd g best_source (upd (g best_source) v 0)
    let st :=
      if r = regime.fixed_source_and_target then
        update_nearest_job_rank_in_routes inp v best_source
          (update_nearest_job_rank_in_routes inp best_source v ds.st)
      else ds.st
    let pairs := pairs ++ [(best_target, v), (v, best_target)]
    let g := upd g v (upd (g v) best_target 0)
    let g := upd g best_target (upd (g best_target) v 0)
    let st :=
      if r = regime.fixed_source_and_target then
        update_nearest_job_rank_in_routes inp v best_target
          (update_nearest_job_rank_in_routes inp best_target v st)
      else st
    { st := st, tables := { ds.tables with best_gains := g }, s_t_pairs := pairs }

/-- "Set gains to zero for what needs to be recomputed in the next round"
(lines 755-783). -/
def refresh (r : regime) (inp : input) (best_source best_target : Nat)
    (ds : driver_state) : driver_state :=
  let g := upd ds.tables.best_gains best_source (fun _ => 0)
  let g := upd g best_target (fun _ => 0)
  let pairs := [(best_source, best_target), (best_target, best_source)]
  let st :=
    if r = regime.fixed_source_and_target then
      update_nearest_job_rank_in_routes inp best_target best_source
        (update_nearest_job_rank_in_routes inp best_source best_target ds.st)
    else ds.st
  (List.range' 0 inp.nb_vehicles).foldl (refresh_step r inp best_source best_target)
    { st := st, tables := { ds.tables with best_gains := g }, s_t_pairs := pairs }

/-- The `while (best_gain > 0)` loop of a search function, run for at most
`fuel` sweeps; `none` when the sweeps are used up or an assertion fails. -/
def run_regime (r : regime) (ext : externals) (inp : input) :
    Nat → driver_state → Option driver_state
  | 0, _ => none
  | fuel + 1, ds =>
    let bt := evaluation_phase r ext inp ds.st ds.s_t_pairs ds.tables
    let sel := find_best_gain inp.nb_vehicles bt.best_gains
    if sel.best_gain > 0 then
      match bt.best_ops sel.best_source sel.best_target with
      | none => none
      | some op =>
        match move_and_additions ext inp ds.st op sel.best_source sel.best_target with
        | none => none
        | some st =>
          match update_candidates inp sel.best_source sel.best_target st with
          | none => none
          | some st =>
            run_regime r ext inp fuel
              (refresh r inp sel.best_source sel.best_target
                { st := st, tables := bt, s_t_pairs := ds.s_t_pairs })
    else some { ds with tables := bt }

/-- The list of all the ordered pairs of distinct vehicles (lines 511-520). -/
def all_pairs (V : Nat) : List (Nat × Nat) :=
  (List.range' 0 V).flatMap (fun s_v =>
    ((List.range' 0 V).filter (fun t_v => decide (s_v ≠ t_v))).map (fun t_v => (s_v, t_v)))

/-- The state a search function starts from: no operator recorded, all the
gains 0, all the pairs to test. -/
def start_of_regime (inp : input) (st : ls_state) : driver_state :=
  { st := st
    tables := { best_ops := fun _ _ => none, best_gains := fun _ _ => 0 }
    s_t_pairs := all_pairs inp.nb_vehicles }

/-- `cvrp_local_search::run`: the three search functions in turn, each allowed
`fuel` sweeps. -/
def run (ext : externals) (inp : input) (fuel : Nat) (st : ls_state) :
    Option ls_state :=
  match run_regime regime.fixed_source_and_target ext inp fuel (start_of_regime inp st) with
  | none => none
  | some ds =>
    match run_regime regime.fixed_source ext inp fuel (start_of_regime inp ds.st) with
    | none => none
    | some ds =>
      match run_regime regime.exhaustive ext inp fuel (start_of_regime inp ds.st) with
      | none => none
      | some ds => some ds.st

/-! ## The gain formulas in the words of the specification -/

/-- Cost of the edge from an optional predecessor `p` to `c`, omitted (zero)
when `p` is undefined. -/
def cost_from_opt (inp : input) (p : Option Nat) (c : Nat) : Int :=
  match p with
  | some p => inp.matrix p c
  | none => 0

/-- Cost of the edge from `c` to an optional successor `q`, omitted (zero)
when `q` is undefined. -/
def cost_to_opt (inp : input) (c : Nat) (q : Option Nat) : Int :=
  match q with
  | some q => inp.matrix c q
  | none => 0

/-- Bridge term: `M[p][q]` if both `p` and `q` are defined, else 0. -/
def bridge_cost (inp : input) (p q : Option Nat) : Int :=
  match p, q with
  | some p, some q => inp.matrix p q
  | _, _ => 0

/-- Predecessor of rank `i`: the job before it, else the start if present. -/
def pred_of (inp : input) (v : Nat) (route : List Nat) (i : Nat) :
    Option Nat :=
  if i > 0 then some (job_index inp route (i - 1)) else (inp.vehicles v).start

/-- Successor of the segment ending at rank `i`: the job after it, else the
end if present. -/
def succ_of (inp : input) (v : Nat) (route : List Nat) (i : Nat) :
    Option Nat :=
  if i + 1 < route.length then some (job_index inp route (i + 1))
  else (inp.vehicles v).end_

/-- Node gain at rank `i` as the specification words it:
`edges_around − bridge`. -/
def node_gain_spec (inp : input) (v : Nat) (route : List Nat) (i : Nat) :
    Int :=
  let c := job_index inp route i
  let p := pred_of inp v route i
  let q := succ_of inp v route i
  cost_from_opt inp p c + cost_to_opt inp c q - bridge_cost inp p q

/-- Node gain at rank `i` with the bridge left out on a route of one job. -/
def node_gain_amended (inp : input) (v : Nat) (route : List Nat) (i : Nat) :
    Int :=
  let c := job_index inp route i
  let p := pred_of inp v route i
  let q := succ_of inp v route i
  cost_from_opt inp p c + cost_to_opt inp c q -
    (if route.length = 1 then 0 else bridge_cost inp p q)

/-- Edge gain at edge rank `i` as the specification words it, for the segment
`c1 = R[i]`, `c2 = R[i+1]`. -/
def edge_gain_spec (inp : input) (v : Nat) (route : List Nat) (i : Nat) : Int :=
  let c1 := job_index inp route i
  let c2 := job_index inp route (i + 1)
  let p := pred_of inp v route i
  let q := succ_of inp v route (i + 1)
  cost_from_opt inp p c1 + cost_to_opt inp c2 q - bridge_cost inp p q

/-- Edge gain at edge rank `i` with the bridge left out on a route of two
jobs. -/
def edge_gain_amended (inp : input) (v : Nat) (route : List Nat) (i : Nat) : Int :=
  let c1 := job_index inp route i
  let c2 := job_index inp route (i + 1)
  let p := pred_of inp v route i
  let q := succ_of inp v route (i + 1)
  cost_from_opt inp p c1 + cost_to_opt inp c2 q -
    (if route.length = 2 then 0 else bridge_cost inp p q)

/-- The value `set_node_gains` leaves at rank `i`: the amended formula, the
two costs around a job that has a previous and a next job being added in
`cost_t`. -/
def node_gain_stored (inp : input) (v : Nat) (route : List Nat) (i : Nat) :
    Int :=
  if 1 ≤ i ∧ i + 1 < route.length then
    to_cost_t (inp.matrix (job_index inp route (i - 1)) (job_index inp route i) +
        inp.matrix (job_index inp route i) (job_index inp route (i + 1))) -
      inp.matrix (job_index inp route (i - 1)) (job_index inp route (i + 1))
  else node_gain_amended inp v route i

/-- The value `set_edge_gains` leaves at edge rank `i`: the amended formula,
the two costs around an edge that has a previous and a next job being added in
`cost_t`. -/
def edge_gain_stored (inp : input) (v : Nat) (route : List Nat) (i : Nat) :
    Int :=
  if 1 ≤ i ∧ i + 2 < route.length then
    to_cost_t (inp.matrix (job_index inp route (i - 1)) (job_index inp route i) +
        inp.matrix (job_index inp route (i + 1)) (job_index inp route (i + 2))) -
      inp.matrix (job_index inp route (i - 1)) (job_index inp route (i + 2))
  else edge_gain_amended inp v route i

/-- Cost of a route as the specification words it, an integer without bound:
0 for the empty route, otherwise the sum of `M` over the consecutive job
pairs, plus `M[start][first job]` if the vehicle has a start, plus
`M[last job][end]` if it has an end. -/
def route_cost_sum (inp : input) (v : Nat) (route : List Nat) : Int :=
  if route = [] then 0
  else
    (match (inp.vehicles v).start with
      | some s => inp.matrix s (job_index inp route 0)
      | none => 0) +
    ((List.range (route.length - 1)).map
      (fun i => inp.matrix (job_index inp route i) (job_index inp route (i + 1)))).sum +
    (match (inp.vehicles v).end_ with
      | some e => inp.matrix (job_index inp route (route.length - 1)) e
      | none => 0)

/-- Rank `c` is the smallest rank maximising `gains` among its first `n`
entries. -/
def is_first_argmax (gains : List Int) (n : Nat) (c : Nat) : Prop :=
  c < n ∧ (∀ i, i < n → gains.getD i 0 ≤ gains.getD c 0) ∧
    (∀ i, i < c → gains.getD i 0 < gains.getD c 0)

/-- Sum of the matrix costs over the consecutive pairs of a sequence of
matrix indices. -/
def path_cost (inp : input) : List Nat → Int
  | [] => 0
  | [_] => 0
  | a :: b :: rest => inp.matrix a b + path_cost inp (b :: rest)

/-! ## A concrete instance

Four matrix positions; position 0 and position 3 are depots. Jobs 0, 1, 2 sit
at matrix positions 1, 2, 3 and each demands one unit. Vehicle 0 goes from
position 0 to position 3, vehicle 1 starts at position 0 and has no end,
vehicle 2 has neither start nor end, every other vehicle is a closed tour on
position 0. -/

def ex_matrix (a b : Nat) : Int :=
  (([[0, 10, 1, 4], [10, 0, 5, 2], [1, 5, 0, 3], [4, 2, 3, 0]] :
    List (List Int)).getD a []).getD b 0

def ex_vehicle (v : Nat) : vehicle_t :=
  match v with
  | 0 => ⟨some 0, some 3, [2]⟩
  | 1 => ⟨some 0, none, [2]⟩
  | 2 => ⟨none, none, [2]⟩
  | _ => ⟨some 0, some 0, [2]⟩

def ex_input : input where
  jobs := fun j => ⟨j + 1, [1]⟩
  nb_jobs := 3
  vehicles := ex_vehicle
  nb_vehicles := 4
  matrix := ex_matrix
  amount_size := 1
  amount_lower_bound := [1]
  vehicle_ok_with_job := fun _ _ => true
  cost_max := 4294967295
  gain_max := 9223372036854775807

/-- A state whose routes are given by `sol` and whose unassigned jobs are
`unassigned`, every cache being empty. -/
def state_of (sol : Nat → List Nat) (unassigned : List Nat) : ls_state where
  sol := sol
  amounts := fun _ => []
  node_gains := fun _ => []
  edge_costs_around_node := fun _ => []
  node_candidates := fun _ => 0
  edge_gains := fun _ => []
  edge_costs_around_edge := fun _ => []
  edge_candidates := fun _ => 0
  unassigned := unassigned
  nearest_job_rank_in_routes_from := fun _ _ => []
  nearest_job_rank_in_routes_to := fun _ _ => []

/-- Every vehicle carries the single job 0. -/
def ex_state_single : ls_state := state_of (fun _ => [0]) [1, 2]

/-- Vehicle 0 carries job 0, every other route is empty, jobs 1 and 2 are
unassigned; the load cache is the one `update_amounts` computes. -/
def ex_state_add : ls_state :=
  { state_of (fun v => if v = 0 then [0] else []) [1, 2] with
    amounts := fun v => if v = 0 then [[1]] else [] }

/-- Every route is empty and job 0 is unassigned. -/
def ex_state_empty : ls_state := state_of (fun _ => []) [0]

/-- Every vehicle carries the jobs 0, 1 in this order. -/
def ex_state_two : ls_state := state_of (fun _ => [0, 1]) [2]

/-- Every vehicle carries the jobs 0, 1, 2 in this order. -/
def ex_state_three : ls_state := state_of (fun _ => [0, 1, 2]) []

/-- Vehicle 0 carries job 1, every other route is empty, jobs 0 and 2 are
unassigned; the load cache is the one `update_amounts` computes. -/
def ex_state_cheap : ls_state :=
  { state_of (fun v => if v = 0 then [1] else []) [0, 2] with
    amounts := fun v => if v = 0 then [[1]] else [] }

/-- The concrete instance with capacity 3 on every vehicle. -/
def ex_input_wide : input :=
  { ex_input with vehicles := fun v => { ex_vehicle v with capacity := [3] } }

/-- Vehicle 0 carries the jobs 0, 1, every other route is empty, job 2 is
unassigned; the load cache is the one `update_amounts` computes. -/
def ex_state_wide : ls_state :=
  { state_of (fun v => if v = 0 then [0, 1] else []) [2] with
    amounts := fun v => if v = 0 then [[1], [2]] else [] }

/-- An instance with large costs: every cost between two different matrix
positions is 3000000000, a value of `cost_t`. Jobs 0 to 3 sit at the matrix
positions 1 to 4; vehicle 0 is a closed tour on position 0, every other
vehicle has neither start nor end. -/
def ex_input_large : input where
  jobs := fun j => ⟨j + 1, [1]⟩
  nb_jobs := 4
  vehicles := fun v => if v = 0 then ⟨some 0, some 0, [4]⟩ else ⟨none, none, [4]⟩
  nb_vehicles := 2
  matrix := fun a b => if a = b then 0 else 3000000000
  amount_size := 1
  amount_lower_bound := [1]
  vehicle_ok_with_job := fun _ _ => true
  cost_max := 4294967295
  gain_max := 9223372036854775807

/-- Every vehicle carries the jobs 0, 1, 2, 3 in this order. -/
def ex_state_four : ls_state := state_of (fun _ => [0, 1, 2, 3]) []

/-- Invariant of "Find best overall gain" when the pairs before `(s, t)` in
the order of the two loops have been compared. -/
def selection_inv (V : Nat) (g : Nat → Nat → Int) (s t : Nat) (acc : selection) :
    Prop :=
  0 ≤ acc.best_gain ∧
  (∀ s2 t2 : Nat, t2 < V → s2 ≠ t2 → (s2 < s ∨ (s2 = s ∧ t2 < t)) →
    g s2 t2 ≤ acc.best_gain) ∧
  (acc.best_gain = 0 ∨
    (acc.best_source ≠ acc.best_target ∧ acc.best_target < V ∧
      (acc.best_source < s ∨ (acc.best_source = s ∧ acc.best_target < t)) ∧
      g acc.best_source acc.best_target = acc.best_gain ∧
      ∀ s2 t2 : Nat, t2 < V → s2 ≠ t2 →
        (s2 < acc.best_source ∨ (s2 = acc.best_source ∧ t2 < acc.best_target)) →
        g s2 t2 < acc.best_gain))

/-- The tests of tentative operators in the order they are made: the pair
`(s, t)` of the loop and the operator. -/
def record_trace (ext : externals) (st : ls_state) (bt : best_tables)
    (trace : List (Nat × Nat × ls_op)) : best_tables :=
  trace.foldl (fun bt e => record_candidate ext st e.1 e.2.1 bt e.2.2) bt

/-- The tests made by one of the four loops over `s_t_pairs`. -/
def family_trace (cands : Nat → Nat → List ls_op) (pairs : List (Nat × Nat)) :
    List (Nat × Nat × ls_op) :=
  pairs.flatMap (fun s_t => (cands s_t.1 s_t.2).map (fun op => (s_t.1, s_t.2, op)))

/-- The tests made by the evaluation of a sweep, in order. -/
def evaluated (r : regime) (ext : externals) (inp : input) (st : ls_state)
    (pairs : List (Nat × Nat)) : List (Nat × Nat × ls_op) :=
  family_trace (relocate_candidates r ext inp st) pairs ++
    family_trace (exchange_candidates r st) pairs ++
    family_trace (or_opt_candidates r ext inp st) pairs ++
    family_trace (cross_exchange_candidates r st) pairs

/-- The operators tested for the pair `(s, t)`, in order. -/
def candidates_of (trace : List (Nat × Nat × ls_op)) (s t : Nat) : List ls_op :=
  trace.filterMap (fun e => if e.1 = s ∧ e.2.1 = t then some e.2.2 else none)

/-! ## Operators in the words of the specification and further instances -/

/-- Modelled from the spec: the class `relocate` is not part of the sources.
A Relocate of the job at rank `s_rank` of the source route is valid iff the
job is eligible for the target vehicle and the load of the target plus the
demand of the job fits the capacity of the target. -/
def relocate_is_valid (inp : input) (st : ls_state) (op : ls_op) : Bool :=
  let j := (st.sol op.s_vehicle).getD op.s_rank 0
  inp.vehicle_ok_with_job op.t_vehicle j &&
    amount_le (amount_add (total_amount inp op.t_vehicle st) (inp.jobs j).amount)
      (inp.vehicles op.t_vehicle).capacity

/-- Modelled from the spec: the class `or_opt` is not part of the sources.
An Or-opt of the jobs at ranks `s_rank` and `s_rank + 1` of the source route is
valid iff both jobs are eligible for the target vehicle and the load of the
target plus their combined demand fits the capacity of the target. -/
def or_opt_is_valid (inp : input) (st : ls_state) (op : ls_op) : Bool :=
  let j1 := (st.sol op.s_vehicle).getD op.s_rank 0
  let j2 := (st.sol op.s_vehicle).getD (op.s_rank + 1) 0
  inp.vehicle_ok_with_job op.t_vehicle j1 && inp.vehicle_ok_with_job op.t_vehicle j2 &&
    amount_le
      (amount_add (total_amount inp op.t_vehicle st)
        (amount_add (inp.jobs j1).amount (inp.jobs j2).amount))
      (inp.vehicles op.t_vehicle).capacity

/-- Modelled from the spec: the class `relocate` is not part of the sources.
Applying a Relocate removes the job at rank `s_rank` of the source route and
inserts it at rank `t_rank` of the target route. -/
def relocate_apply (op : ls_op) (st : ls_state) : ls_state :=
  let j := (st.sol op.s_vehicle).getD op.s_rank 0
  let sol := upd st.sol op.s_vehicle ((st.sol op.s_vehicle).eraseIdx op.s_rank)
  { st with sol := upd sol op.t_vehicle ((sol op.t_vehicle).insertIdx op.t_rank j) }

/-- Modelled from the spec: the amount type's header is not part of the
sources; `<` is read as the lexicographic order on demand vectors (the integer
`<` when there is one capacity dimension). It is the order `<` of the concrete
collaborators. -/
def amount_lt_lex : amount_t → amount_t → Bool
  | [], _ => false
  | _ :: _, [] => false
  | x :: a, y :: b => decide (x < y) || (decide (x = y) && amount_lt_lex a b)

/-- Concrete collaborators: the solver returns the route it is given; only
Relocate and Or-opt operators are ever valid, with the validity of the
specification; the gain of a Relocate is the cost it saves on the two routes,
and applying it moves the job; the routes open to additions are the source and the
target. -/
def ex_ext (inp : input) : externals where
  amount_lt := amount_lt_lex
  tsp_solve := fun route _ => route
  op_is_valid := fun op st =>
    match op.kind with
    | op_kind.relocate => relocate_is_valid inp st op
    | op_kind.or_opt => or_opt_is_valid inp st op
    | _ => false
  op_gain := fun op st =>
    match op.kind with
    | op_kind.relocate =>
      route_cost_for_vehicle inp op.s_vehicle (st.sol op.s_vehicle) +
        route_cost_for_vehicle inp op.t_vehicle (st.sol op.t_vehicle) -
        (route_cost_for_vehicle inp op.s_vehicle ((relocate_apply op st).sol op.s_vehicle) +
          route_cost_for_vehicle inp op.t_vehicle ((relocate_apply op st).sol op.t_vehicle))
    | _ => 0
  op_apply := fun op st =>
    match op.kind with
    | op_kind.relocate => relocate_apply op st
    | _ => st
  op_addition_candidates := fun op => [op.s_vehicle, op.t_vehicle]

/-- The concrete instance restricted to its first two vehicles. -/
def ex_input_two : input := { ex_input with nb_vehicles := 2 }

/-- Vehicle 1 carries the jobs 0, 1, the route of vehicle 0 is empty, job 2
is unassigned; the load cache is the one `update_amounts` computes. -/
def ex_state_sweep : ls_state :=
  { state_of (fun v => if v = 1 then [0, 1] else []) [2] with
    amounts := fun v => if v = 1 then [[1], [2]] else [] }

/-- The two-vehicle instance where job 2 has a zero demand and the lower bound
of the demands is zero. -/
def ex_input_zero : input :=
  { ex_input_two with
    jobs := fun j => ⟨j + 1, if j = 2 then [0] else [1]⟩
    amount_lower_bound := [0] }

/-- Vehicle 0 carries the jobs 0, 1 and is full, vehicle 1 carries job 2,
whose demand is zero; the load cache is the one `update_amounts` computes. -/
def ex_state_full : ls_state :=
  { state_of (fun v => if v = 0 then [0, 1] else if v = 1 then [2] else []) [] with
    amounts := fun v => if v = 0 then [[1], [2]] else if v = 1 then [[0]] else [] }

/-! ## Consistent caches and the fixed point of the search -/

/-- The initialisation of the caches in the constructor: the loads of every
route (lines 330-334), the gains and the candidates of every route
(lines 388-391), the nearest ranks of every ordered pair of distinct vehicles
(lines 395-402). The loop over `_sol` is a loop over the `nb_vehicles`
vehicles. Every cache is created empty, with candidate ranks 0, before it is
filled. -/
def init_caches (inp : input) (sol : Nat → List Nat) (unassigned : List Nat) :
    Option ls_state :=
  let st := (List.range' 0 inp.nb_vehicles).foldl (fun st v => update_amounts inp v st)
    (state_of sol unassigned)
  let gains := (List.range' 0 inp.nb_vehicles).foldl
    (fun (acc : Option ls_state) v =>
      match acc with
      | none => none
      | some st =>
        match set_node_gains inp v st with
        | none => none
        | some st => set_edge_gains inp v st)
    (some st)
  match gains with
  | none => none
  | some st =>
    some ((List.range' 0 inp.nb_vehicles).foldl
      (fun st v1 =>
        (List.range' 0 inp.nb_vehicles).foldl
          (fun st v2 =>
            if v2 = v1 then st else update_nearest_job_rank_in_routes inp v1 v2 st)
          st)
      st)

/-- The operator `op` is one of the tentative operators that regime `r` builds
for the pair `(s, t)`. -/
def is_candidate (r : regime) (ext : externals) (inp : input) (st : ls_state)
    (s t : Nat) (op : ls_op) : Prop :=
  op ∈ relocate_candidates r ext inp st s t ∨ op ∈ exchange_candidates r st s t ∨
    op ∈ or_opt_candidates r ext inp st s t ∨ op ∈ cross_exchange_candidates r st s t

/-- Two states have the same routes and the same loads for the vehicles `s`
and `t`. -/
def same_routes (a b : ls_state) (s t : Nat) : Prop :=
  a.sol s = b.sol s ∧ a.sol t = b.sol t ∧
    a.amounts s = b.amounts s ∧ a.amounts t = b.amounts t

/-- The operators are pure functions of the two routes: validity and gain
depend only on the routes and the loads of the source and of the target;
Exchange and CROSS-exchange have the same validity and gain when source and
target are swapped; applying an operator leaves the routes and the loads of the
other vehicles as they are; the routes open to additions are among the source
and the target. -/
def pure_operators (ext : externals) : Prop :=
  (∀ (op : ls_op) (a b : ls_state), same_routes a b op.s_vehicle op.t_vehicle →
    ext.op_is_valid op a = ext.op_is_valid op b ∧ ext.op_gain op a = ext.op_gain op b) ∧
  (∀ (k : op_kind) (s s_rank t t_rank : Nat) (st : ls_state),
    k = op_kind.exchange ∨ k = op_kind.cross_exchange →
    ext.op_is_valid ⟨k, s, s_rank, t, t_rank⟩ st = ext.op_is_valid ⟨k, t, t_rank, s, s_rank⟩ st ∧
    ext.op_gain ⟨k, s, s_rank, t, t_rank⟩ st = ext.op_gain ⟨k, t, t_rank, s, s_rank⟩ st) ∧
  (∀ (op : ls_op) (st : ls_state) (v : Nat), v ≠ op.s_vehicle → v ≠ op.t_vehicle →
    (ext.op_apply op st).sol v = st.sol v ∧ (ext.op_apply op st).amounts v = st.amounts v) ∧
  (∀ (op : ls_op) (v : Nat), v ∈ ext.op_addition_candidates op →
    v = op.s_vehicle ∨ v = op.t_vehicle)

/-- The candidate ranks and the nearest ranks are consistent with the routes:
`node_candidates[s]` is a rank of a non-empty route, `edge_candidates[s]` is
the rank of an edge of a route of two jobs or more, and for `s ≠ t` the two
tables of nearest ranks have one entry per job of the route of `s`, every
entry being a rank of the route of `t` (0 when this route is empty). -/
def caches_consistent (inp : input) (st : ls_state) : Prop :=
  ∀ s : Nat, s < inp.nb_vehicles →
    (st.sol s ≠ [] → st.node_candidates s < (st.sol s).length) ∧
    (2 ≤ (st.sol s).length → st.edge_candidates s + 1 < (st.sol s).length) ∧
    ∀ t : Nat, t < inp.nb_vehicles → s ≠ t →
      (st.nearest_job_rank_in_routes_from s t).length = (st.sol s).length ∧
      (st.nearest_job_rank_in_routes_to s t).length = (st.sol s).length ∧
      (∀ x ∈ st.nearest_job_rank_in_routes_from s t, x ≤ (st.sol t).length - 1) ∧
      (∀ x ∈ st.nearest_job_rank_in_routes_to s t, x ≤ (st.sol t).length - 1)

/-- No valid operator of the exhaustive search has a positive gain. -/
def local_optimum (ext : externals) (inp : input) (st : ls_state) : Prop :=
  ∀ s t : Nat, s < inp.nb_vehicles → t < inp.nb_vehicles → s ≠ t →
    ∀ op : ls_op, is_candidate regime.exhaustive ext inp st s t op →
      ext.op_is_valid op st = true → ext.op_gain op st ≤ 0

/-- Invariant of the loop of the exhaustive search: a recorded operator has
the vehicles of its pair, and for a pair that is not to be tested again the
recorded gain bounds the gain of every valid operator of the pair. -/
def exhaustive_inv (ext : externals) (inp : input) (ds : driver_state) : Prop :=
  (∀ (s t : Nat) (op : ls_op), ds.tables.best_ops s t = some op →
    op.s_vehicle = s ∧ op.t_vehicle = t) ∧
  (∀ s t : Nat, s < inp.nb_vehicles → t < inp.nb_vehicles → s ≠ t →
    (s, t) ∈ ds.s_t_pairs ∨
    ∀ op : ls_op, is_candidate regime.exhaustive ext inp ds.st s t op →
      ext.op_is_valid op ds.st = true → ext.op_gain op ds.st ≤ ds.tables.best_gains s t)

/-! ## An instance with five jobs and two vehicles -/

/-- Five jobs of demand `[1]` at the locations 1 to 5, two vehicles of capacity
`[5]` that start and end at location 0, any vehicle may serve any job. -/
def ex_input_five : input where
  jobs := fun j => ⟨j + 1, [1]⟩
  nb_jobs := 5
  vehicles := fun _ => ⟨some 0, some 0, [5]⟩
  nb_vehicles := 2
  matrix := fun a b =>
    ([[0, 10, 6, 7, 3, 16], [6, 0, 4, 14, 7, 17], [15, 17, 0, 9, 11, 13],
      [7, 6, 5, 0, 15, 14], [16, 7, 3, 11, 0, 10], [8, 13, 1, 1, 6, 0]].getD a []).getD b 0
  amount_size := 1
  amount_lower_bound := [1]
  vehicle_ok_with_job := fun _ _ => true
  cost_max := 4294967295
  gain_max := 9223372036854775807

/-- Five jobs of demand `[1]`, two vehicles of capacity `[2]`, and a lower
bound of the demands of `[0]`. -/
def ex_input_tight : input :=
  { ex_input_five with
    vehicles := fun _ => ⟨some 0, some 0, [2]⟩
    amount_lower_bound := [0] }

/-- Vehicle 0 carries the jobs 0, 1 and is full, vehicle 1 carries the jobs
2, 3, job 4 is unassigned; the load cache is the one `update_amounts`
computes. -/
def ex_state_tight : ls_state :=
  { state_of (fun v => if v = 0 then [0, 1] else if v = 1 then [2, 3] else []) [4] with
    amounts := fun v => if v = 0 ∨ v = 1 then [[1], [2]] else [] }

/-- Vehicle 0 carries the jobs 0, 1, 2 and vehicle 1 the jobs 3, 4. -/
def ex_routes_five (v : Nat) : List Nat :=
  if v = 0 then [0, 1, 2] else if v = 1 then [3, 4] else []

/-- The state the constructor builds for `ex_routes_five`. -/
def ex_state_five : ls_state :=
  (init_caches ex_input_five ex_routes_five []).getD
    (state_of ex_routes_five [])

/-- Vehicle 0 carries job 0 and vehicle 1 the jobs 1, 2, 3, 4. -/
def ex_routes_lone (v : Nat) : List Nat :=
  if v = 0 then [0] else if v = 1 then [1, 2, 3, 4] else []

/-- The state the constructor builds for `ex_routes_lone`. -/
def ex_state_lone : ls_state :=
  (init_caches ex_input_five ex_routes_lone []).getD
    (state_of ex_routes_lone [])

/-! ## The four operators in the words of the specification -/

/-- Modelled from the spec: the operator classes are not part of the sources.
The ranks for which the specification defines an operator: the source rank is
a rank of the source route (the rank of an edge for the operators on
segments), and the target rank is a position `r_t ∈ [0, |R[t]|]` for Relocate
and Or-opt, a rank of the target route for Exchange, the rank of an edge of the
target route for CROSS-exchange. -/
def op_in_domain (st : ls_state) (op : ls_op) : Bool :=
  match op.kind with
  | op_kind.relocate =>
    decide (op.s_rank < (st.sol op.s_vehicle).length) &&
      decide (op.t_rank ≤ (st.sol op.t_vehicle).length)
  | op_kind.exchange =>
    decide (op.s_rank < (st.sol op.s_vehicle).length) &&
      decide (op.t_rank < (st.sol op.t_vehicle).length)
  | op_kind.or_opt =>
    decide (op.s_rank + 1 < (st.sol op.s_vehicle).length) &&
      decide (op.t_rank ≤ (st.sol op.t_vehicle).length)
  | op_kind.cross_exchange =>
    decide (op.s_rank + 1 < (st.sol op.s_vehicle).length) &&
      decide (op.t_rank + 1 < (st.sol op.t_vehicle).length)

/-- Modelled from the spec: the operator classes are not part of the sources.
The source route and the target route after the move: Relocate removes the job
at `s_rank` and inserts it at `t_rank`; Exchange swaps the jobs at `s_rank` and
`t_rank`; Or-opt moves the segment at `s_rank`, `s_rank + 1` to `t_rank`,
keeping its order; CROSS-exchange swaps the segments at `s_rank`, `s_rank + 1`
and `t_rank`, `t_rank + 1`, keeping their orders. -/
def moved_routes (st : ls_state) (op : ls_op) : List Nat × List Nat :=
  let source := st.sol op.s_vehicle
  let target := st.sol op.t_vehicle
  let s1 := source.getD op.s_rank 0
  let s2 := source.getD (op.s_rank + 1) 0
  let t1 := target.getD op.t_rank 0
  let t2 := target.getD (op.t_rank + 1) 0
  match op.kind with
  | op_kind.relocate => (source.eraseIdx op.s_rank, target.insertIdx op.t_rank s1)
  | op_kind.exchange => (source.set op.s_rank t1, target.set op.t_rank s1)
  | op_kind.or_opt =>
    ((source.eraseIdx op.s_rank).eraseIdx op.s_rank,
      (target.insertIdx op.t_rank s1).insertIdx (op.t_rank + 1) s2)
  | op_kind.cross_exchange =>
    ((source.set op.s_rank t1).set (op.s_rank + 1) t2,
      (target.set op.t_rank s1).set (op.t_rank + 1) s2)

/-- Modelled from the spec: the operator classes are not part of the sources.
`apply` replaces the two routes by the routes after the move. -/
def spec_apply (op : ls_op) (st : ls_state) : ls_state :=
  { st with
    sol := upd (upd st.sol op.s_vehicle (moved_routes st op).1) op.t_vehicle
      (moved_routes st op).2 }

/-- Modelled from the spec: the operator classes are not part of the sources.
Relocate and Or-opt are valid iff the moved jobs are eligible for the target
vehicle and the load of the target plus their demand fits its capacity;
Exchange is valid iff each job is eligible for the other vehicle and the load
of each route after the swap fits the capacity; the specification does not
word the validity of CROSS-exchange, which is taken as that of Exchange for
the two segments. -/
def spec_is_valid (inp : input) (op : ls_op) (st : ls_state) : Bool :=
  let source := st.sol op.s_vehicle
  let target := st.sol op.t_vehicle
  let s1 := source.getD op.s_rank 0
  let s2 := source.getD (op.s_rank + 1) 0
  let t1 := target.getD op.t_rank 0
  let t2 := target.getD (op.t_rank + 1) 0
  let fits :=
    amount_le (route_demand inp (moved_routes st op).1)
        (inp.vehicles op.s_vehicle).capacity &&
      amount_le (route_demand inp (moved_routes st op).2)
        (inp.vehicles op.t_vehicle).capacity
  match op.kind with
  | op_kind.relocate => relocate_is_valid inp st op
  | op_kind.or_opt => or_opt_is_valid inp st op
  | op_kind.exchange =>
    inp.vehicle_ok_with_job op.t_vehicle s1 && inp.vehicle_ok_with_job op.s_vehicle t1 &&
      fits
  | op_kind.cross_exchange =>
    inp.vehicle_ok_with_job op.t_vehicle s1 && inp.vehicle_ok_with_job op.t_vehicle s2 &&
      inp.vehicle_ok_with_job op.s_vehicle t1 && inp.vehicle_ok_with_job op.s_vehicle t2 &&
      fits

/-- Modelled from the spec: the operator classes are not part of the sources.
The gain of an operator is the cost it saves: the cost of the two routes
before the move minus their cost after it. -/
def spec_gain (inp : input) (op : ls_op) (st : ls_state) : Int :=
  route_cost_for_vehicle inp op.s_vehicle (st.sol op.s_vehicle) +
    route_cost_for_vehicle inp op.t_vehicle (st.sol op.t_vehicle) -
    (route_cost_for_vehicle inp op.s_vehicle (moved_routes st op).1 +
      route_cost_for_vehicle inp op.t_vehicle (moved_routes st op).2)

/-- The four operators of the specification as collaborators; the solver
returns the route it is given and the routes open to additions are the source
and the target. -/
def ex_ops (inp : input) : externals where
  amount_lt := amount_lt_lex
  tsp_solve := fun route _ => route
  op_is_valid := fun op st => spec_is_valid inp op st
  op_gain := fun op st => spec_gain inp op st
  op_apply := spec_apply
  op_addition_candidates := fun op => [op.s_vehicle, op.t_vehicle]

/-- Invariant of the loop of the refresh when the vehicles below `k` have been
visited: the pairs of the list, without repetition, and the gains set to 0. -/
def refresh_inv (bs bt k : Nat) (d : driver_state) : Prop :=
  (∀ a b : Nat, (a, b) ∈ d.s_t_pairs ↔
    ((a = bs ∧ b = bt) ∨ (a = bt ∧ b = bs) ∨
      (b < k ∧ b ≠ bs ∧ b ≠ bt ∧ (a = bs ∨ a = bt)) ∨
      (a < k ∧ a ≠ bs ∧ a ≠ bt ∧ (b = bs ∨ b = bt)))) ∧
  d.s_t_pairs.Nodup ∧
  (∀ a b : Nat, (a = bs ∨ a = bt ∨ (a < k ∧ (b = bs ∨ b = bt))) →
    d.tables.best_gains a b = 0)

/-! ## The lookups of the nearest ranks with fixed source and target -/

/-- The ranks at which the two tables of nearest ranks of the pair are read
for Relocate (lines 546 and 551). -/
def relocate_lookups (st : ls_state) (s : Nat) : List Nat :=
  [st.node_candidates s, st.node_candidates s]

/-- The ranks at which the two tables of nearest ranks of the pair are read
for Exchange (lines 578, 585, 594 and 601). -/
def exchange_lookups (st : ls_state) (s : Nat) : List Nat :=
  let s_rank := st.node_candidates s
  (if s_rank > 0 then [s_rank - 1] else []) ++
    (if s_rank < (st.sol s).length - 1 then [s_rank + 1] else []) ++ [s_rank, s_rank]

/-- The ranks at which the two tables of nearest ranks of the pair are read
for Or-opt (lines 633 and 638). -/
def or_opt_lookups (st : ls_state) (s : Nat) : List Nat :=
  [st.edge_candidates s + 1, st.edge_candidates s]

/-- The ranks at which the two tables of nearest ranks of the pair are read
for CROSS-exchange (lines 667, 679, 690 and 698). -/
def cross_exchange_lookups (st : ls_state) (s : Nat) : List Nat :=
  let s_rank := st.edge_candidates s
  (if s_rank > 0 then [s_rank - 1] else []) ++
    (if s_rank < (st.sol s).length - 2 then [s_rank + 2] else []) ++
    [s_rank + 1, s_rank]

/-- A rank is within the bounds of both tables of nearest ranks of `(s, t)`. -/
def lookup_in_bounds (st : ls_state) (s t k : Nat) : Prop :=
  k < (st.nearest_job_rank_in_routes_from s t).length ∧
    k < (st.nearest_job_rank_in_routes_to s t).length

/-! ## The sweeps of a search function, one at a time -/

/-- Every pair with a positive recorded gain has a recorded operator. -/
def ops_recorded (bt : best_tables) : Prop :=
  ∀ s t : Nat, bt.best_gains s t > 0 → ∃ op : ls_op, bt.best_ops s t = some op

/-- One sweep of a search function that applies a move: the evaluation, the
selection, the assertion on the selected operator, the move, and the refresh;
`none` when the loop ends (`best_gain ≤ 0`) or an assertion fails. -/
def next_sweep (r : regime) (ext : externals) (inp : input) (ds : driver_state) :
    Option driver_state :=
  let bt := evaluation_phase r ext inp ds.st ds.s_t_pairs ds.tables
  let sel := find_best_gain inp.nb_vehicles bt.best_gains
  if sel.best_gain > 0 then
    match bt.best_ops sel.best_source sel.best_target with
    | none => none
    | some op =>
      match move_and_additions ext inp ds.st op sel.best_source sel.best_target with
      | none => none
      | some st =>
        match update_candidates inp sel.best_source sel.best_target st with
        | none => none
        | some st =>
          some (refresh r inp sel.best_source sel.best_target
            { st := st, tables := bt, s_t_pairs := ds.s_t_pairs })
  else none

/-- The state at the start of the sweep that follows `n` sweeps with a move. -/
def sweeps (r : regime) (ext : externals) (inp : input) :
    Nat → driver_state → Option driver_state
  | 0, ds => some ds
  | n + 1, ds =>
    match next_sweep r ext inp ds with
    | none => none
    | some ds2 => sweeps r ext inp n ds2

/-- The state of the first search function after its first sweep on
`ex_state_lone`. -/
def ex_driver_lone : driver_state :=
  (sweeps regime.fixed_source_and_target (ex_ext ex_input_five) ex_input_five 1
    (start_of_regime ex_input_five ex_state_lone)).getD
    (start_of_regime ex_input_five ex_state_lone)

/-- Every tentative operator of the sweep is built within the ranks for which
it is defined. -/
def sweep_in_domain (r : regime) (ext : externals) (inp : input) (ds : driver_state) :
    Bool :=
  (evaluated r ext inp ds.st ds.s_t_pairs).all (fun e => op_in_domain ds.st e.2.2)

/-- The loop of a search function where building an operator outside of the
ranks for which it is defined is a failure, as a failing assertion is: the
iteration of `next_sweep` with this test before every sweep. -/
def run_regime_in_domain (r : regime) (ext : externals) (inp : input) :
    Nat → driver_state → Option driver_state
  | 0, _ => none
  | fuel + 1, ds =>
    if sweep_in_domain r ext inp ds then
      if (find_best_gain inp.nb_vehicles
          (evaluation_phase r ext inp ds.st ds.s_t_pairs ds.tables).best_gains).best_gain > 0
      then
        match next_sweep r ext inp ds with
        | none => none
        | some ds2 => run_regime_in_domain r ext inp fuel ds2
      else some { ds with tables := evaluation_phase r ext inp ds.st ds.s_t_pairs ds.tables }
    else none

/-- The three search functions in turn, as in `run`, where building an
operator outside of the ranks for which it is defined is a failure. -/
def run_in_domain (ext : externals) (inp : input) (fuel : Nat) (st : ls_state) :
    Option ls_state :=
  match run_regime_in_domain regime.fixed_source_and_target ext inp fuel
      (start_of_regime inp st) with
  | none => none
  | some ds =>
    match run_regime_in_domain regime.fixed_source ext inp fuel
        (start_of_regime inp ds.st) with
    | none => none
    | some ds =>
      match run_regime_in_domain regime.exhaustive ext inp fuel
          (start_of_regime inp ds.st) with
      | none => none
      | some ds => some ds.st

/-- The five-job instance with two vehicles of capacity `[4]`: any operator
that leaves at most four jobs on each route is valid. -/
def ex_input_split : input :=
  { ex_input_five with vehicles := fun _ => ⟨some 0, some 0, [4]⟩ }

/-- Vehicle 0 carries the jobs 3, 1, 4 and vehicle 1 the jobs 2, 0. -/
def ex_routes_split (v : Nat) : List Nat :=
  if v = 0 then [3, 1, 4] else if v = 1 then [2, 0] else []

/-- The state the constructor builds for `ex_routes_split`. -/
def ex_state_split : ls_state :=
  (init_caches ex_input_split ex_routes_split []).getD (state_of ex_routes_split [])

/-- The state `run` leaves when started on `ex_state_split`. -/
def ex_state_split_ran : ls_state :=
  (run (ex_ops ex_input_split) ex_input_split 2 ex_state_split).getD ex_state_split

/-- Vehicle 0 carries the jobs 3, 1, 2, 4 and vehicle 1 the job 0. -/
def ex_routes_near (v : Nat) : List Nat :=
  if v = 0 then [3, 1, 2, 4] else if v = 1 then [0] else []

/-- The state the constructor builds for `ex_routes_near`. -/
def ex_state_near : ls_state :=
  (init_caches ex_input_split ex_routes_near []).getD (state_of ex_routes_near [])

/-- The state `run` leaves when started on `ex_state_near`. -/
def ex_state_near_ran : ls_state :=
  (run (ex_ops ex_input_split) ex_input_split 3 ex_state_near).getD ex_state_near

/-! ## The ranks of the route read by the gain computations -/

/-- The ranks at which `set_node_gains` reads a route of `n` jobs: rank 0, rank
1 when `n > 1`, the ranks `i - 1`, `i`, `i + 1` for every rank `i` of the loop,
and, when there is more than one job, the last rank and the rank before it
(lines 28-117). -/
def node_gains_reads (n : Nat) : List Nat :=
  if n = 0 then []
  else
    [0] ++ (if n > 1 then [1] else []) ++
      (if n = 1 then []
      else
        (List.range' 1 (n - 1 - 1)).flatMap (fun i => [i - 1, i, i + 1]) ++
          [n - 1, n - 1 - 1])

/-- The ranks at which `set_edge_gains` reads a route of `n` jobs: ranks 0 and
1, rank 2 when `n > 2`, the ranks `i - 1`, `i`, `i + 1`, `i + 2` for every
edge rank `i` of the loop, and, when there are more than two jobs, the two
ranks of the last edge and the rank before them (lines 148-241). -/
def edge_gains_reads (n : Nat) : List Nat :=
  if n < 2 then []
  else
    [0, 1] ++ (if n > 2 then [2] else []) ++
      (if n = 2 then []
      else
        (List.range' 1 (n - 1 - 1 - 1)).flatMap (fun i => [i - 1, i, i + 1, i + 2]) ++
          [n - 1 - 1, n - 1 - 1 + 1, n - 1 - 1 - 1])

/-! # Theorems -/

/-- Invariant rule for a counting loop. -/
theorem foldl_range'_inv {β : Type} (P : Nat → β → Prop) (f : β → Nat → β) :
    ∀ (len s : Nat) (b : β), P s b →
      (∀ k b, s ≤ k → k < s + len → P k b → P (k + 1) (f b k)) →
      P (s + len) ((List.range' s len).foldl f b) := by
  intro len
  induction len with
  | zero => intro s b h0 _; simpa using h0
  | succ len ih =>
    intro s b h0 hstep
    rw [List.range'_succ, List.foldl_cons]
    have h1 : P (s + 1) (f b s) := hstep s b (le_refl _) (by omega) h0
    have := ih (s + 1) (f b s) h1 (fun k b hk hk2 hP => hstep k b (by omega) (by omega) hP)
    have e : s + 1 + len = s + (len + 1) := by omega
    rw [e] at this
    exact this

theorem getD_set_eq {α : Type} (l : List α) (i : Nat) (x d : α) (h : i < l.length) :
    (l.set i x).getD i d = x := by
  simp [List.getD_eq_getElem?_getD, List.getElem?_set, h]

theorem getD_set_ne {α : Type} (l : List α) (i j : Nat) (x d : α) (h : i ≠ j) :
    (l.set i x).getD j d = l.getD j d := by
  simp [List.getD_eq_getElem?_getD, List.getElem?_set, h]

/-! ## Machine arithmetic -/

theorem to_cost_t_to_int (x : Int) : to_cost_t (to_int x) = to_cost_t x := by
  unfold to_cost_t to_int; omega

theorem to_cost_t_add_congr (a b m : Int) (h : to_cost_t a = to_cost_t b) :
    to_cost_t (a + m) = to_cost_t (b + m) := by
  unfold to_cost_t at h ⊢; omega

theorem to_cost_t_of_fits (x : Int) (h0 : 0 ≤ x) (h1 : x ≤ 4294967295) :
    to_cost_t x = x := by
  unfold to_cost_t; omega

/-! ## Gain loops -/

/-- Invariant of a gain loop: any loop body that writes `G k` at rank `k` and
keeps the first best rank leaves, after the ranks below `1 + len`, the
formula in the vector and the first argmax in the candidate. -/
theorem gains_loop_inv (G : Nat → Int) (step : gains_acc → Nat → gains_acc)
    (len N : Nat) (acc0 : gains_acc)
    (hstep : ∀ (acc : gains_acc) (k : Nat), 1 ≤ k → k < 1 + len →
      (step acc k).gains = acc.gains.set k (G k) ∧
      (step acc k).best_gain = (if G k > acc.best_gain then G k else acc.best_gain) ∧
      (step acc k).candidate = (if G k > acc.best_gain then k else acc.candidate))
    (hN : 1 + len ≤ N) (hlen : acc0.gains.length = N)
    (hg0 : acc0.gains.getD 0 0 = G 0) (hb0 : acc0.best_gain = G 0)
    (hc0 : acc0.candidate = 0) :
    ((List.range' 1 len).foldl step acc0).gains.length = N ∧
    (∀ i : Nat, i < 1 + len → ((List.range' 1 len).foldl step acc0).gains.getD i 0 = G i) ∧
    ((List.range' 1 len).foldl step acc0).best_gain =
      G ((List.range' 1 len).foldl step acc0).candidate ∧
    ((List.range' 1 len).foldl step acc0).candidate < 1 + len ∧
    (∀ i : Nat, i < 1 + len → G i ≤ ((List.range' 1 len).foldl step acc0).best_gain) ∧
    (∀ i : Nat, i < ((List.range' 1 len).foldl step acc0).candidate →
      G i < ((List.range' 1 len).foldl step acc0).best_gain) := by
  refine foldl_range'_inv
    (fun (k : Nat) (acc : gains_acc) =>
      acc.gains.length = N ∧
      (∀ i : Nat, i < k → acc.gains.getD i 0 = G i) ∧
      acc.best_gain = G acc.candidate ∧
      acc.candidate < k ∧
      (∀ i : Nat, i < k → G i ≤ acc.best_gain) ∧
      (∀ i : Nat, i < acc.candidate → G i < acc.best_gain))
    step len 1 acc0 ?_ ?_
  · refine ⟨hlen, ?_, ?_, ?_, ?_, ?_⟩
    · intro i hi
      have : i = 0 := by omega
      subst this; exact hg0
    · rw [hc0]; exact hb0
    · rw [hc0]; omega
    · intro i hi
      have : i = 0 := by omega
      subst this; rw [hb0]
    · intro i hi; rw [hc0] at hi; omega
  · intro k acc hk1 hk2 hP
    obtain ⟨hl, hg, hb, hc, hmax, hfirst⟩ := hP
    obtain ⟨sg, sb, sc⟩ := hstep acc k hk1 hk2
    rw [sg, sb, sc]
    refine ⟨by simp [hl], ?_, ?_, ?_, ?_, ?_⟩
    · intro i hi
      by_cases hik : i = k
      · subst hik
        exact getD_set_eq _ _ _ _ (by omega)
      · rw [getD_set_ne _ _ _ _ _ (Ne.symm hik)]
        exact hg i (by omega)
    · by_cases hgt : G k > acc.best_gain
      · simp only [hgt, if_true]
      · simp only [hgt, if_false]; exact hb
    · by_cases hgt : G k > acc.best_gain
      · simp only [hgt, if_true]; omega
      · simp only [hgt, if_false]; omega
    · intro i hi
      by_cases hgt : G k > acc.best_gain
      · simp only [hgt, if_true]
        by_cases hik : i = k
        · subst hik; exact le_refl _
        · have := hmax i (by omega); omega
      · simp only [hgt, if_false]
        by_cases hik : i = k
        · subst hik; omega
        · exact hmax i (by omega)
    · intro i hi
      by_cases hgt : G k > acc.best_gain
      · simp only [hgt, if_true] at hi ⊢
        have := hmax i hi; omega
      · simp only [hgt, if_false] at hi ⊢
        exact hfirst i hi

/-- The comparison made for the last rank `L` completes the first argmax. -/
theorem last_step_argmax (G : Nat → Int) (acc1 : gains_acc) (L N : Nat)
    (hL : L < N) (hl : acc1.gains.length = N)
    (hg : ∀ i : Nat, i < L → acc1.gains.getD i 0 = G i)
    (hb : acc1.best_gain = G acc1.candidate) (hc : acc1.candidate < L)
    (hmax : ∀ i : Nat, i < L → G i ≤ acc1.best_gain)
    (hfirst : ∀ i : Nat, i < acc1.candidate → G i < acc1.best_gain) :
    (acc1.gains.set L (G L)).length = N ∧
    (∀ i : Nat, i < L + 1 → (acc1.gains.set L (G L)).getD i 0 = G i) ∧
    is_first_argmax (acc1.gains.set L (G L)) (L + 1)
      (if G L > acc1.best_gain then L else acc1.candidate) := by
  have hgl : (acc1.gains.set L (G L)).getD L 0 = G L :=
    getD_set_eq _ _ _ _ (by omega)
  have hgo : ∀ i : Nat, i < L → (acc1.gains.set L (G L)).getD i 0 = G i := by
    intro i hi
    rw [getD_set_ne _ _ _ _ _ (by omega)]
    exact hg i hi
  have hall : ∀ i : Nat, i < L + 1 → (acc1.gains.set L (G L)).getD i 0 = G i := by
    intro i hi
    by_cases hil : i = L
    · subst hil; exact hgl
    · exact hgo i (by omega)
  refine ⟨by simp [hl], hall, ?_⟩
  by_cases hgt : G L > acc1.best_gain
  · simp only [hgt, if_true]
    refine ⟨by omega, ?_, ?_⟩
    · intro i hi
      rw [hgl, hall i hi]
      by_cases hil : i = L
      · subst hil; exact le_refl _
      · have := hmax i (by omega); omega
    · intro i hi
      rw [hgl, hgo i hi]
      have := hmax i hi; omega
  · simp only [hgt, if_false]
    refine ⟨by omega, ?_, ?_⟩
    · intro i hi
      rw [hgo _ hc, ← hb, hall i hi]
      by_cases hil : i = L
      · subst hil; omega
      · exact hmax i (by omega)
    · intro i hi
      rw [hgo _ hc, ← hb, hgo i (by omega)]
      exact hfirst i hi

/-! ## Node gains: what the code stores -/

theorem node_first_costs_long (inp : input) (v : Nat) (route : List Nat)
    (h : 1 < route.length) :
    ∃ fc, node_first_costs inp v route = some fc ∧
      fc.previous_cost + fc.next_cost - fc.new_edge_cost =
        node_gain_amended inp v route 0 := by
  have h1 : route.length ≠ 1 := by omega
  unfold node_first_costs node_gain_amended pred_of succ_of
  cases hs : (inp.vehicles v).start <;>
    simp [h, h1, cost_from_opt, cost_to_opt, bridge_cost]

theorem node_last_costs_long (inp : input) (v : Nat) (route : List Nat)
    (h : 1 < route.length) :
    ∃ lc, node_last_costs inp v route = some lc ∧
      lc.previous_cost + lc.next_cost - lc.new_edge_cost =
        node_gain_amended inp v route (route.length - 1) := by
  have h1 : route.length ≠ 1 := by omega
  have h2 : ¬ (route.length - 1 + 1 < route.length) := by omega
  have h3 : route.length - 1 > 0 := by omega
  unfold node_last_costs node_gain_amended pred_of succ_of
  cases he : (inp.vehicles v).end_ <;>
    simp [h, h1, h2, h3, cost_from_opt, cost_to_opt, bridge_cost]

theorem node_step_gain (inp : input) (v : Nat) (route : List Nat) (i : Nat)
    (h0 : 1 ≤ i) (h1 : i + 1 < route.length) :
    to_cost_t (inp.matrix (job_index inp route (i - 1)) (job_index inp route i) +
        inp.matrix (job_index inp route i) (job_index inp route (i + 1))) -
        inp.matrix (job_index inp route (i - 1)) (job_index inp route (i + 1)) =
      node_gain_stored inp v route i := by
  simp [node_gain_stored, h0, h1]

theorem node_gain_stored_ends (inp : input) (v : Nat) (route : List Nat) (i : Nat)
    (h : i = 0 ∨ route.length ≤ i + 1) :
    node_gain_stored inp v route i = node_gain_amended inp v route i := by
  have : ¬ (1 ≤ i ∧ i + 1 < route.length) := by omega
  simp only [node_gain_stored, this, if_false]

/-- Where `edges_around` is a `cost_t` value at a rank with a previous and a
next job, the stored gain is the amended formula. -/
theorem node_gain_stored_eq (inp : input) (v : Nat) (route : List Nat) (i : Nat)
    (hfit : 1 ≤ i → i + 1 < route.length →
      0 ≤ cost_from_opt inp (pred_of inp v route i) (job_index inp route i) +
        cost_to_opt inp (job_index inp route i) (succ_of inp v route i) ∧
      cost_from_opt inp (pred_of inp v route i) (job_index inp route i) +
        cost_to_opt inp (job_index inp route i) (succ_of inp v route i) ≤ 4294967295) :
    node_gain_stored inp v route i = node_gain_amended inp v route i := by
  by_cases h : 1 ≤ i ∧ i + 1 < route.length
  · obtain ⟨h0, h1⟩ := h
    have hf := hfit h0 h1
    have h2 : route.length ≠ 1 := by omega
    have h3 : i > 0 := by omega
    simp only [pred_of, succ_of, h3, h1, if_true, cost_from_opt, cost_to_opt] at hf
    simp only [node_gain_stored, h0, h1, and_self, if_true,
      to_cost_t_of_fits _ hf.1 hf.2]
    simp [node_gain_amended, pred_of, succ_of, h1, h2, h3, cost_from_opt, cost_to_opt,
      bridge_cost]
  · exact node_gain_stored_ends inp v route i (by omega)

theorem node_gains_single (inp : input) (v : Nat) (j : Nat)
    (hdep : (inp.vehicles v).start.isSome ∨ (inp.vehicles v).end_.isSome) :
    ∃ acc, node_gains_of_route inp v [j] = some (acc, true) ∧
      acc.gains = [node_gain_amended inp v [j] 0] ∧ acc.candidate = 0 := by
  unfold node_gains_of_route node_first_costs node_gain_amended pred_of succ_of
  cases hs : (inp.vehicles v).start <;> cases he : (inp.vehicles v).end_ <;>
    simp [hs, he, cost_from_opt, cost_to_opt, bridge_cost] at hdep ⊢

/-- What `set_node_gains` computes on a non-empty route, provided the vehicle
has a start or an end when the route has a single job: the gain vector holds
`node_gain_stored` at every rank and the candidate is its first argmax. -/
theorem node_gains_of_route_char (inp : input) (v : Nat) (route : List Nat)
    (hn : route ≠ [])
    (hdep : 1 < route.length ∨ (inp.vehicles v).start.isSome ∨
      (inp.vehicles v).end_.isSome) :
    ∃ acc, node_gains_of_route inp v route = some (acc, true) ∧
      acc.gains.length = route.length ∧
      (∀ i : Nat, i < route.length →
        acc.gains.getD i 0 = node_gain_stored inp v route i) ∧
      is_first_argmax acc.gains route.length acc.candidate := by
  have hpos : 0 < route.length := List.length_pos.mpr hn
  by_cases h1 : route.length = 1
  · obtain ⟨j, rfl⟩ := List.length_eq_one.mp h1
    have hd : (inp.vehicles v).start.isSome ∨ (inp.vehicles v).end_.isSome := by
      rcases hdep with h | h
      · simp at h
      · exact h
    obtain ⟨acc, hacc, hg, hc⟩ := node_gains_single inp v j hd
    refine ⟨acc, hacc, by simp [hg], ?_, ?_⟩
    · intro i hi
      have : i = 0 := by simpa using hi
      subst this
      rw [node_gain_stored_ends inp v [j] 0 (Or.inl rfl)]
      simp [hg]
    · refine ⟨by simp [hc], ?_, ?_⟩
      · intro i hi
        have : i = 0 := by simpa using hi
        subst this; simp [hc]
      · intro i hi; rw [hc] at hi; omega
  · have hlong : 1 < route.length := by omega
    obtain ⟨fc, hfc, hfg⟩ := node_first_costs_long inp v route hlong
    obtain ⟨lc, hlc, hlg⟩ := node_last_costs_long inp v route hlong
    rw [← node_gain_stored_ends inp v route 0 (Or.inl rfl)] at hfg
    rw [← node_gain_stored_ends inp v route (route.length - 1) (Or.inr (by omega))] at hlg
    have h0 : route.length ≠ 0 := by omega
    have hinv := gains_loop_inv (node_gain_stored inp v route)
      (node_gains_step inp route) (route.length - 1 - 1) route.length
      { gains := (List.replicate route.length (0 : Int)).set 0
          (fc.previous_cost + fc.next_cost - fc.new_edge_cost)
        costs_around := (List.replicate route.length (0 : Int)).set 0
          (fc.previous_cost + fc.next_cost)
        best_gain := fc.previous_cost + fc.next_cost - fc.new_edge_cost
        candidate := 0 }
      (by
        intro acc k hk1 hk2
        have hs := node_step_gain inp v route k hk1 (by omega)
        simp only [node_gains_step]
        rw [hs]
        exact ⟨rfl, rfl, rfl⟩)
      (by omega) (by simp)
      (by rw [← hfg]; exact getD_set_eq _ _ _ _ (by simpa using hpos))
      hfg rfl
    have e : 1 + (route.length - 1 - 1) = route.length - 1 := by omega
    rw [e] at hinv
    obtain ⟨hl, hg, hb, hc, hmax, hfirst⟩ := hinv
    have hlast := last_step_argmax (node_gain_stored inp v route) _
      (route.length - 1) route.length (by omega) hl hg hb hc hmax hfirst
    have e2 : route.length - 1 + 1 = route.length := by omega
    rw [e2] at hlast
    simp only [node_gains_of_route, h0, h1, hfc, hlc, if_false, hlg]
    exact ⟨_, rfl, hlast⟩

/-! ## Route cost as a path cost -/

theorem path_cost_cons (inp : input) (a : Nat) (l : List Nat) :
    path_cost inp (a :: l) = cost_to_opt inp a l.head? + path_cost inp l := by
  cases l with
  | nil => simp [path_cost, cost_to_opt]
  | cons b rest => simp [path_cost, cost_to_opt]

/-- Removing one node from a path: the two edges around it go, the bridge
between its neighbours comes. -/
theorem path_cost_remove (inp : input) (c : Nat) (B : List Nat) :
    ∀ A : List Nat, path_cost inp (A ++ c :: B) =
      path_cost inp (A ++ B) + cost_from_opt inp A.getLast? c +
        cost_to_opt inp c B.head? - bridge_cost inp A.getLast? B.head? := by
  intro A
  induction A with
  | nil =>
    simp only [List.nil_append, List.getLast?_nil]
    rw [path_cost_cons]
    cases B <;> simp [cost_from_opt, bridge_cost] <;> ring
  | cons a A ih =>
    cases A with
    | nil =>
      simp only [List.cons_append, List.nil_append, List.getLast?_singleton]
      rw [path_cost_cons, path_cost_cons, path_cost_cons inp a B]
      cases B <;> simp [cost_from_opt, cost_to_opt, bridge_cost] <;> ring
    | cons a2 A =>
      have e : (a :: a2 :: A).getLast? = (a2 :: A).getLast? := by
        simp [List.getLast?_cons_cons]
      rw [e]
      simp only [List.cons_append] at ih ⊢
      simp only [path_cost]
      rw [ih]; ring

theorem path_cost_nonneg (inp : input) (hM : ∀ a b : Nat, 0 ≤ inp.matrix a b) :
    ∀ l : List Nat, 0 ≤ path_cost inp l := by
  intro l
  induction l with
  | nil => simp [path_cost]
  | cons a l ih =>
    rw [path_cost_cons]
    have : 0 ≤ cost_to_opt inp a l.head? := by
      cases l.head? <;> simp [cost_to_opt, hM]
    omega

/-- The cost of a path cut in two: the two parts and the edge between them. -/
theorem path_cost_append (inp : input) (B : List Nat) :
    ∀ A : List Nat, path_cost inp (A ++ B) =
      path_cost inp A + bridge_cost inp A.getLast? B.head? + path_cost inp B := by
  intro A
  induction A with
  | nil => cases B <;> simp [path_cost, bridge_cost]
  | cons a A ih =>
    cases A with
    | nil =>
      simp only [List.cons_append, List.nil_append, List.getLast?_singleton]
      rw [path_cost_cons]
      cases B <;> simp [path_cost, cost_to_opt, bridge_cost]
    | cons a2 A =>
      have e : (a :: a2 :: A).getLast? = (a2 :: A).getLast? := by
        simp [List.getLast?_cons_cons]
      rw [e]
      simp only [List.cons_append] at ih ⊢
      simp only [path_cost]
      rw [ih]; ring

/-- The loop of `route_cost_for_vehicle` ends on the last job with a running
cost congruent modulo `2^32` to the initial cost plus the cost of the path of
the jobs. -/
theorem route_cost_loop (inp : input) (rest : List Nat) :
    ∀ (c0 : Int) (front : Nat),
      (rest.foldl (route_cost_step inp) (c0, front)).2 = rest.getLastD front ∧
      to_cost_t (rest.foldl (route_cost_step inp) (c0, front)).1 =
        to_cost_t (c0 + path_cost inp ((front :: rest).map (fun j => (inp.jobs j).index))) := by
  induction rest with
  | nil => intro c0 front; simp [path_cost]
  | cons a rest ih =>
    intro c0 front
    rw [List.foldl_cons, route_cost_step]
    obtain ⟨h2, h1⟩ := ih
      (to_int (c0 + inp.matrix (inp.jobs front).index (inp.jobs a).index)) a
    refine ⟨?_, ?_⟩
    · rw [h2, List.getLastD_cons]
    · rw [h1]
      simp only [List.map_cons, path_cost]
      have := to_cost_t_add_congr _ _
        (path_cost inp ((inp.jobs a).index :: rest.map (fun j => (inp.jobs j).index)))
        (to_cost_t_to_int (c0 + inp.matrix (inp.jobs front).index (inp.jobs a).index))
      rw [this]
      congr 1; ring

theorem path_cost_append_singleton (inp : input) (e : Nat) :
    ∀ l : List Nat, path_cost inp (l ++ [e]) =
      path_cost inp l + cost_from_opt inp l.getLast? e := by
  intro l
  have := path_cost_remove inp e [] l
  simpa [cost_to_opt, bridge_cost] using
    (show path_cost inp (l ++ [e]) = path_cost inp (l ++ []) +
      cost_from_opt inp l.getLast? e + cost_to_opt inp e ([] : List Nat).head? -
      bridge_cost inp l.getLast? ([] : List Nat).head? from this)

theorem map_index_getLast? (inp : input) (front : Nat) (rest : List Nat) :
    ((front :: rest).map (fun j => (inp.jobs j).index)).getLast? =
      some (inp.jobs (rest.getLastD front)).index := by
  rw [List.getLast?_map]
  cases rest <;> simp [List.getLast?_cons_cons, List.getLast?_eq_getLast]

/-- The path start, jobs, end of a non-empty route: its cost is the start leg,
the cost of the path of the jobs and the end leg. -/
theorem path_cost_legs (inp : input) (v : Nat) (front : Nat) (rest : List Nat) :
    path_cost inp ((inp.vehicles v).start.toList ++
        (front :: rest).map (fun j => (inp.jobs j).index) ++
        (inp.vehicles v).end_.toList) =
      cost_from_opt inp (inp.vehicles v).start (inp.jobs front).index +
        path_cost inp ((front :: rest).map (fun j => (inp.jobs j).index)) +
        cost_to_opt inp (inp.jobs (rest.getLastD front)).index (inp.vehicles v).end_ := by
  have hlast := map_index_getLast? inp front rest
  cases hs : (inp.vehicles v).start <;> cases he : (inp.vehicles v).end_
  · simp [cost_from_opt, cost_to_opt]
  · simp only [Option.toList, List.nil_append]
    rw [path_cost_append_singleton, hlast]
    simp [cost_from_opt, cost_to_opt]
  · simp only [Option.toList, List.append_nil, List.singleton_append]
    rw [path_cost_cons inp _ (List.map _ _)]
    simp [cost_from_opt, cost_to_opt]
  · rename_i s e
    simp only [Option.toList, List.singleton_append]
    have hl2 : (s :: (front :: rest).map (fun j => (inp.jobs j).index)).getLast? =
        some (inp.jobs (rest.getLastD front)).index := by
      rw [List.map_cons, List.getLast?_cons_cons]; exact hlast
    rw [path_cost_append_singleton, hl2, path_cost_cons inp _ (List.map _ _)]
    simp [cost_from_opt, cost_to_opt]

/-- The value returned for a non-empty route is the cost of the path start,
jobs, end reduced modulo `2^32`. -/
theorem route_cost_eq_path (inp : input) (v : Nat) (route : List Nat)
    (hn : route ≠ []) :
    route_cost_for_vehicle inp v route =
      to_cost_t (path_cost inp ((inp.vehicles v).start.toList ++
        route.map (fun j => (inp.jobs j).index) ++ (inp.vehicles v).end_.toList)) := by
  cases route with
  | nil => exact absurd rfl hn
  | cons front rest =>
    rw [path_cost_legs]
    cases hs : (inp.vehicles v).start <;> cases he : (inp.vehicles v).end_
    · obtain ⟨_, h1⟩ := route_cost_loop inp rest 0 front
      simp only [route_cost_for_vehicle, hs, he, cost_from_opt, cost_to_opt, h1]
      congr 1; ring
    · rename_i e
      obtain ⟨h2, h1⟩ := route_cost_loop inp rest 0 front
      simp only [route_cost_for_vehicle, hs, he, cost_from_opt, cost_to_opt,
        to_cost_t_to_int]
      have := to_cost_t_add_congr _ _
        (inp.matrix (inp.jobs (rest.getLastD front)).index e) h1
      rw [this]
    · rename_i s
      obtain ⟨_, h1⟩ := route_cost_loop inp rest
        (to_int (0 + inp.matrix s (inp.jobs front).index)) front
      simp only [route_cost_for_vehicle, hs, he, cost_from_opt, cost_to_opt, h1]
      have := to_cost_t_add_congr _ _
        (path_cost inp ((front :: rest).map (fun j => (inp.jobs j).index)))
        (to_cost_t_to_int (0 + inp.matrix s (inp.jobs front).index))
      rw [this]
      congr 1; ring
    · rename_i s e
      obtain ⟨_, h1⟩ := route_cost_loop inp rest
        (to_int (0 + inp.matrix s (inp.jobs front).index)) front
      simp only [route_cost_for_vehicle, hs, he, cost_from_opt, cost_to_opt,
        to_cost_t_to_int]
      have h3 := to_cost_t_add_congr _ _
        (path_cost inp ((front :: rest).map (fun j => (inp.jobs j).index)))
        (to_cost_t_to_int (0 + inp.matrix s (inp.jobs front).index))
      have h4 := to_cost_t_add_congr _ _
        (inp.matrix (inp.jobs (rest.getLastD front)).index e) (h1.trans h3)
      rw [h4]
      congr 1; ring

theorem job_index_cons_succ (inp : input) (a : Nat) (l : List Nat) (i : Nat) :
    job_index inp (a :: l) (i + 1) = job_index inp l i := by
  simp [job_index]

theorem path_cost_eq_sum (inp : input) (route : List Nat) :
    path_cost inp (route.map (fun j => (inp.jobs j).index)) =
      ((List.range (route.length - 1)).map
        (fun i => inp.matrix (job_index inp route i) (job_index inp route (i + 1)))).sum := by
  induction route with
  | nil => simp [path_cost]
  | cons a l ih =>
    cases l with
    | nil => simp [path_cost]
    | cons b l =>
      simp only [List.map_cons, path_cost, List.length_cons, Nat.add_sub_cancel]
      simp only [List.map_cons, List.length_cons, Nat.add_sub_cancel] at ih
      rw [ih, List.range_succ_eq_map, List.map_cons, List.sum_cons, List.map_map]
      congr 1

theorem job_index_last (inp : input) (front : Nat) (rest : List Nat) :
    job_index inp (front :: rest) ((front :: rest).length - 1) =
      (inp.jobs (rest.getLastD front)).index := by
  unfold job_index
  congr 2
  induction rest generalizing front with
  | nil => simp
  | cons a rest ih =>
    have := ih a
    simp only [List.length_cons, Nat.add_sub_cancel] at this ⊢
    rw [List.getD_cons_succ, List.getLastD_cons]
    cases rest with
    | nil => simp
    | cons b rest =>
      simp only [List.length_cons] at this ⊢
      rw [this]

/-- The cost of a non-empty route as the specification words it is the cost
of the path start, jobs, end. -/
theorem route_cost_sum_eq_path (inp : input) (v : Nat) (route : List Nat)
    (hn : route ≠ []) :
    route_cost_sum inp v route =
      path_cost inp ((inp.vehicles v).start.toList ++
        route.map (fun j => (inp.jobs j).index) ++ (inp.vehicles v).end_.toList) := by
  cases route with
  | nil => exact absurd rfl hn
  | cons front rest =>
    rw [path_cost_legs]
    simp only [route_cost_sum, hn, if_false]
    rw [← path_cost_eq_sum, job_index_last]
    have h0 : job_index inp (front :: rest) 0 = (inp.jobs front).index := by
      simp [job_index]
    rw [h0]
    cases hs : (inp.vehicles v).start <;> cases he : (inp.vehicles v).end_ <;>
      simp [cost_from_opt, cost_to_opt]

/-- The value `route_cost_for_vehicle` returns is the cost of the route reduced
modulo `2^32`. -/
theorem route_cost_for_vehicle_wraps (inp : input) (v : Nat) (route : List Nat) :
    route_cost_for_vehicle inp v route = to_cost_t (route_cost_sum inp v route) := by
  by_cases hn : route = []
  · subst hn; rfl
  · rw [route_cost_eq_path inp v route hn, route_cost_sum_eq_path inp v route hn]

theorem route_cost_of_fits (inp : input) (v : Nat) (route : List Nat)
    (h0 : 0 ≤ route_cost_sum inp v route)
    (h1 : route_cost_sum inp v route ≤ 4294967295) :
    route_cost_for_vehicle inp v route = route_cost_sum inp v route := by
  rw [route_cost_for_vehicle_wraps, to_cost_t_of_fits _ h0 h1]

theorem route_cost_sum_nonneg (inp : input) (hM : ∀ a b : Nat, 0 ≤ inp.matrix a b)
    (v : Nat) (route : List Nat) : 0 ≤ route_cost_sum inp v route := by
  by_cases hn : route = []
  · subst hn; simp [route_cost_sum]
  · rw [route_cost_sum_eq_path inp v route hn]
    exact path_cost_nonneg inp hM _

theorem getD_append_mid {α : Type} (pre post : List α) (x d : α) :
    (pre ++ x :: post).getD pre.length d = x := by
  rw [List.getD_append_right _ _ _ _ (le_refl _)]
  simp

theorem getD_append_mid_succ {α : Type} (pre post : List α) (x y d : α) :
    (pre ++ x :: y :: post).getD (pre.length + 1) d = y := by
  rw [List.getD_append_right _ _ _ _ (by omega)]
  simp

theorem job_index_mid (inp : input) (pre post : List Nat) (j : Nat) :
    job_index inp (pre ++ j :: post) pre.length = (inp.jobs j).index := by
  unfold job_index
  rw [getD_append_mid]

theorem pred_of_mid (inp : input) (v : Nat) (pre post : List Nat) (j : Nat) :
    pred_of inp v (pre ++ j :: post) pre.length =
      ((inp.vehicles v).start.toList ++
        pre.map (fun j => (inp.jobs j).index)).getLast? := by
  rcases List.eq_nil_or_concat pre with h | ⟨pre2, a, h⟩
  · subst h
    cases hs : (inp.vehicles v).start <;> simp [pred_of, hs]
  · rw [List.concat_eq_append] at h
    subst h
    have e : (pre2 ++ [a] ++ j :: post).getD pre2.length 0 = a := by
      rw [List.append_assoc]; exact getD_append_mid _ _ _ _
    have hpos : (pre2 ++ [a]).length > 0 := by simp
    have hl : (pre2 ++ [a]).length - 1 = pre2.length := by simp
    unfold pred_of job_index
    rw [if_pos hpos, hl, e]
    simp

theorem succ_of_mid (inp : input) (v : Nat) (pre post : List Nat) (j : Nat) :
    succ_of inp v (pre ++ j :: post) pre.length =
      (post.map (fun j => (inp.jobs j).index) ++
        (inp.vehicles v).end_.toList).head? := by
  cases post with
  | nil =>
    cases he : (inp.vehicles v).end_ <;> simp [succ_of, he]
  | cons b post =>
    have hlt : pre.length + 1 < (pre ++ j :: b :: post).length := by simp
    simp only [succ_of, job_index, hlt, if_true, getD_append_mid_succ]
    simp

/-- Removing the job between `pre` and `post` from a route lowers the cost of
the route, as the specification words it, by the amended node gain at its
rank. -/
theorem route_cost_remove_node (inp : input) (v : Nat) (pre post : List Nat) (j : Nat) :
    route_cost_sum inp v (pre ++ j :: post) - route_cost_sum inp v (pre ++ post) =
      node_gain_amended inp v (pre ++ j :: post) pre.length := by
  by_cases hemp : pre ++ post = []
  · obtain ⟨h1, h2⟩ := List.append_eq_nil.mp hemp
    subst h1; subst h2
    simp only [node_gain_amended, pred_of, succ_of, job_index, route_cost_sum]
    cases hs : (inp.vehicles v).start <;> cases he : (inp.vehicles v).end_ <;>
      simp [cost_from_opt, cost_to_opt]
  · have hlen : (pre ++ j :: post).length ≠ 1 := by
      intro h
      apply hemp
      simp only [List.length_append, List.length_cons] at h
      have h1 : pre.length = 0 := by omega
      have h2 : post.length = 0 := by omega
      rw [List.length_eq_zero.mp h1, List.length_eq_zero.mp h2]; rfl
    rw [route_cost_sum_eq_path inp v _ (by simp), route_cost_sum_eq_path inp v _ hemp]
    have e1 : (inp.vehicles v).start.toList ++
        (pre ++ j :: post).map (fun j => (inp.jobs j).index) ++
        (inp.vehicles v).end_.toList =
        ((inp.vehicles v).start.toList ++ pre.map (fun j => (inp.jobs j).index)) ++
          (inp.jobs j).index ::
          (post.map (fun j => (inp.jobs j).index) ++ (inp.vehicles v).end_.toList) := by
      simp
    have e2 : (inp.vehicles v).start.toList ++
        (pre ++ post).map (fun j => (inp.jobs j).index) ++
        (inp.vehicles v).end_.toList =
        ((inp.vehicles v).start.toList ++ pre.map (fun j => (inp.jobs j).index)) ++
          (post.map (fun j => (inp.jobs j).index) ++ (inp.vehicles v).end_.toList) := by
      simp
    rw [e1, e2, path_cost_remove]
    simp only [node_gain_amended, hlen, if_false, job_index_mid, pred_of_mid, succ_of_mid]
    ring

/-- With non-negative costs the two edges around a job cost at most the
route. -/
theorem node_edges_around_le (inp : input) (hM : ∀ a b : Nat, 0 ≤ inp.matrix a b)
    (v : Nat) (pre post : List Nat) (j : Nat) :
    cost_from_opt inp (pred_of inp v (pre ++ j :: post) pre.length)
        (job_index inp (pre ++ j :: post) pre.length) +
      cost_to_opt inp (job_index inp (pre ++ j :: post) pre.length)
        (succ_of inp v (pre ++ j :: post) pre.length) ≤
      route_cost_sum inp v (pre ++ j :: post) := by
  rw [route_cost_sum_eq_path inp v _ (by simp)]
  have e1 : (inp.vehicles v).start.toList ++
      (pre ++ j :: post).map (fun j => (inp.jobs j).index) ++
      (inp.vehicles v).end_.toList =
      ((inp.vehicles v).start.toList ++ pre.map (fun j => (inp.jobs j).index)) ++
        (inp.jobs j).index ::
        (post.map (fun j => (inp.jobs j).index) ++ (inp.vehicles v).end_.toList) := by
    simp
  rw [e1, path_cost_remove, path_cost_append, job_index_mid, pred_of_mid, succ_of_mid]
  have h1 := path_cost_nonneg inp hM
    ((inp.vehicles v).start.toList ++ pre.map (fun j => (inp.jobs j).index))
  have h2 := path_cost_nonneg inp hM
    (post.map (fun j => (inp.jobs j).index) ++ (inp.vehicles v).end_.toList)
  omega

theorem split_at_rank (route : List Nat) (i : Nat) (hi : i < route.length) :
    route = route.take i ++ route.getD i 0 :: route.drop (i + 1) ∧
      (route.take i).length = i := by
  constructor
  · rw [List.getD_eq_getElem _ _ hi]
    simp
  · simp; omega

theorem set_node_gains_char (inp : input) (v : Nat) (st : ls_state)
    (hn : st.sol v ≠ [])
    (hdep : 1 < (st.sol v).length ∨ (inp.vehicles v).start.isSome ∨
      (inp.vehicles v).end_.isSome) :
    ∃ st', set_node_gains inp v st = some st' ∧
      (st'.node_gains v).length = (st.sol v).length ∧
      (∀ i : Nat, i < (st.sol v).length →
        (st'.node_gains v).getD i 0 = node_gain_stored inp v (st.sol v) i) ∧
      is_first_argmax (st'.node_gains v) (st.sol v).length (st'.node_candidates v) := by
  obtain ⟨acc, hacc, hl, hg, hc⟩ := node_gains_of_route_char inp v (st.sol v) hn hdep
  refine ⟨{ st with
      node_gains := upd st.node_gains v acc.gains
      edge_costs_around_node := upd st.edge_costs_around_node v acc.costs_around
      node_candidates := upd st.node_candidates v acc.candidate }, ?_, ?_, ?_, ?_⟩
  · simp [set_node_gains, hacc]
  · simpa [upd] using hl
  · simpa [upd] using hg
  · simpa [upd] using hc

theorem set_node_gains_fails (inp : input) (v : Nat) (st : ls_state)
    (h1 : (st.sol v).length = 1)
    (hs : (inp.vehicles v).start = none) (he : (inp.vehicles v).end_ = none) :
    set_node_gains inp v st = none := by
  obtain ⟨j, hj⟩ := List.length_eq_one.mp h1
  simp [set_node_gains, node_gains_of_route, node_first_costs, hj, hs, he]

theorem node_gain_amended_eq_saving (inp : input) (v : Nat) (route : List Nat)
    (i : Nat) (hi : i < route.length) :
    node_gain_amended inp v route i =
      route_cost_sum inp v route - route_cost_sum inp v (route.eraseIdx i) := by
  obtain ⟨hsplit, hlen⟩ := split_at_rank route i hi
  have h := route_cost_remove_node inp v (route.take i) (route.drop (i + 1))
    (route.getD i 0)
  rw [← hsplit, hlen, ← List.eraseIdx_eq_take_drop_succ] at h
  exact h.symm

theorem ex_matrix_nonneg (a b : Nat) : 0 ≤ ex_input.matrix a b := by
  show 0 ≤ ex_matrix a b
  unfold ex_matrix
  rcases a with _ | _ | _ | _ | a <;> rcases b with _ | _ | _ | _ | b <;> simp

/-- C1 (counterexample): every cost between two different positions is
3000000000 and vehicle 0, a closed tour on position 0, carries the jobs
0, 1, 2. At rank 1 line 83 adds `M[1][2] + M[2][3]` in `cost_t`: 6000000000
becomes 1705032704 and the stored gain is `1705032704 - M[1][3] = -1294967296`.
The two route costs are 12000000000 and 9000000000, returned as 3410065408 and
410065408, and their difference is 3000000000. -/
theorem set_node_gains_large_costs_counterexample :
    (∀ a b : Nat, 0 ≤ ex_input_large.matrix a b ∧
      ex_input_large.matrix a b ≤ ex_input_large.cost_max) ∧
    (∃ st', set_node_gains ex_input_large 0 ex_state_three = some st' ∧
      st'.node_gains 0 = [3000000000, -1294967296, 3000000000]) ∧
    route_cost_for_vehicle ex_input_large 0 [0, 1, 2] = 3410065408 ∧
    route_cost_for_vehicle ex_input_large 0 ([0, 1, 2].eraseIdx 1) = 410065408 ∧
    route_cost_sum ex_input_large 0 [0, 1, 2] = 12000000000 ∧
    route_cost_sum ex_input_large 0 ([0, 1, 2].eraseIdx 1) = 9000000000 := by
  refine ⟨?_, ⟨_, rfl, by decide⟩, by decide, by decide, by decide, by decide⟩
  intro a b
  show 0 ≤ (if a = b then (0 : Int) else 3000000000) ∧
    (if a = b then (0 : Int) else 3000000000) ≤ 4294967295
  by_cases h : a = b <;> simp [h]

/-- C1 (amended): on a vehicle that has a start or an end, for a route whose
costs are not negative and every rank `i` of it, when the cost of the route
and the cost of the route without the job at rank `i` are at most
`2^32 - 1`, `set_node_gains` returns and the node gain it stores at rank `i` is
the cost saved by erasing this job:
`route_cost_for_vehicle(v, R) - route_cost_for_vehicle(v, R without rank i)`. -/
theorem set_node_gains_is_removal_saving (inp : input) (v : Nat) (st : ls_state)
    (i : Nat)
    (hdep : (inp.vehicles v).has_start = true ∨ (inp.vehicles v).has_end = true)
    (hi : i < (st.sol v).length)
    (hM : ∀ a b : Nat, 0 ≤ inp.matrix a b)
    (hR : route_cost_sum inp v (st.sol v) ≤ 4294967295)
    (hE : route_cost_sum inp v ((st.sol v).eraseIdx i) ≤ 4294967295) :
    ∃ st', set_node_gains inp v st = some st' ∧
      (st'.node_gains v).length = (st.sol v).length ∧
      (st'.node_gains v).getD i 0 =
        route_cost_for_vehicle inp v (st.sol v) -
          route_cost_for_vehicle inp v ((st.sol v).eraseIdx i) := by
  have hn : st.sol v ≠ [] := by
    intro h; rw [h] at hi; simp at hi
  obtain ⟨st', hst, hl, hg, _⟩ := set_node_gains_char inp v st hn (Or.inr hdep)
  refine ⟨st', hst, hl, ?_⟩
  rw [hg i hi, route_cost_of_fits inp v _ (route_cost_sum_nonneg inp hM v _) hR,
    route_cost_of_fits inp v _ (route_cost_sum_nonneg inp hM v _) hE,
    ← node_gain_amended_eq_saving inp v _ i hi]
  refine node_gain_stored_eq inp v _ i ?_
  intro h0 h1
  obtain ⟨hsplit, hlen⟩ := split_at_rank (st.sol v) i hi
  have hle := node_edges_around_le inp hM v ((st.sol v).take i)
    ((st.sol v).drop (i + 1)) ((st.sol v).getD i 0)
  rw [← hsplit, hlen] at hle
  have h3 : i > 0 := by omega
  simp only [pred_of, succ_of, h3, h1, if_true, cost_from_opt, cost_to_opt] at hle ⊢
  have := hM (job_index inp (st.sol v) (i - 1)) (job_index inp (st.sol v) i)
  have := hM (job_index inp (st.sol v) i) (job_index inp (st.sol v) (i + 1))
  omega

theorem set_node_gains_is_removal_saving_witness :
    ((ex_input.vehicles 0).has_start = true ∨ (ex_input.vehicles 0).has_end = true) ∧
    1 < (ex_state_three.sol 0).length ∧
    (∀ a b : Nat, 0 ≤ ex_input.matrix a b) ∧
    route_cost_sum ex_input 0 (ex_state_three.sol 0) ≤ 4294967295 ∧
    route_cost_sum ex_input 0 ((ex_state_three.sol 0).eraseIdx 1) ≤ 4294967295 ∧
    ∃ st', set_node_gains ex_input 0 ex_state_three = some st' ∧
      (st'.node_gains 0).length = (ex_state_three.sol 0).length ∧
      (st'.node_gains 0).getD 1 0 =
        route_cost_for_vehicle ex_input 0 (ex_state_three.sol 0) -
          route_cost_for_vehicle ex_input 0 ((ex_state_three.sol 0).eraseIdx 1) :=
  ⟨Or.inl rfl, by decide, ex_matrix_nonneg, by decide, by decide,
    set_node_gains_is_removal_saving ex_input 0 ex_state_three 1 (Or.inl rfl)
      (by decide) ex_matrix_nonneg (by decide) (by decide)⟩

/-- C2 (counterexample): vehicle 0 has start 0 and end 3 and carries the single
job 0 (matrix position 1). The code stores `M[0][1] + M[1][3] = 12` at rank 0,
the stated formula subtracts the bridge `M[0][3] = 4` and gives 8. On vehicle 2,
which has neither start nor end, the same route makes the assertion fail. With
costs of 3000000000 and the jobs 0, 1, 2 the code stores -1294967296 at rank 1,
`edges_around = 6000000000` being formed in `cost_t`, where the stated formula
gives 3000000000. -/
theorem set_node_gains_single_job_bridge_counterexample :
    (∃ st', set_node_gains ex_input 0 ex_state_single = some st' ∧
      st'.node_gains 0 = [12] ∧
      node_gain_spec ex_input 0 (ex_state_single.sol 0) 0 = 8) ∧
    set_node_gains ex_input 2 ex_state_single = none ∧
    (∃ st', set_node_gains ex_input_large 0 ex_state_three = some st' ∧
      (st'.node_gains 0).getD 1 0 = -1294967296 ∧
      node_gain_spec ex_input_large 0 (ex_state_three.sol 0) 1 = 3000000000) :=
  ⟨⟨_, rfl, by decide, by decide⟩, by rfl, ⟨_, rfl, by decide, by decide⟩⟩

/-- C2 (amended): for a non-empty route of length `n`, on a vehicle that has a
start or an end when `n = 1`, when `edges_around` is between 0 and `2^32 - 1`
at every rank that has a previous and a next job, `set_node_gains` returns and
stores at every rank `i < n` the value `edges_around - bridge`, with `p`, `q`
and `edges_around` as specified and `bridge = M[p][q]` when both are defined
and `n ≥ 2`, else 0. -/
theorem set_node_gains_formula (inp : input) (v : Nat) (st : ls_state)
    (hn : st.sol v ≠ [])
    (hdep : 1 < (st.sol v).length ∨ (inp.vehicles v).has_start = true ∨
      (inp.vehicles v).has_end = true)
    (hfit : ∀ i : Nat, 1 ≤ i → i + 1 < (st.sol v).length →
      0 ≤ cost_from_opt inp (pred_of inp v (st.sol v) i) (job_index inp (st.sol v) i) +
        cost_to_opt inp (job_index inp (st.sol v) i) (succ_of inp v (st.sol v) i) ∧
      cost_from_opt inp (pred_of inp v (st.sol v) i) (job_index inp (st.sol v) i) +
        cost_to_opt inp (job_index inp (st.sol v) i) (succ_of inp v (st.sol v) i) ≤
        4294967295) :
    ∃ st', set_node_gains inp v st = some st' ∧
      (st'.node_gains v).length = (st.sol v).length ∧
      ∀ i : Nat, i < (st.sol v).length →
        (st'.node_gains v).getD i 0 =
          cost_from_opt inp (pred_of inp v (st.sol v) i) (job_index inp (st.sol v) i) +
            cost_to_opt inp (job_index inp (st.sol v) i) (succ_of inp v (st.sol v) i) -
            (if (st.sol v).length = 1 then 0
              else bridge_cost inp (pred_of inp v (st.sol v) i)
                (succ_of inp v (st.sol v) i)) := by
  obtain ⟨st', hst, hl, hg, _⟩ := set_node_gains_char inp v st hn hdep
  refine ⟨st', hst, hl, fun i hi => ?_⟩
  rw [hg i hi, node_gain_stored_eq inp v _ i (hfit i)]
  rfl

theorem set_node_gains_formula_witness :
    ex_state_three.sol 0 ≠ [] ∧
    (1 < (ex_state_three.sol 0).length ∨ (ex_input.vehicles 0).has_start = true ∨
      (ex_input.vehicles 0).has_end = true) ∧
    (0 ≤ cost_from_opt ex_input (pred_of ex_input 0 (ex_state_three.sol 0) 1)
          (job_index ex_input (ex_state_three.sol 0) 1) +
        cost_to_opt ex_input (job_index ex_input (ex_state_three.sol 0) 1)
          (succ_of ex_input 0 (ex_state_three.sol 0) 1) ∧
      cost_from_opt ex_input (pred_of ex_input 0 (ex_state_three.sol 0) 1)
          (job_index ex_input (ex_state_three.sol 0) 1) +
        cost_to_opt ex_input (job_index ex_input (ex_state_three.sol 0) 1)
          (succ_of ex_input 0 (ex_state_three.sol 0) 1) ≤ 4294967295) ∧
    ∃ st', set_node_gains ex_input 0 ex_state_three = some st' ∧
      (st'.node_gains 0).length = (ex_state_three.sol 0).length ∧
      ∀ i : Nat, i < (ex_state_three.sol 0).length →
        (st'.node_gains 0).getD i 0 =
          cost_from_opt ex_input (pred_of ex_input 0 (ex_state_three.sol 0) i)
              (job_index ex_input (ex_state_three.sol 0) i) +
            cost_to_opt ex_input (job_index ex_input (ex_state_three.sol 0) i)
              (succ_of ex_input 0 (ex_state_three.sol 0) i) -
            (if (ex_state_three.sol 0).length = 1 then 0
              else bridge_cost ex_input (pred_of ex_input 0 (ex_state_three.sol 0) i)
                (succ_of ex_input 0 (ex_state_three.sol 0) i)) :=
  ⟨by decide, Or.inl (by decide), by decide,
    set_node_gains_formula ex_input 0 ex_state_three (by decide) (Or.inl (by decide))
      (fun i h0 h1 => by
        have h2 : i + 1 < 3 := h1
        have h3 : i = 1 := by omega
        subst h3
        decide)⟩

/-- C4: for a non-empty route, whenever `set_node_gains` returns, the rank it
leaves in `node_candidates[v]` is the smallest rank maximising `node_gains[v]`
over the ranks of the route; and it does return as soon as the route has two
jobs or the vehicle has a start or an end. -/
theorem set_node_gains_candidate_is_first_argmax (inp : input) (v : Nat)
    (st : ls_state) (hn : st.sol v ≠ []) :
    (∀ st', set_node_gains inp v st = some st' →
      is_first_argmax (st'.node_gains v) (st.sol v).length (st'.node_candidates v)) ∧
    (1 < (st.sol v).length ∨ (inp.vehicles v).has_start = true ∨
        (inp.vehicles v).has_end = true →
      ∃ st', set_node_gains inp v st = some st') := by
  constructor
  · intro st' hst
    by_cases hdep : 1 < (st.sol v).length ∨ (inp.vehicles v).start.isSome ∨
        (inp.vehicles v).end_.isSome
    · obtain ⟨st2, hst2, _, _, hc⟩ := set_node_gains_char inp v st hn hdep
      rw [hst] at hst2
      cases hst2
      exact hc
    · exfalso
      have hpos : 0 < (st.sol v).length := List.length_pos.mpr hn
      simp only [not_or, not_lt, Option.not_isSome_iff_eq_none] at hdep
      have := set_node_gains_fails inp v st (by omega) hdep.2.1 hdep.2.2
      rw [this] at hst
      cases hst
  · intro hdep
    obtain ⟨st', hst, _⟩ := set_node_gains_char inp v st hn hdep
    exact ⟨st', hst⟩

theorem set_node_gains_candidate_is_first_argmax_witness :
    ex_state_three.sol 1 ≠ [] ∧
    ((∀ st', set_node_gains ex_input 1 ex_state_three = some st' →
      is_first_argmax (st'.node_gains 1) (ex_state_three.sol 1).length
        (st'.node_candidates 1)) ∧
    (1 < (ex_state_three.sol 1).length ∨ (ex_input.vehicles 1).has_start = true ∨
        (ex_input.vehicles 1).has_end = true →
      ∃ st', set_node_gains ex_input 1 ex_state_three = some st')) :=
  ⟨by decide, set_node_gains_candidate_is_first_argmax ex_input 1 ex_state_three (by decide)⟩

/-! ## Edge gains: what the code stores -/

theorem edge_first_costs_long (inp : input) (v : Nat) (route : List Nat)
    (h : 2 < route.length) :
    ∃ fc, edge_first_costs inp v route = some fc ∧
      fc.previous_cost + fc.next_cost - fc.new_edge_cost =
        edge_gain_amended inp v route 0 := by
  have h1 : route.length ≠ 2 := by omega
  have h2 : 0 + 1 + 1 < route.length := by omega
  unfold edge_first_costs edge_gain_amended pred_of succ_of
  cases hs : (inp.vehicles v).start <;>
    simp [h, h1, h2, cost_from_opt, cost_to_opt, bridge_cost]

theorem edge_last_costs_long (inp : input) (v : Nat) (route : List Nat)
    (h : 2 < route.length) :
    ∃ lc, edge_last_costs inp v route (route.length - 1) = some lc ∧
      lc.previous_cost + lc.next_cost - lc.new_edge_cost =
        edge_gain_amended inp v route (route.length - 1 - 1) := by
  have h1 : route.length ≠ 2 := by omega
  have h2 : ¬ (route.length - 1 - 1 + 1 + 1 < route.length) := by omega
  have h3 : route.length - 1 - 1 > 0 := by omega
  unfold edge_last_costs edge_gain_amended pred_of succ_of
  cases he : (inp.vehicles v).end_ <;>
    simp [h, h1, h2, h3, cost_from_opt, cost_to_opt, bridge_cost]

theorem edge_step_gain (inp : input) (v : Nat) (route : List Nat) (i : Nat)
    (h0 : 1 ≤ i) (h1 : i + 2 < route.length) :
    to_cost_t (inp.matrix (job_index inp route (i - 1)) (job_index inp route i) +
        inp.matrix (job_index inp route (i + 1)) (job_index inp route (i + 2))) -
        inp.matrix (job_index inp route (i - 1)) (job_index inp route (i + 2)) =
      edge_gain_stored inp v route i := by
  simp [edge_gain_stored, h0, h1]

theorem edge_gain_stored_ends (inp : input) (v : Nat) (route : List Nat) (i : Nat)
    (h : i = 0 ∨ route.length ≤ i + 2) :
    edge_gain_stored inp v route i = edge_gain_amended inp v route i := by
  have : ¬ (1 ≤ i ∧ i + 2 < route.length) := by omega
  simp only [edge_gain_stored, this, if_false]

/-- Where `edges_around` is a `cost_t` value at an edge rank with a previous
and a next job, the stored gain is the amended formula. -/
theorem edge_gain_stored_eq (inp : input) (v : Nat) (route : List Nat) (i : Nat)
    (hfit : 1 ≤ i → i + 2 < route.length →
      0 ≤ cost_from_opt inp (pred_of inp v route i) (job_index inp route i) +
        cost_to_opt inp (job_index inp route (i + 1)) (succ_of inp v route (i + 1)) ∧
      cost_from_opt inp (pred_of inp v route i) (job_index inp route i) +
        cost_to_opt inp (job_index inp route (i + 1)) (succ_of inp v route (i + 1)) ≤
        4294967295) :
    edge_gain_stored inp v route i = edge_gain_amended inp v route i := by
  by_cases h : 1 ≤ i ∧ i + 2 < route.length
  · obtain ⟨h0, h1⟩ := h
    have hf := hfit h0 h1
    have h2 : route.length ≠ 2 := by omega
    have h3 : i > 0 := by omega
    have h4 : i + 1 + 1 < route.length := by omega
    simp only [pred_of, succ_of, h3, h4, if_true, cost_from_opt, cost_to_opt] at hf
    simp only [edge_gain_stored, h0, h1, and_self, if_true,
      to_cost_t_of_fits _ hf.1 hf.2]
    simp [edge_gain_amended, pred_of, succ_of, h2, h3, h4, cost_from_opt, cost_to_opt,
      bridge_cost]
  · exact edge_gain_stored_ends inp v route i (by omega)

theorem edge_gains_pair (inp : input) (v : Nat) (a b : Nat)
    (hdep : (inp.vehicles v).start.isSome ∨ (inp.vehicles v).end_.isSome) :
    ∃ acc, edge_gains_of_route inp v [a, b] = some (acc, true) ∧
      acc.gains = [edge_gain_amended inp v [a, b] 0] ∧ acc.candidate = 0 := by
  unfold edge_gains_of_route edge_first_costs edge_gain_amended pred_of succ_of
  cases hs : (inp.vehicles v).start <;> cases he : (inp.vehicles v).end_ <;>
    simp [hs, he, cost_from_opt, cost_to_opt, bridge_cost] at hdep ⊢

/-- What `set_edge_gains` computes on a route of at least two jobs, provided
the vehicle has a start or an end when the route has exactly two jobs: the
gain vector holds `edge_gain_stored` at every edge rank and the candidate is
its first argmax. -/
theorem edge_gains_of_route_char (inp : input) (v : Nat) (route : List Nat)
    (hn : 2 ≤ route.length)
    (hdep : 2 < route.length ∨ (inp.vehicles v).start.isSome ∨
      (inp.vehicles v).end_.isSome) :
    ∃ acc, edge_gains_of_route inp v route = some (acc, true) ∧
      acc.gains.length = route.length - 1 ∧
      (∀ i : Nat, i < route.length - 1 →
        acc.gains.getD i 0 = edge_gain_stored inp v route i) ∧
      is_first_argmax acc.gains (route.length - 1) acc.candidate := by
  by_cases h2 : route.length = 2
  · obtain ⟨a, b, rfl⟩ := List.length_eq_two.mp h2
    have hd : (inp.vehicles v).start.isSome ∨ (inp.vehicles v).end_.isSome := by
      rcases hdep with h | h
      · simp at h
      · exact h
    obtain ⟨acc, hacc, hg, hc⟩ := edge_gains_pair inp v a b hd
    refine ⟨acc, hacc, by simp [hg], ?_, ?_⟩
    · intro i hi
      have : i = 0 := by simpa using hi
      subst this
      rw [edge_gain_stored_ends inp v [a, b] 0 (Or.inl rfl)]
      simp [hg]
    · refine ⟨by simp [hc], ?_, ?_⟩
      · intro i hi
        have : i = 0 := by simpa using hi
        subst this; simp [hc]
      · intro i hi; rw [hc] at hi; omega
  · have hlong : 2 < route.length := by omega
    obtain ⟨fc, hfc, hfg⟩ := edge_first_costs_long inp v route hlong
    obtain ⟨lc, hlc, hlg⟩ := edge_last_costs_long inp v route hlong
    rw [← edge_gain_stored_ends inp v route 0 (Or.inl rfl)] at hfg
    rw [← edge_gain_stored_ends inp v route (route.length - 1 - 1)
      (Or.inr (by omega))] at hlg
    have h0 : ¬ route.length < 2 := by omega
    have hinv := gains_loop_inv (edge_gain_stored inp v route)
      (edge_gains_step inp route) (route.length - 1 - 1 - 1) (route.length - 1)
      { gains := (List.replicate (route.length - 1) (0 : Int)).set 0
          (fc.previous_cost + fc.next_cost - fc.new_edge_cost)
        costs_around := (List.replicate (route.length - 1) (0 : Int)).set 0
          (fc.previous_cost + fc.next_cost)
        best_gain := fc.previous_cost + fc.next_cost - fc.new_edge_cost
        candidate := 0 }
      (by
        intro acc k hk1 hk2
        have hs := edge_step_gain inp v route k hk1 (by omega)
        simp only [edge_gains_step]
        rw [hs]
        exact ⟨rfl, rfl, rfl⟩)
      (by omega) (by simp)
      (by rw [← hfg]; exact getD_set_eq _ _ _ _ (by simp; omega))
      hfg rfl
    have e : 1 + (route.length - 1 - 1 - 1) = route.length - 1 - 1 := by omega
    rw [e] at hinv
    obtain ⟨hl, hg, hb, hc, hmax, hfirst⟩ := hinv
    have hlast := last_step_argmax (edge_gain_stored inp v route) _
      (route.length - 1 - 1) (route.length - 1) (by omega) hl hg hb hc hmax hfirst
    have e2 : route.length - 1 - 1 + 1 = route.length - 1 := by omega
    rw [e2] at hlast
    simp only [edge_gains_of_route, h0, h2, hfc, hlc, if_false, hlg]
    exact ⟨_, rfl, hlast⟩

theorem set_edge_gains_char (inp : input) (v : Nat) (st : ls_state)
    (hn : 2 ≤ (st.sol v).length)
    (hdep : 2 < (st.sol v).length ∨ (inp.vehicles v).start.isSome ∨
      (inp.vehicles v).end_.isSome) :
    ∃ st', set_edge_gains inp v st = some st' ∧
      (st'.edge_gains v).length = (st.sol v).length - 1 ∧
      (∀ i : Nat, i < (st.sol v).length - 1 →
        (st'.edge_gains v).getD i 0 = edge_gain_stored inp v (st.sol v) i) ∧
      is_first_argmax (st'.edge_gains v) ((st.sol v).length - 1)
        (st'.edge_candidates v) := by
  obtain ⟨acc, hacc, hl, hg, hc⟩ := edge_gains_of_route_char inp v (st.sol v) hn hdep
  refine ⟨{ st with
      edge_gains := upd st.edge_gains v acc.gains
      edge_costs_around_edge := upd st.edge_costs_around_edge v acc.costs_around
      edge_candidates := upd st.edge_candidates v acc.candidate }, ?_, ?_, ?_, ?_⟩
  · simp [set_edge_gains, hacc]
  · simpa [upd] using hl
  · simpa [upd] using hg
  · simpa [upd] using hc

theorem set_edge_gains_fails (inp : input) (v : Nat) (st : ls_state)
    (h2 : (st.sol v).length = 2)
    (hs : (inp.vehicles v).start = none) (he : (inp.vehicles v).end_ = none) :
    set_edge_gains inp v st = none := by
  obtain ⟨a, b, hj⟩ := List.length_eq_two.mp h2
  simp [set_edge_gains, edge_gains_of_route, edge_first_costs, hj, hs, he]

/-- C3 (counterexample): vehicle 0 has start 0 and end 3 and carries the two
jobs 0, 1 (matrix positions 1, 2). The code stores `M[0][1] + M[2][3] = 13` at
edge rank 0, the stated formula subtracts the bridge `M[0][3] = 4` and gives 9.
On vehicle 2, which has neither start nor end, the same route makes the
assertion fail. With costs of 3000000000 and the jobs 0, 1, 2, 3 the code
stores -1294967296 at edge rank 1, `edges_around = 6000000000` being formed in
`cost_t`, where the stated formula gives 3000000000. -/
theorem set_edge_gains_two_jobs_bridge_counterexample :
    (∃ st', set_edge_gains ex_input 0 ex_state_two = some st' ∧
      st'.edge_gains 0 = [13] ∧
      edge_gain_spec ex_input 0 (ex_state_two.sol 0) 0 = 9) ∧
    set_edge_gains ex_input 2 ex_state_two = none ∧
    (∃ st', set_edge_gains ex_input_large 0 ex_state_four = some st' ∧
      (st'.edge_gains 0).getD 1 0 = -1294967296 ∧
      edge_gain_spec ex_input_large 0 (ex_state_four.sol 0) 1 = 3000000000) :=
  ⟨⟨_, rfl, by decide, by decide⟩, by rfl, ⟨_, rfl, by decide, by decide⟩⟩

/-- C3 (amended): for a route of length `n ≥ 2`, on a vehicle that has a start
or an end when `n = 2`, when `edges_around` is between 0 and `2^32 - 1` at
every edge rank that has a previous and a next job, `set_edge_gains` returns
and stores at every edge rank `i < n - 1` the value `edges_around - bridge`,
with `c1`, `c2`, `p`, `q` and `edges_around` as specified and
`bridge = M[p][q]` when both are defined and `n ≥ 3`, else 0. -/
theorem set_edge_gains_formula (inp : input) (v : Nat) (st : ls_state)
    (hn : 2 ≤ (st.sol v).length)
    (hdep : 2 < (st.sol v).length ∨ (inp.vehicles v).has_start = true ∨
      (inp.vehicles v).has_end = true)
    (hfit : ∀ i : Nat, 1 ≤ i → i + 2 < (st.sol v).length →
      0 ≤ cost_from_opt inp (pred_of inp v (st.sol v) i) (job_index inp (st.sol v) i) +
        cost_to_opt inp (job_index inp (st.sol v) (i + 1))
          (succ_of inp v (st.sol v) (i + 1)) ∧
      cost_from_opt inp (pred_of inp v (st.sol v) i) (job_index inp (st.sol v) i) +
        cost_to_opt inp (job_index inp (st.sol v) (i + 1))
          (succ_of inp v (st.sol v) (i + 1)) ≤ 4294967295) :
    ∃ st', set_edge_gains inp v st = some st' ∧
      (st'.edge_gains v).length = (st.sol v).length - 1 ∧
      ∀ i : Nat, i < (st.sol v).length - 1 →
        (st'.edge_gains v).getD i 0 =
          cost_from_opt inp (pred_of inp v (st.sol v) i) (job_index inp (st.sol v) i) +
            cost_to_opt inp (job_index inp (st.sol v) (i + 1))
              (succ_of inp v (st.sol v) (i + 1)) -
            (if (st.sol v).length = 2 then 0
              else bridge_cost inp (pred_of inp v (st.sol v) i)
                (succ_of inp v (st.sol v) (i + 1))) := by
  obtain ⟨st', hst, hl, hg, _⟩ := set_edge_gains_char inp v st hn hdep
  refine ⟨st', hst, hl, fun i hi => ?_⟩
  rw [hg i hi, edge_gain_stored_eq inp v _ i (hfit i)]
  rfl

theorem set_edge_gains_formula_witness :
    2 ≤ (ex_state_four.sol 0).length ∧
    (2 < (ex_state_four.sol 0).length ∨ (ex_input_five.vehicles 0).has_start = true ∨
      (ex_input_five.vehicles 0).has_end = true) ∧
    (0 ≤ cost_from_opt ex_input_five (pred_of ex_input_five 0 (ex_state_four.sol 0) 1)
          (job_index ex_input_five (ex_state_four.sol 0) 1) +
        cost_to_opt ex_input_five (job_index ex_input_five (ex_state_four.sol 0) (1 + 1))
          (succ_of ex_input_five 0 (ex_state_four.sol 0) (1 + 1)) ∧
      cost_from_opt ex_input_five (pred_of ex_input_five 0 (ex_state_four.sol 0) 1)
          (job_index ex_input_five (ex_state_four.sol 0) 1) +
        cost_to_opt ex_input_five (job_index ex_input_five (ex_state_four.sol 0) (1 + 1))
          (succ_of ex_input_five 0 (ex_state_four.sol 0) (1 + 1)) ≤ 4294967295) ∧
    ∃ st', set_edge_gains ex_input_five 0 ex_state_four = some st' ∧
      (st'.edge_gains 0).length = (ex_state_four.sol 0).length - 1 ∧
      ∀ i : Nat, i < (ex_state_four.sol 0).length - 1 →
        (st'.edge_gains 0).getD i 0 =
          cost_from_opt ex_input_five (pred_of ex_input_five 0 (ex_state_four.sol 0) i)
              (job_index ex_input_five (ex_state_four.sol 0) i) +
            cost_to_opt ex_input_five
              (job_index ex_input_five (ex_state_four.sol 0) (i + 1))
              (succ_of ex_input_five 0 (ex_state_four.sol 0) (i + 1)) -
            (if (ex_state_four.sol 0).length = 2 then 0
              else bridge_cost ex_input_five
                (pred_of ex_input_five 0 (ex_state_four.sol 0) i)
                (succ_of ex_input_five 0 (ex_state_four.sol 0) (i + 1))) :=
  ⟨by decide, Or.inl (by decide), by decide,
    set_edge_gains_formula ex_input_five 0 ex_state_four (by decide)
      (Or.inl (by decide))
      (fun i h0 h1 => by
        have h2 : i + 2 < 4 := h1
        have h3 : i = 1 := by omega
        subst h3
        decide)⟩

/-- C5: for a route of at least two jobs, whenever `set_edge_gains` returns,
the rank it leaves in `edge_candidates[v]` is the smallest edge rank in
`[0, |R[v]| - 1)` maximising `edge_gains[v]`, and
`edge_candidates[v] + 1 < |R[v]|`; and it does return as soon as the route has
three jobs or the vehicle has a start or an end. -/
theorem set_edge_gains_candidate_is_first_argmax (inp : input) (v : Nat)
    (st : ls_state) (hn : 2 ≤ (st.sol v).length) :
    (∀ st', set_edge_gains inp v st = some st' →
      is_first_argmax (st'.edge_gains v) ((st.sol v).length - 1)
        (st'.edge_candidates v) ∧
      st'.edge_candidates v + 1 < (st.sol v).length) ∧
    (2 < (st.sol v).length ∨ (inp.vehicles v).has_start = true ∨
        (inp.vehicles v).has_end = true →
      ∃ st', set_edge_gains inp v st = some st') := by
  constructor
  · intro st' hst
    by_cases hdep : 2 < (st.sol v).length ∨ (inp.vehicles v).start.isSome ∨
        (inp.vehicles v).end_.isSome
    · obtain ⟨st2, hst2, _, _, hc⟩ := set_edge_gains_char inp v st hn hdep
      rw [hst] at hst2
      cases hst2
      have := hc.1
      exact ⟨hc, by omega⟩
    · exfalso
      simp only [not_or, not_lt, Option.not_isSome_iff_eq_none] at hdep
      have := set_edge_gains_fails inp v st (by omega) hdep.2.1 hdep.2.2
      rw [this] at hst
      cases hst
  · intro hdep
    obtain ⟨st', hst, _⟩ := set_edge_gains_char inp v st hn hdep
    exact ⟨st', hst⟩

theorem set_edge_gains_candidate_is_first_argmax_witness :
    2 ≤ (ex_state_three.sol 1).length ∧
    ((∀ st', set_edge_gains ex_input 1 ex_state_three = some st' →
      is_first_argmax (st'.edge_gains 1) ((ex_state_three.sol 1).length - 1)
        (st'.edge_candidates 1) ∧
      st'.edge_candidates 1 + 1 < (ex_state_three.sol 1).length) ∧
    (2 < (ex_state_three.sol 1).length ∨ (ex_input.vehicles 1).has_start = true ∨
        (ex_input.vehicles 1).has_end = true →
      ∃ st', set_edge_gains ex_input 1 ex_state_three = some st')) :=
  ⟨by decide, set_edge_gains_candidate_is_first_argmax ex_input 1 ex_state_three (by decide)⟩

/-! ## Amounts and the cumulative loads -/

theorem amount_add_length (a b : amount_t) :
    (amount_add a b).length = min a.length b.length := by
  simp [amount_add]

theorem amount_add_getD (a b : amount_t) (k : Nat) (ha : k < a.length)
    (hb : k < b.length) :
    (amount_add a b).getD k 0 = a.getD k 0 + b.getD k 0 := by
  unfold amount_add
  rw [List.getD_eq_getElem _ _ ha, List.getD_eq_getElem _ _ hb,
    List.getD_eq_getElem _ _ (by simp; omega)]
  simp

theorem amount_zero_getD (size k : Nat) : (amount_zero size).getD k 0 = 0 := by
  unfold amount_zero
  by_cases h : k < size
  · rw [List.getD_eq_getElem _ _ (by simpa using h)]; simp
  · rw [List.getD_eq_default _ _ (by simpa using h)]

theorem foldl_amount_add_length (d : Nat) (l : List amount_t) :
    ∀ z : amount_t, z.length = d → (∀ a ∈ l, a.length = d) →
      (l.foldl amount_add z).length = d := by
  induction l with
  | nil => intro z hz _; simpa using hz
  | cons a l ih =>
    intro z hz hl
    rw [List.foldl_cons]
    apply ih
    · rw [amount_add_length, hz, hl a (List.mem_cons_self _ _)]; simp
    · intro b hb; exact hl b (List.mem_cons_of_mem _ hb)

theorem foldl_amount_add_getD (d k : Nat) (hk : k < d) (l : List amount_t) :
    ∀ z : amount_t, z.length = d → (∀ a ∈ l, a.length = d) →
      (l.foldl amount_add z).getD k 0 =
        z.getD k 0 + (l.map (fun a => a.getD k 0)).sum := by
  induction l with
  | nil => intro z _ _; simp
  | cons a l ih =>
    intro z hz hl
    have ha := hl a (List.mem_cons_self _ _)
    rw [List.foldl_cons, ih]
    · rw [amount_add_getD _ _ _ (by omega) (by omega)]
      simp only [List.map_cons, List.sum_cons]
      ring
    · rw [amount_add_length, hz, ha]; simp
    · intro b hb; exact hl b (List.mem_cons_of_mem _ hb)

theorem route_demand_length (inp : input) (route : List Nat)
    (hsize : ∀ j ∈ route, (inp.jobs j).amount.length = inp.amount_size) :
    (route_demand inp route).length = inp.amount_size := by
  unfold route_demand
  apply foldl_amount_add_length
  · simp [amount_zero]
  · intro a ha
    obtain ⟨j, hj, rfl⟩ := List.mem_map.mp ha
    exact hsize j hj

theorem route_demand_getD (inp : input) (route : List Nat) (k : Nat)
    (hk : k < inp.amount_size)
    (hsize : ∀ j ∈ route, (inp.jobs j).amount.length = inp.amount_size) :
    (route_demand inp route).getD k 0 =
      (route.map (fun j => (inp.jobs j).amount.getD k 0)).sum := by
  unfold route_demand
  rw [foldl_amount_add_getD inp.amount_size k hk]
  · rw [amount_zero_getD, zero_add, List.map_map]
    rfl
  · simp [amount_zero]
  · intro a ha
    obtain ⟨j, hj, rfl⟩ := List.mem_map.mp ha
    exact hsize j hj

theorem route_demand_take_succ (inp : input) (route : List Nat) (k : Nat)
    (hk : k < route.length) :
    route_demand inp (route.take (k + 1)) =
      amount_add (route_demand inp (route.take k)) (inp.jobs (route.getD k 0)).amount := by
  unfold route_demand
  rw [List.take_succ, List.getD_eq_getElem _ _ hk, List.getElem?_eq_getElem hk]
  simp only [Option.toList, List.map_append, List.foldl_append, List.map_cons,
    List.map_nil, List.foldl_cons, List.foldl_nil]

/-- The loop of `update_amounts` fills the vector with the demands of the
route prefixes. -/
theorem update_amounts_loop (inp : input) (route : List Nat) :
    ((List.range' 0 route.length).foldl (update_amounts_step inp route)
        (amount_zero inp.amount_size, List.replicate route.length [])).2.length =
      route.length ∧
    ∀ i : Nat, i < route.length →
      ((List.range' 0 route.length).foldl (update_amounts_step inp route)
        (amount_zero inp.amount_size, List.replicate route.length [])).2.getD i [] =
        route_demand inp (route.take (i + 1)) := by
  have key := foldl_range'_inv
    (fun (k : Nat) (acc : amount_t × List amount_t) =>
      acc.1 = route_demand inp (route.take k) ∧ acc.2.length = route.length ∧
      ∀ i : Nat, i < k → acc.2.getD i [] = route_demand inp (route.take (i + 1)))
    (update_amounts_step inp route) route.length 0
    (amount_zero inp.amount_size, List.replicate route.length [])
    (by
      refine ⟨by simp [route_demand], by simp, ?_⟩
      intro i hi; omega)
    (by
      intro k acc _ hk2 hP
      obtain ⟨h1, h2, h3⟩ := hP
      have hk : k < route.length := by omega
      have hnew : amount_add acc.1 (inp.jobs (route.getD k 0)).amount =
          route_demand inp (route.take (k + 1)) := by
        rw [route_demand_take_succ inp route k hk, h1]
      simp only [update_amounts_step]
      rw [hnew]
      refine ⟨rfl, by simp [h2], ?_⟩
      intro i hi
      by_cases hik : i = k
      · subst hik
        exact getD_set_eq _ _ _ _ (by omega)
      · rw [getD_set_ne _ _ _ _ _ (Ne.symm hik)]
        exact h3 i (by omega))
  rw [Nat.zero_add] at key
  exact ⟨key.2.1, key.2.2⟩

theorem getLast?_eq_getD {α : Type} (l : List α) (d : α) (h : l ≠ []) :
    l.getLast? = some (l.getD (l.length - 1) d) := by
  have hpos : 0 < l.length := List.length_pos.mpr h
  rw [List.getLast?_eq_getElem?, List.getD_eq_getElem _ _ (by omega),
    List.getElem?_eq_getElem (by omega)]

/-- After `update_amounts(v)`, the vector has the length of the route, holds
the demand of each prefix, and `total_amount(v)` is the demand of the route. -/
theorem update_amounts_char (inp : input) (v : Nat) (st : ls_state) :
    ((update_amounts inp v st).amounts v).length = (st.sol v).length ∧
    (∀ i : Nat, i < (st.sol v).length →
      ((update_amounts inp v st).amounts v).getD i [] =
        route_demand inp ((st.sol v).take (i + 1))) ∧
    total_amount inp v (update_amounts inp v st) = route_demand inp (st.sol v) := by
  obtain ⟨hl, hg⟩ := update_amounts_loop inp (st.sol v)
  have e : (update_amounts inp v st).amounts v =
      ((List.range' 0 (st.sol v).length).foldl (update_amounts_step inp (st.sol v))
        (amount_zero inp.amount_size, List.replicate (st.sol v).length [])).2 := by
    simp [update_amounts, upd]
  rw [e]
  refine ⟨hl, hg, ?_⟩
  unfold total_amount
  rw [e]
  generalize ((List.range' 0 (st.sol v).length).foldl
    (update_amounts_step inp (st.sol v))
    (amount_zero inp.amount_size, List.replicate (st.sol v).length [])).2 = A at hl hg
  by_cases hn : st.sol v = []
  · have h0 : A.length = 0 := by rw [hl, hn]; rfl
    rw [List.length_eq_zero.mp h0, hn]
    simp [route_demand]
  · have hpos : 0 < (st.sol v).length := List.length_pos.mpr hn
    have hne : A ≠ [] := by
      intro h
      rw [h] at hl
      simp at hl
      omega
    rw [getLast?_eq_getD _ [] hne, hl, hg _ (by omega)]
    have e2 : (st.sol v).length - 1 + 1 = (st.sol v).length := by omega
    simp only [e2, List.take_length]

/-- C6: after `update_amounts(v)` the cumulative-load sequence has the length
of the route, `amounts[v][i]` is, component by component, the sum of the
demands of the jobs at ranks `0..i`, and `total_amount(v)` is the sum of all the
demands of the route, the zero vector when the route is empty (the demands of
the jobs of the route having `amount_size` components). -/
theorem update_amounts_prefix_sums (inp : input) (v : Nat) (st : ls_state)
    (hsize : ∀ j ∈ st.sol v, (inp.jobs j).amount.length = inp.amount_size) :
    ((update_amounts inp v st).amounts v).length = (st.sol v).length ∧
    (∀ i : Nat, i < (st.sol v).length →
      (((update_amounts inp v st).amounts v).getD i []).length = inp.amount_size ∧
      ∀ k : Nat, k < inp.amount_size →
        (((update_amounts inp v st).amounts v).getD i []).getD k 0 =
          (((st.sol v).take (i + 1)).map
            (fun j => (inp.jobs j).amount.getD k 0)).sum) ∧
    (total_amount inp v (update_amounts inp v st)).length = inp.amount_size ∧
    (∀ k : Nat, k < inp.amount_size →
      (total_amount inp v (update_amounts inp v st)).getD k 0 =
        ((st.sol v).map (fun j => (inp.jobs j).amount.getD k 0)).sum) ∧
    (st.sol v = [] →
      total_amount inp v (update_amounts inp v st) = amount_zero inp.amount_size) := by
  obtain ⟨hl, hg, ht⟩ := update_amounts_char inp v st
  have htake : ∀ i : Nat, ∀ j ∈ (st.sol v).take (i + 1),
      (inp.jobs j).amount.length = inp.amount_size :=
    fun i j hj => hsize j (List.mem_of_mem_take hj)
  refine ⟨hl, ?_, ?_, ?_, ?_⟩
  · intro i hi
    rw [hg i hi]
    exact ⟨route_demand_length inp _ (htake i),
      fun k hk => route_demand_getD inp _ k hk (htake i)⟩
  · rw [ht]; exact route_demand_length inp _ hsize
  · intro k hk
    rw [ht]; exact route_demand_getD inp _ k hk hsize
  · intro hn
    rw [ht, hn]; simp [route_demand]

theorem update_amounts_prefix_sums_witness :
    (∀ j ∈ ex_state_three.sol 0, (ex_input.jobs j).amount.length = ex_input.amount_size) ∧
    (((update_amounts ex_input 0 ex_state_three).amounts 0).length =
      (ex_state_three.sol 0).length ∧
    (∀ i : Nat, i < (ex_state_three.sol 0).length →
      (((update_amounts ex_input 0 ex_state_three).amounts 0).getD i []).length =
        ex_input.amount_size ∧
      ∀ k : Nat, k < ex_input.amount_size →
        (((update_amounts ex_input 0 ex_state_three).amounts 0).getD i []).getD k 0 =
          (((ex_state_three.sol 0).take (i + 1)).map
            (fun j => (ex_input.jobs j).amount.getD k 0)).sum) ∧
    (total_amount ex_input 0 (update_amounts ex_input 0 ex_state_three)).length =
      ex_input.amount_size ∧
    (∀ k : Nat, k < ex_input.amount_size →
      (total_amount ex_input 0 (update_amounts ex_input 0 ex_state_three)).getD k 0 =
        ((ex_state_three.sol 0).map (fun j => (ex_input.jobs j).amount.getD k 0)).sum) ∧
    (ex_state_three.sol 0 = [] →
      total_amount ex_input 0 (update_amounts ex_input 0 ex_state_three) =
        amount_zero ex_input.amount_size)) :=
  ⟨by intro j _; rfl,
    update_amounts_prefix_sums ex_input 0 ex_state_three (by intro j _; rfl)⟩

/-! ## Nearest ranks -/

theorem ex_matrix_le (a b : Nat) : ex_input.matrix a b ≤ ex_input.cost_max := by
  show ex_matrix a b ≤ 4294967295
  unfold ex_matrix
  rcases a with _ | _ | _ | _ | a <;> rcases b with _ | _ | _ | _ | b <;> simp

theorem scan_inv_init (c : Nat → Int) (cmax : Int) : scan_inv c cmax 0 cmax 0 := by
  refine ⟨?_, Or.inl ⟨rfl, rfl, ?_⟩⟩ <;> intro r hr <;> omega

theorem scan_inv_step (c : Nat → Int) (cmax : Int) (k : Nat) (mn : Int) (best : Nat)
    (h : scan_inv c cmax k mn best) (hc : c k ≤ cmax) :
    scan_inv c cmax (k + 1) (if c k < mn then c k else mn)
      (if c k < mn then k else best) := by
  obtain ⟨hle, hcase⟩ := h
  by_cases hlt : c k < mn
  · simp only [hlt, if_true]
    refine ⟨?_, Or.inr ⟨by omega, rfl, ?_⟩⟩
    · intro r hr
      by_cases hrk : r = k
      · subst hrk; exact le_refl _
      · have := hle r (by omega); omega
    · intro r hr
      have := hle r hr; omega
  · simp only [hlt, if_false]
    refine ⟨?_, ?_⟩
    · intro r hr
      by_cases hrk : r = k
      · subst hrk; omega
      · exact hle r (by omega)
    · rcases hcase with ⟨h1, h2, h3⟩ | ⟨h1, h2, h3⟩
      · refine Or.inl ⟨h1, h2, ?_⟩
        intro r hr
        by_cases hrk : r = k
        · subst hrk; omega
        · exact h3 r (by omega)
      · exact Or.inr ⟨by omega, h2, h3⟩

theorem scan_inv_final (c : Nat → Int) (cmax : Int) (n : Nat) (mn : Int) (best : Nat)
    (h : scan_inv c cmax n mn best) (hn : 0 < n) : is_first_argmin c n best := by
  obtain ⟨hle, hcase⟩ := h
  rcases hcase with ⟨_, h2, h3⟩ | ⟨h1, h2, h3⟩
  · subst h2
    refine ⟨hn, ?_, ?_⟩
    · intro r hr; rw [h3 0 hn, h3 r hr]
    · intro r hr; omega
  · refine ⟨h1, ?_, ?_⟩
    · intro r hr; rw [← h2]; exact hle r hr
    · intro r hr; rw [← h2]; exact h3 r hr

theorem nearest_inner_step_proj (inp : input) (route2 : List Nat) (index_r1 : Nat)
    (acc : nearest_acc) (r2 : Nat) :
    (nearest_inner_step inp route2 index_r1 acc r2).min_from =
      (if inp.matrix index_r1 (job_index inp route2 r2) < acc.min_from then
        inp.matrix index_r1 (job_index inp route2 r2) else acc.min_from) ∧
    (nearest_inner_step inp route2 index_r1 acc r2).best_from_rank =
      (if inp.matrix index_r1 (job_index inp route2 r2) < acc.min_from then r2
        else acc.best_from_rank) ∧
    (nearest_inner_step inp route2 index_r1 acc r2).min_to =
      (if inp.matrix (job_index inp route2 r2) index_r1 < acc.min_to then
        inp.matrix (job_index inp route2 r2) index_r1 else acc.min_to) ∧
    (nearest_inner_step inp route2 index_r1 acc r2).best_to_rank =
      (if inp.matrix (job_index inp route2 r2) index_r1 < acc.min_to then r2
        else acc.best_to_rank) := by
  unfold nearest_inner_step
  by_cases h1 : inp.matrix index_r1 (job_index inp route2 r2) < acc.min_from <;>
    by_cases h2 : inp.matrix (job_index inp route2 r2) index_r1 < acc.min_to <;>
    simp [h1, h2]

/-- The inner loop of `update_nearest_job_rank_in_routes` finds, for a
non-empty second route, the first rank nearest from and the first rank nearest
to the given matrix index. -/
theorem nearest_inner_loop (inp : input) (route2 : List Nat) (index_r1 : Nat)
    (hne : route2 ≠ []) (hM : ∀ a b : Nat, inp.matrix a b ≤ inp.cost_max) :
    is_first_argmin (fun r2 => inp.matrix index_r1 (job_index inp route2 r2))
      route2.length
      ((List.range' 0 route2.length).foldl (nearest_inner_step inp route2 index_r1)
        ⟨inp.cost_max, inp.cost_max, 0, 0⟩).best_from_rank ∧
    is_first_argmin (fun r2 => inp.matrix (job_index inp route2 r2) index_r1)
      route2.length
      ((List.range' 0 route2.length).foldl (nearest_inner_step inp route2 index_r1)
        ⟨inp.cost_max, inp.cost_max, 0, 0⟩).best_to_rank := by
  have hpos : 0 < route2.length := List.length_pos.mpr hne
  have key := foldl_range'_inv
    (fun (k : Nat) (acc : nearest_acc) =>
      scan_inv (fun r2 => inp.matrix index_r1 (job_index inp route2 r2)) inp.cost_max k
        acc.min_from acc.best_from_rank ∧
      scan_inv (fun r2 => inp.matrix (job_index inp route2 r2) index_r1) inp.cost_max k
        acc.min_to acc.best_to_rank)
    (nearest_inner_step inp route2 index_r1) route2.length 0
    ⟨inp.cost_max, inp.cost_max, 0, 0⟩
    ⟨scan_inv_init _ _, scan_inv_init _ _⟩
    (by
      intro k acc _ _ hP
      obtain ⟨p1, p2, p3, p4⟩ := nearest_inner_step_proj inp route2 index_r1 acc k
      rw [p1, p2, p3, p4]
      exact ⟨scan_inv_step _ _ _ _ _ hP.1 (hM _ _), scan_inv_step _ _ _ _ _ hP.2 (hM _ _)⟩)
  rw [Nat.zero_add] at key
  exact ⟨scan_inv_final _ _ _ _ _ key.1 hpos, scan_inv_final _ _ _ _ _ key.2 hpos⟩

/-- C7: for a non-empty `R[v2]` (the matrix entries being values of `cost_t`,
hence at most its maximum), after `update_nearest_job_rank_in_routes(v1, v2)`
both tables have length `|R[v1]|`, and for every rank `r1` of `R[v1]` the entry
`NF[v1][v2][r1]` is the smallest rank `r2` of `R[v2]` minimising
`M[job(v1,r1)][job(v2,r2)]` and `NT[v1][v2][r1]` the smallest rank minimising
`M[job(v2,r2)][job(v1,r1)]`. -/
theorem update_nearest_job_rank_in_routes_argmin (inp : input) (v1 v2 : Nat)
    (st : ls_state) (hne : st.sol v2 ≠ [])
    (hM : ∀ a b : Nat, inp.matrix a b ≤ inp.cost_max) :
    ((update_nearest_job_rank_in_routes inp v1 v2 st).nearest_job_rank_in_routes_from
        v1 v2).length = (st.sol v1).length ∧
    ((update_nearest_job_rank_in_routes inp v1 v2 st).nearest_job_rank_in_routes_to
        v1 v2).length = (st.sol v1).length ∧
    ∀ r1 : Nat, r1 < (st.sol v1).length →
      is_first_argmin
        (fun r2 => inp.matrix (job_index inp (st.sol v1) r1) (job_index inp (st.sol v2) r2))
        (st.sol v2).length
        (((update_nearest_job_rank_in_routes inp v1 v2 st).nearest_job_rank_in_routes_from
          v1 v2).getD r1 0) ∧
      is_first_argmin
        (fun r2 => inp.matrix (job_index inp (st.sol v2) r2) (job_index inp (st.sol v1) r1))
        (st.sol v2).length
        (((update_nearest_job_rank_in_routes inp v1 v2 st).nearest_job_rank_in_routes_to
          v1 v2).getD r1 0) := by
  have key := foldl_range'_inv
    (fun (k : Nat) (tabs : List Nat × List Nat) =>
      tabs.1.length = (st.sol v1).length ∧ tabs.2.length = (st.sol v1).length ∧
      ∀ r1 : Nat, r1 < k →
        is_first_argmin
          (fun r2 => inp.matrix (job_index inp (st.sol v1) r1)
            (job_index inp (st.sol v2) r2))
          (st.sol v2).length (tabs.1.getD r1 0) ∧
        is_first_argmin
          (fun r2 => inp.matrix (job_index inp (st.sol v2) r2)
            (job_index inp (st.sol v1) r1))
          (st.sol v2).length (tabs.2.getD r1 0))
    (nearest_outer_step inp (st.sol v1) (st.sol v2)) (st.sol v1).length 0
    (List.replicate (st.sol v1).length 0, List.replicate (st.sol v1).length 0)
    (by
      refine ⟨by simp, by simp, ?_⟩
      intro r1 hr1; omega)
    (by
      intro k tabs _ hk2 hP
      obtain ⟨h1, h2, h3⟩ := hP
      obtain ⟨hf, ht⟩ := nearest_inner_loop inp (st.sol v2)
        (job_index inp (st.sol v1) k) hne hM
      simp only [nearest_outer_step]
      refine ⟨by simp [h1], by simp [h2], ?_⟩
      intro r1 hr1
      by_cases hrk : r1 = k
      · subst hrk
        rw [getD_set_eq _ _ _ _ (by omega), getD_set_eq _ _ _ _ (by omega)]
        exact ⟨hf, ht⟩
      · rw [getD_set_ne _ _ _ _ _ (Ne.symm hrk), getD_set_ne _ _ _ _ _ (Ne.symm hrk)]
        exact h3 r1 (by omega))
  rw [Nat.zero_add] at key
  have e1 : (update_nearest_job_rank_in_routes inp v1 v2 st).nearest_job_rank_in_routes_from
      v1 v2 = ((List.range' 0 (st.sol v1).length).foldl
        (nearest_outer_step inp (st.sol v1) (st.sol v2))
        (List.replicate (st.sol v1).length 0, List.replicate (st.sol v1).length 0)).1 := by
    simp [update_nearest_job_rank_in_routes, upd]
  have e2 : (update_nearest_job_rank_in_routes inp v1 v2 st).nearest_job_rank_in_routes_to
      v1 v2 = ((List.range' 0 (st.sol v1).length).foldl
        (nearest_outer_step inp (st.sol v1) (st.sol v2))
        (List.replicate (st.sol v1).length 0, List.replicate (st.sol v1).length 0)).2 := by
    simp [update_nearest_job_rank_in_routes, upd]
  rw [e1, e2]
  exact key

theorem update_nearest_job_rank_in_routes_argmin_witness :
    ex_state_three.sol 1 ≠ [] ∧
    (∀ a b : Nat, ex_input.matrix a b ≤ ex_input.cost_max) ∧
    (((update_nearest_job_rank_in_routes ex_input 0 1
        ex_state_three).nearest_job_rank_in_routes_from 0 1).length =
      (ex_state_three.sol 0).length ∧
    ((update_nearest_job_rank_in_routes ex_input 0 1
        ex_state_three).nearest_job_rank_in_routes_to 0 1).length =
      (ex_state_three.sol 0).length ∧
    ∀ r1 : Nat, r1 < (ex_state_three.sol 0).length →
      is_first_argmin
        (fun r2 => ex_input.matrix (job_index ex_input (ex_state_three.sol 0) r1)
          (job_index ex_input (ex_state_three.sol 1) r2))
        (ex_state_three.sol 1).length
        (((update_nearest_job_rank_in_routes ex_input 0 1
          ex_state_three).nearest_job_rank_in_routes_from 0 1).getD r1 0) ∧
      is_first_argmin
        (fun r2 => ex_input.matrix (job_index ex_input (ex_state_three.sol 1) r2)
          (job_index ex_input (ex_state_three.sol 0) r1))
        (ex_state_three.sol 1).length
        (((update_nearest_job_rank_in_routes ex_input 0 1
          ex_state_three).nearest_job_rank_in_routes_to 0 1).getD r1 0)) :=
  ⟨by decide, ex_matrix_le,
    update_nearest_job_rank_in_routes_argmin ex_input 0 1 ex_state_three (by decide)
      ex_matrix_le⟩

/-! ## try_job_additions: the search of a round -/

/-- Invariant rule for a loop over the elements of a list. -/
theorem foldl_mem_inv {α β : Type} (P : β → Prop) (f : β → α → β) (l : List α) :
    ∀ b : β, P b → (∀ b x, x ∈ l → P b → P (f b x)) → P (l.foldl f b) := by
  induction l with
  | nil => intro b h0 _; simpa using h0
  | cons a l ih =>
    intro b h0 hstep
    rw [List.foldl_cons]
    exact ih (f b a) (hstep b a (List.mem_cons_self _ _) h0)
      (fun b x hx hP => hstep b x (List.mem_cons_of_mem _ hx) hP)

theorem rank_loop_recorded_ok (inp : input) (routes : List Nat) (st : ls_state)
    (v j : Nat) (hv : v ∈ routes) (hf : feasible_insertion inp st v j)
    (best : best_insertion) (hb : recorded_ok inp routes st best) :
    recorded_ok inp routes st
      ((List.range' 0 (st.sol v).length).foldl (rank_step inp st v j) best) := by
  have key := foldl_range'_inv
    (fun (_ : Nat) (b : best_insertion) => recorded_ok inp routes st b)
    (rank_step inp st v j) (st.sol v).length 0 best hb
    (by
      intro k b _ hk2 hP
      unfold rank_step
      by_cases hlt : insertion_cost inp v (st.sol v) j k < b.best_cost
      · simp only [hlt, if_true]
        intro _
        exact ⟨hv, hf, by simpa using hk2⟩
      · simp only [hlt, if_false]
        exact hP)
  exact key

theorem job_step_recorded_ok (inp : input) (routes : List Nat) (st : ls_state)
    (v j : Nat) (hv : v ∈ routes) (hj : j ∈ st.unassigned)
    (best : best_insertion) (hb : recorded_ok inp routes st best) :
    recorded_ok inp routes st (job_step inp st v (total_amount inp v st) best j) := by
  unfold job_step
  by_cases hc : (inp.vehicle_ok_with_job v j &&
      amount_le (amount_add (total_amount inp v st) (inp.jobs j).amount)
        (inp.vehicles v).capacity) = true
  · simp only [hc, if_true]
    rw [Bool.and_eq_true] at hc
    exact rank_loop_recorded_ok inp routes st v j hv ⟨hj, hc.1, hc.2⟩ best hb
  · simp only [hc]
    exact hb

/-- Whenever the search of a round lowers `best_cost`, what it recorded is an
unassigned job, a candidate route it may join within capacity, and a rank
strictly below the length of that route. -/
theorem find_best_insertion_recorded_ok (inp : input) (routes : List Nat)
    (st : ls_state) :
    recorded_ok inp routes st (find_best_insertion inp routes st) := by
  unfold find_best_insertion
  refine foldl_mem_inv (recorded_ok inp routes st) (route_step inp st) routes _ ?_ ?_
  · intro h
    exact absurd h (lt_irrefl _)
  · intro b v hv hb
    unfold route_step
    refine foldl_mem_inv (recorded_ok inp routes st) _ st.unassigned b hb ?_
    intro b2 j hj hb2
    exact job_step_recorded_ok inp routes st v j hv hj b2 hb2

/-- Invariant rule for `try_job_additions`: with more rounds allowed than
there are unassigned jobs the loop returns, any property kept by every
insertion holds on return, and the last round finds nothing. -/
theorem try_job_additions_inv (inp : input) (routes : List Nat)
    (P : ls_state → Prop)
    (hstep : ∀ st, P st →
      (find_best_insertion inp routes st).best_cost < inp.gain_max →
      P (add_job inp st (find_best_insertion inp routes st))) :
    ∀ (fuel : Nat) (st : ls_state), st.unassigned.length < fuel → P st →
      ∃ st', try_job_additions inp routes fuel st = some st' ∧ P st' ∧
        ¬ (find_best_insertion inp routes st').best_cost < inp.gain_max := by
  intro fuel
  induction fuel with
  | zero => intro st h _; omega
  | succ fuel ih =>
    intro st hfuel hP
    unfold try_job_additions
    by_cases hadd : (find_best_insertion inp routes st).best_cost < inp.gain_max
    · simp only [hadd, decide_True, if_true]
      have hrec := find_best_insertion_recorded_ok inp routes st hadd
      have hmem : (find_best_insertion inp routes st).best_job ∈ st.unassigned :=
        hrec.2.1.1
      have hlen : (add_job inp st (find_best_insertion inp routes st)).unassigned.length <
          fuel := by
        simp only [add_job]
        rw [List.length_erase_of_mem hmem]
        have : 0 < st.unassigned.length := List.length_pos_of_mem hmem
        omega
      exact ih _ hlen (hstep st hP hadd)
    · simp only [hadd, decide_False]
      exact ⟨st, rfl, hP, hadd⟩

/-! ## try_job_additions: the insertion -/

theorem insertIdx_eq_take_drop {α : Type} (x : α) :
    ∀ (k : Nat) (l : List α), k ≤ l.length →
      l.insertIdx k x = l.take k ++ x :: l.drop k := by
  intro k
  induction k with
  | zero => intro l _; simp
  | succ k ih =>
    intro l h
    cases l with
    | nil => simp at h
    | cons a l =>
      simp only [List.insertIdx_succ_cons, List.take_succ_cons, List.drop_succ_cons,
        List.cons_append]
      rw [ih l (by simpa using h)]

theorem amount_add_right_comm (z a b : amount_t) :
    amount_add (amount_add z a) b = amount_add (amount_add z b) a := by
  unfold amount_add
  induction z generalizing a b with
  | nil => simp
  | cons x z ih =>
    cases a with
    | nil => cases b <;> simp
    | cons y a =>
      cases b with
      | nil => simp
      | cons w b =>
        simp only [List.zipWith_cons_cons]
        rw [ih a b, add_right_comm]

theorem foldl_amount_add_cons (l : List amount_t) :
    ∀ (z a : amount_t),
      l.foldl amount_add (amount_add z a) = amount_add (l.foldl amount_add z) a := by
  induction l with
  | nil => intro z a; rfl
  | cons b l ih =>
    intro z a
    rw [List.foldl_cons, List.foldl_cons, amount_add_right_comm, ih]

theorem foldl_amount_add_middle (pre post : List amount_t) (z a : amount_t) :
    (pre ++ a :: post).foldl amount_add z =
      amount_add ((pre ++ post).foldl amount_add z) a := by
  rw [List.foldl_append, List.foldl_cons, foldl_amount_add_cons, List.foldl_append]

/-- Inserting a job into a route adds its demand to the demand of the route. -/
theorem route_demand_insertIdx (inp : input) (route : List Nat) (k j : Nat)
    (hk : k ≤ route.length) :
    route_demand inp (route.insertIdx k j) =
      amount_add (route_demand inp route) (inp.jobs j).amount := by
  rw [insertIdx_eq_take_drop j k route hk]
  unfold route_demand
  rw [List.map_append, List.map_cons, foldl_amount_add_middle, ← List.map_append,
    List.take_append_drop]

/-- The update of the cumulative loads made by an insertion strictly inside
the vector adds the demand of the job to its last element. -/
theorem getLast?_amounts_insert (A : List amount_t) (k : Nat) (x : amount_t)
    (hk : k < A.length) :
    ((A.insertIdx k x).take (k + 1) ++
      ((A.insertIdx k x).drop (k + 1)).map (fun a => amount_add a x)).getLast? =
      A.getLast?.map (fun a => amount_add a x) := by
  rw [insertIdx_eq_take_drop x k A (by omega)]
  have hd : (A.take k ++ x :: A.drop k).drop (k + 1) = A.drop k := by
    rw [List.drop_append_eq_append_drop]
    have h1 : (A.take k).length = k := by simp; omega
    simp [h1]
  rw [hd]
  have hne : (A.drop k).map (fun a => amount_add a x) ≠ [] := by
    intro h
    have := congrArg List.length h
    simp at this
    omega
  rw [List.getLast?_append_of_ne_nil _ hne, List.getLast?_map, List.getLast?_drop]
  have : ¬ A.length ≤ k := by omega
  simp only [this, if_false]

theorem length_amounts_insert (A : List amount_t) (k : Nat) (x : amount_t)
    (hk : k < A.length) :
    ((A.insertIdx k x).take (k + 1) ++
      ((A.insertIdx k x).drop (k + 1)).map (fun a => amount_add a x)).length =
      A.length + 1 := by
  have hl : (A.insertIdx k x).length = A.length + 1 :=
    List.length_insertIdx _ _ (by omega)
  simp only [List.length_append, List.length_take, List.length_map, List.length_drop, hl]
  omega

theorem add_job_sol (inp : input) (st : ls_state) (best : best_insertion) (w : Nat) :
    (add_job inp st best).sol w =
      if w = best.best_route then
        (st.sol best.best_route).insertIdx best.best_rank best.best_job
      else st.sol w := by
  simp [add_job, upd]

theorem add_job_total_amount_other (inp : input) (st : ls_state)
    (best : best_insertion) (w : Nat) (hw : w ≠ best.best_route) :
    total_amount inp w (add_job inp st best) = total_amount inp w st := by
  simp [add_job, upd, total_amount, hw]

theorem add_job_amounts_length (inp : input) (st : ls_state) (best : best_insertion)
    (hk : best.best_rank < (st.amounts best.best_route).length) :
    ((add_job inp st best).amounts best.best_route).length =
      (st.amounts best.best_route).length + 1 := by
  have := length_amounts_insert (st.amounts best.best_route) best.best_rank
    (inp.jobs best.best_job).amount hk
  simpa [add_job, upd] using this

/-- After an insertion strictly inside the route, `total_amount` of the route
is its former value plus the demand of the job. -/
theorem add_job_total_amount (inp : input) (st : ls_state) (best : best_insertion)
    (hk : best.best_rank < (st.amounts best.best_route).length) :
    total_amount inp best.best_route (add_job inp st best) =
      amount_add (total_amount inp best.best_route st) (inp.jobs best.best_job).amount := by
  have h := getLast?_amounts_insert (st.amounts best.best_route) best.best_rank
    (inp.jobs best.best_job).amount hk
  have hne : st.amounts best.best_route ≠ [] := by
    intro h0
    rw [h0] at hk
    simp at hk
  obtain ⟨back, hback⟩ : ∃ back, (st.amounts best.best_route).getLast? = some back := by
    rw [List.getLast?_eq_getLast _ hne]
    exact ⟨_, rfl⟩
  have e : (add_job inp st best).amounts best.best_route =
      ((st.amounts best.best_route).insertIdx best.best_rank
          (inp.jobs best.best_job).amount).take (best.best_rank + 1) ++
        (((st.amounts best.best_route).insertIdx best.best_rank
          (inp.jobs best.best_job).amount).drop (best.best_rank + 1)).map
          (fun a => amount_add a (inp.jobs best.best_job).amount) := by
    simp [add_job, upd]
  unfold total_amount
  rw [e, h, hback]
  rfl

theorem add_job_amounts_other (inp : input) (st : ls_state) (best : best_insertion)
    (w : Nat) (hw : w ≠ best.best_route) :
    (add_job inp st best).amounts w = st.amounts w := by
  simp [add_job, upd, hw]

theorem last_of_prefix_sums (inp : input) (route : List Nat) (A : List amount_t)
    (hl : A.length = route.length)
    (hg : ∀ i : Nat, i < route.length →
      A.getD i [] = route_demand inp (route.take (i + 1))) :
    (match A.getLast? with
      | some back => back
      | none => amount_zero inp.amount_size) = route_demand inp route := by
  by_cases hn : route = []
  · have h0 : A.length = 0 := by rw [hl, hn]; rfl
    rw [List.length_eq_zero.mp h0, hn]
    simp [route_demand]
  · have hpos : 0 < route.length := List.length_pos.mpr hn
    have hne : A ≠ [] := by
      intro h
      rw [h] at hl
      simp at hl
      omega
    rw [getLast?_eq_getD _ [] hne, hl, hg _ (by omega)]
    have e2 : route.length - 1 + 1 = route.length := by omega
    simp only [e2, List.take_length]

/-- One insertion keeps: the load cache of every candidate route as long as
the route with the route demand as its last element, every job eligible for
its vehicle, and every route demand within capacity. -/
theorem add_job_keeps_feasibility (inp : input) (routes : List Nat) (st : ls_state)
    (hP : (∀ v ∈ routes, (st.amounts v).length = (st.sol v).length ∧
        total_amount inp v st = route_demand inp (st.sol v)) ∧
      (∀ v : Nat, ∀ j ∈ st.sol v, inp.vehicle_ok_with_job v j = true) ∧
      (∀ v : Nat,
        amount_le (route_demand inp (st.sol v)) (inp.vehicles v).capacity = true))
    (hadd : (find_best_insertion inp routes st).best_cost < inp.gain_max) :
    (∀ v ∈ routes,
        ((add_job inp st (find_best_insertion inp routes st)).amounts v).length =
          ((add_job inp st (find_best_insertion inp routes st)).sol v).length ∧
        total_amount inp v (add_job inp st (find_best_insertion inp routes st)) =
          route_demand inp ((add_job inp st (find_best_insertion inp routes st)).sol v)) ∧
      (∀ v : Nat, ∀ j ∈ (add_job inp st (find_best_insertion inp routes st)).sol v,
        inp.vehicle_ok_with_job v j = true) ∧
      (∀ v : Nat,
        amount_le
          (route_demand inp ((add_job inp st (find_best_insertion inp routes st)).sol v))
          (inp.vehicles v).capacity = true) := by
  obtain ⟨hA, hE, hC⟩ := hP
  obtain ⟨hroute, ⟨_, hok, hfits⟩, hrank⟩ :=
    find_best_insertion_recorded_ok inp routes st hadd
  generalize find_best_insertion inp routes st = b at hroute hok hfits hrank ⊢
  obtain ⟨hAl, hAt⟩ := hA b.best_route hroute
  have hrankA : b.best_rank < (st.amounts b.best_route).length := by omega
  have hdem : route_demand inp ((st.sol b.best_route).insertIdx b.best_rank b.best_job) =
      amount_add (total_amount inp b.best_route st) (inp.jobs b.best_job).amount := by
    rw [route_demand_insertIdx inp _ _ _ (by omega), hAt]
  refine ⟨?_, ?_, ?_⟩
  · intro v hv
    by_cases hvb : v = b.best_route
    · subst hvb
      rw [add_job_amounts_length inp st b hrankA, add_job_total_amount inp st b hrankA,
        add_job_sol, if_pos rfl, List.length_insertIdx _ _ (by omega), hdem]
      exact ⟨by omega, rfl⟩
    · rw [add_job_amounts_other inp st b v hvb, add_job_total_amount_other inp st b v hvb,
        add_job_sol, if_neg hvb]
      exact hA v hv
  · intro v j hj
    rw [add_job_sol] at hj
    by_cases hvb : v = b.best_route
    · subst hvb
      rw [if_pos rfl] at hj
      rcases (List.mem_insertIdx (by omega)).mp hj with h | h
      · rw [h]; exact hok
      · exact hE _ j h
    · rw [if_neg hvb] at hj
      exact hE v j hj
  · intro v
    rw [add_job_sol]
    by_cases hvb : v = b.best_route
    · subst hvb
      rw [if_pos rfl, hdem]
      exact hfits
    · rw [if_neg hvb]
      exact hC v

/-- C8: `try_job_additions` preserves feasibility. If on entry `amounts[v]`
holds the prefix sums of `R[v]` for every candidate route, every job of every
route is eligible for its vehicle and the demand of every route is within the
capacity component by component, then (allowing more rounds than there are
unassigned jobs) the function returns and every route still satisfies
eligibility and capacity. -/
theorem try_job_additions_preserves_feasibility (inp : input) (routes : List Nat)
    (st : ls_state) (fuel : Nat)
    (hamounts : ∀ v ∈ routes, (st.amounts v).length = (st.sol v).length ∧
      ∀ i : Nat, i < (st.sol v).length →
        (st.amounts v).getD i [] = route_demand inp ((st.sol v).take (i + 1)))
    (helig : ∀ v : Nat, ∀ j ∈ st.sol v, inp.vehicle_ok_with_job v j = true)
    (hcap : ∀ v : Nat,
      amount_le (route_demand inp (st.sol v)) (inp.vehicles v).capacity = true)
    (hfuel : st.unassigned.length < fuel) :
    ∃ st', try_job_additions inp routes fuel st = some st' ∧
      (∀ v : Nat, ∀ j ∈ st'.sol v, inp.vehicle_ok_with_job v j = true) ∧
      (∀ v : Nat,
        amount_le (route_demand inp (st'.sol v)) (inp.vehicles v).capacity = true) := by
  obtain ⟨st', hst, hP, _⟩ := try_job_additions_inv inp routes
    (fun s => (∀ v ∈ routes, (s.amounts v).length = (s.sol v).length ∧
        total_amount inp v s = route_demand inp (s.sol v)) ∧
      (∀ v : Nat, ∀ j ∈ s.sol v, inp.vehicle_ok_with_job v j = true) ∧
      (∀ v : Nat,
        amount_le (route_demand inp (s.sol v)) (inp.vehicles v).capacity = true))
    (fun s hs hadd => add_job_keeps_feasibility inp routes s hs hadd)
    fuel st hfuel
    ⟨fun v hv => ⟨(hamounts v hv).1,
        last_of_prefix_sums inp (st.sol v) (st.amounts v) (hamounts v hv).1
          (hamounts v hv).2⟩, helig, hcap⟩
  exact ⟨st', hst, hP.2.1, hP.2.2⟩

theorem ex_state_add_amounts :
    ∀ v ∈ [0, 1], (ex_state_add.amounts v).length = (ex_state_add.sol v).length ∧
      ∀ i : Nat, i < (ex_state_add.sol v).length →
        (ex_state_add.amounts v).getD i [] =
          route_demand ex_input ((ex_state_add.sol v).take (i + 1)) := by
  decide

theorem ex_state_add_capacity (v : Nat) :
    amount_le (route_demand ex_input (ex_state_add.sol v))
      (ex_input.vehicles v).capacity = true := by
  rcases v with _ | _ | _ | v <;> rfl

theorem try_job_additions_preserves_feasibility_witness :
    (∀ v ∈ [0, 1], (ex_state_add.amounts v).length = (ex_state_add.sol v).length ∧
      ∀ i : Nat, i < (ex_state_add.sol v).length →
        (ex_state_add.amounts v).getD i [] =
          route_demand ex_input ((ex_state_add.sol v).take (i + 1))) ∧
    (∀ v : Nat, ∀ j ∈ ex_state_add.sol v, ex_input.vehicle_ok_with_job v j = true) ∧
    (∀ v : Nat, amount_le (route_demand ex_input (ex_state_add.sol v))
      (ex_input.vehicles v).capacity = true) ∧
    ex_state_add.unassigned.length < 3 ∧
    ∃ st', try_job_additions ex_input [0, 1] 3 ex_state_add = some st' ∧
      (∀ v : Nat, ∀ j ∈ st'.sol v, ex_input.vehicle_ok_with_job v j = true) ∧
      (∀ v : Nat, amount_le (route_demand ex_input (st'.sol v))
        (ex_input.vehicles v).capacity = true) :=
  ⟨ex_state_add_amounts, fun _ _ _ => rfl, ex_state_add_capacity, by decide,
    try_job_additions_preserves_feasibility ex_input [0, 1] ex_state_add 3
      ex_state_add_amounts (fun _ _ _ => rfl) ex_state_add_capacity (by decide)⟩

/-! ## try_job_additions: job conservation -/

theorem all_route_jobs_upd_ge (sol : Nat → List Nat) (r : Nat) (x : List Nat) :
    ∀ V : Nat, V ≤ r → all_route_jobs (upd sol r x) V = all_route_jobs sol V := by
  intro V
  induction V with
  | zero => intro _; rfl
  | succ V ih =>
    intro h
    have hne : V ≠ r := by omega
    simp only [all_route_jobs, upd, hne, if_false]
    have := ih (by omega)
    simp only [upd] at this
    rw [this]

theorem all_route_jobs_upd (sol : Nat → List Nat) (r a : Nat) (x : List Nat)
    (hx : x.Perm (a :: sol r)) :
    ∀ V : Nat, r < V → (all_route_jobs (upd sol r x) V).Perm (a :: all_route_jobs sol V) := by
  intro V
  induction V with
  | zero => intro h; omega
  | succ V ih =>
    intro h
    by_cases hr : r = V
    · subst hr
      have e1 : upd sol r x r = x := by simp [upd]
      simp only [all_route_jobs]
      rw [all_route_jobs_upd_ge sol r x r (le_refl _), e1]
      exact (List.Perm.append_left _ hx).trans List.perm_middle
    · have e1 : upd sol r x V = sol V := by
        have : V ≠ r := fun h => hr h.symm
        simp [upd, this]
      simp only [all_route_jobs]
      rw [e1]
      exact List.Perm.append_right _ (ih (by omega))

theorem mem_all_route_jobs (sol : Nat → List Nat) (j : Nat) :
    ∀ V : Nat, j ∈ all_route_jobs sol V ↔ ∃ v : Nat, v < V ∧ j ∈ sol v := by
  intro V
  induction V with
  | zero => simp [all_route_jobs]
  | succ V ih =>
    simp only [all_route_jobs, List.mem_append, ih]
    constructor
    · rintro (⟨v, hv, hj⟩ | hj)
      · exact ⟨v, by omega, hj⟩
      · exact ⟨V, by omega, hj⟩
    · rintro ⟨v, hv, hj⟩
      by_cases hvV : v = V
      · subst hvV; exact Or.inr hj
      · exact Or.inl ⟨v, by omega, hj⟩

theorem nodup_all_route_jobs (sol : Nat → List Nat) :
    ∀ V : Nat, (all_route_jobs sol V).Nodup →
      (∀ v : Nat, v < V → (sol v).Nodup) ∧
      (∀ v w : Nat, v < V → w < V → v ≠ w → ∀ j : Nat, j ∈ sol v → j ∉ sol w) := by
  intro V
  induction V with
  | zero =>
    intro _
    exact ⟨fun v hv => by omega, fun v w hv => by omega⟩
  | succ V ih =>
    intro h
    simp only [all_route_jobs] at h
    obtain ⟨h1, h2, h3⟩ := List.nodup_append.mp h
    obtain ⟨ih1, ih2⟩ := ih h1
    refine ⟨?_, ?_⟩
    · intro v hv
      by_cases hvV : v = V
      · subst hvV; exact h2
      · exact ih1 v (by omega)
    · intro v w hv hw hvw j hjv hjw
      by_cases hvV : v = V
      · subst hvV
        have : j ∈ all_route_jobs sol v :=
          (mem_all_route_jobs sol j v).mpr ⟨w, by omega, hjw⟩
        exact List.disjoint_left.mp h3 this hjv
      · by_cases hwV : w = V
        · subst hwV
          have : j ∈ all_route_jobs sol w :=
            (mem_all_route_jobs sol j w).mpr ⟨v, by omega, hjv⟩
          exact List.disjoint_left.mp h3 this hjw
        · exact ih2 v w (by omega) (by omega) hvw j hjv hjw

/-- One insertion moves one job from the unassigned jobs to a route: the
jobs of the unassigned list and of the routes stay the same multiset. -/
theorem add_job_conserves_jobs (inp : input) (routes : List Nat) (st : ls_state)
    (hroutes : ∀ v ∈ routes, v < inp.nb_vehicles)
    (hadd : (find_best_insertion inp routes st).best_cost < inp.gain_max) :
    ((add_job inp st (find_best_insertion inp routes st)).unassigned ++
      all_route_jobs (add_job inp st (find_best_insertion inp routes st)).sol
        inp.nb_vehicles).Perm
      (st.unassigned ++ all_route_jobs st.sol inp.nb_vehicles) ∧
    (∀ j ∈ (add_job inp st (find_best_insertion inp routes st)).unassigned,
      j ∈ st.unassigned) ∧
    (∀ v j : Nat, j ∈ st.sol v →
      j ∈ (add_job inp st (find_best_insertion inp routes st)).sol v) := by
  obtain ⟨hroute, ⟨hmem, _, _⟩, hrank⟩ :=
    find_best_insertion_recorded_ok inp routes st hadd
  generalize find_best_insertion inp routes st = b at hroute hmem hrank ⊢
  refine ⟨?_, ?_, ?_⟩
  · have h1 : (all_route_jobs (add_job inp st b).sol inp.nb_vehicles).Perm
        (b.best_job :: all_route_jobs st.sol inp.nb_vehicles) :=
      all_route_jobs_upd st.sol b.best_route b.best_job _
        (List.perm_insertIdx _ _ (by omega)) inp.nb_vehicles (hroutes _ hroute)
    have h2 : (b.best_job :: st.unassigned.erase b.best_job).Perm st.unassigned :=
      (List.perm_cons_erase hmem).symm
    have h3 : ((add_job inp st b).unassigned ++
        all_route_jobs (add_job inp st b).sol inp.nb_vehicles).Perm
        (st.unassigned.erase b.best_job ++
          b.best_job :: all_route_jobs st.sol inp.nb_vehicles) :=
      List.Perm.append_left _ h1
    exact h3.trans (List.perm_middle.trans (List.Perm.append_right _ h2))
  · intro j hj
    exact List.mem_of_mem_erase hj
  · intro v j hj
    rw [add_job_sol]
    by_cases hvb : v = b.best_route
    · subst hvb
      rw [if_pos rfl]
      exact (List.mem_insertIdx (by omega)).mpr (Or.inr hj)
    · rw [if_neg hvb]; exact hj

/-- Once a loop over a list has reached a state satisfying `Q`, which the
body never leaves, and the body reaches `Q` at the element `x`, the loop ends
in `Q`. -/
theorem foldl_mem_found {α β : Type} (Q : β → Prop) (f : β → α → β) (l : List α)
    (x : α) (hx : x ∈ l) (hkeep : ∀ b y, Q b → Q (f b y)) (hat : ∀ b, Q (f b x)) :
    ∀ b : β, Q (l.foldl f b) := by
  induction l with
  | nil => exact absurd hx (List.not_mem_nil _)
  | cons a l ih =>
    intro b
    rw [List.foldl_cons]
    rcases List.mem_cons.mp hx with h | h
    · subst h
      exact foldl_mem_inv Q f l _ (hat b) (fun b y _ hb => hkeep b y hb)
    · exact ih h _

theorem rank_step_keeps_found (inp : input) (st : ls_state) (v j : Nat)
    (b : best_insertion) (r : Nat) (hb : b.best_cost < inp.gain_max) :
    (rank_step inp st v j b r).best_cost < inp.gain_max := by
  unfold rank_step
  by_cases hlt : insertion_cost inp v (st.sol v) j r < b.best_cost
  · simp only [hlt, if_true]; omega
  · simp only [hlt, if_false]; exact hb

theorem rank_loop_keeps_found (inp : input) (st : ls_state) (v j : Nat)
    (s len : Nat) (b : best_insertion) (hb : b.best_cost < inp.gain_max) :
    ((List.range' s len).foldl (rank_step inp st v j) b).best_cost < inp.gain_max :=
  foldl_range'_inv (fun (_ : Nat) (b : best_insertion) => b.best_cost < inp.gain_max)
    (rank_step inp st v j) len s b hb
    (fun k b _ _ hP => rank_step_keeps_found inp st v j b k hP)

theorem job_step_keeps_found (inp : input) (st : ls_state) (v : Nat)
    (v_amount : amount_t) (b : best_insertion) (j : Nat)
    (hb : b.best_cost < inp.gain_max) :
    (job_step inp st v v_amount b j).best_cost < inp.gain_max := by
  unfold job_step
  by_cases hc : (inp.vehicle_ok_with_job v j &&
      amount_le (amount_add v_amount (inp.jobs j).amount)
        (inp.vehicles v).capacity) = true
  · simp only [hc, if_true]
    exact rank_loop_keeps_found inp st v j _ _ b hb
  · simp only [hc]
    exact hb

/-- C9: `try_job_additions` preserves job conservation. If on entry the
unassigned jobs and the jobs of the routes of the `nb_vehicles` vehicles are,
together, each job index below `nb_jobs` exactly once, then (the candidate
routes being vehicle ranks, and allowing more rounds than there are unassigned
jobs) the function returns and this still holds; no job enters the unassigned
set, no job leaves its route, and every job inserted into a route was
unassigned on entry, is no longer unassigned, occurs once in that route and in
no other route. -/
theorem try_job_additions_conserves_jobs (inp : input) (routes : List Nat)
    (st : ls_state) (fuel : Nat)
    (hpart : (st.unassigned ++ all_route_jobs st.sol inp.nb_vehicles).Perm
      (List.range inp.nb_jobs))
    (hroutes : ∀ v ∈ routes, v < inp.nb_vehicles)
    (hfuel : st.unassigned.length < fuel) :
    ∃ st', try_job_additions inp routes fuel st = some st' ∧
      (st'.unassigned ++ all_route_jobs st'.sol inp.nb_vehicles).Perm
        (List.range inp.nb_jobs) ∧
      (∀ j ∈ st'.unassigned, j ∈ st.unassigned) ∧
      (∀ v j : Nat, j ∈ st.sol v → j ∈ st'.sol v) ∧
      (∀ v j : Nat, v < inp.nb_vehicles → j ∈ st'.sol v → j ∉ st.sol v →
        j ∈ st.unassigned ∧ j ∉ st'.unassigned ∧ (st'.sol v).count j = 1 ∧
        ∀ w : Nat, w < inp.nb_vehicles → w ≠ v → j ∉ st'.sol w) := by
  obtain ⟨st', hst, ⟨hperm, hU, hR⟩, _⟩ := try_job_additions_inv inp routes
    (fun s => (s.unassigned ++ all_route_jobs s.sol inp.nb_vehicles).Perm
        (st.unassigned ++ all_route_jobs st.sol inp.nb_vehicles) ∧
      (∀ j ∈ s.unassigned, j ∈ st.unassigned) ∧
      (∀ v j : Nat, j ∈ st.sol v → j ∈ s.sol v))
    (fun s hs hadd => by
      obtain ⟨h1, h2, h3⟩ := add_job_conserves_jobs inp routes s hroutes hadd
      exact ⟨h1.trans hs.1, fun j hj => hs.2.1 j (h2 j hj),
        fun v j hj => h3 v j (hs.2.2 v j hj)⟩)
    fuel st hfuel ⟨List.Perm.refl _, fun _ h => h, fun _ _ h => h⟩
  have hperm' := hperm.trans hpart
  have hnodup : (st'.unassigned ++ all_route_jobs st'.sol inp.nb_vehicles).Nodup :=
    hperm'.nodup_iff.mpr (List.nodup_range _)
  obtain ⟨_, hnR, hdisj⟩ := List.nodup_append.mp hnodup
  obtain ⟨hnv, hnvw⟩ := nodup_all_route_jobs st'.sol inp.nb_vehicles hnR
  refine ⟨st', hst, hperm', hU, hR, ?_⟩
  intro v j hv hj hnj
  have hjR : j ∈ all_route_jobs st'.sol inp.nb_vehicles :=
    (mem_all_route_jobs _ j _).mpr ⟨v, hv, hj⟩
  have hother : ∀ w : Nat, w < inp.nb_vehicles → w ≠ v → j ∉ st'.sol w :=
    fun w hw hwv => hnvw v w hv hw (Ne.symm hwv) j hj
  refine ⟨?_, ?_, List.count_eq_one_of_mem (hnv v hv) hj, hother⟩
  · have hin : j ∈ st.unassigned ++ all_route_jobs st.sol inp.nb_vehicles :=
      hperm.mem_iff.mp (List.mem_append_right _ hjR)
    rcases List.mem_append.mp hin with h | h
    · exact h
    · exfalso
      obtain ⟨w, hw, hjw⟩ := (mem_all_route_jobs _ j _).mp h
      by_cases hwv : w = v
      · subst hwv; exact hnj hjw
      · exact hother w hw hwv (hR w j hjw)
  · intro hjU
    exact List.disjoint_left.mp hdisj hjU hjR

theorem try_job_additions_conserves_jobs_witness :
    (ex_state_add.unassigned ++ all_route_jobs ex_state_add.sol ex_input.nb_vehicles).Perm
      (List.range ex_input.nb_jobs) ∧
    (∀ v ∈ [0, 1], v < ex_input.nb_vehicles) ∧
    ex_state_add.unassigned.length < 3 ∧
    ∃ st', try_job_additions ex_input [0, 1] 3 ex_state_add = some st' ∧
      (st'.unassigned ++ all_route_jobs st'.sol ex_input.nb_vehicles).Perm
        (List.range ex_input.nb_jobs) ∧
      (∀ j ∈ st'.unassigned, j ∈ ex_state_add.unassigned) ∧
      (∀ v j : Nat, j ∈ ex_state_add.sol v → j ∈ st'.sol v) ∧
      (∀ v j : Nat, v < ex_input.nb_vehicles → j ∈ st'.sol v → j ∉ ex_state_add.sol v →
        j ∈ ex_state_add.unassigned ∧ j ∉ st'.unassigned ∧ (st'.sol v).count j = 1 ∧
        ∀ w : Nat, w < ex_input.nb_vehicles → w ≠ v → j ∉ st'.sol w) :=
  ⟨by decide, by decide, by decide,
    try_job_additions_conserves_jobs ex_input [0, 1] ex_state_add 3 (by decide)
      (by decide) (by decide)⟩

/-- C10 (the code at the failing input): vehicle 3 is a candidate with an empty
route, job 0 is unassigned, vehicle 3 may serve it and its demand `[1]` fits the
capacity `[2]`; `try_job_additions` returns with the route still empty and the
job still unassigned, so a feasible insertion remains. -/
theorem try_job_additions_leaves_feasible_insertion :
    ∃ st', try_job_additions ex_input [3] 2 ex_state_empty = some st' ∧
      st'.sol 3 = [] ∧ st'.unassigned = [0] ∧ 3 ∈ [3] ∧
      feasible_insertion ex_input st' 3 0 :=
  ⟨ex_state_empty, rfl, rfl, rfl, by decide, by decide, rfl, rfl⟩

/-- On return from `try_job_additions` no feasible insertion remains into a
candidate route that is not empty (the costs being below the maximum of
`gain_t`). -/
theorem try_job_additions_exhausts_nonempty_routes (inp : input) (routes : List Nat)
    (st : ls_state) (fuel : Nat) (hfuel : st.unassigned.length < fuel)
    (hgain : ∀ (v j r : Nat) (route : List Nat),
      insertion_cost inp v route j r < inp.gain_max) :
    ∃ st', try_job_additions inp routes fuel st = some st' ∧
      ∀ v ∈ routes, ∀ j : Nat, st'.sol v ≠ [] → ¬ feasible_insertion inp st' v j := by
  obtain ⟨st', hst, _, hstop⟩ := try_job_additions_inv inp routes (fun _ => True)
    (fun _ _ _ => trivial) fuel st hfuel trivial
  refine ⟨st', hst, ?_⟩
  intro v hv j hne hfeas
  apply hstop
  unfold find_best_insertion
  refine foldl_mem_found (fun b : best_insertion => b.best_cost < inp.gain_max)
    (route_step inp st') routes v hv ?_ ?_ _
  · intro b x hb
    unfold route_step
    refine foldl_mem_inv (fun b : best_insertion => b.best_cost < inp.gain_max) _ _ b hb ?_
    intro b2 j2 _ hb2
    exact job_step_keeps_found inp st' x _ b2 j2 hb2
  · intro b
    unfold route_step
    refine foldl_mem_found (fun b : best_insertion => b.best_cost < inp.gain_max)
      _ st'.unassigned j hfeas.1 ?_ ?_ b
    · intro b2 j2 hb2
      exact job_step_keeps_found inp st' v _ b2 j2 hb2
    · intro b2
      unfold job_step
      have hc : (inp.vehicle_ok_with_job v j &&
          amount_le (amount_add (total_amount inp v st') (inp.jobs j).amount)
            (inp.vehicles v).capacity) = true := by
        rw [Bool.and_eq_true]; exact ⟨hfeas.2.1, hfeas.2.2⟩
      simp only [hc, if_true]
      have hpos : 0 < (st'.sol v).length := List.length_pos.mpr hne
      obtain ⟨n, hn⟩ : ∃ n, (st'.sol v).length = n + 1 := ⟨(st'.sol v).length - 1, by omega⟩
      rw [hn, List.range'_succ, List.foldl_cons]
      refine rank_loop_keeps_found inp st' v j _ _ _ ?_
      unfold rank_step
      by_cases hlt : insertion_cost inp v (st'.sol v) j 0 < b2.best_cost
      · simp only [hlt, if_true]; exact hgain _ _ _ _
      · simp only [hlt, if_false]
        have := hgain v j 0 (st'.sol v)
        omega

/-! ## Further facts on the gains, the route cost and the insertions -/

/-- C19: on a vehicle that has a start `s` and no end, for a route made of the
single job `j`, `set_node_gains` returns and stores
`node_gains[v][0] = M[s][index(j)]` and `node_candidates[v] = 0`. -/
theorem set_node_gains_open_end_single_job (inp : input) (v : Nat) (st : ls_state)
    (s j : Nat) (hs : (inp.vehicles v).start = some s)
    (he : (inp.vehicles v).end_ = none) (hr : st.sol v = [j]) :
    ∃ st', set_node_gains inp v st = some st' ∧
      st'.node_gains v = [inp.matrix s (inp.jobs j).index] ∧
      st'.node_candidates v = 0 := by
  refine ⟨{ st with
      node_gains := upd st.node_gains v [inp.matrix s (inp.jobs j).index]
      edge_costs_around_node :=
        upd st.edge_costs_around_node v [inp.matrix s (inp.jobs j).index]
      node_candidates := upd st.node_candidates v 0 }, ?_, ?_, ?_⟩
  · simp [set_node_gains, node_gains_of_route, node_first_costs, hr, hs, he, job_index]
  · simp [upd]
  · simp [upd]

theorem set_node_gains_open_end_single_job_witness :
    (ex_input.vehicles 1).start = some 0 ∧ (ex_input.vehicles 1).end_ = none ∧
    ex_state_single.sol 1 = [0] ∧
    ∃ st', set_node_gains ex_input 1 ex_state_single = some st' ∧
      st'.node_gains 1 = [ex_input.matrix 0 (ex_input.jobs 0).index] ∧
      st'.node_candidates 1 = 0 :=
  ⟨rfl, rfl, rfl,
    set_node_gains_open_end_single_job ex_input 1 ex_state_single 0 0 rfl rfl rfl⟩

/-- C14 (counterexample): every cost between two different positions is
3000000000 and vehicle 0, a closed tour on position 0, carries the jobs 0, 1.
The sum of the three legs is 9000000000; the function, which accumulates in an
`int` of 32 bits and returns a `cost_t` of 32 bits, returns 410065408. -/
theorem route_cost_for_vehicle_large_costs_counterexample :
    (∀ a b : Nat, 0 ≤ ex_input_large.matrix a b ∧
      ex_input_large.matrix a b ≤ ex_input_large.cost_max) ∧
    route_cost_sum ex_input_large 0 [0, 1] = 9000000000 ∧
    route_cost_for_vehicle ex_input_large 0 [0, 1] = 410065408 := by
  refine ⟨?_, by decide, by decide⟩
  intro a b
  show 0 ≤ (if a = b then (0 : Int) else 3000000000) ∧
    (if a = b then (0 : Int) else 3000000000) ≤ 4294967295
  by_cases h : a = b <;> simp [h]

/-- C14 (amended): when the cost of the route, as the specification words it
(0 on the empty route; on a non-empty route the sum of `M` over the
consecutive job pairs, plus `M[start][first job]` if the vehicle has a start,
plus `M[last job][end]` if it has an end, a missing leg contributing zero), is
between 0 and `2^32 - 1`, `route_cost_for_vehicle` returns it. -/
theorem route_cost_for_vehicle_formula (inp : input) (v : Nat) (route : List Nat)
    (h0 : 0 ≤ route_cost_sum inp v route)
    (h1 : route_cost_sum inp v route ≤ 4294967295) :
    route_cost_for_vehicle inp v route =
      (if route = [] then 0
        else
          (match (inp.vehicles v).start with
            | some s => inp.matrix s (job_index inp route 0)
            | none => 0) +
          ((List.range (route.length - 1)).map
            (fun i => inp.matrix (job_index inp route i)
              (job_index inp route (i + 1)))).sum +
          (match (inp.vehicles v).end_ with
            | some e => inp.matrix (job_index inp route (route.length - 1)) e
            | none => 0)) :=
  route_cost_of_fits inp v route h0 h1

theorem route_cost_for_vehicle_formula_witness :
    0 ≤ route_cost_sum ex_input 1 [2, 0, 1] ∧
    route_cost_sum ex_input 1 [2, 0, 1] ≤ 4294967295 ∧
    route_cost_sum ex_input 1 [2, 0, 1] = 11 ∧
    route_cost_for_vehicle ex_input 1 [2, 0, 1] =
      (if [2, 0, 1] = ([] : List Nat) then 0
        else
          (match (ex_input.vehicles 1).start with
            | some s => ex_input.matrix s (job_index ex_input [2, 0, 1] 0)
            | none => 0) +
          ((List.range ([2, 0, 1].length - 1)).map
            (fun i => ex_input.matrix (job_index ex_input [2, 0, 1] i)
              (job_index ex_input [2, 0, 1] (i + 1)))).sum +
          (match (ex_input.vehicles 1).end_ with
            | some e => ex_input.matrix (job_index ex_input [2, 0, 1] ([2, 0, 1].length - 1)) e
            | none => 0)) :=
  ⟨by decide, by decide, by decide,
    route_cost_for_vehicle_formula ex_input 1 [2, 0, 1] (by decide) (by decide)⟩

/-- C11 (the code at the failing input): vehicle 0 carries job 1 and is the only
candidate, jobs 0 and 2 are unassigned, both are eligible and fit. Inserting job
0 at rank 0 raises the route cost from 4 to 18, inserting job 2 at rank 0 raises
it to 10; the search records job 0, the dearest of the two, because it
minimises `old_edge_cost - previous_cost - next_cost` (-14 against -6), and
`try_job_additions` returns the route 0, 1. -/
theorem try_job_additions_inserts_dearest :
    (find_best_insertion ex_input [0] ex_state_cheap).best_job = 0 ∧
    (find_best_insertion ex_input [0] ex_state_cheap).best_route = 0 ∧
    (find_best_insertion ex_input [0] ex_state_cheap).best_rank = 0 ∧
    (find_best_insertion ex_input [0] ex_state_cheap).best_cost = -14 ∧
    insertion_cost ex_input 0 (ex_state_cheap.sol 0) 2 0 = -6 ∧
    feasible_insertion ex_input ex_state_cheap 0 0 ∧
    feasible_insertion ex_input ex_state_cheap 0 2 ∧
    route_cost_for_vehicle ex_input 0 [1] = 4 ∧
    route_cost_for_vehicle ex_input 0 [0, 1] = 18 ∧
    route_cost_for_vehicle ex_input 0 [2, 1] = 10 ∧
    ∃ st', try_job_additions ex_input [0] 3 ex_state_cheap = some st' ∧
      st'.sol 0 = [0, 1] ∧ st'.unassigned = [2] := by
  refine ⟨by decide, by decide, by decide, by decide, by decide,
    ⟨by decide, rfl, rfl⟩, ⟨by decide, rfl, rfl⟩, by decide, by decide, by decide,
    _, rfl, by decide, by decide⟩

/-- C12 (the code at the failing input): with capacity 3, vehicle 0 carries the
jobs 0, 1 with the loads `[1], [2]` and job 2 is unassigned. The job is inserted
at rank 1; the code writes the demand of the job alone at that rank, so the
cache becomes `[1], [1], [3]` while the demand of the first two jobs of the new
route is `[2]`. -/
theorem try_job_additions_breaks_prefix_sums :
    (∀ i : Nat, i < (ex_state_wide.sol 0).length →
      (ex_state_wide.amounts 0).getD i [] =
        route_demand ex_input_wide ((ex_state_wide.sol 0).take (i + 1))) ∧
    ∃ st', try_job_additions ex_input_wide [0] 2 ex_state_wide = some st' ∧
      st'.sol 0 = [0, 2, 1] ∧ st'.amounts 0 = [[1], [1], [3]] ∧
      route_demand ex_input_wide ((st'.sol 0).take (1 + 1)) = [2] ∧
      (st'.amounts 0).getD 1 [] ≠ route_demand ex_input_wide ((st'.sol 0).take (1 + 1)) := by
  refine ⟨by decide, _, rfl, by decide, by decide, by decide, by decide⟩

/-! ## run_tsp -/

/-- C13: `run_tsp` replaces `R[v]` by the result of the TSP solver exactly
when the route is not empty and the cost of the result under
`route_cost_for_vehicle` is strictly lower than the cost of the current route,
and otherwise leaves it unchanged; the other routes are unchanged; the cost of
`R[v]` never increases; and on an empty route the state is returned as it is,
whatever the solver. -/
theorem run_tsp_adopts_iff_cheaper (inp : input) (ext : externals)
    (route_rank nb_threads : Nat) (st : ls_state) :
    (run_tsp inp ext route_rank nb_threads st).sol route_rank =
      (if st.sol route_rank ≠ [] ∧
          route_cost_for_vehicle inp route_rank
              (ext.tsp_solve (st.sol route_rank) nb_threads) <
            route_cost_for_vehicle inp route_rank (st.sol route_rank)
        then ext.tsp_solve (st.sol route_rank) nb_threads
        else st.sol route_rank) ∧
    (∀ w : Nat, w ≠ route_rank →
      (run_tsp inp ext route_rank nb_threads st).sol w = st.sol w) ∧
    route_cost_for_vehicle inp route_rank
        ((run_tsp inp ext route_rank nb_threads st).sol route_rank) ≤
      route_cost_for_vehicle inp route_rank (st.sol route_rank) ∧
    (st.sol route_rank = [] →
      ∀ ext2 : externals, run_tsp inp ext2 route_rank nb_threads st = st) := by
  have hsol : (run_tsp inp ext route_rank nb_threads st).sol route_rank =
      (if st.sol route_rank ≠ [] ∧
          route_cost_for_vehicle inp route_rank
              (ext.tsp_solve (st.sol route_rank) nb_threads) <
            route_cost_for_vehicle inp route_rank (st.sol route_rank)
        then ext.tsp_solve (st.sol route_rank) nb_threads
        else st.sol route_rank) := by
    unfold run_tsp
    by_cases hn : st.sol route_rank = []
    · simp [hn]
    · have hpos : (st.sol route_rank).length > 0 := List.length_pos.mpr hn
      by_cases hlt : route_cost_for_vehicle inp route_rank
          (ext.tsp_solve (st.sol route_rank) nb_threads) <
          route_cost_for_vehicle inp route_rank (st.sol route_rank)
      · simp [hn, hpos, hlt, upd]
      · simp [hn, hpos, hlt]
  refine ⟨hsol, ?_, ?_, ?_⟩
  · intro w hw
    unfold run_tsp
    by_cases hpos : (st.sol route_rank).length > 0
    · by_cases hlt : route_cost_for_vehicle inp route_rank
          (ext.tsp_solve (st.sol route_rank) nb_threads) <
          route_cost_for_vehicle inp route_rank (st.sol route_rank)
      · simp [hpos, hlt, upd, hw]
      · simp [hpos, hlt]
    · simp [hpos]
  · rw [hsol]
    by_cases hc : st.sol route_rank ≠ [] ∧
        route_cost_for_vehicle inp route_rank
            (ext.tsp_solve (st.sol route_rank) nb_threads) <
          route_cost_for_vehicle inp route_rank (st.sol route_rank)
    · rw [if_pos hc]; exact le_of_lt hc.2
    · rw [if_neg hc]
  · intro hn ext2
    simp [run_tsp, hn]

/-! ## The unassigned jobs of the constructor -/

theorem mem_foldl_erase (l : List Nat) :
    ∀ u : List Nat, u.Nodup →
      (l.foldl (fun u i => u.erase i) u).Nodup ∧
      ∀ j : Nat, j ∈ l.foldl (fun u i => u.erase i) u ↔ j ∈ u ∧ j ∉ l := by
  induction l with
  | nil => intro u hu; simp [hu]
  | cons a l ih =>
    intro u hu
    rw [List.foldl_cons]
    obtain ⟨h1, h2⟩ := ih (u.erase a) (hu.erase a)
    refine ⟨h1, ?_⟩
    intro j
    rw [h2, hu.mem_erase_iff]
    simp only [List.mem_cons, not_or]
    tauto

theorem mem_foldl_routes_erase (sol : Nat → List Nat) (vs : List Nat) :
    ∀ u : List Nat, u.Nodup →
      (vs.foldl (fun u v => (sol v).foldl (fun u i => u.erase i) u) u).Nodup ∧
      ∀ j : Nat,
        j ∈ vs.foldl (fun u v => (sol v).foldl (fun u i => u.erase i) u) u ↔
          j ∈ u ∧ ∀ v ∈ vs, j ∉ sol v := by
  induction vs with
  | nil => intro u hu; simp [hu]
  | cons a vs ih =>
    intro u hu
    rw [List.foldl_cons]
    obtain ⟨g1, g2⟩ := mem_foldl_erase (sol a) u hu
    obtain ⟨h1, h2⟩ := ih _ g1
    refine ⟨h1, ?_⟩
    intro j
    rw [h2, g2]
    simp only [List.mem_cons, forall_eq_or_imp]
    tauto

/-- The first construction of the process (counter at 0) leaves as unassigned
exactly the job indices below `nb_jobs` that appear in no route. -/
theorem init_unassigned_first (inp : input) (sol : Nat → List Nat) (j : Nat) :
    j ∈ (init_unassigned 0 inp sol).1 ↔
      j < inp.nb_jobs ∧ ∀ v : Nat, v < inp.nb_vehicles → j ∉ sol v := by
  unfold init_unassigned
  simp only
  rw [(mem_foldl_routes_erase sol _ _ (List.nodup_range' 0 inp.nb_jobs)).2 j]
  simp [List.mem_range']

/-- C18 (the code at the failing input): three jobs, vehicle 0 carries job 0.
The first construction leaves the jobs 1, 2 unassigned and the counter of the
lambda at 3; the second construction from the same input starts from that
counter and leaves 3, 4, 5, which are not job indices, while job 0 is in a
route and jobs 1, 2 are in no route and not unassigned. -/
theorem init_unassigned_second_construction :
    (init_unassigned 0 ex_input ex_state_add.sol).1 = [1, 2] ∧
    (init_unassigned 0 ex_input ex_state_add.sol).2 = 3 ∧
    (init_unassigned (init_unassigned 0 ex_input ex_state_add.sol).2 ex_input
      ex_state_add.sol).1 = [3, 4, 5] := by
  decide

/-! ## The selection of the best gain -/

theorem selection_inv_step (V : Nat) (g : Nat → Nat → Int) (s t : Nat)
    (acc : selection) (h : selection_inv V g s t acc) (ht : t < V) :
    selection_inv V g s (t + 1) (select_step g s acc t) := by
  obtain ⟨h1, h2, h3⟩ := h
  unfold select_step
  by_cases hst : s = t
  · simp only [hst, if_true]
    refine ⟨h1, ?_, ?_⟩
    · intro s2 t2 ht2 hne hb
      apply h2 s2 t2 ht2 hne
      omega
    · rcases h3 with h3 | ⟨a, b, c, d, e⟩
      · exact Or.inl h3
      · exact Or.inr ⟨a, b, by omega, d, e⟩
  · simp only [hst, if_false]
    by_cases hgt : g s t > acc.best_gain
    · simp only [hgt, if_true]
      refine ⟨?_, ?_, Or.inr ⟨hst, ht, ?_, rfl, ?_⟩⟩
      · show 0 ≤ g s t
        omega
      · intro s2 t2 ht2 hne hb
        show g s2 t2 ≤ g s t
        by_cases heq : s2 = s ∧ t2 = t
        · rw [heq.1, heq.2]
        · have := h2 s2 t2 ht2 hne (by omega)
          omega
      · show s < s ∨ (s = s ∧ t < t + 1)
        omega
      · intro s2 t2 ht2 hne hb
        show g s2 t2 < g s t
        have := h2 s2 t2 ht2 hne hb
        omega
    · simp only [hgt, if_false]
      refine ⟨h1, ?_, ?_⟩
      · intro s2 t2 ht2 hne hb
        by_cases heq : s2 = s ∧ t2 = t
        · rw [heq.1, heq.2]; omega
        · exact h2 s2 t2 ht2 hne (by omega)
      · rcases h3 with h3 | ⟨a, b, c, d, e⟩
        · exact Or.inl h3
        · exact Or.inr ⟨a, b, by omega, d, e⟩

theorem selection_inv_row (V : Nat) (g : Nat → Nat → Int) (s : Nat)
    (acc : selection) (h : selection_inv V g s 0 acc) :
    selection_inv V g (s + 1) 0
      ((List.range' 0 V).foldl (select_step g s) acc) := by
  have key := foldl_range'_inv
    (fun (t : Nat) (acc : selection) => selection_inv V g s t acc)
    (select_step g s) V 0 acc h
    (fun t acc _ ht hP => selection_inv_step V g s t acc hP (by omega))
  rw [Nat.zero_add] at key
  obtain ⟨h1, h2, h3⟩ := key
  refine ⟨h1, ?_, ?_⟩
  · intro s2 t2 ht2 hne hb
    exact h2 s2 t2 ht2 hne (by omega)
  · rcases h3 with h3 | ⟨a, b, c, d, e⟩
    · exact Or.inl h3
    · exact Or.inr ⟨a, b, by omega, d, e⟩

/-- "Find best overall gain" returns the maximum of 0 and the gains of the
ordered pairs of distinct vehicles, with the first pair attaining it in the
order of the loops when it is positive. -/
theorem find_best_gain_char (V : Nat) (g : Nat → Nat → Int) :
    selection_inv V g V 0 (find_best_gain V g) := by
  have key := foldl_range'_inv
    (fun (s : Nat) (acc : selection) => selection_inv V g s 0 acc)
    (fun acc s_v => (List.range' 0 V).foldl (select_step g s_v) acc) V 0 ⟨0, 0, 0⟩
    (by
      refine ⟨le_refl _, ?_, Or.inl rfl⟩
      intro s2 t2 _ _ hb
      omega)
    (fun s acc _ _ hP => selection_inv_row V g s acc hP)
  rw [Nat.zero_add] at key
  exact key

/-- C20: in each regime, the selection over the gains left by the evaluation
yields `best_gain = max(0, max over the ordered pairs s ≠ t of best_gains[s][t])`;
when it is positive, `(best_source, best_target)` is the lexicographically
smallest ordered pair attaining it; when it is not positive the loop stops
there, with the routes, the caches and the unassigned jobs as they were. -/
theorem selection_yields_first_maximum (r : regime) (ext : externals) (inp : input)
    (ds : driver_state) (fuel : Nat) :
    0 ≤ (find_best_gain inp.nb_vehicles
      (evaluation_phase r ext inp ds.st ds.s_t_pairs ds.tables).best_gains).best_gain ∧
    (∀ s t : Nat, s < inp.nb_vehicles → t < inp.nb_vehicles → s ≠ t →
      (evaluation_phase r ext inp ds.st ds.s_t_pairs ds.tables).best_gains s t ≤
        (find_best_gain inp.nb_vehicles
          (evaluation_phase r ext inp ds.st ds.s_t_pairs ds.tables).best_gains).best_gain) ∧
    ((find_best_gain inp.nb_vehicles
        (evaluation_phase r ext inp ds.st ds.s_t_pairs ds.tables).best_gains).best_gain = 0 ∨
      ∃ s t : Nat, s < inp.nb_vehicles ∧ t < inp.nb_vehicles ∧ s ≠ t ∧
        (evaluation_phase r ext inp ds.st ds.s_t_pairs ds.tables).best_gains s t =
          (find_best_gain inp.nb_vehicles
            (evaluation_phase r ext inp ds.st ds.s_t_pairs ds.tables).best_gains).best_gain) ∧
    (0 < (find_best_gain inp.nb_vehicles
        (evaluation_phase r ext inp ds.st ds.s_t_pairs ds.tables).best_gains).best_gain →
      (find_best_gain inp.nb_vehicles
        (evaluation_phase r ext inp ds.st ds.s_t_pairs ds.tables).best_gains).best_source <
        inp.nb_vehicles ∧
      (find_best_gain inp.nb_vehicles
        (evaluation_phase r ext inp ds.st ds.s_t_pairs ds.tables).best_gains).best_target <
        inp.nb_vehicles ∧
      (find_best_gain inp.nb_vehicles
        (evaluation_phase r ext inp ds.st ds.s_t_pairs ds.tables).best_gains).best_source ≠
      (find_best_gain inp.nb_vehicles
        (evaluation_phase r ext inp ds.st ds.s_t_pairs ds.tables).best_gains).best_target ∧
      (evaluation_phase r ext inp ds.st ds.s_t_pairs ds.tables).best_gains
        (find_best_gain inp.nb_vehicles
          (evaluation_phase r ext inp ds.st ds.s_t_pairs ds.tables).best_gains).best_source
        (find_best_gain inp.nb_vehicles
          (evaluation_phase r ext inp ds.st ds.s_t_pairs ds.tables).best_gains).best_target =
        (find_best_gain inp.nb_vehicles
          (evaluation_phase r ext inp ds.st ds.s_t_pairs ds.tables).best_gains).best_gain ∧
      ∀ s t : Nat, s < inp.nb_vehicles → t < inp.nb_vehicles → s ≠ t →
        (evaluation_phase r ext inp ds.st ds.s_t_pairs ds.tables).best_gains s t =
          (find_best_gain inp.nb_vehicles
            (evaluation_phase r ext inp ds.st ds.s_t_pairs ds.tables).best_gains).best_gain →
        (find_best_gain inp.nb_vehicles
          (evaluation_phase r ext inp ds.st ds.s_t_pairs ds.tables).best_gains).best_source < s ∨
        ((find_best_gain inp.nb_vehicles
          (evaluation_phase r ext inp ds.st ds.s_t_pairs ds.tables).best_gains).best_source = s ∧
         (find_best_gain inp.nb_vehicles
          (evaluation_phase r ext inp ds.st ds.s_t_pairs ds.tables).best_gains).best_target ≤ t)) ∧
    (¬ 0 < (find_best_gain inp.nb_vehicles
        (evaluation_phase r ext inp ds.st ds.s_t_pairs ds.tables).best_gains).best_gain →
      run_regime r ext inp (fuel + 1) ds =
        some { ds with
          tables := evaluation_phase r ext inp ds.st ds.s_t_pairs ds.tables }) := by
  generalize hbt : evaluation_phase r ext inp ds.st ds.s_t_pairs ds.tables = bt
  obtain ⟨h1, h2, h3⟩ := find_best_gain_char inp.nb_vehicles bt.best_gains
  have hstop : ¬ 0 < (find_best_gain inp.nb_vehicles bt.best_gains).best_gain →
      run_regime r ext inp (fuel + 1) ds = some { ds with tables := bt } := by
    intro hn
    have hn2 : ¬ (find_best_gain inp.nb_vehicles bt.best_gains).best_gain > 0 := hn
    simp only [run_regime, hbt, hn2, if_false]
  generalize find_best_gain inp.nb_vehicles bt.best_gains = sel at h1 h2 h3 hstop
  refine ⟨h1, ?_, ?_, ?_, hstop⟩
  · intro s t hs ht hne
    exact h2 s t ht hne (Or.inl hs)
  · rcases h3 with h3 | ⟨a, b, c, d, _⟩
    · exact Or.inl h3
    · refine Or.inr ⟨sel.best_source, sel.best_target, ?_, b, a, d⟩
      omega
  · intro hpos
    rcases h3 with h3 | ⟨a, b, c, d, e⟩
    · omega
    · refine ⟨by omega, b, a, d, ?_⟩
      intro s t hs ht hne heq
      by_contra hcon
      have := e s t ht hne (by omega)
      omega

/-! ## The evaluation of a sweep -/

theorem evaluate_family_eq_trace (ext : externals) (st : ls_state)
    (cands : Nat → Nat → List ls_op) (pairs : List (Nat × Nat)) :
    ∀ bt : best_tables,
      evaluate_family ext st cands pairs bt =
        record_trace ext st bt (family_trace cands pairs) := by
  induction pairs with
  | nil => intro bt; rfl
  | cons p pairs ih =>
    intro bt
    unfold evaluate_family record_trace family_trace at ih ⊢
    rw [List.foldl_cons, List.flatMap_cons, List.foldl_append, ih, List.foldl_map]

theorem evaluation_phase_eq_trace (r : regime) (ext : externals) (inp : input)
    (st : ls_state) (pairs : List (Nat × Nat)) (bt : best_tables) :
    evaluation_phase r ext inp st pairs bt =
      record_trace ext st bt (evaluated r ext inp st pairs) := by
  unfold evaluation_phase evaluated
  simp only [evaluate_family_eq_trace]
  unfold record_trace
  simp only [List.foldl_append]

theorem record_candidate_unchanged (ext : externals) (st : ls_state) (s t : Nat)
    (bt : best_tables) (op : ls_op)
    (h : ¬ (ext.op_is_valid op st = true ∧ ext.op_gain op st > bt.best_gains s t)) :
    record_candidate ext st s t bt op = bt := by
  unfold record_candidate
  have : (ext.op_is_valid op st && decide (ext.op_gain op st > bt.best_gains s t)) = false := by
    rw [Bool.and_eq_false_iff]
    by_cases hv : ext.op_is_valid op st = true
    · right
      simpa using fun hg => h ⟨hv, hg⟩
    · left
      simpa using hv
  simp [this]

theorem record_candidate_recorded (ext : externals) (st : ls_state) (s t : Nat)
    (bt : best_tables) (op : ls_op)
    (hv : ext.op_is_valid op st = true) (hg : ext.op_gain op st > bt.best_gains s t) :
    (record_candidate ext st s t bt op).best_gains s t = ext.op_gain op st ∧
    (record_candidate ext st s t bt op).best_ops s t = some op := by
  unfold record_candidate
  simp [hv, hg, upd]

theorem record_candidate_other (ext : externals) (st : ls_state) (s t s2 t2 : Nat)
    (bt : best_tables) (op : ls_op) (h : ¬ (s2 = s ∧ t2 = t)) :
    (record_candidate ext st s2 t2 bt op).best_gains s t = bt.best_gains s t ∧
    (record_candidate ext st s2 t2 bt op).best_ops s t = bt.best_ops s t := by
  unfold record_candidate
  by_cases hc : (ext.op_is_valid op st &&
      decide (ext.op_gain op st > bt.best_gains s2 t2)) = true
  · simp only [hc, if_true, upd]
    by_cases hs : s = s2
    · have ht : t ≠ t2 := fun ht => h ⟨hs.symm, ht.symm⟩
      simp [upd, hs, ht]
    · simp [upd, hs]
  · simp [hc]

/-- What a sequence of tests leaves for the pair `(s, t)`: the gain never
decreases; it bounds the gain of every valid operator tested for the pair; and
either the pair is untouched, or the recorded operator is the first one tested
for the pair whose gain is the new, strictly greater, gain. -/
theorem record_trace_char (ext : externals) (st : ls_state) (s t : Nat)
    (trace : List (Nat × Nat × ls_op)) :
    ∀ bt : best_tables,
      bt.best_gains s t ≤ (record_trace ext st bt trace).best_gains s t ∧
      (∀ op ∈ candidates_of trace s t, ext.op_is_valid op st = true →
        ext.op_gain op st ≤ (record_trace ext st bt trace).best_gains s t) ∧
      (((record_trace ext st bt trace).best_gains s t = bt.best_gains s t ∧
          (record_trace ext st bt trace).best_ops s t = bt.best_ops s t) ∨
        ∃ (pre : List ls_op) (op : ls_op) (post : List ls_op),
          candidates_of trace s t = pre ++ op :: post ∧
          ext.op_is_valid op st = true ∧
          ext.op_gain op st = (record_trace ext st bt trace).best_gains s t ∧
          bt.best_gains s t < ext.op_gain op st ∧
          (∀ op2 ∈ pre, ext.op_is_valid op2 st = true →
            ext.op_gain op2 st < ext.op_gain op st) ∧
          (record_trace ext st bt trace).best_ops s t = some op) := by
  induction trace with
  | nil =>
    intro bt
    refine ⟨le_refl _, ?_, Or.inl ⟨rfl, rfl⟩⟩
    intro op hop
    simp [candidates_of] at hop
  | cons e trace ih =>
    obtain ⟨s2, t2, op0⟩ := e
    intro bt
    have hrt : record_trace ext st bt ((s2, t2, op0) :: trace) =
        record_trace ext st (record_candidate ext st s2 t2 bt op0) trace := rfl
    rw [hrt]
    obtain ⟨i1, i2, i3⟩ := ih (record_candidate ext st s2 t2 bt op0)
    by_cases hp : s2 = s ∧ t2 = t
    · obtain ⟨hs, ht⟩ := hp
      subst hs
      subst ht
      have hc : candidates_of ((s2, t2, op0) :: trace) s2 t2 =
          op0 :: candidates_of trace s2 t2 := by
        simp [candidates_of]
      rw [hc]
      by_cases hrec : ext.op_is_valid op0 st = true ∧
          ext.op_gain op0 st > bt.best_gains s2 t2
      · obtain ⟨r1, r2⟩ := record_candidate_recorded ext st s2 t2 bt op0 hrec.1 hrec.2
        rw [r1] at i1 i3
        rw [r2] at i3
        refine ⟨by omega, ?_, ?_⟩
        · intro op hop hv
          rcases List.mem_cons.mp hop with h | h
          · rw [h]; exact i1
          · exact i2 op h hv
        · right
          rcases i3 with ⟨a, b⟩ | ⟨pre, op, post, a, b, c, d, f, g⟩
          · exact ⟨[], op0, candidates_of trace s2 t2, rfl, hrec.1, a.symm, hrec.2,
              fun _ h => absurd h (List.not_mem_nil _), b⟩
          · refine ⟨op0 :: pre, op, post, by rw [a]; rfl, b, c, by omega, ?_, g⟩
            intro op2 hop2 hv2
            rcases List.mem_cons.mp hop2 with h | h
            · rw [h]; exact d
            · exact f op2 h hv2
      · rw [record_candidate_unchanged ext st s2 t2 bt op0 hrec] at i1 i2 i3 ⊢
        refine ⟨i1, ?_, ?_⟩
        · intro op hop hv
          rcases List.mem_cons.mp hop with h | h
          · rw [h] at hv ⊢
            have : ¬ ext.op_gain op0 st > bt.best_gains s2 t2 := fun hg => hrec ⟨hv, hg⟩
            omega
          · exact i2 op h hv
        · rcases i3 with h | ⟨pre, op, post, a, b, c, d, f, g⟩
          · exact Or.inl h
          · refine Or.inr ⟨op0 :: pre, op, post, by rw [a]; rfl, b, c, d, ?_, g⟩
            intro op2 hop2 hv2
            rcases List.mem_cons.mp hop2 with h | h
            · rw [h] at hv2 ⊢
              have : ¬ ext.op_gain op0 st > bt.best_gains s2 t2 :=
                fun hg => hrec ⟨hv2, hg⟩
              omega
            · exact f op2 h hv2
    · have hc : candidates_of ((s2, t2, op0) :: trace) s t = candidates_of trace s t := by
        simp only [candidates_of, List.filterMap_cons, hp, if_false]
      obtain ⟨o1, o2⟩ := record_candidate_other ext st s t s2 t2 bt op0 hp
      rw [hc]
      rw [o1] at i1 i3
      rw [o2] at i3
      exact ⟨i1, i2, i3⟩

/-- C22: during the evaluation of a sweep a tentative operator is recorded
only if it is valid and its gain is strictly greater than `best_gains[s][t]`;
so for every pair the gain never decreases and stays non-negative, an operator
with a gain of at most 0 is never recorded, and after the evaluation
`best_gains[s][t]` is the maximum of its former value and of the gains of the
valid operators tested for the pair, the recorded operator being the first
tested operator of the pair that attains this new maximum. -/
theorem evaluation_phase_records_first_maximum (r : regime) (ext : externals)
    (inp : input) (st : ls_state) (pairs : List (Nat × Nat)) (bt : best_tables)
    (s t : Nat) :
    (∀ (bt0 : best_tables) (s0 t0 : Nat) (op : ls_op),
      record_candidate ext st s0 t0 bt0 op ≠ bt0 →
        ext.op_is_valid op st = true ∧ ext.op_gain op st > bt0.best_gains s0 t0) ∧
    bt.best_gains s t ≤ (evaluation_phase r ext inp st pairs bt).best_gains s t ∧
    (0 ≤ bt.best_gains s t →
      0 ≤ (evaluation_phase r ext inp st pairs bt).best_gains s t) ∧
    (∀ op ∈ candidates_of (evaluated r ext inp st pairs) s t,
      ext.op_is_valid op st = true →
        ext.op_gain op st ≤ (evaluation_phase r ext inp st pairs bt).best_gains s t) ∧
    (((evaluation_phase r ext inp st pairs bt).best_gains s t = bt.best_gains s t ∧
        (evaluation_phase r ext inp st pairs bt).best_ops s t = bt.best_ops s t) ∨
      ∃ (pre : List ls_op) (op : ls_op) (post : List ls_op),
        candidates_of (evaluated r ext inp st pairs) s t = pre ++ op :: post ∧
        ext.op_is_valid op st = true ∧
        ext.op_gain op st = (evaluation_phase r ext inp st pairs bt).best_gains s t ∧
        bt.best_gains s t < ext.op_gain op st ∧
        (∀ op2 ∈ pre, ext.op_is_valid op2 st = true →
          ext.op_gain op2 st < ext.op_gain op st) ∧
        (evaluation_phase r ext inp st pairs bt).best_ops s t = some op) ∧
    (0 ≤ bt.best_gains s t →
      ∀ op : ls_op, (evaluation_phase r ext inp st pairs bt).best_ops s t = some op →
        (evaluation_phase r ext inp st pairs bt).best_ops s t ≠ bt.best_ops s t →
        0 < ext.op_gain op st) := by
  rw [evaluation_phase_eq_trace]
  obtain ⟨h1, h2, h3⟩ := record_trace_char ext st s t (evaluated r ext inp st pairs) bt
  refine ⟨?_, h1, fun h0 => le_trans h0 h1, h2, h3, ?_⟩
  · intro bt0 s0 t0 op hne
    by_contra hcon
    exact hne (record_candidate_unchanged ext st s0 t0 bt0 op hcon)
  · intro h0 op hop hchg
    rcases h3 with ⟨_, b⟩ | ⟨pre, op2, post, _, _, _, d, _, g⟩
    · exact absurd b hchg
    · rw [g] at hop
      cases hop
      omega

/-! ## The cost across a sweep -/

theorem sum_map_range_le (f g : Nat → Int) :
    ∀ V : Nat, (∀ v : Nat, v < V → f v ≤ g v) →
      ((List.range V).map f).sum ≤ ((List.range V).map g).sum := by
  intro V
  induction V with
  | zero => intro _; simp
  | succ V ih =>
    intro h
    rw [List.sum_range_succ, List.sum_range_succ]
    have h1 := ih (fun v hv => h v (by omega))
    have h2 := h V (by omega)
    omega

theorem total_cost_run_tsp_le (inp : input) (ext : externals)
    (route_rank nb_threads : Nat) (st : ls_state) :
    total_cost inp (run_tsp inp ext route_rank nb_threads st).sol ≤
      total_cost inp st.sol := by
  obtain ⟨_, h2, h3, _⟩ := run_tsp_adopts_iff_cheaper inp ext route_rank nb_threads st
  unfold total_cost
  apply sum_map_range_le
  intro v _
  by_cases hv : v = route_rank
  · subst hv; exact h3
  · rw [h2 v hv]

theorem move_before_additions_cost (ext : externals) (inp : input) (st : ls_state)
    (op : ls_op) (best_source best_target : Nat) :
    total_cost inp (move_before_additions ext inp st op best_source best_target).sol ≤
      total_cost inp (ext.op_apply op st).sol := by
  have e : (move_before_additions ext inp st op best_source best_target).sol =
      (run_tsp inp ext best_target 1 (run_tsp inp ext best_source 1
        (ext.op_apply op st))).sol := rfl
  rw [e]
  exact le_trans (total_cost_run_tsp_le inp ext best_target 1 _)
    (total_cost_run_tsp_le inp ext best_source 1 _)

/-- When `try_job_additions` returns with as many unassigned jobs as it was
given, it returns the state it was given. -/
theorem try_job_additions_no_insertion (inp : input) (routes : List Nat)
    (st : ls_state) (fuel : Nat) (hfuel : st.unassigned.length < fuel) :
    ∃ st', try_job_additions inp routes fuel st = some st' ∧
      (st'.unassigned.length = st.unassigned.length → st' = st) := by
  obtain ⟨st', hst, hP, _⟩ := try_job_additions_inv inp routes
    (fun s => s = st ∨ s.unassigned.length < st.unassigned.length)
    (fun s hs hadd => by
      right
      have hmem : (find_best_insertion inp routes s).best_job ∈ s.unassigned :=
        (find_best_insertion_recorded_ok inp routes s hadd).2.1.1
      have hlen : (add_job inp s (find_best_insertion inp routes s)).unassigned.length =
          s.unassigned.length - 1 := by
        simp only [add_job]
        exact List.length_erase_of_mem hmem
      have hpos : 0 < s.unassigned.length := List.length_pos_of_mem hmem
      rcases hs with h | h
      · rw [hlen, ← h]; omega
      · rw [hlen]; omega)
    fuel st hfuel (Or.inl rfl)
  refine ⟨st', hst, ?_⟩
  intro hlen
  rcases hP with h | h
  · exact h
  · omega

/-- C15 (counterexample): two vehicles; vehicle 1 (start 0, no end) carries
the jobs 0, 1, the route of vehicle 0 (start 0, end 3) is empty, job 2 is
unassigned; the total cost is 15. The exhaustive evaluation records for the
pair (1, 0) the Relocate of rank 0 to rank 0 with gain 2, the selection picks
it, applying it lowers the total cost by exactly 2, to 13, the solver leaves
the routes as they are, and `try_job_additions` then inserts job 2 into the
route of vehicle 1: after the sweep the total cost is 19. -/
theorem sweep_raises_cost_counterexample :
    total_cost ex_input_two ex_state_sweep.sol = 15 ∧
    (evaluation_phase regime.exhaustive (ex_ext ex_input_two) ex_input_two
      ex_state_sweep (all_pairs 2)
      (start_of_regime ex_input_two ex_state_sweep).tables).best_ops 1 0 =
      some ⟨op_kind.relocate, 1, 0, 0, 0⟩ ∧
    (find_best_gain 2
      (evaluation_phase regime.exhaustive (ex_ext ex_input_two) ex_input_two
        ex_state_sweep (all_pairs 2)
        (start_of_regime ex_input_two ex_state_sweep).tables).best_gains).best_gain = 2 ∧
    (find_best_gain 2
      (evaluation_phase regime.exhaustive (ex_ext ex_input_two) ex_input_two
        ex_state_sweep (all_pairs 2)
        (start_of_regime ex_input_two ex_state_sweep).tables).best_gains).best_source = 1 ∧
    (find_best_gain 2
      (evaluation_phase regime.exhaustive (ex_ext ex_input_two) ex_input_two
        ex_state_sweep (all_pairs 2)
        (start_of_regime ex_input_two ex_state_sweep).tables).best_gains).best_target = 0 ∧
    (ex_ext ex_input_two).op_gain ⟨op_kind.relocate, 1, 0, 0, 0⟩ ex_state_sweep = 2 ∧
    total_cost ex_input_two
      ((ex_ext ex_input_two).op_apply ⟨op_kind.relocate, 1, 0, 0, 0⟩ ex_state_sweep).sol =
      total_cost ex_input_two ex_state_sweep.sol - 2 ∧
    ∃ st', move_and_additions (ex_ext ex_input_two) ex_input_two ex_state_sweep
        ⟨op_kind.relocate, 1, 0, 0, 0⟩ 1 0 = some st' ∧
      st'.sol 0 = [0] ∧ st'.sol 1 = [2, 1] ∧ st'.unassigned = [] ∧
      total_cost ex_input_two st'.sol = 19 := by
  refine ⟨by decide, by decide, by decide, by decide, by decide, by decide, by decide,
    _, rfl, by decide, by decide, by decide, by decide⟩

/-- C15 (amended): in every regime, when the operator applied has a positive
gain and its `apply` lowers the total cost by exactly that gain, the total
cost after `apply` and `run_tsp` on both routes is strictly lower than before
the sweep, by at least the gain; `try_job_additions` then returns, and the
total cost after it is still strictly lower than before the sweep whenever it
has inserted no job. -/
theorem sweep_lowers_cost_without_insertion (ext : externals) (inp : input)
    (st : ls_state) (op : ls_op) (best_source best_target : Nat)
    (hgain : 0 < ext.op_gain op st)
    (happly : total_cost inp (ext.op_apply op st).sol =
      total_cost inp st.sol - ext.op_gain op st) :
    total_cost inp (move_before_additions ext inp st op best_source best_target).sol ≤
      total_cost inp st.sol - ext.op_gain op st ∧
    total_cost inp (move_before_additions ext inp st op best_source best_target).sol <
      total_cost inp st.sol ∧
    ∃ st', move_and_additions ext inp st op best_source best_target = some st' ∧
      (st'.unassigned.length =
          (move_before_additions ext inp st op best_source best_target).unassigned.length →
        total_cost inp st'.sol < total_cost inp st.sol) := by
  have h1 := move_before_additions_cost ext inp st op best_source best_target
  rw [happly] at h1
  refine ⟨h1, by omega, ?_⟩
  obtain ⟨st', hst, hsame⟩ := try_job_additions_no_insertion inp
    (ext.op_addition_candidates op)
    (move_before_additions ext inp st op best_source best_target)
    ((move_before_additions ext inp st op best_source best_target).unassigned.length + 1)
    (by omega)
  refine ⟨st', hst, ?_⟩
  intro hlen
  rw [hsame hlen]
  omega

theorem sweep_lowers_cost_without_insertion_witness :
    0 < (ex_ext ex_input_two).op_gain ⟨op_kind.relocate, 1, 0, 0, 0⟩ ex_state_sweep ∧
    total_cost ex_input_two
        ((ex_ext ex_input_two).op_apply ⟨op_kind.relocate, 1, 0, 0, 0⟩ ex_state_sweep).sol =
      total_cost ex_input_two ex_state_sweep.sol -
        (ex_ext ex_input_two).op_gain ⟨op_kind.relocate, 1, 0, 0, 0⟩ ex_state_sweep ∧
    (total_cost ex_input_two (move_before_additions (ex_ext ex_input_two) ex_input_two
        ex_state_sweep ⟨op_kind.relocate, 1, 0, 0, 0⟩ 1 0).sol ≤
      total_cost ex_input_two ex_state_sweep.sol -
        (ex_ext ex_input_two).op_gain ⟨op_kind.relocate, 1, 0, 0, 0⟩ ex_state_sweep ∧
    total_cost ex_input_two (move_before_additions (ex_ext ex_input_two) ex_input_two
        ex_state_sweep ⟨op_kind.relocate, 1, 0, 0, 0⟩ 1 0).sol <
      total_cost ex_input_two ex_state_sweep.sol ∧
    ∃ st', move_and_additions (ex_ext ex_input_two) ex_input_two ex_state_sweep
        ⟨op_kind.relocate, 1, 0, 0, 0⟩ 1 0 = some st' ∧
      (st'.unassigned.length =
          (move_before_additions (ex_ext ex_input_two) ex_input_two ex_state_sweep
            ⟨op_kind.relocate, 1, 0, 0, 0⟩ 1 0).unassigned.length →
        total_cost ex_input_two st'.sol < total_cost ex_input_two ex_state_sweep.sol)) :=
  ⟨by decide, by decide,
    sweep_lowers_cost_without_insertion (ex_ext ex_input_two) ex_input_two ex_state_sweep
      ⟨op_kind.relocate, 1, 0, 0, 0⟩ 1 0 (by decide) (by decide)⟩

/-! ## A full target vehicle -/

theorem amount_le_getD (a b : amount_t) (h : amount_le a b = true) :
    a.length = b.length ∧ ∀ k : Nat, k < a.length → a.getD k 0 ≤ b.getD k 0 := by
  unfold amount_le at h
  rw [Bool.and_eq_true] at h
  obtain ⟨hl, hall⟩ := h
  have hl2 : a.length = b.length := by simpa using hl
  refine ⟨hl2, ?_⟩
  intro k hk
  have hkb : k < b.length := by omega
  rw [List.all_eq_true] at hall
  have hmem : decide (a[k] ≤ b[k]) ∈ List.zipWith (fun x y => decide (x ≤ y)) a b := by
    have hkz : k < (List.zipWith (fun x y => decide (x ≤ y)) a b).length := by
      simp; omega
    have := List.getElem_mem hkz
    simpa using this
  have := hall _ hmem
  rw [List.getD_eq_getElem _ _ hk, List.getD_eq_getElem _ _ hkb]
  simpa using this

/-- Added to a load equal to the capacity, a demand with a positive component
does not fit. -/
theorem full_rejects_positive (cap d : amount_t) (k : Nat) (hk : k < cap.length)
    (hkd : k < d.length) (hpos : 0 < d.getD k 0) :
    amount_le (amount_add cap d) cap = false := by
  by_contra hcon
  have h : amount_le (amount_add cap d) cap = true := by
    cases hx : amount_le (amount_add cap d) cap
    · exact absurd hx hcon
    · rfl
  obtain ⟨_, hle⟩ := amount_le_getD _ _ h
  have hk2 : k < (amount_add cap d).length := by
    rw [amount_add_length]; omega
  have := hle k hk2
  rw [amount_add_getD cap d k hk hkd] at this
  omega

theorem relocate_candidates_mem (r : regime) (ext : externals) (inp : input)
    (st : ls_state) (s t : Nat) (op : ls_op)
    (h : op ∈ relocate_candidates r ext inp st s t) :
    op.kind = op_kind.relocate ∧ op.s_vehicle = s ∧ op.t_vehicle = t := by
  unfold relocate_candidates at h
  split_ifs at h
  · simp at h
  · simp at h
  · cases r <;> simp only [List.mem_map, List.mem_flatMap] at h
    · obtain ⟨_, _, rfl⟩ := h; exact ⟨rfl, rfl, rfl⟩
    · obtain ⟨_, _, rfl⟩ := h; exact ⟨rfl, rfl, rfl⟩
    · obtain ⟨_, _, _, _, rfl⟩ := h; exact ⟨rfl, rfl, rfl⟩

theorem or_opt_candidates_mem (r : regime) (ext : externals) (inp : input)
    (st : ls_state) (s t : Nat) (op : ls_op)
    (h : op ∈ or_opt_candidates r ext inp st s t) :
    op.kind = op_kind.or_opt ∧ op.s_vehicle = s ∧ op.t_vehicle = t := by
  unfold or_opt_candidates at h
  split_ifs at h
  · simp at h
  · simp at h
  · cases r <;> simp only [List.mem_map, List.mem_flatMap] at h
    · obtain ⟨_, _, rfl⟩ := h; exact ⟨rfl, rfl, rfl⟩
    · obtain ⟨_, _, rfl⟩ := h; exact ⟨rfl, rfl, rfl⟩
    · obtain ⟨_, _, _, _, rfl⟩ := h; exact ⟨rfl, rfl, rfl⟩

theorem exchange_candidates_mem (r : regime) (st : ls_state) (s t : Nat) (op : ls_op)
    (h : op ∈ exchange_candidates r st s t) :
    op.kind = op_kind.exchange ∧ op.s_vehicle = s ∧ op.t_vehicle = t := by
  unfold exchange_candidates at h
  cases r <;> simp only at h <;> split_ifs at h <;>
    simp only [List.mem_map, List.mem_flatMap, List.not_mem_nil] at h
  · obtain ⟨_, _, rfl⟩ := h; exact ⟨rfl, rfl, rfl⟩
  · obtain ⟨_, _, rfl⟩ := h; exact ⟨rfl, rfl, rfl⟩
  · obtain ⟨_, _, _, _, rfl⟩ := h; exact ⟨rfl, rfl, rfl⟩

theorem cross_exchange_candidates_mem (r : regime) (st : ls_state) (s t : Nat)
    (op : ls_op) (h : op ∈ cross_exchange_candidates r st s t) :
    op.kind = op_kind.cross_exchange ∧ op.s_vehicle = s ∧ op.t_vehicle = t := by
  unfold cross_exchange_candidates at h
  cases r <;> simp only at h <;> split_ifs at h <;>
    simp only [List.mem_map, List.mem_flatMap, List.not_mem_nil] at h
  · obtain ⟨_, _, rfl⟩ := h; exact ⟨rfl, rfl, rfl⟩
  · obtain ⟨_, _, rfl⟩ := h; exact ⟨rfl, rfl, rfl⟩
  · obtain ⟨_, _, _, _, rfl⟩ := h; exact ⟨rfl, rfl, rfl⟩

theorem mem_candidates_of (trace : List (Nat × Nat × ls_op)) (s t : Nat) (op : ls_op) :
    op ∈ candidates_of trace s t ↔ (s, t, op) ∈ trace := by
  unfold candidates_of
  rw [List.mem_filterMap]
  constructor
  · rintro ⟨⟨s2, t2, op2⟩, hmem, heq⟩
    by_cases hp : s2 = s ∧ t2 = t
    · simp only [hp, and_self, if_true, Option.some.injEq] at heq
      rw [← heq, ← hp.1, ← hp.2]; exact hmem
    · simp only [hp, if_false] at heq
      cases heq
  · intro h
    exact ⟨(s, t, op), h, by simp⟩

theorem mem_family_trace (cands : Nat → Nat → List ls_op) (pairs : List (Nat × Nat))
    (s t : Nat) (op : ls_op) (h : (s, t, op) ∈ family_trace cands pairs) :
    (s, t) ∈ pairs ∧ op ∈ cands s t := by
  unfold family_trace at h
  rw [List.mem_flatMap] at h
  obtain ⟨⟨s2, t2⟩, hp, hm⟩ := h
  rw [List.mem_map] at hm
  obtain ⟨op2, hop, heq⟩ := hm
  simp only [Prod.mk.injEq] at heq
  obtain ⟨rfl, rfl, rfl⟩ := heq
  exact ⟨hp, hop⟩

/-- Every operator tested for the pair `(s, t)` has `s` as source vehicle and
`t` as target vehicle, and it comes from the loop of its class. -/
theorem evaluated_mem (r : regime) (ext : externals) (inp : input) (st : ls_state)
    (pairs : List (Nat × Nat)) (s t : Nat) (op : ls_op)
    (h : op ∈ candidates_of (evaluated r ext inp st pairs) s t) :
    (s, t) ∈ pairs ∧ op.s_vehicle = s ∧ op.t_vehicle = t ∧
    (op.kind = op_kind.relocate → op ∈ relocate_candidates r ext inp st s t) ∧
    (op.kind = op_kind.exchange → op ∈ exchange_candidates r st s t) ∧
    (op.kind = op_kind.or_opt → op ∈ or_opt_candidates r ext inp st s t) ∧
    (op.kind = op_kind.cross_exchange → op ∈ cross_exchange_candidates r st s t) := by
  rw [mem_candidates_of] at h
  unfold evaluated at h
  simp only [List.mem_append] at h
  rcases h with ((h | h) | h) | h
  · obtain ⟨hp, hop⟩ := mem_family_trace _ _ _ _ _ h
    obtain ⟨k, a, b⟩ := relocate_candidates_mem r ext inp st s t op hop
    refine ⟨hp, a, b, fun _ => hop, ?_, ?_, ?_⟩ <;> intro hk <;> rw [k] at hk <;> cases hk
  · obtain ⟨hp, hop⟩ := mem_family_trace _ _ _ _ _ h
    obtain ⟨k, a, b⟩ := exchange_candidates_mem r st s t op hop
    refine ⟨hp, a, b, ?_, fun _ => hop, ?_, ?_⟩ <;> intro hk <;> rw [k] at hk <;> cases hk
  · obtain ⟨hp, hop⟩ := mem_family_trace _ _ _ _ _ h
    obtain ⟨k, a, b⟩ := or_opt_candidates_mem r ext inp st s t op hop
    refine ⟨hp, a, b, ?_, ?_, fun _ => hop, ?_⟩ <;> intro hk <;> rw [k] at hk <;> cases hk
  · obtain ⟨hp, hop⟩ := mem_family_trace _ _ _ _ _ h
    obtain ⟨k, a, b⟩ := cross_exchange_candidates_mem r st s t op hop
    refine ⟨hp, a, b, ?_, ?_, ?_, fun _ => hop⟩ <;> intro hk <;> rw [k] at hk <;> cases hk

/-- C16 (counterexample): vehicle 0 carries the jobs 0, 1 and its load `[2]`
equals its capacity; vehicle 1 carries job 2, whose demand is `[0]`; the lower
bound of the demands is `[0]`. The Relocate of job 2 into vehicle 0 is valid
(eligible, and `[2] + [0] <= [2]`), and the exhaustive evaluation records it
for the pair (1, 0), at target rank 0 with gain 8. -/
theorem full_target_records_relocate_counterexample :
    total_amount ex_input_zero 0 ex_state_full = (ex_input_zero.vehicles 0).capacity ∧
    relocate_is_valid ex_input_zero ex_state_full ⟨op_kind.relocate, 1, 0, 0, 0⟩ = true ∧
    (evaluation_phase regime.exhaustive (ex_ext ex_input_zero) ex_input_zero
      ex_state_full (all_pairs 2)
      (start_of_regime ex_input_zero ex_state_full).tables).best_ops 1 0 =
      some ⟨op_kind.relocate, 1, 0, 0, 0⟩ ∧
    (evaluation_phase regime.exhaustive (ex_ext ex_input_zero) ex_input_zero
      ex_state_full (all_pairs 2)
      (start_of_regime ex_input_zero ex_state_full).tables).best_gains 1 0 = 8 := by
  refine ⟨by decide, by decide, by decide, by decide⟩

/-- C16 (amended): in every regime, when the load of the target vehicle `t`
equals its capacity, the demands are non-negative and every job has a positive
demand in some dimension, the evaluation of a sweep records no Relocate and no
Or-opt operator for any pair `(s, t)` (validity of Relocate and Or-opt being
eligibility and added demand fitting the capacity), whatever the lower bound
of the demands: a Relocate or Or-opt found in `best_ops[s][t]` after the
evaluation was there before it. -/
theorem full_target_records_no_relocate (r : regime) (ext : externals) (inp : input)
    (st : ls_state) (pairs : List (Nat × Nat)) (bt : best_tables) (s t : Nat)
    (hrel : ∀ op : ls_op, op.kind = op_kind.relocate →
      ext.op_is_valid op st = relocate_is_valid inp st op)
    (hor : ∀ op : ls_op, op.kind = op_kind.or_opt →
      ext.op_is_valid op st = or_opt_is_valid inp st op)
    (hfull : total_amount inp t st = (inp.vehicles t).capacity)
    (hcap : ((inp.vehicles t).capacity).length = inp.amount_size)
    (hlen : ∀ j : Nat, (inp.jobs j).amount.length = inp.amount_size)
    (hnonneg : ∀ j k : Nat, 0 ≤ (inp.jobs j).amount.getD k 0)
    (hpos : ∀ j : Nat, ∃ k : Nat, k < inp.amount_size ∧ 0 < (inp.jobs j).amount.getD k 0) :
    ∀ op : ls_op, (evaluation_phase r ext inp st pairs bt).best_ops s t = some op →
      op.kind = op_kind.relocate ∨ op.kind = op_kind.or_opt →
      bt.best_ops s t = some op := by
  intro op hop hkind
  rw [evaluation_phase_eq_trace] at hop
  obtain ⟨_, _, h5⟩ := record_trace_char ext st s t (evaluated r ext inp st pairs) bt
  rcases h5 with ⟨_, b⟩ | ⟨pre, op2, post, hc, hv, _, _, _, g⟩
  · rw [← b]; exact hop
  · exfalso
    rw [g] at hop
    cases hop
    have hmem : op ∈ candidates_of (evaluated r ext inp st pairs) s t := by
      rw [hc]; simp
    obtain ⟨_, _, ht, _⟩ := evaluated_mem r ext inp st pairs s t op hmem
    rcases hkind with hk | hk
    · rw [hrel op hk] at hv
      unfold relocate_is_valid at hv
      rw [Bool.and_eq_true] at hv
      obtain ⟨k, hk1, hk2⟩ := hpos ((st.sol op.s_vehicle).getD op.s_rank 0)
      have := full_rejects_positive (inp.vehicles t).capacity
        (inp.jobs ((st.sol op.s_vehicle).getD op.s_rank 0)).amount k
        (by omega) (by rw [hlen]; exact hk1) hk2
      rw [ht, hfull, this] at hv
      exact absurd hv.2 (by simp)
    · rw [hor op hk] at hv
      unfold or_opt_is_valid at hv
      rw [Bool.and_eq_true] at hv
      obtain ⟨k, hk1, hk2⟩ := hpos ((st.sol op.s_vehicle).getD op.s_rank 0)
      have hk3 := hnonneg ((st.sol op.s_vehicle).getD (op.s_rank + 1) 0) k
      have hsum : 0 < (amount_add
          (inp.jobs ((st.sol op.s_vehicle).getD op.s_rank 0)).amount
          (inp.jobs ((st.sol op.s_vehicle).getD (op.s_rank + 1) 0)).amount).getD k 0 := by
        rw [amount_add_getD _ _ k (by rw [hlen]; exact hk1) (by rw [hlen]; exact hk1)]
        omega
      have := full_rejects_positive (inp.vehicles t).capacity
        (amount_add (inp.jobs ((st.sol op.s_vehicle).getD op.s_rank 0)).amount
          (inp.jobs ((st.sol op.s_vehicle).getD (op.s_rank + 1) 0)).amount) k
        (by omega) (by rw [amount_add_length, hlen, hlen]; simpa using hk1) hsum
      rw [ht, hfull, this] at hv
      exact absurd hv.2 (by simp)

theorem ex_ext_relocate_valid (inp : input) (st : ls_state) (op : ls_op)
    (h : op.kind = op_kind.relocate) :
    (ex_ext inp).op_is_valid op st = relocate_is_valid inp st op := by
  simp [ex_ext, h]

theorem ex_ext_or_opt_valid (inp : input) (st : ls_state) (op : ls_op)
    (h : op.kind = op_kind.or_opt) :
    (ex_ext inp).op_is_valid op st = or_opt_is_valid inp st op := by
  simp [ex_ext, h]

theorem ex_demand_nonneg (j k : Nat) : 0 ≤ (ex_input_tight.jobs j).amount.getD k 0 := by
  show 0 ≤ ([1] : List Int).getD k 0
  cases k <;> simp

theorem ex_demand_pos (j : Nat) :
    ∃ k : Nat, k < ex_input_tight.amount_size ∧
      0 < (ex_input_tight.jobs j).amount.getD k 0 :=
  ⟨0, by decide, by show (0 : Int) < 1; decide⟩

theorem full_target_records_no_relocate_witness :
    (relocate_candidates regime.exhaustive (ex_ext ex_input_tight) ex_input_tight
      ex_state_tight 1 0).length = 6 ∧
    (or_opt_candidates regime.exhaustive (ex_ext ex_input_tight) ex_input_tight
      ex_state_tight 1 0).length = 3 ∧
    (∀ op ∈ relocate_candidates regime.exhaustive (ex_ext ex_input_tight) ex_input_tight
      ex_state_tight 1 0, relocate_is_valid ex_input_tight ex_state_tight op = false) ∧
    (∀ op ∈ or_opt_candidates regime.exhaustive (ex_ext ex_input_tight) ex_input_tight
      ex_state_tight 1 0, or_opt_is_valid ex_input_tight ex_state_tight op = false) ∧
    (∀ op : ls_op, op.kind = op_kind.relocate →
      (ex_ext ex_input_tight).op_is_valid op ex_state_tight =
        relocate_is_valid ex_input_tight ex_state_tight op) ∧
    (∀ op : ls_op, op.kind = op_kind.or_opt →
      (ex_ext ex_input_tight).op_is_valid op ex_state_tight =
        or_opt_is_valid ex_input_tight ex_state_tight op) ∧
    total_amount ex_input_tight 0 ex_state_tight = (ex_input_tight.vehicles 0).capacity ∧
    ((ex_input_tight.vehicles 0).capacity).length = ex_input_tight.amount_size ∧
    (∀ j : Nat, (ex_input_tight.jobs j).amount.length = ex_input_tight.amount_size) ∧
    (∀ j k : Nat, 0 ≤ (ex_input_tight.jobs j).amount.getD k 0) ∧
    (∀ j : Nat, ∃ k : Nat, k < ex_input_tight.amount_size ∧
      0 < (ex_input_tight.jobs j).amount.getD k 0) ∧
    ∀ op : ls_op,
      (evaluation_phase regime.exhaustive (ex_ext ex_input_tight) ex_input_tight
        ex_state_tight (all_pairs 2)
        (start_of_regime ex_input_tight ex_state_tight).tables).best_ops 1 0 = some op →
      op.kind = op_kind.relocate ∨ op.kind = op_kind.or_opt →
      (start_of_regime ex_input_tight ex_state_tight).tables.best_ops 1 0 = some op :=
  ⟨by decide, by decide, by decide, by decide, ex_ext_relocate_valid _ _,
    ex_ext_or_opt_valid _ _, by decide, by decide, fun _ => rfl, ex_demand_nonneg,
    ex_demand_pos,
    full_target_records_no_relocate regime.exhaustive (ex_ext ex_input_tight)
      ex_input_tight ex_state_tight (all_pairs 2)
      (start_of_regime ex_input_tight ex_state_tight).tables 1 0
      (ex_ext_relocate_valid _ _) (ex_ext_or_opt_valid _ _) (by decide) (by decide)
      (fun _ => rfl) ex_demand_nonneg ex_demand_pos⟩

/-! ## What a sweep leaves untouched -/

theorem run_tsp_frame (inp : input) (ext : externals) (v n : Nat) (st : ls_state)
    (w : Nat) (hw : w ≠ v) :
    (run_tsp inp ext v n st).sol w = st.sol w ∧
      (run_tsp inp ext v n st).amounts w = st.amounts w := by
  simp only [run_tsp]
  split_ifs <;> simp [upd, hw]

theorem update_amounts_frame (inp : input) (v : Nat) (st : ls_state)
    (w : Nat) (hw : w ≠ v) :
    (update_amounts inp v st).sol w = st.sol w ∧
      (update_amounts inp v st).amounts w = st.amounts w := by
  unfold update_amounts
  simp [upd, hw]

theorem set_node_gains_frame (inp : input) (v : Nat) (st st2 : ls_state)
    (h : set_node_gains inp v st = some st2) :
    st2.sol = st.sol ∧ st2.amounts = st.amounts ∧ st2.unassigned = st.unassigned := by
  unfold set_node_gains at h
  split at h
  · cases h
  · simp only [Option.some.injEq] at h
    subst h
    exact ⟨rfl, rfl, rfl⟩

theorem set_edge_gains_frame (inp : input) (v : Nat) (st st2 : ls_state)
    (h : set_edge_gains inp v st = some st2) :
    st2.sol = st.sol ∧ st2.amounts = st.amounts ∧ st2.unassigned = st.unassigned := by
  unfold set_edge_gains at h
  split at h
  · cases h
  · simp only [Option.some.injEq] at h
    subst h
    exact ⟨rfl, rfl, rfl⟩

theorem update_candidates_frame (inp : input) (bs bt : Nat) (st st2 : ls_state)
    (h : update_candidates inp bs bt st = some st2) :
    st2.sol = st.sol ∧ st2.amounts = st.amounts ∧ st2.unassigned = st.unassigned := by
  unfold update_candidates at h
  split at h
  · cases h
  · rename_i s1 h1
    split at h
    · cases h
    · rename_i s2 h2
      split at h
      · cases h
      · rename_i s3 h3
        have a1 := set_node_gains_frame inp bs st s1 h1
        have a2 := set_node_gains_frame inp bt s1 s2 h2
        have a3 := set_edge_gains_frame inp bs s2 s3 h3
        have a4 := set_edge_gains_frame inp bt s3 st2 h
        refine ⟨?_, ?_, ?_⟩
        · rw [a4.1, a3.1, a2.1, a1.1]
        · rw [a4.2.1, a3.2.1, a2.2.1, a1.2.1]
        · rw [a4.2.2, a3.2.2, a2.2.2, a1.2.2]

theorem try_job_additions_frame (inp : input) (routes : List Nat) (st st2 : ls_state)
    (h : try_job_additions inp routes (st.unassigned.length + 1) st = some st2)
    (w : Nat) (hw : w ∉ routes) :
    st2.sol w = st.sol w ∧ st2.amounts w = st.amounts w := by
  obtain ⟨st3, h3, hP, _⟩ := try_job_additions_inv inp routes
    (fun s => s.sol w = st.sol w ∧ s.amounts w = st.amounts w)
    (by
      intro s hs hlt
      have hrec := find_best_insertion_recorded_ok inp routes s hlt
      have hne : w ≠ (find_best_insertion inp routes s).best_route := by
        intro e
        exact hw (e ▸ hrec.1)
      simp only [add_job, upd, hne, if_false]
      exact hs)
    (st.unassigned.length + 1) st (Nat.lt_succ_self _) ⟨rfl, rfl⟩
  rw [h] at h3
  simp only [Option.some.injEq] at h3
  subst h3
  exact hP

/-- A move of a sweep, with its additions and the update of the candidates,
changes neither the route nor the loads of a vehicle that is neither the
source nor the target of the operator. -/
theorem sweep_frame (ext : externals) (inp : input) (hops : pure_operators ext)
    (st st2 st3 : ls_state) (op : ls_op)
    (h2 : move_and_additions ext inp st op op.s_vehicle op.t_vehicle = some st2)
    (h3 : update_candidates inp op.s_vehicle op.t_vehicle st2 = some st3)
    (w : Nat) (hs : w ≠ op.s_vehicle) (ht : w ≠ op.t_vehicle) :
    st3.sol w = st.sol w ∧ st3.amounts w = st.amounts w := by
  obtain ⟨_, _, happly, hcand⟩ := hops
  have hc := update_candidates_frame inp _ _ st2 st3 h3
  unfold move_and_additions at h2
  have hw : w ∉ ext.op_addition_candidates op := by
    intro hmem
    rcases hcand op w hmem with e | e
    · exact hs e
    · exact ht e
  have ha := try_job_additions_frame inp _ _ st2 h2 w hw
  have hm : (move_before_additions ext inp st op op.s_vehicle op.t_vehicle).sol w = st.sol w ∧
      (move_before_additions ext inp st op op.s_vehicle op.t_vehicle).amounts w =
        st.amounts w := by
    unfold move_before_additions
    have e1 := happly op st w hs ht
    have e2 := run_tsp_frame inp ext op.s_vehicle 1 (ext.op_apply op st) w hs
    have e3 := run_tsp_frame inp ext op.t_vehicle 1
      (run_tsp inp ext op.s_vehicle 1 (ext.op_apply op st)) w ht
    have e4 := update_amounts_frame inp op.s_vehicle
      (run_tsp inp ext op.t_vehicle 1
        (run_tsp inp ext op.s_vehicle 1 (ext.op_apply op st))) w hs
    have e5 := update_amounts_frame inp op.t_vehicle
      (update_amounts inp op.s_vehicle
        (run_tsp inp ext op.t_vehicle 1
          (run_tsp inp ext op.s_vehicle 1 (ext.op_apply op st)))) w ht
    simp only at e1 e2 e3 e4 e5 ⊢
    refine ⟨?_, ?_⟩
    · rw [e5.1, e4.1, e3.1, e2.1, e1.1]
    · rw [e5.2, e4.2, e3.2, e2.2, e1.2]
  refine ⟨?_, ?_⟩
  · rw [hc.1, ha.1, hm.1]
  · rw [hc.2.1, ha.2, hm.2]

/-! ## The refresh of a sweep -/

/-- What the refresh leaves: the recorded operators are kept; outside the first
regime the engine state is kept; the gain of a pair with neither vehicle among
`best_source`, `best_target` is kept; the new list holds every ordered pair
with one of the two vehicles. -/
theorem refresh_char (r : regime) (inp : input) (bs bt : Nat) (ds : driver_state) :
    (refresh r inp bs bt ds).tables.best_ops = ds.tables.best_ops ∧
    (r ≠ regime.fixed_source_and_target → (refresh r inp bs bt ds).st = ds.st) ∧
    (∀ s t : Nat, s ≠ bs → s ≠ bt → t ≠ bs → t ≠ bt →
      (refresh r inp bs bt ds).tables.best_gains s t = ds.tables.best_gains s t) ∧
    (bs, bt) ∈ (refresh r inp bs bt ds).s_t_pairs ∧
    (bt, bs) ∈ (refresh r inp bs bt ds).s_t_pairs ∧
    (∀ v : Nat, v < inp.nb_vehicles → v ≠ bs → v ≠ bt →
      (bs, v) ∈ (refresh r inp bs bt ds).s_t_pairs ∧
      (v, bs) ∈ (refresh r inp bs bt ds).s_t_pairs ∧
      (bt, v) ∈ (refresh r inp bs bt ds).s_t_pairs ∧
      (v, bt) ∈ (refresh r inp bs bt ds).s_t_pairs) := by
  have key := foldl_range'_inv
    (fun (k : Nat) (d : driver_state) =>
      d.tables.best_ops = ds.tables.best_ops ∧
      (r ≠ regime.fixed_source_and_target → d.st = ds.st) ∧
      (∀ s t : Nat, s ≠ bs → s ≠ bt → t ≠ bs → t ≠ bt →
        d.tables.best_gains s t = ds.tables.best_gains s t) ∧
      (bs, bt) ∈ d.s_t_pairs ∧ (bt, bs) ∈ d.s_t_pairs ∧
      (∀ v : Nat, v < k → v ≠ bs → v ≠ bt →
        (bs, v) ∈ d.s_t_pairs ∧ (v, bs) ∈ d.s_t_pairs ∧
        (bt, v) ∈ d.s_t_pairs ∧ (v, bt) ∈ d.s_t_pairs))
    (refresh_step r inp bs bt) inp.nb_vehicles 0
    { st :=
        if r = regime.fixed_source_and_target then
          update_nearest_job_rank_in_routes inp bt bs
            (update_nearest_job_rank_in_routes inp bs bt ds.st)
        else ds.st
      tables :=
        { ds.tables with
          best_gains := upd (upd ds.tables.best_gains bs (fun _ => 0)) bt (fun _ => 0) }
      s_t_pairs := [(bs, bt), (bt, bs)] }
    (by
      refine ⟨rfl, ?_, ?_, by simp, by simp, ?_⟩
      · intro hr
        simp [hr]
      · intro s t hs1 hs2 _ _
        simp [upd, hs1, hs2]
      · intro v hv
        omega)
    (by
      intro k d _ _ hP
      obtain ⟨h1, h2, h3, h4, h5, h6⟩ := hP
      unfold refresh_step
      by_cases hk : k = bs ∨ k = bt
      · rw [if_pos hk]
        refine ⟨h1, h2, h3, h4, h5, ?_⟩
        intro v hv hvs hvt
        have : v < k := by
          rcases Nat.lt_succ_iff_lt_or_eq.mp hv with h | h
          · exact h
          · rcases hk with e | e
            · exact absurd (h.trans e) hvs
            · exact absurd (h.trans e) hvt
        exact h6 v this hvs hvt
      · rw [if_neg hk]
        refine ⟨h1, ?_, ?_, ?_, ?_, ?_⟩
        · intro hr
          simp only [hr, if_false]
          exact h2 hr
        · intro s t hs1 hs2 ht1 ht2
          have h := h3 s t hs1 hs2 ht1 ht2
          by_cases hsk : s = k
          · subst hsk
            simp [upd, hs1, hs2, ht1, ht2, Ne.symm hs1, Ne.symm hs2, h]
          · simp [upd, hs1, hs2, hsk, h]
        · simp only [List.mem_append]
          exact Or.inl (Or.inl h4)
        · simp only [List.mem_append]
          exact Or.inl (Or.inl h5)
        · intro v hv hvs hvt
          simp only [List.mem_append, List.mem_cons, Prod.mk.injEq, List.mem_singleton,
            List.not_mem_nil, or_false]
          rcases Nat.lt_succ_iff_lt_or_eq.mp hv with h | h
          · obtain ⟨a, b, c, e⟩ := h6 v h hvs hvt
            exact ⟨Or.inl (Or.inl a), Or.inl (Or.inl b), Or.inl (Or.inl c),
              Or.inl (Or.inl e)⟩
          · subst h
            refine ⟨?_, ?_, ?_, ?_⟩ <;> simp)
  rw [Nat.zero_add] at key
  exact key

/-! ## The exhaustive search ends at a local optimum -/

theorem is_candidate_vehicles (r : regime) (ext : externals) (inp : input)
    (st : ls_state) (s t : Nat) (op : ls_op) (h : is_candidate r ext inp st s t op) :
    op.s_vehicle = s ∧ op.t_vehicle = t := by
  rcases h with h | h | h | h
  · exact (relocate_candidates_mem r ext inp st s t op h).2
  · exact (exchange_candidates_mem r st s t op h).2
  · exact (or_opt_candidates_mem r ext inp st s t op h).2
  · exact (cross_exchange_candidates_mem r st s t op h).2

theorem family_trace_mem (cands : Nat → Nat → List ls_op) (pairs : List (Nat × Nat))
    (s t : Nat) (op : ls_op) (hp : (s, t) ∈ pairs) (hop : op ∈ cands s t) :
    (s, t, op) ∈ family_trace cands pairs := by
  unfold family_trace
  rw [List.mem_flatMap]
  exact ⟨(s, t), hp, List.mem_map.mpr ⟨op, hop, rfl⟩⟩

/-- The operators tested for a pair of the list are the tentative operators of
the pair. -/
theorem is_candidate_evaluated (r : regime) (ext : externals) (inp : input)
    (st : ls_state) (pairs : List (Nat × Nat)) (s t : Nat) (op : ls_op)
    (hp : (s, t) ∈ pairs) (h : is_candidate r ext inp st s t op) :
    op ∈ candidates_of (evaluated r ext inp st pairs) s t := by
  rw [mem_candidates_of]
  unfold evaluated
  simp only [List.mem_append]
  rcases h with h | h | h | h
  · exact Or.inl (Or.inl (Or.inl (family_trace_mem _ _ _ _ _ hp h)))
  · exact Or.inl (Or.inl (Or.inr (family_trace_mem _ _ _ _ _ hp h)))
  · exact Or.inl (Or.inr (family_trace_mem _ _ _ _ _ hp h))
  · exact Or.inr (family_trace_mem _ _ _ _ _ hp h)

theorem evaluated_is_candidate (r : regime) (ext : externals) (inp : input)
    (st : ls_state) (pairs : List (Nat × Nat)) (s t : Nat) (op : ls_op)
    (h : op ∈ candidates_of (evaluated r ext inp st pairs) s t) :
    (s, t) ∈ pairs ∧ is_candidate r ext inp st s t op := by
  obtain ⟨hp, _, _, h1, h2, h3, h4⟩ := evaluated_mem r ext inp st pairs s t op h
  refine ⟨hp, ?_⟩
  cases hk : op.kind
  · exact Or.inl (h1 hk)
  · exact Or.inr (Or.inl (h2 hk))
  · exact Or.inr (Or.inr (Or.inl (h3 hk)))
  · exact Or.inr (Or.inr (Or.inr (h4 hk)))

/-- The tentative operators of the exhaustive search for a pair depend only on
the two routes and on the load of the target. -/
theorem is_candidate_exhaustive_congr (ext : externals) (inp : input)
    (a b : ls_state) (s t : Nat) (op : ls_op)
    (h1 : a.sol s = b.sol s) (h2 : a.sol t = b.sol t) (h3 : a.amounts t = b.amounts t)
    (h : is_candidate regime.exhaustive ext inp a s t op) :
    is_candidate regime.exhaustive ext inp b s t op := by
  unfold is_candidate relocate_candidates exchange_candidates or_opt_candidates
    cross_exchange_candidates total_amount at *
  simp only [h1, h2, h3] at h
  exact h

theorem run_regime_succ (r : regime) (ext : externals) (inp : input) (fuel : Nat)
    (ds : driver_state) :
    run_regime r ext inp (fuel + 1) ds =
      if (find_best_gain inp.nb_vehicles
          (evaluation_phase r ext inp ds.st ds.s_t_pairs ds.tables).best_gains).best_gain > 0
      then
        match (evaluation_phase r ext inp ds.st ds.s_t_pairs ds.tables).best_ops
            (find_best_gain inp.nb_vehicles
              (evaluation_phase r ext inp ds.st ds.s_t_pairs ds.tables).best_gains).best_source
            (find_best_gain inp.nb_vehicles
              (evaluation_phase r ext inp ds.st ds.s_t_pairs ds.tables).best_gains).best_target
          with
        | none => none
        | some op =>
          match move_and_additions ext inp ds.st op
              (find_best_gain inp.nb_vehicles
                (evaluation_phase r ext inp ds.st ds.s_t_pairs ds.tables).best_gains).best_source
              (find_best_gain inp.nb_vehicles
                (evaluation_phase r ext inp ds.st ds.s_t_pairs ds.tables).best_gains).best_target
            with
          | none => none
          | some st =>
            match update_candidates inp
                (find_best_gain inp.nb_vehicles
                  (evaluation_phase r ext inp ds.st ds.s_t_pairs ds.tables).best_gains).best_source
                (find_best_gain inp.nb_vehicles
                  (evaluation_phase r ext inp ds.st ds.s_t_pairs ds.tables).best_gains).best_target
                st with
            | none => none
            | some st =>
              run_regime r ext inp fuel
                (refresh r inp
                  (find_best_gain inp.nb_vehicles
                    (evaluation_phase r ext inp ds.st ds.s_t_pairs ds.tables).best_gains).best_source
                  (find_best_gain inp.nb_vehicles
                    (evaluation_phase r ext inp ds.st ds.s_t_pairs ds.tables).best_gains).best_target
                  { st := st
                    tables := evaluation_phase r ext inp ds.st ds.s_t_pairs ds.tables
                    s_t_pairs := ds.s_t_pairs })
      else some { ds with tables := evaluation_phase r ext inp ds.st ds.s_t_pairs ds.tables } :=
  rfl

/-- After the evaluation of a sweep of the exhaustive search, the recorded
gain of every pair bounds the gain of every valid operator of the pair, and a
recorded operator has the vehicles of its pair. -/
theorem evaluation_phase_exhaustive_inv (ext : externals) (inp : input)
    (ds : driver_state) (hinv : exhaustive_inv ext inp ds) :
    (∀ (s t : Nat) (op : ls_op),
      (evaluation_phase regime.exhaustive ext inp ds.st ds.s_t_pairs ds.tables).best_ops s t =
        some op → op.s_vehicle = s ∧ op.t_vehicle = t) ∧
    (∀ s t : Nat, s < inp.nb_vehicles → t < inp.nb_vehicles → s ≠ t →
      ∀ op : ls_op, is_candidate regime.exhaustive ext inp ds.st s t op →
        ext.op_is_valid op ds.st = true →
        ext.op_gain op ds.st ≤
          (evaluation_phase regime.exhaustive ext inp ds.st ds.s_t_pairs
            ds.tables).best_gains s t) := by
  rw [evaluation_phase_eq_trace]
  refine ⟨?_, ?_⟩
  · intro s t op hop
    obtain ⟨_, _, h3⟩ := record_trace_char ext ds.st s t
      (evaluated regime.exhaustive ext inp ds.st ds.s_t_pairs) ds.tables
    rcases h3 with h3 | ⟨pre, op2, post, hsplit, _, _, _, _, hrec⟩
    · rw [h3.2] at hop
      exact hinv.1 s t op hop
    · rw [hrec] at hop
      simp only [Option.some.injEq] at hop
      subst hop
      have hmem : op2 ∈ candidates_of
          (evaluated regime.exhaustive ext inp ds.st ds.s_t_pairs) s t := by
        rw [hsplit]; simp
      exact is_candidate_vehicles _ _ _ _ _ _ _ (evaluated_is_candidate _ _ _ _ _ _ _ _ hmem).2
  · intro s t hs ht hst op hcand hvalid
    obtain ⟨h1, h2, _⟩ := record_trace_char ext ds.st s t
      (evaluated regime.exhaustive ext inp ds.st ds.s_t_pairs) ds.tables
    rcases hinv.2 s t hs ht hst with hp | hb
    · exact h2 op (is_candidate_evaluated _ _ _ _ _ _ _ _ hp hcand) hvalid
    · exact le_trans (hb op hcand hvalid) h1

/-- The exhaustive search returns at a local optimum: when its loop ends, no
valid operator of any pair of distinct vehicles has a positive gain. -/
theorem exhaustive_search_local_optimum (ext : externals) (inp : input)
    (hops : pure_operators ext) :
    ∀ (fuel : Nat) (ds ds2 : driver_state), exhaustive_inv ext inp ds →
      run_regime regime.exhaustive ext inp fuel ds = some ds2 →
      local_optimum ext inp ds2.st := by
  intro fuel
  induction fuel with
  | zero =>
    intro ds ds2 _ h
    simp [run_regime] at h
  | succ fuel ih =>
    intro ds ds2 hinv h
    rw [run_regime_succ] at h
    obtain ⟨hO, hK⟩ := evaluation_phase_exhaustive_inv ext inp ds hinv
    have hsel := find_best_gain_char inp.nb_vehicles
      (evaluation_phase regime.exhaustive ext inp ds.st ds.s_t_pairs ds.tables).best_gains
    generalize evaluation_phase regime.exhaustive ext inp ds.st ds.s_t_pairs ds.tables = bt
      at h hO hK hsel
    generalize find_best_gain inp.nb_vehicles bt.best_gains = sel at h hsel
    obtain ⟨_, hle, hbest⟩ := hsel
    by_cases hpos : sel.best_gain > 0
    · rw [if_pos hpos] at h
      rcases hbest with h0 | ⟨hne, htV, hsV, _, _⟩
      · omega
      have hsV2 : sel.best_source < inp.nb_vehicles := by omega
      split at h
      · cases h
      · rename_i op hop
        obtain ⟨hsv, htv⟩ := hO _ _ op hop
        split at h
        · cases h
        · rename_i st2 hmove
          split at h
          · cases h
          · rename_i st3 hupd
            rw [← hsv, ← htv] at hmove hupd
            have hframe := sweep_frame ext inp hops ds.st st2 st3 op hmove hupd
            rw [hsv, htv] at hframe
            refine ih _ ds2 ?_ h
            obtain ⟨r1, r2, r3, r4, r5, r6⟩ := refresh_char regime.exhaustive inp
              sel.best_source sel.best_target
              { st := st3, tables := bt, s_t_pairs := ds.s_t_pairs }
            have r2 := r2 (by decide)
            refine ⟨?_, ?_⟩
            · intro s t op2 hop2
              rw [r1] at hop2
              exact hO s t op2 hop2
            · intro s t hs ht hst
              by_cases htouch : s = sel.best_source ∨ s = sel.best_target ∨
                  t = sel.best_source ∨ t = sel.best_target
              · left
                rcases htouch with e | e | e | e
                · by_cases e2 : t = sel.best_target
                  · rw [e, e2]; exact r4
                  · rw [e]
                    exact (r6 t ht (fun e3 => hst (e.trans e3.symm)) e2).1
                · by_cases e2 : t = sel.best_source
                  · rw [e, e2]; exact r5
                  · rw [e]
                    exact (r6 t ht e2 (fun e3 => hst (e.trans e3.symm))).2.2.1
                · by_cases e2 : s = sel.best_target
                  · rw [e, e2]; exact r5
                  · rw [e]
                    exact (r6 s hs (fun e3 => hst (e3.trans e.symm)) e2).2.1
                · by_cases e2 : s = sel.best_source
                  · rw [e, e2]; exact r4
                  · rw [e]
                    exact (r6 s hs e2 (fun e3 => hst (e3.trans e.symm))).2.2.2
              · right
                push_neg at htouch
                obtain ⟨n1, n2, n3, n4⟩ := htouch
                intro op2 hcand hvalid
                rw [r2] at hcand hvalid ⊢
                rw [r3 s t n1 n2 n3 n4]
                simp only at hcand hvalid ⊢
                have fs := hframe s n1 n2
                have ft := hframe t n3 n4
                have hcand2 := is_candidate_exhaustive_congr ext inp st3 ds.st s t op2
                  fs.1 ft.1 ft.2 hcand
                obtain ⟨v1, v2⟩ := is_candidate_vehicles _ _ _ _ _ _ _ hcand2
                have hsame : same_routes st3 ds.st op2.s_vehicle op2.t_vehicle := by
                  rw [v1, v2]
                  exact ⟨fs.1, ft.1, fs.2, ft.2⟩
                obtain ⟨p1, p2⟩ := hops.1 op2 st3 ds.st hsame
                rw [p1] at hvalid
                rw [p2]
                exact hK s t hs ht hst op2 hcand2 hvalid
    · rw [if_neg hpos] at h
      simp only [Option.some.injEq] at h
      subst h
      intro s t hs ht hst op hcand hvalid
      have a := hK s t hs ht hst op hcand hvalid
      have b := hle s t ht hst (Or.inl hs)
      simp only at hcand hvalid ⊢
      omega

/-! ## The ranks tried with consistent caches -/

theorem mem_insert_rank (l : List Nat) (r x : Nat) :
    x ∈ insert_rank l r ↔ x ∈ l ∨ x = r := by
  unfold insert_rank
  split_ifs with h
  · constructor
    · intro hx; exact Or.inl hx
    · rintro (hx | rfl)
      · exact hx
      · exact h
  · simp

theorem getD_le_of_forall_le (l : List Nat) (b r : Nat) (h : ∀ x ∈ l, x ≤ b) :
    l.getD r 0 ≤ b := by
  by_cases hr : r < l.length
  · rw [List.getD_eq_getElem l 0 hr]
    exact h _ (List.getElem_mem hr)
  · rw [List.getD_eq_default l 0 (by omega)]
    exact Nat.zero_le _

theorem nearest_from_le (inp : input) (st : ls_state) (hc : caches_consistent inp st)
    (s t : Nat) (hs : s < inp.nb_vehicles) (ht : t < inp.nb_vehicles) (hst : s ≠ t)
    (r : Nat) : nearest_from st s t r ≤ (st.sol t).length - 1 :=
  getD_le_of_forall_le _ _ _ ((hc s hs).2.2 t ht hst).2.2.1

theorem nearest_to_le (inp : input) (st : ls_state) (hc : caches_consistent inp st)
    (s t : Nat) (hs : s < inp.nb_vehicles) (ht : t < inp.nb_vehicles) (hst : s ≠ t)
    (r : Nat) : nearest_to st s t r ≤ (st.sol t).length - 1 :=
  getD_le_of_forall_le _ _ _ ((hc s hs).2.2 t ht hst).2.2.2

theorem relocate_t_ranks_le (inp : input) (st : ls_state) (hc : caches_consistent inp st)
    (s t : Nat) (hs : s < inp.nb_vehicles) (ht : t < inp.nb_vehicles) (hst : s ≠ t)
    (x : Nat) (h : x ∈ relocate_t_ranks st s t) : x ≤ (st.sol t).length := by
  have hf := nearest_from_le inp st hc s t hs ht hst
  have hto := nearest_to_le inp st hc s t hs ht hst
  unfold relocate_t_ranks at h
  simp only [mem_insert_rank, List.not_mem_nil, false_or] at h
  rcases h with rfl | rfl
  · have := hf (st.node_candidates s); omega
  · have := hto (st.node_candidates s)
    split_ifs <;> omega

theorem or_opt_t_ranks_le (inp : input) (st : ls_state) (hc : caches_consistent inp st)
    (s t : Nat) (hs : s < inp.nb_vehicles) (ht : t < inp.nb_vehicles) (hst : s ≠ t)
    (x : Nat) (h : x ∈ or_opt_t_ranks st s t) : x ≤ (st.sol t).length := by
  have hf := nearest_from_le inp st hc s t hs ht hst
  have hto := nearest_to_le inp st hc s t hs ht hst
  unfold or_opt_t_ranks at h
  simp only [mem_insert_rank, List.not_mem_nil, false_or] at h
  rcases h with rfl | rfl
  · have := hf (st.edge_candidates s + 1); omega
  · have := hto (st.edge_candidates s)
    split_ifs <;> omega

theorem exchange_t_ranks_lt (inp : input) (st : ls_state) (hc : caches_consistent inp st)
    (s t : Nat) (hs : s < inp.nb_vehicles) (ht : t < inp.nb_vehicles) (hst : s ≠ t)
    (hlen : (st.sol t).length ≠ 0)
    (x : Nat) (h : x ∈ exchange_t_ranks st s t) : x < (st.sol t).length := by
  have hf := nearest_from_le inp st hc s t hs ht hst
  have hto := nearest_to_le inp st hc s t hs ht hst
  have a1 := hf (st.node_candidates s - 1)
  have a2 := hto (st.node_candidates s + 1)
  have a3 := hf (st.node_candidates s)
  have a4 := hto (st.node_candidates s)
  unfold exchange_t_ranks at h
  simp only at h
  split_ifs at h <;>
    simp only [mem_insert_rank, List.not_mem_nil, false_or] at h <;>
    rcases h with h | h <;> omega

theorem cross_exchange_t_ranks_lt (inp : input) (st : ls_state)
    (hc : caches_consistent inp st)
    (s t : Nat) (hs : s < inp.nb_vehicles) (ht : t < inp.nb_vehicles) (hst : s ≠ t)
    (hlen : 2 ≤ (st.sol t).length)
    (x : Nat) (h : x ∈ cross_exchange_t_ranks st s t) : x < (st.sol t).length - 1 := by
  have hf := nearest_from_le inp st hc s t hs ht hst
  have hto := nearest_to_le inp st hc s t hs ht hst
  have a1 := hf (st.edge_candidates s - 1)
  have a2 := hto (st.edge_candidates s + 2)
  have a3 := hf (st.edge_candidates s + 1)
  have a4 := hto (st.edge_candidates s)
  unfold cross_exchange_t_ranks at h
  simp only at h
  split_ifs at h <;>
    simp only [mem_insert_rank, List.not_mem_nil, false_or] at h <;>
    rcases h with h | h <;> omega

/-! ## The candidates of the first two regimes among those of the exhaustive search -/

theorem relocate_candidates_exhaustive (r : regime) (ext : externals) (inp : input)
    (st : ls_state) (hc : caches_consistent inp st)
    (s t : Nat) (hs : s < inp.nb_vehicles) (ht : t < inp.nb_vehicles) (hst : s ≠ t)
    (op : ls_op) (h : op ∈ relocate_candidates r ext inp st s t) :
    op ∈ relocate_candidates regime.exhaustive ext inp st s t := by
  unfold relocate_candidates at h ⊢
  split_ifs at h ⊢ with c1 c2
  · exact h
  · exact h
  · have hnc : st.node_candidates s < (st.sol s).length :=
      (hc s hs).1 (fun e => c2 (by rw [e]; rfl))
    cases r
    · simp only [List.mem_map] at h
      obtain ⟨x, hx, rfl⟩ := h
      have := relocate_t_ranks_le inp st hc s t hs ht hst x hx
      simp only [List.mem_flatMap, List.mem_map, List.mem_range'_1]
      exact ⟨_, ⟨Nat.zero_le _, by omega⟩, x, ⟨Nat.zero_le _, by omega⟩, rfl⟩
    · simp only [List.mem_map, List.mem_range'_1] at h
      obtain ⟨x, hx, rfl⟩ := h
      simp only [List.mem_flatMap, List.mem_map, List.mem_range'_1]
      exact ⟨_, ⟨Nat.zero_le _, by omega⟩, x, hx, rfl⟩
    · exact h

theorem or_opt_candidates_exhaustive (r : regime) (ext : externals) (inp : input)
    (st : ls_state) (hc : caches_consistent inp st)
    (s t : Nat) (hs : s < inp.nb_vehicles) (ht : t < inp.nb_vehicles) (hst : s ≠ t)
    (op : ls_op) (h : op ∈ or_opt_candidates r ext inp st s t) :
    op ∈ or_opt_candidates regime.exhaustive ext inp st s t := by
  unfold or_opt_candidates at h ⊢
  split_ifs at h ⊢ with c1 c2
  · exact h
  · exact h
  · have hec : st.edge_candidates s + 1 < (st.sol s).length := (hc s hs).2.1 (by omega)
    cases r
    · simp only [List.mem_map] at h
      obtain ⟨x, hx, rfl⟩ := h
      have := or_opt_t_ranks_le inp st hc s t hs ht hst x hx
      simp only [List.mem_flatMap, List.mem_map, List.mem_range'_1]
      exact ⟨_, ⟨Nat.zero_le _, by omega⟩, x, ⟨Nat.zero_le _, by omega⟩, rfl⟩
    · simp only [List.mem_map, List.mem_range'_1] at h
      obtain ⟨x, hx, rfl⟩ := h
      simp only [List.mem_flatMap, List.mem_map, List.mem_range'_1]
      exact ⟨_, ⟨Nat.zero_le _, by omega⟩, x, hx, rfl⟩
    · exact h

/-- With consistent caches an Exchange built for the pair `(s, t)` exchanges a
job of the route of `s` with a job of the route of `t`. -/
theorem exchange_candidates_ranks (r : regime) (inp : input)
    (st : ls_state) (hc : caches_consistent inp st)
    (s t : Nat) (hs : s < inp.nb_vehicles) (ht : t < inp.nb_vehicles) (hst : s ≠ t)
    (op : ls_op) (h : op ∈ exchange_candidates r st s t) :
    op.s_rank < (st.sol s).length ∧ op.t_rank < (st.sol t).length := by
  unfold exchange_candidates at h
  cases r <;> simp only at h
  · split_ifs at h with c1 <;>
      simp only [List.mem_map, List.not_mem_nil] at h
    obtain ⟨x, hx, rfl⟩ := h
    push_neg at c1
    have := exchange_t_ranks_lt inp st hc s t hs ht hst c1.2 x hx
    have hnc : st.node_candidates s < (st.sol s).length :=
      (hc s hs).1 (fun e => c1.1 (by rw [e]; rfl))
    exact ⟨hnc, this⟩
  · split_ifs at h with c1 <;>
      simp only [List.mem_map, List.not_mem_nil, List.mem_range'_1] at h
    obtain ⟨x, hx, rfl⟩ := h
    push_neg at c1
    have hnc : st.node_candidates s < (st.sol s).length :=
      (hc s hs).1 (fun e => c1.1 (by rw [e]; rfl))
    exact ⟨hnc, by simpa using hx.2⟩
  · split_ifs at h <;>
      simp only [List.mem_map, List.mem_flatMap, List.not_mem_nil, List.mem_range'_1] at h
    obtain ⟨a, ha, b, hb, rfl⟩ := h
    exact ⟨by simpa using ha.2, by simpa using hb.2⟩

theorem exchange_candidates_of_ranks (st : ls_state) (s t s_rank t_rank : Nat)
    (hst : s < t) (h1 : s_rank < (st.sol s).length) (h2 : t_rank < (st.sol t).length) :
    (⟨op_kind.exchange, s, s_rank, t, t_rank⟩ : ls_op) ∈
      exchange_candidates regime.exhaustive st s t := by
  unfold exchange_candidates
  simp only
  rw [if_neg (by omega), if_neg (by omega)]
  simp only [List.mem_flatMap, List.mem_map, List.mem_range'_1]
  exact ⟨s_rank, ⟨Nat.zero_le _, by omega⟩, t_rank, ⟨Nat.zero_le _, by omega⟩, rfl⟩

/-- With consistent caches a CROSS-exchange built for the pair `(s, t)`
exchanges an edge of the route of `s` with an edge of the route of `t`. -/
theorem cross_exchange_candidates_ranks (r : regime) (inp : input)
    (st : ls_state) (hc : caches_consistent inp st)
    (s t : Nat) (hs : s < inp.nb_vehicles) (ht : t < inp.nb_vehicles) (hst : s ≠ t)
    (op : ls_op) (h : op ∈ cross_exchange_candidates r st s t) :
    op.s_rank + 1 < (st.sol s).length ∧ op.t_rank + 1 < (st.sol t).length := by
  unfold cross_exchange_candidates at h
  cases r <;> simp only at h
  · split_ifs at h with c1 <;>
      simp only [List.mem_map, List.not_mem_nil] at h
    obtain ⟨x, hx, rfl⟩ := h
    push_neg at c1
    have := cross_exchange_t_ranks_lt inp st hc s t hs ht hst c1.2 x hx
    have hec : st.edge_candidates s + 1 < (st.sol s).length := (hc s hs).2.1 c1.1
    exact ⟨hec, by simp only; omega⟩
  · split_ifs at h with c1 <;>
      simp only [List.mem_map, List.not_mem_nil, List.mem_range'_1] at h
    obtain ⟨x, hx, rfl⟩ := h
    push_neg at c1
    have hec : st.edge_candidates s + 1 < (st.sol s).length := (hc s hs).2.1 c1.1
    exact ⟨hec, by simp only; omega⟩
  · split_ifs at h with c1 c2 <;>
      simp only [List.mem_map, List.mem_flatMap, List.not_mem_nil, List.mem_range'_1] at h
    obtain ⟨a, ha, b, hb, rfl⟩ := h
    push_neg at c2
    exact ⟨by simp only; omega, by simp only; omega⟩

theorem cross_exchange_candidates_of_ranks (st : ls_state) (s t s_rank t_rank : Nat)
    (hst : s < t) (h1 : s_rank + 1 < (st.sol s).length)
    (h2 : t_rank + 1 < (st.sol t).length) :
    (⟨op_kind.cross_exchange, s, s_rank, t, t_rank⟩ : ls_op) ∈
      cross_exchange_candidates regime.exhaustive st s t := by
  unfold cross_exchange_candidates
  simp only
  rw [if_neg (by omega), if_neg (by omega)]
  simp only [List.mem_flatMap, List.mem_map, List.mem_range'_1]
  exact ⟨s_rank, ⟨Nat.zero_le _, by omega⟩, t_rank, ⟨Nat.zero_le _, by omega⟩, rfl⟩

/-! ## A second run -/

theorem mem_all_pairs (V s t : Nat) :
    (s, t) ∈ all_pairs V ↔ s < V ∧ t < V ∧ s ≠ t := by
  unfold all_pairs
  simp only [List.mem_flatMap, List.mem_map, List.mem_filter, List.mem_range'_1,
    Prod.mk.injEq, decide_eq_true_eq]
  constructor
  · rintro ⟨a, ha, b, ⟨hb, hab⟩, rfl, rfl⟩
    exact ⟨by omega, by omega, hab⟩
  · rintro ⟨hs, ht, hst⟩
    exact ⟨s, ⟨Nat.zero_le _, by omega⟩, t, ⟨⟨Nat.zero_le _, by omega⟩, hst⟩, rfl, rfl⟩

/-- At a local optimum with consistent caches, no valid operator built by any
of the three regimes has a positive gain. -/
theorem local_optimum_no_gain (ext : externals) (inp : input) (st : ls_state)
    (hops : pure_operators ext) (hc : caches_consistent inp st)
    (hopt : local_optimum ext inp st) (r : regime)
    (s t : Nat) (hs : s < inp.nb_vehicles) (ht : t < inp.nb_vehicles) (hst : s ≠ t)
    (op : ls_op) (hcand : is_candidate r ext inp st s t op)
    (hvalid : ext.op_is_valid op st = true) : ext.op_gain op st ≤ 0 := by
  rcases hcand with h | h | h | h
  · exact hopt s t hs ht hst op
      (Or.inl (relocate_candidates_exhaustive r ext inp st hc s t hs ht hst op h)) hvalid
  · obtain ⟨hk, hsv, htv⟩ := exchange_candidates_mem r st s t op h
    obtain ⟨h1, h2⟩ := exchange_candidates_ranks r inp st hc s t hs ht hst op h
    obtain ⟨k, sv, sr, tv, tr⟩ := op
    simp only at hk hsv htv h1 h2
    subst hk hsv htv
    by_cases hlt : sv < tv
    · exact hopt sv tv hs ht hst _
        (Or.inr (Or.inl (exchange_candidates_of_ranks st sv tv sr tr hlt h1 h2))) hvalid
    · have sym := hops.2.1 op_kind.exchange sv sr tv tr st (Or.inl rfl)
      rw [sym.1] at hvalid
      rw [sym.2]
      exact hopt tv sv ht hs (Ne.symm hst) _
        (Or.inr (Or.inl (exchange_candidates_of_ranks st tv sv tr sr (by omega) h2 h1)))
        hvalid
  · exact hopt s t hs ht hst op
      (Or.inr (Or.inr (Or.inl
        (or_opt_candidates_exhaustive r ext inp st hc s t hs ht hst op h)))) hvalid
  · obtain ⟨hk, hsv, htv⟩ := cross_exchange_candidates_mem r st s t op h
    obtain ⟨h1, h2⟩ := cross_exchange_candidates_ranks r inp st hc s t hs ht hst op h
    obtain ⟨k, sv, sr, tv, tr⟩ := op
    simp only at hk hsv htv h1 h2
    subst hk hsv htv
    by_cases hlt : sv < tv
    · exact hopt sv tv hs ht hst _
        (Or.inr (Or.inr (Or.inr
          (cross_exchange_candidates_of_ranks st sv tv sr tr hlt h1 h2)))) hvalid
    · have sym := hops.2.1 op_kind.cross_exchange sv sr tv tr st (Or.inr rfl)
      rw [sym.1] at hvalid
      rw [sym.2]
      exact hopt tv sv ht hs (Ne.symm hst) _
        (Or.inr (Or.inr (Or.inr
          (cross_exchange_candidates_of_ranks st tv sv tr sr (by omega) h2 h1))))
        hvalid

/-- When no valid tentative operator has a positive gain, the first evaluation
of a regime leaves every gain at 0. -/
theorem evaluation_records_nothing (r : regime) (ext : externals) (inp : input)
    (st : ls_state)
    (hno : ∀ s t : Nat, s < inp.nb_vehicles → t < inp.nb_vehicles → s ≠ t →
      ∀ op : ls_op, is_candidate r ext inp st s t op →
        ext.op_is_valid op st = true → ext.op_gain op st ≤ 0)
    (s t : Nat) :
    (evaluation_phase r ext inp st (all_pairs inp.nb_vehicles)
      (start_of_regime inp st).tables).best_gains s t = 0 := by
  rw [evaluation_phase_eq_trace]
  obtain ⟨_, _, h3⟩ := record_trace_char ext st s t
    (evaluated r ext inp st (all_pairs inp.nb_vehicles)) (start_of_regime inp st).tables
  rcases h3 with h3 | ⟨pre, op, post, hsplit, hvalid, _, hgt, _, _⟩
  · rw [h3.1]; rfl
  · have hmem : op ∈ candidates_of
        (evaluated r ext inp st (all_pairs inp.nb_vehicles)) s t := by
      rw [hsplit]; simp
    obtain ⟨hp, hcand⟩ := evaluated_is_candidate _ _ _ _ _ _ _ _ hmem
    obtain ⟨hs, ht, hst⟩ := (mem_all_pairs _ _ _).mp hp
    have := hno s t hs ht hst op hcand hvalid
    have h0 : (start_of_regime inp st).tables.best_gains s t = 0 := rfl
    rw [h0] at hgt
    omega

/-- A regime whose first evaluation leaves every gain at 0 ends after this
sweep: the selected gain is not positive and the loop returns the engine state
it was given. -/
theorem regime_ends_after_first_sweep (r : regime) (ext : externals) (inp : input)
    (st : ls_state) (fuel : Nat)
    (hzero : ∀ s t : Nat,
      (evaluation_phase r ext inp st (all_pairs inp.nb_vehicles)
        (start_of_regime inp st).tables).best_gains s t = 0) :
    (find_best_gain inp.nb_vehicles
      (evaluation_phase r ext inp st (all_pairs inp.nb_vehicles)
        (start_of_regime inp st).tables).best_gains).best_gain ≤ 0 ∧
    ∃ ds : driver_state,
      run_regime r ext inp (fuel + 1) (start_of_regime inp st) = some ds ∧ ds.st = st := by
  have hsel := find_best_gain_char inp.nb_vehicles
    (evaluation_phase r ext inp st (all_pairs inp.nb_vehicles)
      (start_of_regime inp st).tables).best_gains
  have hle : (find_best_gain inp.nb_vehicles
      (evaluation_phase r ext inp st (all_pairs inp.nb_vehicles)
        (start_of_regime inp st).tables).best_gains).best_gain ≤ 0 := by
    rcases hsel.2.2 with h0 | ⟨_, _, _, hg, _⟩
    · omega
    · rw [hzero] at hg
      omega
  refine ⟨hle, ?_⟩
  rw [run_regime_succ]
  have e1 : (start_of_regime inp st).st = st := rfl
  have e2 : (start_of_regime inp st).s_t_pairs = all_pairs inp.nb_vehicles := rfl
  rw [e1, e2, if_neg (by omega)]
  exact ⟨_, rfl, rfl⟩

theorem eq_some_getD {α : Type} (o : Option α) (d : α) (h : o.isSome = true) :
    o = some (o.getD d) := by
  cases o with
  | none => cases h
  | some x => rfl

/-- The concrete collaborators are pure operators. -/
theorem ex_ext_pure (inp : input) : pure_operators (ex_ext inp) := by
  refine ⟨?_, ?_, ?_, ?_⟩
  · intro op a b h
    obtain ⟨h1, h2, h3, h4⟩ := h
    unfold ex_ext
    cases hk : op.kind <;>
      simp [hk, relocate_is_valid, or_opt_is_valid, total_amount, relocate_apply, upd,
        h1, h2, h3, h4]
  · intro k s s_rank t t_rank st hk
    rcases hk with rfl | rfl <;> exact ⟨rfl, rfl⟩
  · intro op st v hs ht
    unfold ex_ext
    cases hk : op.kind <;> simp [hk, relocate_apply, upd, hs, ht]
  · intro op v hv
    simpa [ex_ext] using hv

theorem start_of_regime_exhaustive_inv (ext : externals) (inp : input) (st : ls_state) :
    exhaustive_inv ext inp (start_of_regime inp st) := by
  refine ⟨?_, ?_⟩
  · intro s t op h
    cases h
  · intro s t hs ht hst
    exact Or.inl ((mem_all_pairs _ _ _).mpr ⟨hs, ht, hst⟩)

/-- A completed `run` leaves a local optimum of the exhaustive search. -/
theorem run_local_optimum (ext : externals) (inp : input) (hops : pure_operators ext)
    (fuel : Nat) (st0 st1 : ls_state) (hrun : run ext inp fuel st0 = some st1) :
    local_optimum ext inp st1 := by
  unfold run at hrun
  split at hrun
  · cases hrun
  · rename_i dsA _
    split at hrun
    · cases hrun
    · rename_i dsB _
      split at hrun
      · cases hrun
      · rename_i dsC hC
        simp only [Option.some.injEq] at hrun
        rw [← hrun]
        exact exhaustive_search_local_optimum ext inp hops fuel _ dsC
          (start_of_regime_exhaustive_inv ext inp dsB.st) hC

/-- The loop of a search function is the iteration of `next_sweep`. -/
theorem run_regime_next_sweep (r : regime) (ext : externals) (inp : input) (fuel : Nat)
    (ds : driver_state) :
    run_regime r ext inp (fuel + 1) ds =
      if (find_best_gain inp.nb_vehicles
          (evaluation_phase r ext inp ds.st ds.s_t_pairs ds.tables).best_gains).best_gain > 0
      then
        match next_sweep r ext inp ds with
        | none => none
        | some ds2 => run_regime r ext inp fuel ds2
      else some { ds with tables := evaluation_phase r ext inp ds.st ds.s_t_pairs ds.tables } := by
  rw [run_regime_succ]
  unfold next_sweep
  simp only
  split_ifs with hpos
  · split
    · rfl
    · split
      · rfl
      · split <;> rfl
  · rfl

/-! ## Operators built within their ranks -/

theorem relocate_candidates_ranks (r : regime) (ext : externals) (inp : input)
    (st : ls_state) (hc : caches_consistent inp st)
    (s t : Nat) (hs : s < inp.nb_vehicles) (ht : t < inp.nb_vehicles) (hst : s ≠ t)
    (op : ls_op) (h : op ∈ relocate_candidates r ext inp st s t) :
    op.s_rank < (st.sol s).length ∧ op.t_rank ≤ (st.sol t).length := by
  have h2 := relocate_candidates_exhaustive r ext inp st hc s t hs ht hst op h
  unfold relocate_candidates at h2
  split_ifs at h2
  · simp at h2
  · simp at h2
  · simp only [List.mem_flatMap, List.mem_map, List.mem_range'_1] at h2
    obtain ⟨a, ha, b, hb, rfl⟩ := h2
    exact ⟨by simp only; omega, by simp only; omega⟩

theorem or_opt_candidates_ranks (r : regime) (ext : externals) (inp : input)
    (st : ls_state) (hc : caches_consistent inp st)
    (s t : Nat) (hs : s < inp.nb_vehicles) (ht : t < inp.nb_vehicles) (hst : s ≠ t)
    (op : ls_op) (h : op ∈ or_opt_candidates r ext inp st s t) :
    op.s_rank + 1 < (st.sol s).length ∧ op.t_rank ≤ (st.sol t).length := by
  have h2 := or_opt_candidates_exhaustive r ext inp st hc s t hs ht hst op h
  unfold or_opt_candidates at h2
  split_ifs at h2 with c1 c2
  · simp at h2
  · simp at h2
  · simp only [List.mem_flatMap, List.mem_map, List.mem_range'_1] at h2
    obtain ⟨a, ha, b, hb, rfl⟩ := h2
    exact ⟨by simp only; omega, by simp only; omega⟩

/-- With consistent caches every operator a sweep builds from the start of a
search function is within the ranks for which it is defined. -/
theorem consistent_sweep_in_domain (r : regime) (ext : externals) (inp : input)
    (st : ls_state) (hc : caches_consistent inp st) :
    sweep_in_domain r ext inp (start_of_regime inp st) = true := by
  unfold sweep_in_domain
  rw [List.all_eq_true]
  rintro ⟨s, t, op⟩ he
  show op_in_domain st op = true
  have hmem : ∀ (cands : Nat → Nat → List ls_op),
      (s, t, op) ∈ family_trace cands (all_pairs inp.nb_vehicles) →
      (s < inp.nb_vehicles ∧ t < inp.nb_vehicles ∧ s ≠ t) ∧ op ∈ cands s t := by
    intro cands h
    obtain ⟨hp, hop⟩ := mem_family_trace _ _ _ _ _ h
    exact ⟨(mem_all_pairs _ _ _).mp hp, hop⟩
  unfold evaluated at he
  simp only [start_of_regime, List.mem_append] at he
  rcases he with ((h | h) | h) | h
  · obtain ⟨⟨hs, ht, hst⟩, hop⟩ := hmem _ h
    obtain ⟨k, a, b⟩ := relocate_candidates_mem r ext inp st s t op hop
    obtain ⟨h1, h2⟩ := relocate_candidates_ranks r ext inp st hc s t hs ht hst op hop
    simp [op_in_domain, k, a, b, h1, h2]
  · obtain ⟨⟨hs, ht, hst⟩, hop⟩ := hmem _ h
    obtain ⟨k, a, b⟩ := exchange_candidates_mem r st s t op hop
    obtain ⟨h1, h2⟩ := exchange_candidates_ranks r inp st hc s t hs ht hst op hop
    simp [op_in_domain, k, a, b, h1, h2]
  · obtain ⟨⟨hs, ht, hst⟩, hop⟩ := hmem _ h
    obtain ⟨k, a, b⟩ := or_opt_candidates_mem r ext inp st s t op hop
    obtain ⟨h1, h2⟩ := or_opt_candidates_ranks r ext inp st hc s t hs ht hst op hop
    simp [op_in_domain, k, a, b, h1, h2]
  · obtain ⟨⟨hs, ht, hst⟩, hop⟩ := hmem _ h
    obtain ⟨k, a, b⟩ := cross_exchange_candidates_mem r st s t op hop
    obtain ⟨h1, h2⟩ := cross_exchange_candidates_ranks r inp st hc s t hs ht hst op hop
    simp [op_in_domain, k, a, b, h1, h2]

/-- A search function that returns while it builds every operator within its
ranks returns the same state without the test. -/
theorem run_regime_in_domain_some (r : regime) (ext : externals) (inp : input) :
    ∀ (fuel : Nat) (ds ds2 : driver_state),
      run_regime_in_domain r ext inp fuel ds = some ds2 →
      run_regime r ext inp fuel ds = some ds2 := by
  intro fuel
  induction fuel with
  | zero => intro ds ds2 h; simp [run_regime_in_domain] at h
  | succ fuel ih =>
    intro ds ds2 h
    unfold run_regime_in_domain at h
    rw [run_regime_next_sweep]
    by_cases c1 : sweep_in_domain r ext inp ds = true
    · rw [if_pos c1] at h
      by_cases c2 : (find_best_gain inp.nb_vehicles
          (evaluation_phase r ext inp ds.st ds.s_t_pairs ds.tables).best_gains).best_gain > 0
      · rw [if_pos c2] at h ⊢
        cases hn : next_sweep r ext inp ds with
        | none => rw [hn] at h; cases h
        | some ds3 =>
          rw [hn] at h
          exact ih _ _ h
      · rw [if_neg c2] at h ⊢
        exact h
    · rw [if_neg c1] at h
      cases h

theorem run_in_domain_some (ext : externals) (inp : input) (fuel : Nat)
    (st st2 : ls_state) (h : run_in_domain ext inp fuel st = some st2) :
    run ext inp fuel st = some st2 := by
  unfold run_in_domain at h
  unfold run
  split at h
  · cases h
  · rename_i dsA hA
    rw [run_regime_in_domain_some _ ext inp fuel _ dsA hA]
    simp only
    split at h
    · cases h
    · rename_i dsB hB
      rw [run_regime_in_domain_some _ ext inp fuel _ dsB hB]
      simp only
      split at h
      · cases h
      · rename_i dsC hC
        rw [run_regime_in_domain_some _ ext inp fuel _ dsC hC]
        simp only
        exact h

/-- A search function whose first sweep builds every operator within its ranks
and records no positive gain returns the engine state it was given. -/
theorem regime_in_domain_ends (r : regime) (ext : externals) (inp : input)
    (st : ls_state) (fuel : Nat)
    (hd : sweep_in_domain r ext inp (start_of_regime inp st) = true)
    (hg : (find_best_gain inp.nb_vehicles
      (evaluation_phase r ext inp st (all_pairs inp.nb_vehicles)
        (start_of_regime inp st).tables).best_gains).best_gain ≤ 0) :
    ∃ ds : driver_state,
      run_regime_in_domain r ext inp (fuel + 1) (start_of_regime inp st) = some ds ∧
        ds.st = st := by
  have hg2 : ¬ (find_best_gain inp.nb_vehicles
      (evaluation_phase r ext inp (start_of_regime inp st).st
        (start_of_regime inp st).s_t_pairs
        (start_of_regime inp st).tables).best_gains).best_gain > 0 := by
    show ¬ (find_best_gain inp.nb_vehicles
      (evaluation_phase r ext inp st (all_pairs inp.nb_vehicles)
        (start_of_regime inp st).tables).best_gains).best_gain > 0
    omega
  refine ⟨{ start_of_regime inp st with
    tables := evaluation_phase r ext inp (start_of_regime inp st).st
      (start_of_regime inp st).s_t_pairs (start_of_regime inp st).tables }, ?_, rfl⟩
  unfold run_regime_in_domain
  rw [if_pos hd, if_neg hg2]

/-- C17 (amended): started on the state left by a completed `run()`, a second
`run()` applies no move, provided the candidate ranks and the nearest-rank
tables left by the first run are consistent with its routes: each of the three
regime loops ends after its first sweep with `best_gain ≤ 0` and returns the
engine state it was given, and `run()` returns the state it started from, with
every route and the unassigned jobs unchanged; every operator the second run
builds is within the ranks for which it is defined. The operators are pure:
validity and gain depend only on the two routes and their loads, Exchange and
CROSS-exchange are symmetric in source and target, applying an operator
changes only its two routes, and the routes open to additions are among
them. -/
theorem second_run_applies_no_move (ext : externals) (inp : input)
    (fuel fuel2 : Nat) (st0 st1 : ls_state)
    (hops : pure_operators ext)
    (hrun : run ext inp fuel st0 = some st1)
    (hc : caches_consistent inp st1) :
    run ext inp (fuel2 + 1) st1 = some st1 ∧
    run_in_domain ext inp (fuel2 + 1) st1 = some st1 ∧
    ∀ r : regime,
      (find_best_gain inp.nb_vehicles
        (evaluation_phase r ext inp st1 (all_pairs inp.nb_vehicles)
          (start_of_regime inp st1).tables).best_gains).best_gain ≤ 0 ∧
      ∃ ds : driver_state,
        run_regime r ext inp (fuel2 + 1) (start_of_regime inp st1) = some ds ∧
          ds.st = st1 := by
  have hopt := run_local_optimum ext inp hops fuel st0 st1 hrun
  have hend : ∀ r : regime,
      (find_best_gain inp.nb_vehicles
        (evaluation_phase r ext inp st1 (all_pairs inp.nb_vehicles)
          (start_of_regime inp st1).tables).best_gains).best_gain ≤ 0 ∧
      ∃ ds : driver_state,
        run_regime r ext inp (fuel2 + 1) (start_of_regime inp st1) = some ds ∧
          ds.st = st1 := by
    intro r
    exact regime_ends_after_first_sweep r ext inp st1 fuel2
      (evaluation_records_nothing r ext inp st1
        (local_optimum_no_gain ext inp st1 hops hc hopt r))
  have hdom : run_in_domain ext inp (fuel2 + 1) st1 = some st1 := by
    obtain ⟨dsA, hA, eA⟩ := regime_in_domain_ends regime.fixed_source_and_target ext inp
      st1 fuel2 (consistent_sweep_in_domain _ ext inp st1 hc)
      (hend regime.fixed_source_and_target).1
    obtain ⟨dsB, hB, eB⟩ := regime_in_domain_ends regime.fixed_source ext inp
      st1 fuel2 (consistent_sweep_in_domain _ ext inp st1 hc) (hend regime.fixed_source).1
    obtain ⟨dsC, hC, eC⟩ := regime_in_domain_ends regime.exhaustive ext inp
      st1 fuel2 (consistent_sweep_in_domain _ ext inp st1 hc) (hend regime.exhaustive).1
    unfold run_in_domain
    rw [hA]
    simp only
    rw [eA, hB]
    simp only
    rw [eB, hC]
    simp only
    rw [eC]
  exact ⟨run_in_domain_some ext inp _ st1 st1 hdom, hdom, hend⟩

/-- The four operators of the specification are pure operators. -/
theorem ex_ops_pure (inp : input) : pure_operators (ex_ops inp) := by
  refine ⟨?_, ?_, ?_, ?_⟩
  · intro op a b h
    obtain ⟨h1, h2, h3, h4⟩ := h
    have hm : moved_routes a op = moved_routes b op := by
      unfold moved_routes; rw [h1, h2]
    have hr : relocate_is_valid inp a op = relocate_is_valid inp b op := by
      unfold relocate_is_valid total_amount; rw [h1, h4]
    have ho : or_opt_is_valid inp a op = or_opt_is_valid inp b op := by
      unfold or_opt_is_valid total_amount; rw [h1, h4]
    refine ⟨?_, ?_⟩
    · show spec_is_valid inp op a = spec_is_valid inp op b
      simp only [spec_is_valid, h1, h2, hm, hr, ho]
    · show spec_gain inp op a = spec_gain inp op b
      simp only [spec_gain, h1, h2, hm]
  · intro k s s_rank t t_rank st hk
    rcases hk with rfl | rfl
    · refine ⟨?_, ?_⟩
      · simp only [ex_ops, spec_is_valid, moved_routes]
        ac_rfl
      · simp only [ex_ops, spec_gain, moved_routes]
        ring
    · refine ⟨?_, ?_⟩
      · simp only [ex_ops, spec_is_valid, moved_routes]
        ac_rfl
      · simp only [ex_ops, spec_gain, moved_routes]
        ring
  · intro op st v hs ht
    show (spec_apply op st).sol v = st.sol v ∧ (spec_apply op st).amounts v = st.amounts v
    simp [spec_apply, upd, hs, ht]
  · intro op v hv
    simpa [ex_ops] using hv

set_option maxRecDepth 100000 in
set_option maxHeartbeats 4000000 in
/-- C17 (counterexample): five jobs, two vehicles of capacity 4, routes
`[3, 1, 4]` and `[2, 0]`, caches as the constructor builds them, the four
operators of the specification (pure, with the gain they save on the two
routes). In the first `run()` every operator is built within the ranks for
which it is defined; the first two search functions find no positive gain and
the exhaustive search, which never refreshes the nearest ranks, moves job 2 to
the end of route 0 for a gain of 3: it leaves the routes `[3, 1, 4, 2]` and `[0]` with
`node_candidates[0] = 1` and the table of the nearest ranks to the jobs of
route 0 in route 1 still `[1, 1, 0]`, written when route 1 had two jobs. The
caches are not consistent, and the second `run()` builds, in the first sweep of
its first search function, the Relocate of rank 1 of route 0 to position
`1 + 1 = 2` of route 1, which has one job: the operator is not defined there,
so that the second `run()` does not end with a gain of at most 0. The lookup
of rank `edge_candidates[0] + 1 = 3` made for Or-opt is also past the end of
the tables of the pair (0, 1), which have three entries. -/
theorem second_run_out_of_domain_counterexample :
    pure_operators (ex_ops ex_input_split) ∧
    init_caches ex_input_split ex_routes_split [] = some ex_state_split ∧
    run_in_domain (ex_ops ex_input_split) ex_input_split 2 ex_state_split =
      some ex_state_split_ran ∧
    run (ex_ops ex_input_split) ex_input_split 2 ex_state_split =
      some ex_state_split_ran ∧
    (find_best_gain ex_input_split.nb_vehicles
      (evaluation_phase regime.fixed_source_and_target (ex_ops ex_input_split)
        ex_input_split ex_state_split (all_pairs ex_input_split.nb_vehicles)
        (start_of_regime ex_input_split ex_state_split).tables).best_gains).best_gain = 0 ∧
    (find_best_gain ex_input_split.nb_vehicles
      (evaluation_phase regime.fixed_source (ex_ops ex_input_split)
        ex_input_split ex_state_split (all_pairs ex_input_split.nb_vehicles)
        (start_of_regime ex_input_split ex_state_split).tables).best_gains).best_gain = 0 ∧
    (find_best_gain ex_input_split.nb_vehicles
      (evaluation_phase regime.exhaustive (ex_ops ex_input_split)
        ex_input_split ex_state_split (all_pairs ex_input_split.nb_vehicles)
        (start_of_regime ex_input_split ex_state_split).tables).best_gains).best_gain = 3 ∧
    (evaluation_phase regime.exhaustive (ex_ops ex_input_split)
      ex_input_split ex_state_split (all_pairs ex_input_split.nb_vehicles)
      (start_of_regime ex_input_split ex_state_split).tables).best_ops 1 0 =
      some ⟨op_kind.relocate, 1, 0, 0, 3⟩ ∧
    ex_state_split_ran.sol 0 = [3, 1, 4, 2] ∧
    ex_state_split_ran.sol 1 = [0] ∧
    ex_state_split_ran.unassigned = [] ∧
    ex_state_split_ran.node_candidates 0 = 1 ∧
    ex_state_split_ran.nearest_job_rank_in_routes_to 0 1 = [1, 1, 0] ∧
    ¬ caches_consistent ex_input_split ex_state_split_ran ∧
    (⟨op_kind.relocate, 0, 1, 1, 2⟩ : ls_op) ∈
      relocate_candidates regime.fixed_source_and_target (ex_ops ex_input_split)
        ex_input_split ex_state_split_ran 0 1 ∧
    op_in_domain ex_state_split_ran ⟨op_kind.relocate, 0, 1, 1, 2⟩ = false ∧
    or_opt_candidates regime.fixed_source_and_target (ex_ops ex_input_split)
      ex_input_split ex_state_split_ran 0 1 ≠ [] ∧
    3 ∈ or_opt_lookups ex_state_split_ran 0 ∧
    ¬ lookup_in_bounds ex_state_split_ran 0 1 3 ∧
    sweep_in_domain regime.fixed_source_and_target (ex_ops ex_input_split) ex_input_split
      (start_of_regime ex_input_split ex_state_split_ran) = false ∧
    ∀ fuel : Nat,
      run_in_domain (ex_ops ex_input_split) ex_input_split fuel ex_state_split_ran =
        none := by
  have hbad : sweep_in_domain regime.fixed_source_and_target (ex_ops ex_input_split)
      ex_input_split (start_of_regime ex_input_split ex_state_split_ran) = false := by
    decide
  refine ⟨ex_ops_pure _, eq_some_getD _ _ (by decide), ?_, eq_some_getD _ _ (by decide),
    by decide, by decide, by decide, by decide,
    by decide, by decide, by decide, by decide, by decide, ?_, by decide, by decide,
    by decide, by decide, ?_, hbad, ?_⟩
  · have h := eq_some_getD (run_in_domain (ex_ops ex_input_split) ex_input_split 2
      ex_state_split) ex_state_split (by decide)
    have h2 := run_in_domain_some _ _ _ _ _ h
    have h3 : run (ex_ops ex_input_split) ex_input_split 2 ex_state_split =
        some ex_state_split_ran := eq_some_getD _ _ (by decide)
    rw [h3] at h2
    rw [h, Option.some.inj h2]
  · intro hc
    have := (hc 0 (by decide)).2.2 1 (by decide) (by decide)
    exact absurd this.1 (by decide)
  · unfold lookup_in_bounds
    decide
  · intro fuel
    cases fuel with
    | zero => rfl
    | succ fuel =>
      unfold run_in_domain run_regime_in_domain
      rw [hbad]
      rfl

set_option maxRecDepth 100000 in
set_option maxHeartbeats 4000000 in
/-- On the five-job instance with two vehicles of capacity 4, the routes
`[3, 1, 2, 4]` and `[0]` and the four operators of the specification, `run()`
applies its moves in its first search function, which refreshes the nearest
ranks, and leaves the routes `[3, 4, 1, 2]` and `[0]`; the caches it leaves
are consistent and a second `run()` changes nothing. -/
theorem second_run_applies_no_move_witness :
    pure_operators (ex_ops ex_input_split) ∧
    init_caches ex_input_split ex_routes_near [] = some ex_state_near ∧
    run (ex_ops ex_input_split) ex_input_split 3 ex_state_near = some ex_state_near_ran ∧
    ex_state_near.sol 0 = [3, 1, 2, 4] ∧ ex_state_near.sol 1 = [0] ∧
    ex_state_near_ran.sol 0 = [3, 4, 1, 2] ∧ ex_state_near_ran.sol 1 = [0] ∧
    caches_consistent ex_input_split ex_state_near_ran ∧
    (run (ex_ops ex_input_split) ex_input_split (0 + 1) ex_state_near_ran =
        some ex_state_near_ran ∧
      run_in_domain (ex_ops ex_input_split) ex_input_split (0 + 1) ex_state_near_ran =
        some ex_state_near_ran ∧
      ∀ r : regime,
        (find_best_gain ex_input_split.nb_vehicles
          (evaluation_phase r (ex_ops ex_input_split) ex_input_split ex_state_near_ran
            (all_pairs ex_input_split.nb_vehicles)
            (start_of_regime ex_input_split ex_state_near_ran).tables).best_gains).best_gain
          ≤ 0 ∧
        ∃ ds : driver_state,
          run_regime r (ex_ops ex_input_split) ex_input_split (0 + 1)
              (start_of_regime ex_input_split ex_state_near_ran) = some ds ∧
            ds.st = ex_state_near_ran) :=
  ⟨ex_ops_pure ex_input_split, eq_some_getD _ _ (by decide),
    eq_some_getD _ _ (by decide), by decide, by decide,
    by decide, by decide, by unfold caches_consistent; decide,
    second_run_applies_no_move (ex_ops ex_input_split) ex_input_split 3 0
      ex_state_near ex_state_near_ran (ex_ops_pure ex_input_split)
      (eq_some_getD _ _ (by decide)) (by unfold caches_consistent; decide)⟩

/-! ## The refresh of a sweep: the new list of pairs and the gains -/

theorem refresh_step_gains (g : Nat → Nat → Int) (k bs bt a b : Nat)
    (hk1 : k ≠ bs) (hk2 : k ≠ bt) (hne : bs ≠ bt) :
    upd (upd (upd (upd g k (upd (g k) bs 0)) bs (upd (upd g k (upd (g k) bs 0) bs) k 0))
        k (upd (upd (upd g k (upd (g k) bs 0)) bs
          (upd (upd g k (upd (g k) bs 0) bs) k 0) k) bt 0))
      bt (upd (upd (upd (upd g k (upd (g k) bs 0)) bs
          (upd (upd g k (upd (g k) bs 0) bs) k 0))
        k (upd (upd (upd g k (upd (g k) bs 0)) bs
          (upd (upd g k (upd (g k) bs 0) bs) k 0) k) bt 0) bt) k 0) a b =
      if (a = k ∧ (b = bs ∨ b = bt)) ∨ (b = k ∧ (a = bs ∨ a = bt)) then 0 else g a b := by
  have hk1' := Ne.symm hk1
  have hk2' := Ne.symm hk2
  have hne' := Ne.symm hne
  by_cases h1 : a = k
  · subst h1
    by_cases h5 : b = bs
    · subst h5; simp [upd, hk1, hk2, hne]
    · by_cases h6 : b = bt
      · subst h6; simp [upd, hk1, hk2, hne']
      · simp [upd, hk1, hk2, h5, h6]
  · by_cases h2 : a = bs
    · subst h2
      by_cases h4 : b = k
      · subst h4; simp [upd, hk1', hne]
      · simp [upd, h1, hne, h4]
    · by_cases h3 : a = bt
      · subst h3
        by_cases h4 : b = k
        · subst h4; simp [upd, hk2']
        · simp [upd, h1, h2, h4]
      · simp [upd, h1, h2, h3]

theorem refresh_inv_skip (bs bt k : Nat) (d : driver_state)
    (hk : k = bs ∨ k = bt) (hP : refresh_inv bs bt k d) : refresh_inv bs bt (k + 1) d := by
  obtain ⟨hm, hn, hg⟩ := hP
  refine ⟨?_, hn, ?_⟩
  · intro a b
    rw [hm a b]
    omega
  · intro a b h
    exact hg a b (by omega)

theorem refresh_inv_pairs (bs bt k : Nat) (l : List (Nat × Nat)) (hne : bs ≠ bt)
    (e1 : k ≠ bs) (e2 : k ≠ bt)
    (hm : ∀ a b : Nat, (a, b) ∈ l ↔
      ((a = bs ∧ b = bt) ∨ (a = bt ∧ b = bs) ∨
        (b < k ∧ b ≠ bs ∧ b ≠ bt ∧ (a = bs ∨ a = bt)) ∨
        (a < k ∧ a ≠ bs ∧ a ≠ bt ∧ (b = bs ∨ b = bt))))
    (hn : l.Nodup) :
    (∀ a b : Nat, (a, b) ∈ l ++ [(bs, k), (k, bs)] ++ [(bt, k), (k, bt)] ↔
      ((a = bs ∧ b = bt) ∨ (a = bt ∧ b = bs) ∨
        (b < k + 1 ∧ b ≠ bs ∧ b ≠ bt ∧ (a = bs ∨ a = bt)) ∨
        (a < k + 1 ∧ a ≠ bs ∧ a ≠ bt ∧ (b = bs ∨ b = bt)))) ∧
    (l ++ [(bs, k), (k, bs)] ++ [(bt, k), (k, bt)]).Nodup := by
  refine ⟨?_, ?_⟩
  · intro a b
    simp only [List.mem_append, List.mem_cons, Prod.mk.injEq, List.mem_singleton,
      List.not_mem_nil, or_false]
    rw [hm a b]
    omega
  · have n1 : (bs, k) ∉ l := by rw [hm]; omega
    have n2 : (k, bs) ∉ l := by rw [hm]; omega
    have n3 : (bt, k) ∉ l := by rw [hm]; omega
    have n4 : (k, bt) ∉ l := by rw [hm]; omega
    simp only [List.nodup_append, List.nodup_cons, List.mem_singleton, Prod.mk.injEq,
      List.not_mem_nil, not_false_eq_true, List.nodup_nil, and_true,
      List.disjoint_cons_right, List.disjoint_nil_right, List.mem_append,
      List.mem_cons, or_false, hn, true_and, n1, n2, n3, n4, e1, e2, hne,
      Ne.symm e1, Ne.symm e2, Ne.symm hne, and_self, and_false, false_and, or_self]

theorem refresh_inv_step (r : regime) (inp : input) (bs bt k : Nat) (d : driver_state)
    (hne : bs ≠ bt) (hP : refresh_inv bs bt k d) :
    refresh_inv bs bt (k + 1) (refresh_step r inp bs bt d k) := by
  by_cases hk : k = bs ∨ k = bt
  · unfold refresh_step
    rw [if_pos hk]
    exact refresh_inv_skip bs bt k d hk hP
  · have e1 : k ≠ bs := fun e => hk (Or.inl e)
    have e2 : k ≠ bt := fun e => hk (Or.inr e)
    obtain ⟨hm, hn, hg⟩ := hP
    obtain ⟨p1, p2⟩ := refresh_inv_pairs bs bt k d.s_t_pairs hne e1 e2 hm hn
    unfold refresh_step
    rw [if_neg hk]
    refine ⟨p1, p2, ?_⟩
    intro a b h
    refine Eq.trans (refresh_step_gains d.tables.best_gains k bs bt a b e1 e2 hne) ?_
    split_ifs with hc
    · rfl
    · apply hg a b
      clear hm hn hg p1 p2
      omega

theorem refresh_loop_inv (r : regime) (inp : input) (bs bt : Nat) (ds : driver_state)
    (hne : bs ≠ bt) :
    refresh_inv bs bt inp.nb_vehicles (refresh r inp bs bt ds) := by
  have key := foldl_range'_inv (fun (k : Nat) (d : driver_state) => refresh_inv bs bt k d)
    (refresh_step r inp bs bt) inp.nb_vehicles 0
    { st :=
        if r = regime.fixed_source_and_target then
          update_nearest_job_rank_in_routes inp bt bs
            (update_nearest_job_rank_in_routes inp bs bt ds.st)
        else ds.st
      tables :=
        { ds.tables with
          best_gains := upd (upd ds.tables.best_gains bs (fun _ => 0)) bt (fun _ => 0) }
      s_t_pairs := [(bs, bt), (bt, bs)] }
    (by
      refine ⟨?_, ?_, ?_⟩
      · intro a b
        simp only [List.mem_cons, Prod.mk.injEq, List.mem_singleton, List.not_mem_nil,
          or_false]
        omega
      · simp only [List.nodup_cons, List.mem_singleton, Prod.mk.injEq, List.not_mem_nil,
          not_false_eq_true, List.nodup_nil, and_true]
        omega
      · intro a b h
        simp only [upd]
        split_ifs <;> first | rfl | omega)
    (fun k d _ _ hP => refresh_inv_step r inp bs bt k d hne hP)
  rw [Nat.zero_add] at key
  exact key

/-- C21: the refresh after an accepted move on `(s, t)`, `s ≠ t`, with `V`
vehicles, in every regime: the new working list holds exactly the ordered
pairs `(a, b)` of distinct vehicles with one of `a`, `b` among `s`, `t`, and
it holds no pair twice; the gain of every such pair is 0; the gain of every
pair with neither `a` nor `b` among `s`, `t` is unchanged. -/
theorem refresh_resets_touched_pairs (r : regime) (inp : input) (s t : Nat)
    (ds : driver_state) (hne : s ≠ t) (hs : s < inp.nb_vehicles)
    (ht : t < inp.nb_vehicles) :
    (∀ a b : Nat, (a, b) ∈ (refresh r inp s t ds).s_t_pairs ↔
      (a < inp.nb_vehicles ∧ b < inp.nb_vehicles ∧ a ≠ b ∧
        (a = s ∨ a = t ∨ b = s ∨ b = t))) ∧
    (refresh r inp s t ds).s_t_pairs.Nodup ∧
    (∀ a b : Nat, (a, b) ∈ (refresh r inp s t ds).s_t_pairs →
      (refresh r inp s t ds).tables.best_gains a b = 0) ∧
    (∀ a b : Nat, a ≠ s → a ≠ t → b ≠ s → b ≠ t →
      (refresh r inp s t ds).tables.best_gains a b = ds.tables.best_gains a b) := by
  obtain ⟨hm, hn, hg⟩ := refresh_loop_inv r inp s t ds hne
  refine ⟨?_, hn, ?_, (refresh_char r inp s t ds).2.2.1⟩
  · intro a b
    rw [hm a b]
    omega
  · intro a b hmem
    rw [hm a b] at hmem
    apply hg a b
    omega

theorem refresh_resets_touched_pairs_witness :
    (0 : Nat) ≠ 1 ∧ 0 < ex_input.nb_vehicles ∧ 1 < ex_input.nb_vehicles ∧
    ((∀ a b : Nat, (a, b) ∈ (refresh regime.exhaustive ex_input 0 1
        (start_of_regime ex_input ex_state_two)).s_t_pairs ↔
      (a < ex_input.nb_vehicles ∧ b < ex_input.nb_vehicles ∧ a ≠ b ∧
        (a = 0 ∨ a = 1 ∨ b = 0 ∨ b = 1))) ∧
    (refresh regime.exhaustive ex_input 0 1
      (start_of_regime ex_input ex_state_two)).s_t_pairs.Nodup ∧
    (∀ a b : Nat, (a, b) ∈ (refresh regime.exhaustive ex_input 0 1
        (start_of_regime ex_input ex_state_two)).s_t_pairs →
      (refresh regime.exhaustive ex_input 0 1
        (start_of_regime ex_input ex_state_two)).tables.best_gains a b = 0) ∧
    (∀ a b : Nat, a ≠ 0 → a ≠ 1 → b ≠ 0 → b ≠ 1 →
      (refresh regime.exhaustive ex_input 0 1
        (start_of_regime ex_input ex_state_two)).tables.best_gains a b =
        (start_of_regime ex_input ex_state_two).tables.best_gains a b)) :=
  ⟨by decide, by decide, by decide,
    refresh_resets_touched_pairs regime.exhaustive ex_input 0 1
      (start_of_regime ex_input ex_state_two) (by decide) (by decide) (by decide)⟩

/-! ## try_job_additions: the total load of a route -/

/-- One insertion keeps the load cache of every candidate route as long as the
route, with the demand of the route as its last element. -/
theorem add_job_keeps_total (inp : input) (routes : List Nat) (st : ls_state)
    (hA : ∀ v ∈ routes, (st.amounts v).length = (st.sol v).length ∧
      total_amount inp v st = route_demand inp (st.sol v))
    (hadd : (find_best_insertion inp routes st).best_cost < inp.gain_max) :
    ∀ v ∈ routes,
      ((add_job inp st (find_best_insertion inp routes st)).amounts v).length =
        ((add_job inp st (find_best_insertion inp routes st)).sol v).length ∧
      total_amount inp v (add_job inp st (find_best_insertion inp routes st)) =
        route_demand inp ((add_job inp st (find_best_insertion inp routes st)).sol v) := by
  obtain ⟨hroute, _, hrank⟩ := find_best_insertion_recorded_ok inp routes st hadd
  generalize find_best_insertion inp routes st = b at hroute hrank ⊢
  obtain ⟨hAl, hAt⟩ := hA b.best_route hroute
  have hrankA : b.best_rank < (st.amounts b.best_route).length := by omega
  intro v hv
  by_cases hvb : v = b.best_route
  · subst hvb
    rw [add_job_amounts_length inp st b hrankA, add_job_total_amount inp st b hrankA,
      add_job_sol, if_pos rfl, List.length_insertIdx _ _ (by omega),
      route_demand_insertIdx inp _ _ _ (by omega), hAt]
    exact ⟨by omega, rfl⟩
  · rw [add_job_amounts_other inp st b v hvb, add_job_total_amount_other inp st b v hvb,
      add_job_sol, if_neg hvb]
    exact hA v hv

/-- C23: if on entry `amounts[v]` holds the prefix sums of `R[v]` for every
candidate route, then `total_amount(v)`, the last element of `amounts[v]`, is
the sum of the demands of the jobs of `R[v]` for every candidate route `v` on
entry, after every insertion made by `try_job_additions` (the property is kept
by each insertion the loop makes), and on return; the loop returns within
`|U| + 1` rounds. -/
theorem try_job_additions_keeps_total_amount (inp : input) (routes : List Nat)
    (st : ls_state)
    (hamounts : ∀ v ∈ routes, (st.amounts v).length = (st.sol v).length ∧
      ∀ i : Nat, i < (st.sol v).length →
        (st.amounts v).getD i [] = route_demand inp ((st.sol v).take (i + 1))) :
    (∀ v ∈ routes, (st.amounts v).length = (st.sol v).length ∧
      total_amount inp v st = route_demand inp (st.sol v)) ∧
    (∀ s : ls_state,
      (∀ v ∈ routes, (s.amounts v).length = (s.sol v).length ∧
        total_amount inp v s = route_demand inp (s.sol v)) →
      (find_best_insertion inp routes s).best_cost < inp.gain_max →
      ∀ v ∈ routes,
        ((add_job inp s (find_best_insertion inp routes s)).amounts v).length =
          ((add_job inp s (find_best_insertion inp routes s)).sol v).length ∧
        total_amount inp v (add_job inp s (find_best_insertion inp routes s)) =
          route_demand inp ((add_job inp s (find_best_insertion inp routes s)).sol v)) ∧
    ∃ st2 : ls_state,
      try_job_additions inp routes (st.unassigned.length + 1) st = some st2 ∧
      ∀ v ∈ routes, (st2.amounts v).length = (st2.sol v).length ∧
        total_amount inp v st2 = route_demand inp (st2.sol v) := by
  have h0 : ∀ v ∈ routes, (st.amounts v).length = (st.sol v).length ∧
      total_amount inp v st = route_demand inp (st.sol v) :=
    fun v hv => ⟨(hamounts v hv).1,
      last_of_prefix_sums inp (st.sol v) (st.amounts v) (hamounts v hv).1 (hamounts v hv).2⟩
  refine ⟨h0, fun s hs hadd => add_job_keeps_total inp routes s hs hadd, ?_⟩
  obtain ⟨st2, hst, hP, _⟩ := try_job_additions_inv inp routes
    (fun s => ∀ v ∈ routes, (s.amounts v).length = (s.sol v).length ∧
      total_amount inp v s = route_demand inp (s.sol v))
    (fun s hs hadd => add_job_keeps_total inp routes s hs hadd)
    (st.unassigned.length + 1) st (Nat.lt_succ_self _) h0
  exact ⟨st2, hst, hP⟩

theorem try_job_additions_keeps_total_amount_witness :
    (∀ v ∈ [0, 1], (ex_state_add.amounts v).length = (ex_state_add.sol v).length ∧
      ∀ i : Nat, i < (ex_state_add.sol v).length →
        (ex_state_add.amounts v).getD i [] =
          route_demand ex_input ((ex_state_add.sol v).take (i + 1))) ∧
    ∃ st2 : ls_state,
      try_job_additions ex_input [0, 1] (ex_state_add.unassigned.length + 1)
        ex_state_add = some st2 ∧
      ∀ v ∈ [0, 1], (st2.amounts v).length = (st2.sol v).length ∧
        total_amount ex_input v st2 = route_demand ex_input (st2.sol v) :=
  ⟨ex_state_add_amounts,
    (try_job_additions_keeps_total_amount ex_input [0, 1] ex_state_add
      ex_state_add_amounts).2.2⟩

/-! ## try_job_additions: the rank of an insertion -/

/-- C24: every insertion made by `try_job_additions` is at a rank strictly
smaller than the length the route had before the insertion, so a job is never
appended after the last job of a route and never inserted into an empty
route; a route that is empty on entry is empty on return; and every rank `r`
the loop visits differs from the length of the route, so the cost computed is
the one of the branch "adding before one of the jobs", never the one of the
branch `r == _sol[v].size()`. -/
theorem try_job_additions_never_appends (inp : input) (routes : List Nat)
    (st : ls_state) :
    (∀ s : ls_state, (find_best_insertion inp routes s).best_cost < inp.gain_max →
      (find_best_insertion inp routes s).best_rank <
        (s.sol (find_best_insertion inp routes s).best_route).length ∧
      s.sol (find_best_insertion inp routes s).best_route ≠ []) ∧
    (∀ (s : ls_state) (v j r : Nat), r ∈ List.range' 0 (s.sol v).length →
      r ≠ (s.sol v).length ∧
      insertion_cost inp v (s.sol v) j r =
        (if r = 0 then
          match (inp.vehicles v).start with
          | some p_index =>
            inp.matrix p_index (job_index inp (s.sol v) r) -
              inp.matrix p_index (inp.jobs j).index -
              inp.matrix (inp.jobs j).index (job_index inp (s.sol v) r)
          | none => 0 - 0 - inp.matrix (inp.jobs j).index (job_index inp (s.sol v) r)
        else
          inp.matrix (job_index inp (s.sol v) (r - 1)) (job_index inp (s.sol v) r) -
            inp.matrix (job_index inp (s.sol v) (r - 1)) (inp.jobs j).index -
            inp.matrix (inp.jobs j).index (job_index inp (s.sol v) r))) ∧
    ∃ st2 : ls_state,
      try_job_additions inp routes (st.unassigned.length + 1) st = some st2 ∧
      ∀ v : Nat, st.sol v = [] → st2.sol v = [] := by
  have hrank : ∀ s : ls_state,
      (find_best_insertion inp routes s).best_cost < inp.gain_max →
      (find_best_insertion inp routes s).best_rank <
        (s.sol (find_best_insertion inp routes s).best_route).length ∧
      s.sol (find_best_insertion inp routes s).best_route ≠ [] := by
    intro s hadd
    have h := (find_best_insertion_recorded_ok inp routes s hadd).2.2
    refine ⟨h, ?_⟩
    intro e
    rw [e] at h
    simp at h
  refine ⟨hrank, ?_, ?_⟩
  · intro s v j r hr
    rw [List.mem_range'_1] at hr
    have hne : r ≠ (s.sol v).length := by omega
    refine ⟨hne, ?_⟩
    unfold insertion_cost
    simp only [hne, if_false]
    by_cases h0 : r = 0
    · simp only [h0, if_true]
      cases (inp.vehicles v).start <;> rfl
    · simp only [h0, if_false]
  · obtain ⟨st2, hst, hP, _⟩ := try_job_additions_inv inp routes
      (fun s => ∀ v : Nat, st.sol v = [] → s.sol v = [])
      (by
        intro s hs hadd v hv
        obtain ⟨_, hne⟩ := hrank s hadd
        rw [add_job_sol]
        by_cases hvb : v = (find_best_insertion inp routes s).best_route
        · rw [← hvb] at hne
          exact absurd (hs v hv) hne
        · rw [if_neg hvb]
          exact hs v hv)
      (st.unassigned.length + 1) st (Nat.lt_succ_self _) (fun _ h => h)
    exact ⟨st2, hst, hP⟩

/-! ## Edge gains: the cost saved by removing a segment of two jobs -/

/-- Removing two consecutive nodes from a path: the edges around the segment
and its inner edge go, the bridge between its neighbours comes. -/
theorem path_cost_remove_two (inp : input) (c1 c2 : Nat) (A B : List Nat) :
    path_cost inp (A ++ c1 :: c2 :: B) =
      path_cost inp (A ++ B) + cost_from_opt inp A.getLast? c1 + inp.matrix c1 c2 +
        cost_to_opt inp c2 B.head? - bridge_cost inp A.getLast? B.head? := by
  rw [path_cost_remove inp c1 (c2 :: B) A, path_cost_remove inp c2 B A]
  have e : bridge_cost inp A.getLast? (c2 :: B).head? = cost_from_opt inp A.getLast? c2 := by
    cases A.getLast? <;> simp [bridge_cost, cost_from_opt]
  rw [e]
  simp only [List.head?_cons, cost_to_opt]
  ring

/-- Removing the two jobs between `pre` and `post` from a route lowers the
cost of the route, as the specification words it, by the amended edge gain at
their rank plus the cost of the edge between them. -/
theorem route_cost_remove_edge (inp : input) (v : Nat) (pre post : List Nat)
    (j1 j2 : Nat) :
    route_cost_sum inp v (pre ++ j1 :: j2 :: post) -
        route_cost_sum inp v (pre ++ post) =
      edge_gain_amended inp v (pre ++ j1 :: j2 :: post) pre.length +
        inp.matrix (inp.jobs j1).index (inp.jobs j2).index := by
  have hj1 : job_index inp (pre ++ j1 :: j2 :: post) pre.length = (inp.jobs j1).index :=
    job_index_mid inp pre (j2 :: post) j1
  have hj2 : job_index inp (pre ++ j1 :: j2 :: post) (pre.length + 1) =
      (inp.jobs j2).index := by
    have := job_index_mid inp (pre ++ [j1]) post j2
    simpa using this
  by_cases hemp : pre ++ post = []
  · obtain ⟨h1, h2⟩ := List.append_eq_nil.mp hemp
    subst h1; subst h2
    simp only [edge_gain_amended, pred_of, succ_of, job_index, route_cost_sum]
    cases hs : (inp.vehicles v).start <;> cases he : (inp.vehicles v).end_ <;>
      simp [cost_from_opt, cost_to_opt, List.range_succ] <;> ring
  · have hlen : (pre ++ j1 :: j2 :: post).length ≠ 2 := by
      intro h
      apply hemp
      simp only [List.length_append, List.length_cons] at h
      have h1 : pre.length = 0 := by omega
      have h2 : post.length = 0 := by omega
      rw [List.length_eq_zero.mp h1, List.length_eq_zero.mp h2]; rfl
    have hp : pred_of inp v (pre ++ j1 :: j2 :: post) pre.length =
        ((inp.vehicles v).start.toList ++
          pre.map (fun j => (inp.jobs j).index)).getLast? :=
      pred_of_mid inp v pre (j2 :: post) j1
    have hq : succ_of inp v (pre ++ j1 :: j2 :: post) (pre.length + 1) =
        (post.map (fun j => (inp.jobs j).index) ++
          (inp.vehicles v).end_.toList).head? := by
      have := succ_of_mid inp v (pre ++ [j1]) post j2
      simpa using this
    rw [route_cost_sum_eq_path inp v _ (by simp), route_cost_sum_eq_path inp v _ hemp]
    have e1 : (inp.vehicles v).start.toList ++
        (pre ++ j1 :: j2 :: post).map (fun j => (inp.jobs j).index) ++
        (inp.vehicles v).end_.toList =
        ((inp.vehicles v).start.toList ++ pre.map (fun j => (inp.jobs j).index)) ++
          (inp.jobs j1).index :: (inp.jobs j2).index ::
          (post.map (fun j => (inp.jobs j).index) ++ (inp.vehicles v).end_.toList) := by
      simp
    have e2 : (inp.vehicles v).start.toList ++
        (pre ++ post).map (fun j => (inp.jobs j).index) ++
        (inp.vehicles v).end_.toList =
        ((inp.vehicles v).start.toList ++ pre.map (fun j => (inp.jobs j).index)) ++
          (post.map (fun j => (inp.jobs j).index) ++ (inp.vehicles v).end_.toList) := by
      simp
    rw [e1, e2, path_cost_remove_two]
    simp only [edge_gain_amended, hlen, if_false, hj1, hj2, hp, hq]
    ring

theorem split_at_edge (route : List Nat) (i : Nat) (hi : i + 1 < route.length) :
    route = route.take i ++ route.getD i 0 :: route.getD (i + 1) 0 :: route.drop (i + 2) ∧
      (route.take i).length = i ∧
      (route.eraseIdx i).eraseIdx i = route.take i ++ route.drop (i + 2) := by
  have h1 : i < route.length := by omega
  have e1 : route.drop i = route.getD i 0 :: route.drop (i + 1) := by
    rw [List.getD_eq_getElem _ _ h1]
    exact List.drop_eq_getElem_cons h1
  have e2 : route.drop (i + 1) = route.getD (i + 1) 0 :: route.drop (i + 2) := by
    rw [List.getD_eq_getElem _ _ hi]
    exact List.drop_eq_getElem_cons hi
  have hl : (route.take i).length = i := by simp; omega
  refine ⟨?_, hl, ?_⟩
  · rw [← e2, ← e1, List.take_append_drop]
  · rw [List.eraseIdx_eq_take_drop_succ route i]
    have h3 : (route.take i ++ route.drop (i + 1)).eraseIdx i =
        route.take i ++ (route.drop (i + 1)).eraseIdx 0 := by
      rw [List.eraseIdx_append_of_length_le (by omega)]
      simp [hl]
    rw [h3, e2]
    rfl

theorem edge_gain_amended_eq_saving (inp : input) (v : Nat) (route : List Nat)
    (i : Nat) (hi : i + 1 < route.length) :
    route_cost_sum inp v route - route_cost_sum inp v ((route.eraseIdx i).eraseIdx i) =
      edge_gain_amended inp v route i +
        inp.matrix (job_index inp route i) (job_index inp route (i + 1)) := by
  obtain ⟨hsplit, hlen, herase⟩ := split_at_edge route i hi
  have h := route_cost_remove_edge inp v (route.take i) (route.drop (i + 2))
    (route.getD i 0) (route.getD (i + 1) 0)
  rw [← hsplit, hlen, ← herase] at h
  exact h

/-- With non-negative costs the two edges around a segment of two jobs cost at
most the route. -/
theorem edge_edges_around_le (inp : input) (hM : ∀ a b : Nat, 0 ≤ inp.matrix a b)
    (v : Nat) (pre post : List Nat) (j1 j2 : Nat) :
    cost_from_opt inp (pred_of inp v (pre ++ j1 :: j2 :: post) pre.length)
        (job_index inp (pre ++ j1 :: j2 :: post) pre.length) +
      cost_to_opt inp (job_index inp (pre ++ j1 :: j2 :: post) (pre.length + 1))
        (succ_of inp v (pre ++ j1 :: j2 :: post) (pre.length + 1)) ≤
      route_cost_sum inp v (pre ++ j1 :: j2 :: post) := by
  have hj1 : job_index inp (pre ++ j1 :: j2 :: post) pre.length = (inp.jobs j1).index :=
    job_index_mid inp pre (j2 :: post) j1
  have hj2 : job_index inp (pre ++ j1 :: j2 :: post) (pre.length + 1) =
      (inp.jobs j2).index := by
    have := job_index_mid inp (pre ++ [j1]) post j2
    simpa using this
  have hp : pred_of inp v (pre ++ j1 :: j2 :: post) pre.length =
      ((inp.vehicles v).start.toList ++
        pre.map (fun j => (inp.jobs j).index)).getLast? :=
    pred_of_mid inp v pre (j2 :: post) j1
  have hq : succ_of inp v (pre ++ j1 :: j2 :: post) (pre.length + 1) =
      (post.map (fun j => (inp.jobs j).index) ++
        (inp.vehicles v).end_.toList).head? := by
    have := succ_of_mid inp v (pre ++ [j1]) post j2
    simpa using this
  rw [route_cost_sum_eq_path inp v _ (by simp)]
  have e1 : (inp.vehicles v).start.toList ++
      (pre ++ j1 :: j2 :: post).map (fun j => (inp.jobs j).index) ++
      (inp.vehicles v).end_.toList =
      ((inp.vehicles v).start.toList ++ pre.map (fun j => (inp.jobs j).index)) ++
        (inp.jobs j1).index :: (inp.jobs j2).index ::
        (post.map (fun j => (inp.jobs j).index) ++ (inp.vehicles v).end_.toList) := by
    simp
  rw [e1, path_cost_remove_two, path_cost_append, hj1, hj2, hp, hq]
  have h1 := path_cost_nonneg inp hM
    ((inp.vehicles v).start.toList ++ pre.map (fun j => (inp.jobs j).index))
  have h2 := path_cost_nonneg inp hM
    (post.map (fun j => (inp.jobs j).index) ++ (inp.vehicles v).end_.toList)
  have h3 := hM (inp.jobs j1).index (inp.jobs j2).index
  omega

theorem ex_five_matrix_nonneg (a b : Nat) : 0 ≤ ex_input_five.matrix a b := by
  rcases a with _ | _ | _ | _ | _ | _ | a <;>
    rcases b with _ | _ | _ | _ | _ | _ | b <;> simp [ex_input_five]

/-- C25 (counterexample): every cost between two different positions is
3000000000 and vehicle 1, which has neither start nor end, carries the jobs
0, 1, 2, 3. At edge rank 1 line 206 adds `M[1][2] + M[3][4]` in `cost_t`:
6000000000 becomes 1705032704 and the stored gain is
`1705032704 - M[1][4] = -1294967296`, so that the stored gain plus `M[2][3]` is
1705032704. The cost of the route, 9000000000, is returned as 410065408, the
cost of the route without the ranks 1 and 2 is 3000000000, and their
difference is -2589934592. -/
theorem set_edge_gains_large_costs_counterexample :
    (∀ a b : Nat, 0 ≤ ex_input_large.matrix a b ∧
      ex_input_large.matrix a b ≤ ex_input_large.cost_max) ∧
    (∃ st', set_edge_gains ex_input_large 1 ex_state_four = some st' ∧
      (st'.edge_gains 1).getD 1 0 +
        ex_input_large.matrix (job_index ex_input_large (ex_state_four.sol 1) 1)
          (job_index ex_input_large (ex_state_four.sol 1) 2) = 1705032704) ∧
    route_cost_for_vehicle ex_input_large 1 (ex_state_four.sol 1) -
      route_cost_for_vehicle ex_input_large 1
        (((ex_state_four.sol 1).eraseIdx 1).eraseIdx 1) = -2589934592 ∧
    route_cost_sum ex_input_large 1 (ex_state_four.sol 1) = 9000000000 := by
  refine ⟨?_, ⟨_, rfl, by decide⟩, by decide, by decide⟩
  intro a b
  show 0 ≤ (if a = b then (0 : Int) else 3000000000) ∧
    (if a = b then (0 : Int) else 3000000000) ≤ 4294967295
  by_cases h : a = b <;> simp [h]

/-- C25 (amended): for a route `R[v]` of `n ≥ 2` jobs whose costs are not
negative, on a vehicle that has a start or an end when `n = 2`, and every edge
rank `i < n - 1`, when the cost of the route and the cost of the route without
the jobs at ranks `i` and `i + 1` are at most `2^32 - 1`, `set_edge_gains`
returns and the cost saved by removing these two jobs is the stored edge gain
plus the cost of the edge between them:
`route_cost_for_vehicle(v, R) - route_cost_for_vehicle(v, R without ranks i, i + 1)
= edge_gains[v][i] + M[R[i]][R[i + 1]]`. -/
theorem set_edge_gains_is_segment_saving (inp : input) (v : Nat) (st : ls_state)
    (i : Nat)
    (hdep : 2 < (st.sol v).length ∨ (inp.vehicles v).has_start = true ∨
      (inp.vehicles v).has_end = true)
    (hi : i + 1 < (st.sol v).length)
    (hM : ∀ a b : Nat, 0 ≤ inp.matrix a b)
    (hR : route_cost_sum inp v (st.sol v) ≤ 4294967295)
    (hE : route_cost_sum inp v (((st.sol v).eraseIdx i).eraseIdx i) ≤ 4294967295) :
    ∃ st', set_edge_gains inp v st = some st' ∧
      (st'.edge_gains v).length = (st.sol v).length - 1 ∧
      route_cost_for_vehicle inp v (st.sol v) -
          route_cost_for_vehicle inp v (((st.sol v).eraseIdx i).eraseIdx i) =
        (st'.edge_gains v).getD i 0 +
          inp.matrix (job_index inp (st.sol v) i) (job_index inp (st.sol v) (i + 1)) := by
  obtain ⟨st', hst, hl, hg, _⟩ := set_edge_gains_char inp v st (by omega) hdep
  refine ⟨st', hst, hl, ?_⟩
  rw [hg i (by omega), route_cost_of_fits inp v _ (route_cost_sum_nonneg inp hM v _) hR,
    route_cost_of_fits inp v _ (route_cost_sum_nonneg inp hM v _) hE,
    edge_gain_amended_eq_saving inp v _ i hi]
  congr 1
  refine (edge_gain_stored_eq inp v _ i ?_).symm
  intro h0 h1
  obtain ⟨hsplit, hlen, _⟩ := split_at_edge (st.sol v) i hi
  have hle := edge_edges_around_le inp hM v ((st.sol v).take i)
    ((st.sol v).drop (i + 2)) ((st.sol v).getD i 0) ((st.sol v).getD (i + 1) 0)
  rw [← hsplit, hlen] at hle
  have h3 : i > 0 := by omega
  have h4 : i + 1 + 1 < (st.sol v).length := by omega
  simp only [pred_of, succ_of, h3, h4, if_true, cost_from_opt, cost_to_opt] at hle ⊢
  have := hM (job_index inp (st.sol v) (i - 1)) (job_index inp (st.sol v) i)
  have := hM (job_index inp (st.sol v) (i + 1)) (job_index inp (st.sol v) (i + 1 + 1))
  omega

theorem set_edge_gains_is_segment_saving_witness :
    (2 < (ex_state_four.sol 0).length ∨ (ex_input_five.vehicles 0).has_start = true ∨
      (ex_input_five.vehicles 0).has_end = true) ∧
    1 + 1 < (ex_state_four.sol 0).length ∧
    (∀ a b : Nat, 0 ≤ ex_input_five.matrix a b) ∧
    route_cost_sum ex_input_five 0 (ex_state_four.sol 0) ≤ 4294967295 ∧
    route_cost_sum ex_input_five 0 (((ex_state_four.sol 0).eraseIdx 1).eraseIdx 1) ≤
      4294967295 ∧
    ∃ st', set_edge_gains ex_input_five 0 ex_state_four = some st' ∧
      (st'.edge_gains 0).length = (ex_state_four.sol 0).length - 1 ∧
      route_cost_for_vehicle ex_input_five 0 (ex_state_four.sol 0) -
          route_cost_for_vehicle ex_input_five 0
            (((ex_state_four.sol 0).eraseIdx 1).eraseIdx 1) =
        (st'.edge_gains 0).getD 1 0 +
          ex_input_five.matrix (job_index ex_input_five (ex_state_four.sol 0) 1)
            (job_index ex_input_five (ex_state_four.sol 0) (1 + 1)) :=
  ⟨Or.inl (by decide), by decide, ex_five_matrix_nonneg, by decide, by decide,
    set_edge_gains_is_segment_saving ex_input_five 0 ex_state_four 1
      (Or.inl (by decide)) (by decide) ex_five_matrix_nonneg (by decide) (by decide)⟩

/-! ## Fixed source and target: lookups and target ranks -/

theorem relocate_candidates_fixed_source (ext : externals) (inp : input)
    (st : ls_state) (hc : caches_consistent inp st)
    (s t : Nat) (hs : s < inp.nb_vehicles) (ht : t < inp.nb_vehicles) (hst : s ≠ t)
    (op : ls_op)
    (h : op ∈ relocate_candidates regime.fixed_source_and_target ext inp st s t) :
    op.s_rank = st.node_candidates s ∧ op.t_rank ≤ (st.sol t).length ∧
      op ∈ relocate_candidates regime.fixed_source ext inp st s t := by
  unfold relocate_candidates at h ⊢
  split_ifs at h ⊢ with c1 c2
  · simp at h
  · simp at h
  · simp only [List.mem_map] at h
    obtain ⟨x, hx, rfl⟩ := h
    have := relocate_t_ranks_le inp st hc s t hs ht hst x hx
    refine ⟨rfl, this, ?_⟩
    simp only [List.mem_map, List.mem_range'_1]
    exact ⟨x, ⟨Nat.zero_le _, by omega⟩, rfl⟩

theorem or_opt_candidates_fixed_source (ext : externals) (inp : input)
    (st : ls_state) (hc : caches_consistent inp st)
    (s t : Nat) (hs : s < inp.nb_vehicles) (ht : t < inp.nb_vehicles) (hst : s ≠ t)
    (op : ls_op)
    (h : op ∈ or_opt_candidates regime.fixed_source_and_target ext inp st s t) :
    op.s_rank = st.edge_candidates s ∧ op.t_rank ≤ (st.sol t).length ∧
      op ∈ or_opt_candidates regime.fixed_source ext inp st s t := by
  unfold or_opt_candidates at h ⊢
  split_ifs at h ⊢ with c1 c2
  · simp at h
  · simp at h
  · simp only [List.mem_map] at h
    obtain ⟨x, hx, rfl⟩ := h
    have := or_opt_t_ranks_le inp st hc s t hs ht hst x hx
    refine ⟨rfl, this, ?_⟩
    simp only [List.mem_map, List.mem_range'_1]
    exact ⟨x, ⟨Nat.zero_le _, by omega⟩, rfl⟩

theorem exchange_candidates_fixed_source (inp : input)
    (st : ls_state) (hc : caches_consistent inp st)
    (s t : Nat) (hs : s < inp.nb_vehicles) (ht : t < inp.nb_vehicles) (hst : s ≠ t)
    (op : ls_op)
    (h : op ∈ exchange_candidates regime.fixed_source_and_target st s t) :
    op.s_rank = st.node_candidates s ∧ op.t_rank < (st.sol t).length ∧
      op ∈ exchange_candidates regime.fixed_source st s t := by
  unfold exchange_candidates at h ⊢
  simp only at h ⊢
  split_ifs at h ⊢ with c1
  · simp at h
  · simp only [List.mem_map] at h
    obtain ⟨x, hx, rfl⟩ := h
    push_neg at c1
    have := exchange_t_ranks_lt inp st hc s t hs ht hst c1.2 x hx
    refine ⟨rfl, this, ?_⟩
    simp only [List.mem_map, List.mem_range'_1]
    exact ⟨x, ⟨Nat.zero_le _, by omega⟩, rfl⟩

theorem cross_exchange_candidates_fixed_source (inp : input)
    (st : ls_state) (hc : caches_consistent inp st)
    (s t : Nat) (hs : s < inp.nb_vehicles) (ht : t < inp.nb_vehicles) (hst : s ≠ t)
    (op : ls_op)
    (h : op ∈ cross_exchange_candidates regime.fixed_source_and_target st s t) :
    op.s_rank = st.edge_candidates s ∧ op.t_rank + 1 < (st.sol t).length ∧
      op ∈ cross_exchange_candidates regime.fixed_source st s t := by
  unfold cross_exchange_candidates at h ⊢
  simp only at h ⊢
  split_ifs at h ⊢ with c1
  · simp at h
  · simp only [List.mem_map] at h
    obtain ⟨x, hx, rfl⟩ := h
    push_neg at c1
    have := cross_exchange_t_ranks_lt inp st hc s t hs ht hst c1.2 x hx
    refine ⟨rfl, by simp only; omega, ?_⟩
    simp only [List.mem_map, List.mem_range'_1]
    exact ⟨x, ⟨Nat.zero_le _, by omega⟩, rfl⟩

/-- With consistent caches every rank at which the tables of nearest ranks are
read is within their bounds. -/
theorem lookups_in_bounds (inp : input) (st : ls_state) (hc : caches_consistent inp st)
    (s t : Nat) (hs : s < inp.nb_vehicles) (ht : t < inp.nb_vehicles) (hst : s ≠ t) :
    ((st.sol s).length ≠ 0 →
      ∀ k ∈ relocate_lookups st s, lookup_in_bounds st s t k) ∧
    ((st.sol s).length ≠ 0 →
      ∀ k ∈ exchange_lookups st s, lookup_in_bounds st s t k) ∧
    (2 ≤ (st.sol s).length →
      ∀ k ∈ or_opt_lookups st s, lookup_in_bounds st s t k) ∧
    (2 ≤ (st.sol s).length →
      ∀ k ∈ cross_exchange_lookups st s, lookup_in_bounds st s t k) := by
  obtain ⟨hnc, hec, htab⟩ := hc s hs
  obtain ⟨l1, l2, _, _⟩ := htab t ht hst
  unfold lookup_in_bounds
  rw [l1, l2]
  refine ⟨?_, ?_, ?_, ?_⟩
  · intro hne k hk
    have := hnc (fun e => hne (by rw [e]; rfl))
    simp only [relocate_lookups, List.mem_cons, List.mem_singleton, List.not_mem_nil,
      or_false, or_self] at hk
    omega
  · intro hne k hk
    have := hnc (fun e => hne (by rw [e]; rfl))
    simp only [exchange_lookups, List.mem_append, List.mem_cons, List.mem_singleton,
      List.not_mem_nil, or_false, or_self] at hk
    rcases hk with (hk | hk) | hk
    · split_ifs at hk with c
      · simp only [List.mem_singleton] at hk; omega
      · simp at hk
    · split_ifs at hk with c
      · simp only [List.mem_singleton] at hk; omega
      · simp at hk
    · omega
  · intro h2 k hk
    have := hec h2
    simp only [or_opt_lookups, List.mem_cons, List.mem_singleton, List.not_mem_nil,
      or_false] at hk
    omega
  · intro h2 k hk
    have := hec h2
    simp only [cross_exchange_lookups, List.mem_append, List.mem_cons, List.mem_singleton,
      List.not_mem_nil, or_false] at hk
    rcases hk with (hk | hk) | hk
    · split_ifs at hk with c
      · simp only [List.mem_singleton] at hk; omega
      · simp at hk
    · split_ifs at hk with c
      · simp only [List.mem_singleton] at hk; omega
      · simp at hk
    · omega

/-- C26: in the regime with fixed source and target, when the candidate ranks
and the tables of nearest ranks are consistent with the routes, for every pair
`(s, t)` of distinct vehicles every lookup of the tables is within their
bounds, and every operator built has the candidate rank as source rank and a
legal target rank: `t_rank ≤ |R[t]|` for Relocate and Or-opt,
`t_rank < |R[t]|` for Exchange, `t_rank + 1 < |R[t]|` for CROSS-exchange; so
it is also built by the regime with fixed source for the same pair. -/
theorem fixed_target_ranks_legal (ext : externals) (inp : input) (st : ls_state)
    (hc : caches_consistent inp st)
    (s t : Nat) (hs : s < inp.nb_vehicles) (ht : t < inp.nb_vehicles) (hst : s ≠ t) :
    (((st.sol s).length ≠ 0 →
        ∀ k ∈ relocate_lookups st s, lookup_in_bounds st s t k) ∧
      ((st.sol s).length ≠ 0 →
        ∀ k ∈ exchange_lookups st s, lookup_in_bounds st s t k) ∧
      (2 ≤ (st.sol s).length →
        ∀ k ∈ or_opt_lookups st s, lookup_in_bounds st s t k) ∧
      (2 ≤ (st.sol s).length →
        ∀ k ∈ cross_exchange_lookups st s, lookup_in_bounds st s t k)) ∧
    (∀ op ∈ relocate_candidates regime.fixed_source_and_target ext inp st s t,
      op.s_rank = st.node_candidates s ∧ op.t_rank ≤ (st.sol t).length ∧
        op ∈ relocate_candidates regime.fixed_source ext inp st s t) ∧
    (∀ op ∈ exchange_candidates regime.fixed_source_and_target st s t,
      op.s_rank = st.node_candidates s ∧ op.t_rank < (st.sol t).length ∧
        op ∈ exchange_candidates regime.fixed_source st s t) ∧
    (∀ op ∈ or_opt_candidates regime.fixed_source_and_target ext inp st s t,
      op.s_rank = st.edge_candidates s ∧ op.t_rank ≤ (st.sol t).length ∧
        op ∈ or_opt_candidates regime.fixed_source ext inp st s t) ∧
    (∀ op ∈ cross_exchange_candidates regime.fixed_source_and_target st s t,
      op.s_rank = st.edge_candidates s ∧ op.t_rank + 1 < (st.sol t).length ∧
        op ∈ cross_exchange_candidates regime.fixed_source st s t) :=
  ⟨lookups_in_bounds inp st hc s t hs ht hst,
    fun op h => relocate_candidates_fixed_source ext inp st hc s t hs ht hst op h,
    fun op h => exchange_candidates_fixed_source inp st hc s t hs ht hst op h,
    fun op h => or_opt_candidates_fixed_source ext inp st hc s t hs ht hst op h,
    fun op h => cross_exchange_candidates_fixed_source inp st hc s t hs ht hst op h⟩

set_option maxRecDepth 100000 in
set_option maxHeartbeats 4000000 in
theorem ex_state_five_consistent : caches_consistent ex_input_five ex_state_five := by
  unfold caches_consistent
  decide

set_option maxRecDepth 100000 in
set_option maxHeartbeats 4000000 in
theorem fixed_target_ranks_legal_witness :
    caches_consistent ex_input_five ex_state_five ∧
    0 < ex_input_five.nb_vehicles ∧ 1 < ex_input_five.nb_vehicles ∧ (0 : Nat) ≠ 1 ∧
    relocate_candidates regime.fixed_source_and_target (ex_ext ex_input_five)
      ex_input_five ex_state_five 0 1 ≠ [] ∧
    (∀ op ∈ relocate_candidates regime.fixed_source_and_target (ex_ext ex_input_five)
        ex_input_five ex_state_five 0 1,
      op.s_rank = ex_state_five.node_candidates 0 ∧
        op.t_rank ≤ (ex_state_five.sol 1).length ∧
        op ∈ relocate_candidates regime.fixed_source (ex_ext ex_input_five)
          ex_input_five ex_state_five 0 1) :=
  ⟨ex_state_five_consistent, by decide, by decide, by decide, by decide,
    (fixed_target_ranks_legal (ex_ext ex_input_five) ex_input_five ex_state_five
      ex_state_five_consistent 0 1 (by decide) (by decide) (by decide)).2.1⟩

/-! ## The assertion on the selected operator -/

theorem upd_zero_or (g g0 : Nat → Nat → Int) (x y : Nat)
    (h : ∀ a b : Nat, g a b = 0 ∨ g a b = g0 a b) (a b : Nat) :
    upd g x (upd (g x) y 0) a b = 0 ∨ upd g x (upd (g x) y 0) a b = g0 a b := by
  by_cases hx : a = x
  · subst hx
    by_cases hy : b = y
    · left; simp [upd, hy]
    · have := h a b
      simpa [upd, hy] using this
  · have := h a b
    simpa [upd, hx] using this

/-- The refresh leaves every gain as it was or sets it to 0, and keeps the
recorded operators. -/
theorem refresh_gains_zero_or (r : regime) (inp : input) (bs bt : Nat)
    (ds : driver_state) (a b : Nat) :
    (refresh r inp bs bt ds).tables.best_gains a b = 0 ∨
      (refresh r inp bs bt ds).tables.best_gains a b = ds.tables.best_gains a b := by
  have key := foldl_range'_inv
    (fun (_ : Nat) (d : driver_state) =>
      ∀ a b : Nat, d.tables.best_gains a b = 0 ∨
        d.tables.best_gains a b = ds.tables.best_gains a b)
    (refresh_step r inp bs bt) inp.nb_vehicles 0
    { st :=
        if r = regime.fixed_source_and_target then
          update_nearest_job_rank_in_routes inp bt bs
            (update_nearest_job_rank_in_routes inp bs bt ds.st)
        else ds.st
      tables :=
        { ds.tables with
          best_gains := upd (upd ds.tables.best_gains bs (fun _ => 0)) bt (fun _ => 0) }
      s_t_pairs := [(bs, bt), (bt, bs)] }
    (by
      intro a b
      simp only [upd]
      split_ifs
      · left; rfl
      · left; rfl
      · right; rfl)
    (by
      intro k d _ _ hP
      unfold refresh_step
      by_cases hk : k = bs ∨ k = bt
      · rw [if_pos hk]
        exact hP
      · rw [if_neg hk]
        intro a b
        exact upd_zero_or _ _ bt k
          (upd_zero_or _ _ k bt
            (upd_zero_or _ _ bs k (upd_zero_or _ _ k bs hP))) a b)
  exact key a b

/-- The evaluation of a sweep keeps an operator recorded for every pair with a
positive gain. -/
theorem evaluation_phase_ops_recorded (r : regime) (ext : externals) (inp : input)
    (st : ls_state) (pairs : List (Nat × Nat)) (bt : best_tables)
    (h : ops_recorded bt) : ops_recorded (evaluation_phase r ext inp st pairs bt) := by
  intro s t hpos
  rw [evaluation_phase_eq_trace] at hpos ⊢
  obtain ⟨_, _, h3⟩ := record_trace_char ext st s t (evaluated r ext inp st pairs) bt
  rcases h3 with ⟨e1, e2⟩ | ⟨_, op, _, _, _, _, _, _, hrec⟩
  · rw [e1] at hpos
    rw [e2]
    exact h s t hpos
  · exact ⟨op, hrec⟩

/-- The refresh keeps an operator recorded for every pair with a positive
gain: the gains it resets become 0 and the operators stay. -/
theorem refresh_ops_recorded (r : regime) (inp : input) (bs bt : Nat)
    (ds : driver_state) (h : ops_recorded ds.tables) :
    ops_recorded (refresh r inp bs bt ds).tables := by
  intro s t hpos
  rw [(refresh_char r inp bs bt ds).1]
  rcases refresh_gains_zero_or r inp bs bt ds s t with e | e
  · rw [e] at hpos
    exact absurd hpos (lt_irrefl _)
  · rw [e] at hpos
    exact h s t hpos

/-- When the selected gain is positive the selected pair has a recorded
operator. -/
theorem selected_op_recorded (V : Nat) (bt : best_tables) (h : ops_recorded bt)
    (hpos : (find_best_gain V bt.best_gains).best_gain > 0) :
    ∃ op : ls_op,
      bt.best_ops (find_best_gain V bt.best_gains).best_source
        (find_best_gain V bt.best_gains).best_target = some op := by
  obtain ⟨_, _, h3⟩ := find_best_gain_char V bt.best_gains
  rcases h3 with h0 | ⟨_, _, _, hg, _⟩
  · omega
  · apply h
    rw [hg]
    exact hpos

theorem next_sweep_ops_recorded (r : regime) (ext : externals) (inp : input)
    (ds ds2 : driver_state) (h : ops_recorded ds.tables)
    (hnext : next_sweep r ext inp ds = some ds2) : ops_recorded ds2.tables := by
  unfold next_sweep at hnext
  simp only at hnext
  split_ifs at hnext with hpos
  split at hnext
  · cases hnext
  · split at hnext
    · cases hnext
    · split at hnext
      · cases hnext
      · simp only [Option.some.injEq] at hnext
        rw [← hnext]
        exact refresh_ops_recorded r inp _ _ _
          (evaluation_phase_ops_recorded r ext inp ds.st ds.s_t_pairs ds.tables h)

theorem sweeps_ops_recorded (r : regime) (ext : externals) (inp : input) :
    ∀ (n : Nat) (ds ds2 : driver_state), ops_recorded ds.tables →
      sweeps r ext inp n ds = some ds2 → ops_recorded ds2.tables := by
  intro n
  induction n with
  | zero =>
    intro ds ds2 h hs
    simp only [sweeps, Option.some.injEq] at hs
    rw [← hs]
    exact h
  | succ n ih =>
    intro ds ds2 h hs
    simp only [sweeps] at hs
    split at hs
    · cases hs
    · rename_i ds1 hnext
      exact ih ds1 ds2 (next_sweep_ops_recorded r ext inp ds ds1 h hnext) hs

/-- C27: in every regime, at every sweep (the state `ds` reached after any
number `n` of sweeps with a move from the start of the search function),
`best_gains[s][t] > 0` implies that `best_ops[s][t]` holds an operator, before
and after the evaluation of the sweep; hence, when the selected gain is
positive, `best_ops[best_source][best_target]` is not null and the assertion
before the move does not fail. The refresh resets gains to 0 and leaves the
old operators stored, which keeps the property. -/
theorem best_op_assertion_never_fails (r : regime) (ext : externals) (inp : input)
    (st : ls_state) (n : Nat) (ds : driver_state)
    (h : sweeps r ext inp n (start_of_regime inp st) = some ds) :
    ops_recorded ds.tables ∧
    ops_recorded (evaluation_phase r ext inp ds.st ds.s_t_pairs ds.tables) ∧
    ((find_best_gain inp.nb_vehicles
        (evaluation_phase r ext inp ds.st ds.s_t_pairs ds.tables).best_gains).best_gain > 0 →
      ∃ op : ls_op,
        (evaluation_phase r ext inp ds.st ds.s_t_pairs ds.tables).best_ops
          (find_best_gain inp.nb_vehicles
            (evaluation_phase r ext inp ds.st ds.s_t_pairs ds.tables).best_gains).best_source
          (find_best_gain inp.nb_vehicles
            (evaluation_phase r ext inp ds.st ds.s_t_pairs ds.tables).best_gains).best_target =
          some op) := by
  have h0 : ops_recorded (start_of_regime inp st).tables := by
    intro s t hpos
    exact absurd hpos (lt_irrefl _)
  have h1 := sweeps_ops_recorded r ext inp n _ ds h0 h
  have h2 := evaluation_phase_ops_recorded r ext inp ds.st ds.s_t_pairs ds.tables h1
  exact ⟨h1, h2, fun hpos => selected_op_recorded inp.nb_vehicles _ h2 hpos⟩

set_option maxRecDepth 100000 in
set_option maxHeartbeats 4000000 in
theorem best_op_assertion_never_fails_witness :
    sweeps regime.fixed_source_and_target (ex_ext ex_input_five) ex_input_five 1
      (start_of_regime ex_input_five ex_state_lone) = some ex_driver_lone ∧
    ex_driver_lone.st.sol 1 = [1, 2, 0, 3, 4] ∧
    ops_recorded ex_driver_lone.tables ∧
    ops_recorded (evaluation_phase regime.fixed_source_and_target (ex_ext ex_input_five)
      ex_input_five ex_driver_lone.st ex_driver_lone.s_t_pairs ex_driver_lone.tables) :=
  ⟨eq_some_getD _ _ (by decide), by decide,
    (best_op_assertion_never_fails regime.fixed_source_and_target (ex_ext ex_input_five)
      ex_input_five ex_state_lone 1 ex_driver_lone (eq_some_getD _ _ (by decide))).1,
    (best_op_assertion_never_fails regime.fixed_source_and_target (ex_ext ex_input_five)
      ex_input_five ex_state_lone 1 ex_driver_lone (eq_some_getD _ _ (by decide))).2.1⟩

/-! ## The capacity prescreens -/

/-- A vector that is lexicographically smaller is strictly smaller at some
component. -/
theorem amount_lt_lex_exists :
    ∀ a b : amount_t, amount_lt_lex a b = true →
      ∃ k : Nat, k < a.length ∧ k < b.length ∧ a.getD k 0 < b.getD k 0 := by
  intro a
  induction a with
  | nil => intro b h; simp [amount_lt_lex] at h
  | cons x a ih =>
    intro b h
    cases b with
    | nil => simp [amount_lt_lex] at h
    | cons y b =>
      simp only [amount_lt_lex, Bool.or_eq_true, decide_eq_true_eq, Bool.and_eq_true] at h
      rcases h with h | ⟨_, h⟩
      · exact ⟨0, by simp, by simp, by simpa using h⟩
      · obtain ⟨k, h1, h2, h3⟩ := ih b h
        exact ⟨k + 1, by simpa using h1, by simpa using h2, by simpa using h3⟩

theorem amount_lt_lex_one (x y : Int) : amount_lt_lex [x] [y] = decide (x < y) := by
  simp [amount_lt_lex]

/-- A load that the prescreen rejects with a lower bound of the demands
rejects every demand above the bound. -/
theorem prescreen_sound (cap tot lb d : amount_t)
    (hl1 : lb.length = tot.length) (hl2 : d.length = tot.length)
    (hle : ∀ k : Nat, k < tot.length → lb.getD k 0 ≤ d.getD k 0)
    (hskip : amount_lt_lex cap (amount_add tot lb) = true) :
    amount_le (amount_add tot d) cap = false := by
  obtain ⟨k, hk1, hk2, hk3⟩ := amount_lt_lex_exists _ _ hskip
  rw [amount_add_length] at hk2
  have hkt : k < tot.length := by omega
  rw [amount_add_getD tot lb k hkt (by omega)] at hk3
  by_contra hcon
  have h : amount_le (amount_add tot d) cap = true := by
    cases hx : amount_le (amount_add tot d) cap
    · exact absurd hx hcon
    · rfl
  obtain ⟨_, hall⟩ := amount_le_getD _ _ h
  have hk4 : k < (amount_add tot d).length := by
    rw [amount_add_length]; omega
  have := hall k hk4
  rw [amount_add_getD tot d k hkt (by omega)] at this
  have := hle k hkt
  omega

theorem amount_add_assoc (a b c : amount_t) :
    amount_add (amount_add a b) c = amount_add a (amount_add b c) := by
  unfold amount_add
  induction a generalizing b c with
  | nil => simp
  | cons x a ih =>
    cases b with
    | nil => simp
    | cons y b =>
      cases c with
      | nil => simp
      | cons z c =>
        simp only [List.zipWith_cons_cons, List.cons.injEq]
        exact ⟨add_assoc x y z, ih b c⟩

/-- C28: the capacity prescreens are sound, with the `<` of the amount type
read lexicographically (the integer `<` in one dimension) and `<=` component by
component. If the lower bound is below the demand of every job in every
component, then whenever the test
`capacity(t) < total_amount(t) + amount_lower_bound` skips the pair `(s, t)`,
no Relocate is built for it and no job `j` satisfies
`total_amount(t) + demand(j) <= capacity(t)`, so no Relocate into `t` is valid;
and whenever the test with the doubled lower bound skips the pair, no Or-opt is
built and no two jobs satisfy
`total_amount(t) + demand(j1) + demand(j2) <= capacity(t)`, so no Or-opt into
`t` is valid. -/
theorem capacity_prescreens_sound (r : regime) (ext : externals) (inp : input)
    (st : ls_state) (s t : Nat)
    (hlt : ext.amount_lt = amount_lt_lex)
    (hlb : inp.amount_lower_bound.length = (total_amount inp t st).length)
    (hlen : ∀ j : Nat, (inp.jobs j).amount.length = (total_amount inp t st).length)
    (hle : ∀ j k : Nat, inp.amount_lower_bound.getD k 0 ≤ (inp.jobs j).amount.getD k 0) :
    (ext.amount_lt (inp.vehicles t).capacity
        (amount_add (total_amount inp t st) inp.amount_lower_bound) = true →
      relocate_candidates r ext inp st s t = [] ∧
      (∀ j : Nat, amount_le (amount_add (total_amount inp t st) (inp.jobs j).amount)
        (inp.vehicles t).capacity = false) ∧
      (∀ op : ls_op, op.t_vehicle = t → relocate_is_valid inp st op = false)) ∧
    (ext.amount_lt (inp.vehicles t).capacity
        (amount_add (total_amount inp t st)
          (amount_add inp.amount_lower_bound inp.amount_lower_bound)) = true →
      or_opt_candidates r ext inp st s t = [] ∧
      (∀ j1 j2 : Nat,
        amount_le
          (amount_add (amount_add (total_amount inp t st) (inp.jobs j1).amount)
            (inp.jobs j2).amount)
          (inp.vehicles t).capacity = false) ∧
      (∀ op : ls_op, op.t_vehicle = t → or_opt_is_valid inp st op = false)) := by
  refine ⟨?_, ?_⟩
  · intro hskip
    have hj : ∀ j : Nat, amount_le (amount_add (total_amount inp t st) (inp.jobs j).amount)
        (inp.vehicles t).capacity = false := by
      intro j
      exact prescreen_sound _ _ _ _ hlb (hlen j) (fun k _ => hle j k) (by rw [← hlt]; exact hskip)
    refine ⟨?_, hj, ?_⟩
    · unfold relocate_candidates
      rw [if_pos hskip]
    · intro op hop
      unfold relocate_is_valid
      simp only [hop, hj, Bool.and_false]
  · intro hskip
    have hj : ∀ j1 j2 : Nat,
        amount_le
          (amount_add (total_amount inp t st)
            (amount_add (inp.jobs j1).amount (inp.jobs j2).amount))
          (inp.vehicles t).capacity = false := by
      intro j1 j2
      refine prescreen_sound _ _ (amount_add inp.amount_lower_bound inp.amount_lower_bound)
        _ ?_ ?_ ?_ (by rw [← hlt]; exact hskip)
      · rw [amount_add_length, hlb]; simp
      · rw [amount_add_length, hlen j1, hlen j2]; simp
      · intro k hk
        rw [amount_add_getD _ _ k (by rw [hlb]; exact hk) (by rw [hlb]; exact hk),
          amount_add_getD _ _ k (by rw [hlen j1]; exact hk) (by rw [hlen j2]; exact hk)]
        have h1 := hle j1 k
        have h2 := hle j2 k
        omega
    refine ⟨?_, ?_, ?_⟩
    · unfold or_opt_candidates
      rw [if_pos hskip]
    · intro j1 j2
      rw [amount_add_assoc]
      exact hj j1 j2
    · intro op hop
      unfold or_opt_is_valid
      simp only [hop, hj, Bool.and_false]

theorem capacity_prescreens_sound_witness :
    (ex_ext ex_input_two).amount_lt = amount_lt_lex ∧
    ex_input_two.amount_lower_bound.length =
      (total_amount ex_input_two 0 ex_state_full).length ∧
    (∀ j : Nat, (ex_input_two.jobs j).amount.length =
      (total_amount ex_input_two 0 ex_state_full).length) ∧
    (∀ j k : Nat, ex_input_two.amount_lower_bound.getD k 0 ≤
      (ex_input_two.jobs j).amount.getD k 0) ∧
    (ex_ext ex_input_two).amount_lt (ex_input_two.vehicles 0).capacity
      (amount_add (total_amount ex_input_two 0 ex_state_full)
        ex_input_two.amount_lower_bound) = true ∧
    relocate_candidates regime.exhaustive (ex_ext ex_input_two) ex_input_two
      ex_state_full 1 0 = [] ∧
    (∀ j : Nat,
      amount_le (amount_add (total_amount ex_input_two 0 ex_state_full)
        (ex_input_two.jobs j).amount) (ex_input_two.vehicles 0).capacity = false) :=
  ⟨rfl, by decide, fun _ => rfl, fun _ _ => le_refl _, by decide,
    ((capacity_prescreens_sound regime.exhaustive (ex_ext ex_input_two) ex_input_two
      ex_state_full 1 0 rfl (by decide) (fun _ => rfl)
      (fun _ _ => le_refl _)).1 (by decide)).1,
    ((capacity_prescreens_sound regime.exhaustive (ex_ext ex_input_two) ex_input_two
      ex_state_full 1 0 rfl (by decide) (fun _ => rfl)
      (fun _ _ => le_refl _)).1 (by decide)).2.1⟩

/-! ## try_job_additions: termination -/

theorem try_job_additions_stop (inp : input) (routes : List Nat) (st : ls_state)
    (h : ¬ (find_best_insertion inp routes st).best_cost < inp.gain_max) (fuel : Nat) :
    try_job_additions inp routes (fuel + 1) st = some st := by
  unfold try_job_additions
  simp only [h, decide_False]
  rfl

theorem try_job_additions_round (inp : input) (routes : List Nat) (st : ls_state)
    (h : (find_best_insertion inp routes st).best_cost < inp.gain_max) (fuel : Nat) :
    try_job_additions inp routes (fuel + 1) st =
      try_job_additions inp routes fuel
        (add_job inp st (find_best_insertion inp routes st)) := by
  conv_lhs => unfold try_job_additions
  simp only [h, decide_True, if_true]

/-- A round that finds an insertion removes one job from the unassigned jobs
and adds it to one route, the other routes being unchanged. -/
theorem add_job_one_job (inp : input) (routes : List Nat) (st : ls_state)
    (h : (find_best_insertion inp routes st).best_cost < inp.gain_max) :
    (add_job inp st (find_best_insertion inp routes st)).unassigned.length + 1 =
      st.unassigned.length ∧
    ((add_job inp st (find_best_insertion inp routes st)).sol
        (find_best_insertion inp routes st).best_route).length =
      (st.sol (find_best_insertion inp routes st).best_route).length + 1 ∧
    ∀ w : Nat, w ≠ (find_best_insertion inp routes st).best_route →
      (add_job inp st (find_best_insertion inp routes st)).sol w = st.sol w := by
  obtain ⟨_, ⟨hmem, _, _⟩, hrank⟩ := find_best_insertion_recorded_ok inp routes st h
  refine ⟨?_, ?_, ?_⟩
  · simp only [add_job]
    rw [List.length_erase_of_mem hmem]
    have : 0 < st.unassigned.length := List.length_pos_of_mem hmem
    omega
  · rw [add_job_sol, if_pos rfl, List.length_insertIdx _ _ (by omega)]
  · intro w hw
    rw [add_job_sol, if_neg hw]

theorem try_job_additions_rounds (inp : input) (routes : List Nat) :
    ∀ (n : Nat) (st : ls_state), st.unassigned.length ≤ n →
      ∃ (k : Nat) (st2 : ls_state), k ≤ st.unassigned.length ∧
        try_job_additions inp routes k st = none ∧
        (∀ fuel : Nat, k < fuel → try_job_additions inp routes fuel st = some st2) ∧
        st2.unassigned.length + k = st.unassigned.length ∧
        ¬ (find_best_insertion inp routes st2).best_cost < inp.gain_max := by
  intro n
  induction n with
  | zero =>
    intro st hn
    have hnot : ¬ (find_best_insertion inp routes st).best_cost < inp.gain_max := by
      intro hadd
      have := (add_job_one_job inp routes st hadd).1
      omega
    refine ⟨0, st, Nat.zero_le _, rfl, ?_, rfl, hnot⟩
    intro fuel hf
    obtain ⟨f, rfl⟩ : ∃ f, fuel = f + 1 := ⟨fuel - 1, by omega⟩
    exact try_job_additions_stop inp routes st hnot f
  | succ n ih =>
    intro st hn
    by_cases hadd : (find_best_insertion inp routes st).best_cost < inp.gain_max
    · have h1 := (add_job_one_job inp routes st hadd).1
      obtain ⟨k, st2, hk, hnone, hsome, hlen, hstop⟩ :=
        ih (add_job inp st (find_best_insertion inp routes st)) (by omega)
      refine ⟨k + 1, st2, by omega, ?_, ?_, by omega, hstop⟩
      · rw [try_job_additions_round inp routes st hadd]
        exact hnone
      · intro fuel hf
        obtain ⟨f, rfl⟩ : ∃ f, fuel = f + 1 := ⟨fuel - 1, by omega⟩
        rw [try_job_additions_round inp routes st hadd]
        exact hsome f (by omega)
    · refine ⟨0, st, Nat.zero_le _, rfl, ?_, rfl, hadd⟩
      intro fuel hf
      obtain ⟨f, rfl⟩ : ∃ f, fuel = f + 1 := ⟨fuel - 1, by omega⟩
      exact try_job_additions_stop inp routes st hadd f

/-- C29: `try_job_additions` terminates for every state and every list of
candidate routes. A round either finds an insertion, removes its job from the
unassigned jobs and adds it to one route, or finds none and ends the loop. So
there is a number `k ≤ |U|` of insertions, `U` being the unassigned jobs on
entry: the loop runs `k + 1` rounds exactly (it has not returned after `k`
rounds and returns the same state whenever more than `k` rounds are allowed,
in particular `|U| + 1`), `k` jobs have left the unassigned jobs, and the last
round finds no insertion. -/
theorem try_job_additions_terminates (inp : input) (routes : List Nat) (st : ls_state) :
    (∀ s : ls_state, (find_best_insertion inp routes s).best_cost < inp.gain_max →
      (add_job inp s (find_best_insertion inp routes s)).unassigned.length + 1 =
        s.unassigned.length ∧
      ((add_job inp s (find_best_insertion inp routes s)).sol
          (find_best_insertion inp routes s).best_route).length =
        (s.sol (find_best_insertion inp routes s).best_route).length + 1 ∧
      ∀ w : Nat, w ≠ (find_best_insertion inp routes s).best_route →
        (add_job inp s (find_best_insertion inp routes s)).sol w = s.sol w) ∧
    (∀ (s : ls_state) (fuel : Nat),
      ¬ (find_best_insertion inp routes s).best_cost < inp.gain_max →
      try_job_additions inp routes (fuel + 1) s = some s) ∧
    ∃ (k : Nat) (st2 : ls_state), k ≤ st.unassigned.length ∧
      try_job_additions inp routes k st = none ∧
      (∀ fuel : Nat, k < fuel → try_job_additions inp routes fuel st = some st2) ∧
      try_job_additions inp routes (st.unassigned.length + 1) st = some st2 ∧
      st2.unassigned.length + k = st.unassigned.length ∧
      ¬ (find_best_insertion inp routes st2).best_cost < inp.gain_max := by
  refine ⟨fun s h => add_job_one_job inp routes s h,
    fun s fuel h => try_job_additions_stop inp routes s h fuel, ?_⟩
  obtain ⟨k, st2, hk, hnone, hsome, hlen, hstop⟩ :=
    try_job_additions_rounds inp routes st.unassigned.length st (le_refl _)
  exact ⟨k, st2, hk, hnone, hsome, hsome _ (by omega), hlen, hstop⟩

/-! ## The assertions of the gain computations -/

theorem node_gains_reads_lt (n k : Nat) (h : k ∈ node_gains_reads n) : k < n := by
  unfold node_gains_reads at h
  split_ifs at h with h0 h1 h2 h3 <;>
    simp only [List.mem_append, List.mem_cons, List.mem_singleton, List.not_mem_nil,
      List.mem_flatMap, List.mem_range'_1, or_false, false_or, List.append_nil] at h
  · omega
  · rcases h with h | h | h
    · omega
    · obtain ⟨i, hi, hk⟩ := h
      omega
    · omega
  · omega
  · rcases h with h | h | h
    · omega
    · obtain ⟨i, hi, hk⟩ := h
      omega
    · omega

theorem edge_gains_reads_lt (n k : Nat) (h : k ∈ edge_gains_reads n) : k < n := by
  unfold edge_gains_reads at h
  split_ifs at h with h0 h1 h2 h3 <;>
    simp only [List.mem_append, List.mem_cons, List.mem_singleton, List.not_mem_nil,
      List.mem_flatMap, List.mem_range'_1, or_false, false_or, List.append_nil] at h
  · omega
  · rcases h with h | h | h
    · omega
    · obtain ⟨i, hi, hk⟩ := h
      omega
    · omega
  · omega
  · rcases h with h | h | h
    · omega
    · obtain ⟨i, hi, hk⟩ := h
      omega
    · omega

theorem set_node_gains_returns (inp : input) (v : Nat) (st : ls_state)
    (hdep : (inp.vehicles v).has_start = true ∨ (inp.vehicles v).has_end = true) :
    ∃ st', set_node_gains inp v st = some st' := by
  by_cases hn : st.sol v = []
  · simp [set_node_gains, node_gains_of_route, hn]
  · obtain ⟨st', h, _⟩ := set_node_gains_char inp v st hn (Or.inr hdep)
    exact ⟨st', h⟩

theorem set_edge_gains_returns (inp : input) (v : Nat) (st : ls_state)
    (hdep : (inp.vehicles v).has_start = true ∨ (inp.vehicles v).has_end = true) :
    ∃ st', set_edge_gains inp v st = some st' := by
  by_cases hn : (st.sol v).length < 2
  · simp [set_edge_gains, edge_gains_of_route, hn]
  · obtain ⟨st', h, _⟩ := set_edge_gains_char inp v st (by omega) (Or.inr hdep)
    exact ⟨st', h⟩

/-- C30: on a vehicle that has a start or an end, for every route, the
assertions of `set_node_gains` and of `set_edge_gains` do not fail: both
functions return; the start and the end are read only where they are present,
and every rank at which the route is read is a rank of the route. On a
vehicle with neither start nor end, a route of exactly one job makes an
assertion of `set_node_gains` fail, and a route of exactly two jobs makes an
assertion of `set_edge_gains` fail. -/
theorem gains_assertions (inp : input) (v : Nat) :
    (((inp.vehicles v).has_start = true ∨ (inp.vehicles v).has_end = true) →
      ∀ st : ls_state,
        (∃ st', set_node_gains inp v st = some st') ∧
        (∃ st', set_edge_gains inp v st = some st')) ∧
    (∀ st : ls_state, ∀ k ∈ node_gains_reads (st.sol v).length, k < (st.sol v).length) ∧
    (∀ st : ls_state, ∀ k ∈ edge_gains_reads (st.sol v).length, k < (st.sol v).length) ∧
    ((inp.vehicles v).has_start = false → (inp.vehicles v).has_end = false →
      ∀ st : ls_state,
        ((st.sol v).length = 1 → set_node_gains inp v st = none) ∧
        ((st.sol v).length = 2 → set_edge_gains inp v st = none)) := by
  refine ⟨fun hdep st => ⟨set_node_gains_returns inp v st hdep,
      set_edge_gains_returns inp v st hdep⟩,
    fun st k hk => node_gains_reads_lt _ k hk,
    fun st k hk => edge_gains_reads_lt _ k hk, ?_⟩
  intro hs he st
  have hs2 : (inp.vehicles v).start = none := by
    cases h : (inp.vehicles v).start
    · rfl
    · simp [vehicle_t.has_start, h] at hs
  have he2 : (inp.vehicles v).end_ = none := by
    cases h : (inp.vehicles v).end_
    · rfl
    · simp [vehicle_t.has_end, h] at he
  exact ⟨fun h1 => set_node_gains_fails inp v st h1 hs2 he2,
    fun h2 => set_edge_gains_fails inp v st h2 hs2 he2⟩

end Vroom
